import Mathlib

/-!
The configuration cascade resolver `tlp-readconfs`.

A shallow embedding of `src/tlp-readconfs.c`.

Conventions of the embedding.

* A C `char` is a `Char`; comparisons that C performs on `unsigned char`
  values are performed on `Char.toNat`.
* A `char *` is the list of bytes from the pointed position to the end of the
  buffer (`Bytes`).  The terminating NUL of a buffer is implicit: reading at the
  end of the list yields NUL.  `p + n` is `p.drop n`.
* A `(pointer, length)` pair stays a pair: the functions below take the length
  as a separate argument exactly where the C functions do.
* `size_t` values are natural numbers (line counts and string lengths stay far
  below `2 ^ 64`); `SIZE_MAX` is `2 ^ 64 - 1`.
* Global variables (`names`, `debug`, the trace written through `vsyslog`) are
  fields of an explicit state that every function receives and returns.
* Memory allocation (`xrealloc`, capacities) is not modelled: a vector is a list.
-/

namespace TLP

/-! ## Strings -/

abbrev Bytes := List Char

/-- The NUL byte. -/
def NUL : Char := Char.ofNat 0

/-- Bytes of the C string stored in a buffer: everything before the first NUL. -/
def cstr (s : Bytes) : Bytes := s.takeWhile (fun c => c != NUL)

/-- `strlen`. -/
def strlen (s : Bytes) : Nat := (cstr s).length

/-- A buffer that holds no NUL byte. -/
def NulFree (s : Bytes) : Prop := ∀ c ∈ s, c ≠ NUL

instance (s : Bytes) : Decidable (NulFree s) := by
  unfold NulFree; infer_instance

/-- `strncmp(a, b, n)`: compares at most `n` bytes as unsigned chars and stops
after a NUL. -/
def strncmp : Bytes → Bytes → Nat → Int
  | _, _, 0 => 0
  | a, b, n + 1 =>
    let c1 := a.headD NUL
    let c2 := b.headD NUL
    if c1 ≠ c2 then (c1.toNat : Int) - (c2.toNat : Int)
    else if c1 = NUL then 0
    else strncmp a.tail b.tail n

/-- `strcmp(a, b)`: both strings are read up to their NUL. -/
def strcmp (a b : Bytes) : Int :=
  strncmp a b (max (strlen a) (strlen b) + 1)

/-- `str_materialize(str, len)` for a non-NULL `str`: a fresh buffer holding the
`len` bytes at `str` (followed by the terminator). A NULL `str` gives the empty
string, which is what `len = 0` gives too. -/
def str_materialize (str : Bytes) (len : Nat) : Bytes := str.take len

/-- `xstrdup(str)`: a copy of the C string at `str`. -/
def xstrdup (str : Bytes) : Bytes := cstr str

/-- `isspace` in the "C" locale (the program never calls `setlocale`). -/
def isspace (c : Char) : Bool :=
  c.toNat = 32 || (9 ≤ c.toNat && c.toNat ≤ 13)

/-- Conversion `%04zu` of `sprintf`: decimal, zero-padded to at least 4 digits. -/
def fmt_04zu (n : Nat) : Bytes :=
  let d := Nat.toDigits 10 n
  List.replicate (4 - d.length) '0' ++ d

/-- Conversion `%zu` of `printf`. -/
def fmt_zu (n : Nat) : Bytes := Nat.toDigits 10 n

/-! ## Data model -/

structure StringPair where
  first : Bytes
  second : Bytes
deriving DecidableEq, Repr

structure StringSizePair where
  first : Bytes
  second : Nat
deriving DecidableEq, Repr

/-- One resolved variable; `defv` is the C field `def` (NULL is `none`). -/
structure VarEntry where
  name : Bytes
  value : Bytes
  source : Bytes
  defv : Option Bytes
deriving DecidableEq, Repr

/-- The global `names`: the sorted registry `names.names` and the store
`names.infos`. -/
structure Names where
  names : List StringSizePair
  infos : List VarEntry
deriving DecidableEq, Repr

/-- The mutable globals of the program, plus the records sent to `vsyslog`. -/
structure Globals where
  names : Names
  debug : Bool
  trace : List Bytes
deriving DecidableEq, Repr

/-- The globals at program start. -/
def Globals.init : Globals := ⟨⟨[], []⟩, false, []⟩

/-! ## Comparison and search -/

/-- The C struct `string_slice`. -/
structure string_slice where
  len : Nat
  str : Bytes

def string_slice_cmp (k : string_slice) (str : Bytes) : Int :=
  let ret := strncmp k.str str k.len
  if ret ≠ 0 then ret
  else
    let len := strlen str
    if len = k.len then 0 else -1

def string_pair_compare (a b : StringPair) : Int := strcmp a.first b.first

def string_pair_slice_search_cmp (k : string_slice) (pair : StringPair) : Int :=
  string_slice_cmp k pair.first

def string_size_pair_slice_search_cmp (k : string_slice) (pair : StringSizePair) : Int :=
  string_slice_cmp k pair.first

/-- The `while (left < right)` loop of `binary_search`. `fuel` bounds the
number of iterations; the three proofs make every array access in bounds and
the recursion total, so the value at `fuel = 0` is the value the C loop returns
when its condition `left < right` fails. Returns `(found, *index)`. -/
def binary_search_loop {κ α : Type} (compar : κ → α → Int) (key : κ) (base : List α) :
    (fuel len left right : Nat) → len = right - left → right - left ≤ fuel →
    right ≤ base.length → Bool × Nat
  | 0, _, left, _, _, _, _ => (false, left)
  | fuel + 1, len, left, right, hl, hf, hr =>
    if hlt : left < right then
      let mid := left + len / 2
      have hmid : mid < base.length := by omega
      let cmp := compar key (base[mid])
      if cmp > 0 then
        binary_search_loop compar key base fuel (right - (mid + 1)) (mid + 1) right
          rfl (by omega) hr
      else if cmp < 0 then
        binary_search_loop compar key base fuel (mid - left) left mid
          rfl (by omega) (by omega)
      else (true, mid)
    else (false, left)

/-- `binary_search(key, base, nmemb, size, compar, &index)` with
`nmemb = base.length`. -/
def binary_search {κ α : Type} (compar : κ → α → Int) (key : κ) (base : List α) : Bool × Nat :=
  binary_search_loop compar key base base.length base.length 0 base.length
    rfl (by omega) (by omega)

/-- `string_size_vec_insert(vec, key, len, &ret)`: returns `(found, index, vec)`
where `index` is the position `*ret` points to. On insertion the later pairs
are shifted up by one and the new pair's `second` is left for the caller to
fill (modelled as 0). -/
def string_size_vec_insert (vec : List StringSizePair) (key : Bytes) (len : Nat) :
    Bool × Nat × List StringSizePair :=
  let k : string_slice := ⟨len, key⟩
  let (found, index) := binary_search string_size_pair_slice_search_cmp k vec
  if found then (true, index, vec)
  else (false, index, vec.take index ++ ⟨str_materialize key len, 0⟩ :: vec.drop index)

/-- libc `bsearch(key, base, nmemb, size, compar)` as glibc implements it:
returns the element found (`none` is NULL). `fuel` and the proofs play the
same role as in `binary_search_loop`. -/
def bsearch_loop {κ α : Type} (compar : κ → α → Int) (key : κ) (base : List α) :
    (fuel l u : Nat) → u - l ≤ fuel → u ≤ base.length → Option α
  | 0, _, _, _, _ => none
  | fuel + 1, l, u, hf, hu =>
    if hlt : l < u then
      let idx := (l + u) / 2
      have hidx : idx < base.length := by omega
      let p := base[idx]
      let comparison := compar key p
      if comparison < 0 then
        bsearch_loop compar key base fuel l idx (by omega) (by omega)
      else if comparison > 0 then
        bsearch_loop compar key base fuel (idx + 1) u (by omega) hu
      else some p
    else none

def bsearch {κ α : Type} (compar : κ → α → Int) (key : κ) (base : List α) : Option α :=
  bsearch_loop compar key base base.length 0 base.length (by omega) (by omega)

/-- `string_pair_slice_search(slice, key, len)` for a non-NULL `key`;
`slice->data` is NULL exactly when the slice is empty. -/
def string_pair_slice_search (slice : List StringPair) (key : Bytes) (len : Nat) :
    Option StringPair :=
  if len = 0 || slice.isEmpty then none
  else bsearch string_pair_slice_search_cmp ⟨len, key⟩ slice

/-- `key_rename(&key, &len)` against the global `renames`: the new `(key, len)`. -/
def key_rename (renames : List StringPair) (key : Bytes) (len : Nat) : Bytes × Nat :=
  if len = 0 then (key, len)
  else
    match string_pair_slice_search renames key len with
    | some renamed => (renamed.second, strlen renamed.second)
    | none => (key, len)

/-! ## The debug trigger -/

def strnstr_loop (needle : Bytes) (needle_len : Nat) : Nat → Bytes → Nat → Option Nat
  | 0, _, _ => none
  | n + 1, p, off =>
    if strncmp p needle needle_len = 0 then some off
    else strnstr_loop needle needle_len n p.tail (off + 1)

/-- `strnstr(haystack, needle, len)` for non-NULL arguments: the offset of the
returned pointer from `haystack` (`none` is NULL). A NULL `haystack` only
occurs with `len = 0`, which returns NULL as well. -/
def strnstr (haystack needle : Bytes) (len : Nat) : Option Nat :=
  if len = 0 then none
  else
    let needle_len := strlen needle
    if needle_len = 0 then some 0
    else if needle_len > len then none
    else strnstr_loop needle needle_len (len - needle_len + 1) haystack 0

/-- The character test written twice in `store_name_value_source`:
`[A-Za-z0-9_]`. -/
def is_word_char (c : Char) : Bool :=
  ('A' ≤ c && c ≤ 'Z') || ('a' ≤ c && c ≤ 'z') || ('0' ≤ c && c ≤ '9') || c == '_'

/-- The loop `while ((f = strnstr(p, "cfg", l)))` of
`store_name_value_source`: `true` when it sets `debug`. -/
def debug_scan : (fuel : Nat) → (p : Bytes) → (l : Nat) → l ≤ fuel → Bool
  | 0, _, _, _ => false
  | fuel + 1, p, l, hl =>
    match hf : strnstr p "cfg".toList l with
    | none => false
    | some off =>
      have hpos : 0 < l := by
        rcases Nat.eq_zero_or_pos l with h0 | h0
        · subst h0; simp [strnstr] at hf
        · exact h0
      let pre_boundary :=
        if off = 0 then true else !is_word_char (p.getD (off - 1) NUL)
      let l1 := l - off - 3
      let p1 := p.drop (off + 3)
      if pre_boundary then
        if l1 = 0 then true
        else if !is_word_char (p1.headD NUL) then true
        else debug_scan fuel p1 l1 (by omega)
      else debug_scan fuel p1 l1 (by omega)

/-! ## The variable store -/

/-- `printf_debug`: a record reaches `vsyslog` only when `!notrace && debug`. -/
def printf_debug (notrace : Bool) (st : Globals) (record : Bytes) : Globals :=
  if !notrace && st.debug then { st with trace := st.trace ++ [record] } else st

/-- Result of `sprintf(location, "%s L%04zu", source, line)`. -/
def location_of (source : Bytes) (line : Nat) : Bytes :=
  cstr source ++ " L".toList ++ fmt_04zu line

def trace_record (kind : Bytes) (index : Nat) (data : VarEntry) : Bytes :=
  "tlp-readconfs.".toList ++ kind ++ " [".toList ++ fmt_zu index ++ "]: ".toList ++
    cstr data.name ++ "=\"".toList ++ cstr data.value ++ "\" ".toList ++
    cstr data.source ++ "\n".toList

/-- First block of `store_name_value_source`: the `if (!debug && ...)` that
scans the value of `TLP_DEBUG` for the word `cfg`. -/
def debug_block (st : Globals) (key : Bytes) (key_len : Nat) (value : Bytes) (value_len : Nat) :
    Globals :=
  if !st.debug && strncmp key "TLP_DEBUG".toList key_len = 0 then
    { st with debug := debug_scan value_len value value_len (Nat.le_refl _) }
  else st

/-- `store_name_value_source(key, key_len, value, value_len, source, line,
append, is_def)` on the globals `st`. A NULL `value` (which only occurs with
`value_len = 0`) is the empty list. The two `none` branches are array reads
out of bounds, which a well-formed registry never makes. -/
def store_name_value_source (notrace : Bool) (st : Globals) (key : Bytes) (key_len : Nat)
    (value : Bytes) (value_len : Nat) (source : Bytes) (line : Nat)
    (append is_def : Bool) : Globals :=
  let st := debug_block st key key_len value value_len
  let (found, index, vec) := string_size_vec_insert st.names.names key key_len
  if found then
    match vec[index]? with
    | none => st
    | some key_pair =>
      match st.names.infos[key_pair.second]? with
      | none => st
      | some data =>
        let data : VarEntry :=
          if append then
            let old_value_len := strlen data.value
            let old_source_len := strlen data.source
            { data with
              value := data.value.take old_value_len ++ ' ' :: value.take value_len
              source := data.source.take old_source_len ++ " & ".toList ++
                location_of source line }
          else
            { data with
              value := str_materialize value value_len
              source := location_of source line }
        let st := { st with
          names := ⟨vec, st.names.infos.set key_pair.second data⟩ }
        printf_debug notrace st (trace_record "replace".toList key_pair.second data)
  else
    match vec[index]? with
    | none => st
    | some key_pair =>
      let second := st.names.infos.length
      let location := location_of source line
      let val := str_materialize value value_len
      let defv := if is_def then some (xstrdup val) else none
      let data : VarEntry := ⟨key_pair.first, val, location, defv⟩
      let st := { st with
        names := ⟨vec.set index ⟨key_pair.first, second⟩, st.names.infos ++ [data]⟩ }
      printf_debug notrace st (trace_record "insert ".toList second data)

/-! ## Line parsing -/

/-- `rtrim(str, &len)`: the returned pointer (`none` is NULL) and the new `*len`. -/
def rtrim (str : Bytes) : Nat → Option Bytes × Nat
  | 0 => (none, 0)
  | len + 1 =>
    if !isspace (str.getD len NUL) then (some str, len + 1) else rtrim str len

/-- `ltrim(str, &len)`. -/
def ltrim : Bytes → Nat → Option Bytes × Nat
  | _, 0 => (none, 0)
  | str, len + 1 =>
    if !isspace (str.headD NUL) then (some str, len + 1) else ltrim str.tail len

/-- Number of bytes a loop `while (p < end && pred(*p)) ++p` advances, where
`n = end - p`. -/
def scan_while (pred : Char → Bool) : Bytes → Nat → Nat
  | c :: p, n + 1 => if pred c then scan_while pred p n + 1 else 0
  | _, _ => 0

def is_name_char (c : Char) : Bool := ('A' ≤ c && c ≤ 'Z') || c == '_'

def is_digit_char (c : Char) : Bool := '0' ≤ c && c ≤ '9'

def is_value_char (c : Char) : Bool :=
  ('0' ≤ c && c ≤ '9') || ('a' ≤ c && c ≤ 'z') || ('A' ≤ c && c ≤ 'Z') || c == '-' ||
    c == ' ' || c == '_' || c == '.' || c == ':'

/-- `parse_name(str, &len)`. A NULL `str` reaches it only with `*len = 0`. -/
def parse_name (str : Option Bytes) (len : Nat) : Option Bytes × Nat :=
  match str with
  | none => (none, 0)
  | some s =>
    let l := scan_while is_name_char s len
    if l = 0 then (none, 0)
    else (some s, l + scan_while is_digit_char (s.drop l) (len - l))

def SIZE_MAX : Nat := 2 ^ 64 - 1

/-- `parse_value(str, &len)`. -/
def parse_value (str : Bytes) (len : Nat) : Option Bytes × Nat :=
  let escaped := decide (len > 1) && str.headD NUL == '"'
  let l0 := if escaped then 1 else 0
  let l := l0 + scan_while is_value_char (str.drop l0) (len - l0)
  if escaped then
    if l ≥ len || str.getD l NUL != '"' then (some str, SIZE_MAX)
    else (some str, l + 1)
  else
    let (str, l) := rtrim str l
    (if l ≠ 0 then str else none, l)

/-- What one line of a configuration file asks to store. -/
structure Assignment where
  name : Bytes
  name_len : Nat
  append : Bool
  value : Bytes
  value_len : Nat
deriving DecidableEq, Repr

/-- Body of the `getline` loop of `parse_configfile` up to (not including)
the renaming: `none` is a `continue`. `line_buf` holds the `read` bytes
`getline` returned. A NULL `value` (with `value_len = 0`) is returned as the
empty list. -/
def config_line (line_buf : Bytes) (read : Nat) : Option Assignment :=
  let (line, len) := rtrim line_buf read
  let (name, name_len) := parse_name line len
  match line, name with
  | some line, some name =>
    if name_len ≥ len then none
    else
      let line := line.drop name_len
      let len := len - name_len
      let op : Option (Bool × Nat × Bytes) :=
        if len > 0 && line.headD NUL == '=' then some (false, len - 1, line.drop 1)
        else if len > 1 && line.headD NUL == '+' && line.getD 1 NUL == '=' then
          some (true, len - 2, line.drop 2)
        else none
      match op with
      | none => none
      | some (append, len, line) =>
        let (value, value_len) := parse_value line len
        if value_len = SIZE_MAX || value_len > len then none
        else
          let line := line.drop value_len
          let len := len - value_len
          let value := value.getD []
          let (value, value_len) :=
            if value_len > 1 && value.headD NUL == '"' then (value.drop 1, value_len - 2)
            else (value, value_len)
          let (line, len) := ltrim line len
          if len ≠ 0 && (line.getD []).headD NUL != '#' then none
          else some ⟨name, name_len, append, value, value_len⟩
  | _, _ => none

/-- Body of the `getline` loop of `parse_renfile`: the pair appended to
`renames`, if any. -/
def renfile_line (line_buf : Bytes) (read : Nat) : Option StringPair :=
  let (line, len) := rtrim line_buf read
  let (old_name, old_name_len) := parse_name line len
  match line, old_name with
  | some line, some old_name =>
    if old_name_len ≥ len then none
    else
      let line := line.drop old_name_len
      let len := len - old_name_len
      let prev := len
      let (line, len) := ltrim line len
      match line with
      | none => none
      | some line =>
        if prev = len then none
        else
          let (new_name, new_name_len) := parse_name (some line) len
          match new_name with
          | none => none
          | some new_name =>
            if new_name_len ≠ len then none
            else some ⟨str_materialize old_name old_name_len,
                       str_materialize new_name new_name_len⟩
  | _, _ => none

/-- Body of the `getline` loop of `parse_dprfile`: the pair appended to
`deprecated`, if any. -/
def dprfile_line (line_buf : Bytes) (read : Nat) : Option StringPair :=
  let (line, len) := rtrim line_buf read
  let (dpr_name, dpr_name_len) := parse_name line len
  match line, dpr_name with
  | some line, some dpr_name =>
    if dpr_name_len ≥ len then none
    else
      let line := line.drop dpr_name_len
      let len := len - dpr_name_len
      let prev := len
      let (line, len) := ltrim line len
      match line with
      | none => none
      | some line =>
        if prev = len then none
        else if len = 0 || line.headD NUL != '#' then none
        else
          let line := line.drop 1
          let len := len - 1
          let prev := len
          let (line, len) := ltrim line len
          match line with
          | none => none
          | some line =>
            if prev = len then none
            else
              let note := if len = 0 then [] else str_materialize line len
              some ⟨str_materialize dpr_name dpr_name_len, note⟩
  | _, _ => none

/-- Insertion step of the sort below. -/
def string_pair_insert (a : StringPair) : List StringPair → List StringPair
  | [] => [a]
  | b :: l =>
    if string_pair_compare a b ≤ 0 then a :: b :: l else b :: string_pair_insert a l

/-- `string_pair_sort`: libc `qsort` with `string_pair_compare`, modelled by a
stable sort. C leaves the order of pairs with equal keys open; the results on
lookups use only that the outcome is sorted. -/
def string_pair_sort (slice : List StringPair) : List StringPair :=
  slice.foldr string_pair_insert []

/-- `parse_renfile(file)`: the return value and the global `renames`
(empty before the call). `none` is a file that `fopen` cannot open; a file is
the list of lines `getline` returns. -/
def parse_renfile (file : Option (List Bytes)) : Int × List StringPair :=
  match file with
  | none => (-1, [])
  | some lines =>
    (0, string_pair_sort (lines.filterMap (fun line_buf => renfile_line line_buf line_buf.length)))

/-- `parse_dprfile(file)`: the return value and the global `deprecated`. -/
def parse_dprfile (file : Option (List Bytes)) : Int × List StringPair :=
  match file with
  | none => (-1, [])
  | some lines =>
    (0, string_pair_sort (lines.filterMap (fun line_buf => dprfile_line line_buf line_buf.length)))

/-! ## The cascade -/

/-- GNU `basename` (the one `<string.h>` declares under `_GNU_SOURCE`): the
part of the C string after its last `/`, the whole string if it has none. -/
def basename (filename : Bytes) : Bytes :=
  ((cstr filename).reverse.takeWhile (fun c => c != '/')).reverse

/-- The `getline` loop of `parse_configfile`; `ln` is the number of lines
read so far. -/
def parse_configfile_loop (renames : List StringPair) (notrace : Bool) (source : Bytes)
    (is_def do_ren : Bool) : Globals → Nat → List Bytes → Globals
  | st, _, [] => st
  | st, ln, line_buf :: rest =>
    let ln := ln + 1
    match config_line line_buf line_buf.length with
    | none => parse_configfile_loop renames notrace source is_def do_ren st ln rest
    | some a =>
      let (name, name_len) :=
        if do_ren then key_rename renames a.name a.name_len else (a.name, a.name_len)
      parse_configfile_loop renames notrace source is_def do_ren
        (store_name_value_source notrace st name name_len a.value a.value_len source ln
          a.append is_def)
        ln rest

/-- `parse_configfile(dirfd, file, do_ren)`: `content` is what
`openat(dirfd, file)` gives (`none` when it fails), `CONF_DEF` the value of
that macro. Returns the status and the globals. -/
def parse_configfile (CONF_DEF : Bytes) (renames : List StringPair) (notrace : Bool)
    (st : Globals) (file : Bytes) (content : Option (List Bytes)) (do_ren : Bool) :
    Int × Globals :=
  let is_def := strcmp file CONF_DEF = 0
  let source := if is_def then xstrdup (basename file) else file
  match content with
  | none => (-1, st)
  | some lines => (0, parse_configfile_loop renames notrace source is_def do_ren st 0 lines)

/-! ## Output -/

/-- What `fwrite_runconf` writes for one entry. -/
def fwrite_entry (cdiff : Bool) (deprecated : List StringPair) (verbose : Bool)
    (e : VarEntry) : Bytes :=
  if verbose then
    if !cdiff || e.defv.isNone || strcmp e.value (e.defv.getD []) ≠ 0 then
      cstr e.source ++ ": ".toList ++ cstr e.name ++ "=\"".toList ++ cstr e.value ++
        "\"".toList ++
        (match string_pair_slice_search deprecated e.name (strlen e.name) with
         | some warning => " # ".toList ++ cstr warning.second
         | none => []) ++
        "\n".toList
    else []
  else cstr e.name ++ "=\"".toList ++ cstr e.value ++ "\"\n".toList

/-- `fwrite_runconf(fp, verbose)`: the bytes written to `fp`. -/
def fwrite_runconf (cdiff : Bool) (deprecated : List StringPair) (names : Names)
    (verbose : Bool) : Bytes :=
  (names.infos.map (fwrite_entry cdiff deprecated verbose)).flatten

/-- Command-line options after `parse_opts`. -/
structure Opts where
  cdiff : Bool
  notrace : Bool
  outfile : Option Bytes

/-- One `struct dirent64` returned by `readdir64`: `pre` are the bytes of the
struct that lie before `d_name` (`d_ino`, `d_off`, `d_reclen`, `d_type`),
`content` what `openat(dirfd(dir), d_name)` gives. -/
structure Dirent where
  pre : Bytes
  d_name : Bytes
  content : Option (List Bytes)

/-- The world `main` runs in: the values of the `CONF_*` macros, the files
`fopen`/`openat` can open, the directory listing, and whether the output file
can be opened for writing. -/
structure Env where
  CONF_REN : Bytes
  CONF_DPR : Bytes
  CONF_DEF : Bytes
  CONF_DIR : Bytes
  CONF_USR : Bytes
  CONF_OLD : Bytes
  fopen : Bytes → Option (List Bytes)
  opendir : Bytes → Option (List Dirent)
  outfile_ok : Bool

/-- The test `!strcmp(entry->d_name + len - 5, ".conf")` of `main`. -/
def has_conf_suffix (entry : Dirent) : Bool :=
  let len := strlen entry.d_name
  strcmp ((entry.pre ++ entry.d_name).drop (entry.pre.length + len - 5)) ".conf".toList = 0

/-- The `readdir64` loop of `main`. -/
def parse_dropins (CONF_DEF : Bytes) (renames : List StringPair) (notrace do_rename : Bool) :
    Globals → List Dirent → Globals
  | st, [] => st
  | st, entry :: rest =>
    if has_conf_suffix entry then
      parse_dropins CONF_DEF renames notrace do_rename
        (parse_configfile CONF_DEF renames notrace st entry.d_name entry.content do_rename).2
        rest
    else parse_dropins CONF_DEF renames notrace do_rename st rest

def EXIT_TLPCONF : Nat := 5

def EXIT_DEFCONF : Nat := 6

/-- What a run leaves behind. -/
structure Outcome where
  status : Nat
  globals : Globals
  stderr : Bytes
  outfile : Option Bytes

/-- `write_runconf(file)`: what goes to `stderr` and to the output file. -/
def write_runconf (env : Env) (cdiff : Bool) (deprecated : List StringPair) (names : Names)
    (file : Option Bytes) : Bytes × Option Bytes :=
  match file with
  | some _ =>
    if env.outfile_ok then ([], some (fwrite_runconf cdiff deprecated names false))
    else ([], none)
  | none => (fwrite_runconf cdiff deprecated names true, none)

/-- `main` after a successful `parse_opts`. -/
def main (env : Env) (opts : Opts) : Outcome :=
  let renames := (parse_renfile (env.fopen env.CONF_REN)).2
  let do_rename := renames.length ≠ 0
  let deprecated := (parse_dprfile (env.fopen env.CONF_DPR)).2
  let (r, st) := parse_configfile env.CONF_DEF renames opts.notrace Globals.init env.CONF_DEF
    (env.fopen env.CONF_DEF) false
  if r ≠ 0 then ⟨EXIT_DEFCONF, st, [], none⟩
  else
    let st :=
      match env.opendir env.CONF_DIR with
      | some dir => parse_dropins env.CONF_DEF renames opts.notrace do_rename st dir
      | none => st
    let (r1, st) := parse_configfile env.CONF_DEF renames opts.notrace st env.CONF_USR
      (env.fopen env.CONF_USR) do_rename
    let (r2, st) :=
      if r1 ≠ 0 then
        parse_configfile env.CONF_DEF renames opts.notrace st env.CONF_OLD
          (env.fopen env.CONF_OLD) do_rename
      else (r1, st)
    if r2 ≠ 0 then ⟨EXIT_TLPCONF, st, [], none⟩
    else
      let (err, out) := write_runconf env opts.cdiff deprecated st.names opts.outfile
      ⟨0, st, err, out⟩

/-! ## Definitions used to state the properties -/

/-- Strict byte-wise lexicographic order (bytes compared as unsigned chars). -/
def blt : Bytes → Bytes → Prop
  | [], [] => False
  | [], _ :: _ => True
  | _ :: _, [] => False
  | a :: as, b :: bs => a.toNat < b.toNat ∨ (a = b ∧ blt as bs)

/-- Signs of `compar key base[i]` never increase with `i`: the shape a sorted
array gives to a comparator that is consistent with the order. -/
def SignMono {κ α : Type} (compar : κ → α → Int) (key : κ) (base : List α) : Prop :=
  ∀ i j (hi : i < base.length) (hj : j < base.length), i < j →
    (compar key base[j] > 0 → compar key base[i] > 0) ∧
    (compar key base[i] < 0 → compar key base[j] < 0)

/-- Well-formed registry and store: the registry is strictly sorted, its names
hold no NUL, each pair points to the store entry of its name, and each store
entry is registered under its own index. -/
structure Names.WF (n : Names) : Prop where
  sorted : n.names.Pairwise (fun p q => blt p.first q.first)
  nulFree : ∀ p ∈ n.names, NulFree p.first
  points : ∀ p ∈ n.names, ∃ e, n.infos[p.second]? = some e ∧ e.name = p.first
  registered : ∀ i e, n.infos[i]? = some e → (⟨e.name, i⟩ : StringSizePair) ∈ n.names

/-- The entry an existing entry `data` becomes. -/
def updated_entry (data : VarEntry) (value : Bytes) (value_len : Nat) (source : Bytes)
    (line : Nat) (append : Bool) : VarEntry :=
  if append then
    { data with
      value := data.value.take (strlen data.value) ++ ' ' :: value.take value_len
      source := data.source.take (strlen data.source) ++ " & ".toList ++
        location_of source line }
  else
    { data with
      value := str_materialize value value_len
      source := location_of source line }

/-- The entry a new name gets. -/
def new_entry (key : Bytes) (key_len : Nat) (value : Bytes) (value_len : Nat) (source : Bytes)
    (line : Nat) (is_def : Bool) : VarEntry :=
  ⟨str_materialize key key_len, str_materialize value value_len, location_of source line,
    if is_def then some (xstrdup (str_materialize value value_len)) else none⟩

/-- One call of `store_name_value_source` whose key and value slices are whole
buffers. -/
structure Apply where
  key : Bytes
  value : Bytes
  source : Bytes
  line : Nat
  append : Bool
  is_def : Bool

def Apply.run (notrace : Bool) (st : Globals) (op : Apply) : Globals :=
  store_name_value_source notrace st op.key op.key.length op.value op.value.length
    op.source op.line op.append op.is_def

/-- The calls of a sequence applied in order. -/
def apply_all (notrace : Bool) (ops : List Apply) (st : Globals) : Globals :=
  ops.foldl (Apply.run notrace) st

/-- The operations of a sequence that act on `name`. -/
def ops_on (name : Bytes) (ops : List Apply) : List Apply :=
  ops.filter (fun op => op.key = name)

/-- A sequence from its last non-append operation onward, the whole sequence
when every operation is an append. -/
def since_last_assign : List Apply → List Apply
  | [] => []
  | op :: rest =>
    if rest.any (fun o => !o.append) then since_last_assign rest else op :: rest

/-- Values joined with single spaces. -/
def join_spaces : List Bytes → Bytes
  | [] => []
  | v :: rest => if rest.isEmpty then v else v ++ ' ' :: join_spaces rest

/-- The value the specification gives to `name` after `ops`. -/
def expected_value (name : Bytes) (ops : List Apply) : Bytes :=
  join_spaces ((since_last_assign (ops_on name ops)).map (fun op => op.value))

/-- Names in the order of their first occurrence. -/
def first_applied : List Bytes → List Bytes
  | [] => []
  | k :: rest => k :: (first_applied rest).filter (fun k' => k' ≠ k)

/-- A store that holds `FOO` = `a`, set by line 1 of the default file. -/
def store_with_foo : Globals :=
  store_name_value_source false Globals.init "FOO".toList 3 "a".toList 1
    "defaults.conf".toList 1 false true

/-- Diff mode omits the entry: it has a snapshot and its value equals it. -/
def cdiff_omitted (cdiff : Bool) (e : VarEntry) : Bool :=
  cdiff && e.defv.isSome && (cstr e.value == cstr (e.defv.getD []))

/-- The `(key, len)` that `parse_configfile` passes to
`store_name_value_source` for an accepted line. -/
def resolved_key (renames : List StringPair) (do_ren : Bool) (a : Assignment) : Bytes × Nat :=
  if do_ren then key_rename renames a.name a.name_len else (a.name, a.name_len)

/-- The name an accepted line is stored under. -/
def stored_name (renames : List StringPair) (do_ren : Bool) (a : Assignment) : Bytes :=
  (resolved_key renames do_ren a).1.take (resolved_key renames do_ren a).2

/-- The name a line is stored under, `none` for a rejected line. -/
def line_name (renames : List StringPair) (do_ren : Bool) (line_buf : Bytes) : Option Bytes :=
  (config_line line_buf line_buf.length).map (stored_name renames do_ren)

/-- The store holds an entry with this name, value and provenance. -/
def has_entry (st : Globals) (name value source : Bytes) : Prop :=
  ∃ e ∈ st.names.infos, e.name = name ∧ e.value = value ∧ e.source = source

/-- The global `renames` as `main` fills it. -/
def main_renames (env : Env) : List StringPair :=
  (parse_renfile (env.fopen env.CONF_REN)).2

/-- The flag `do_rename` of `main`. -/
def main_do_rename (env : Env) : Bool := decide ((main_renames env).length ≠ 0)

/-- Globals of `main` after the default file. -/
def stage_default (env : Env) (opts : Opts) : Globals :=
  (parse_configfile env.CONF_DEF (main_renames env) opts.notrace Globals.init env.CONF_DEF
    (env.fopen env.CONF_DEF) false).2

/-- Globals of `main` after the drop-in directory. -/
def stage_dropins (env : Env) (opts : Opts) : Globals :=
  match env.opendir env.CONF_DIR with
  | some dir =>
    parse_dropins env.CONF_DEF (main_renames env) opts.notrace (main_do_rename env)
      (stage_default env opts) dir
  | none => stage_default env opts

/-- Globals of `main` after the user file, or the legacy file when the user
file cannot be opened. -/
def stage_user (env : Env) (opts : Opts) : Globals :=
  match env.fopen env.CONF_USR with
  | some lines =>
    (parse_configfile env.CONF_DEF (main_renames env) opts.notrace (stage_dropins env opts)
      env.CONF_USR (some lines) (main_do_rename env)).2
  | none =>
    (parse_configfile env.CONF_DEF (main_renames env) opts.notrace (stage_dropins env opts)
      env.CONF_OLD (env.fopen env.CONF_OLD) (main_do_rename env)).2

/-- The provenance tag `parse_configfile` uses for `file`. -/
def source_of (CONF_DEF file : Bytes) : Bytes :=
  if strcmp file CONF_DEF = 0 then xstrdup (basename file) else file

/-- A small world: rename file `OLD NEW`, deprecation file `FOO # gone`, a
default file, one drop-in `a.conf` (and the entry `..`), and a user file. -/
def example_env : Env where
  CONF_REN := "/usr/share/tlp/rename.conf".toList
  CONF_DPR := "/usr/share/tlp/deprecated.conf".toList
  CONF_DEF := "/usr/share/tlp/defaults.conf".toList
  CONF_DIR := "/etc/tlp.d".toList
  CONF_USR := "/etc/tlp.conf".toList
  CONF_OLD := "/etc/default/tlp".toList
  fopen := fun p =>
    if p = "/usr/share/tlp/rename.conf".toList then some ["OLD NEW\n".toList]
    else if p = "/usr/share/tlp/deprecated.conf".toList then some ["FOO # gone\n".toList]
    else if p = "/usr/share/tlp/defaults.conf".toList then
      some ["FOO=\"1\"\n".toList, "BAR=x\n".toList, "OLD=0\n".toList]
    else if p = "/etc/tlp.conf".toList then
      some ["# user settings\n".toList, "BAR+=y\n".toList, "OLD=\"3\"\n".toList]
    else none
  opendir := fun _ =>
    some [⟨"0000000000000000000".toList, "..".toList, some []⟩,
      ⟨"0000000000000000000".toList, "a.conf".toList,
        some ["# drop-in\n".toList, "FOO=\"2\"\n".toList]⟩]
  outfile_ok := true

/-- A rename table with a duplicated old name: what `parse_renfile` builds
from the lines `A B`, `A C`, `B C`. -/
def dup_table : List StringPair :=
  [⟨"A".toList, "B".toList⟩, ⟨"A".toList, "C".toList⟩, ⟨"B".toList, "C".toList⟩]

/-- A rename table with a chain `A → B → C`. -/
def chain_table : List StringPair :=
  [⟨"A".toList, "B".toList⟩, ⟨"B".toList, "C".toList⟩]

/-- Every entry of `st` is still in `st'`, under the same name and with the
same snapshot. -/
def Persists (st st' : Globals) : Prop :=
  ∀ e ∈ st.names.infos, ∃ e' ∈ st'.names.infos, e'.name = e.name ∧ e'.defv = e.defv

/-- Text with its trailing whitespace removed. -/
def rstrip (s : Bytes) : Bytes := (s.reverse.dropWhile isspace).reverse

/-- The operator after the name: `=` (assign) or `+=` (append), and the text
after it. -/
def op_split : Bytes → Option (Bool × Bytes)
  | '=' :: rest => some (false, rest)
  | '+' :: '=' :: rest => some (true, rest)
  | _ => none

/-- The text after a value is whitespace, optionally followed by a comment
that starts with `#`. -/
def trailer_ok (s : Bytes) : Bool :=
  match s.dropWhile isspace with
  | [] => true
  | c :: _ => c == '#'

/-- The value at the start of the text after the operator, with the text that
remains after it. Quoted (a quote and more than one byte): the run of BARE
bytes after the quote, which a closing quote must follow. Unquoted: the
longest run of BARE bytes, right-trimmed. -/
def value_grammar (rest : Bytes) : Option (Bytes × Bytes) :=
  if decide (rest.length > 1) && rest.head? == some '"' then
    if ((rest.drop 1).dropWhile is_value_char).head? = some '"' then
      some ((rest.drop 1).takeWhile is_value_char,
        ((rest.drop 1).dropWhile is_value_char).drop 1)
    else none
  else
    some (rstrip (rest.takeWhile is_value_char),
      rest.drop (rstrip (rest.takeWhile is_value_char)).length)

/-- The line grammar of the specification on a right-trimmed line:
`NAME OP VALUE TRAILER?`, giving the name, the append flag and the value. -/
def line_grammar (t : Bytes) : Option (Bytes × Bool × Bytes) :=
  if (t.takeWhile is_name_char).isEmpty then none
  else
    let n := t.takeWhile is_name_char ++ (t.dropWhile is_name_char).takeWhile is_digit_char
    if n.length ≥ t.length then none
    else
      match op_split (t.drop n.length) with
      | none => none
      | some (append, rest) =>
        match value_grammar rest with
        | none => none
        | some (v, remaining) => if trailer_ok remaining then some (n, append, v) else none

/-- What an accepted line asks for: name, append flag, value. -/
def Assignment.parts (a : Assignment) : Bytes × Bool × Bytes :=
  (a.name.take a.name_len, a.append, a.value.take a.value_len)

/-- The operator test of `parse_configfile` on the text after the name:
the append flag, the new `len` and the new `line`. -/
def config_op (line : Bytes) (len : Nat) : Option (Bool × Nat × Bytes) :=
  if len > 0 && line.headD NUL == '=' then some (false, len - 1, line.drop 1)
  else if len > 1 && line.headD NUL == '+' && line.getD 1 NUL == '=' then
    some (true, len - 2, line.drop 2)
  else none

/-- The part of the loop body of `parse_configfile` after the operator. -/
def config_value (name : Bytes) (name_len : Nat) (append : Bool) (line : Bytes) (len : Nat) :
    Option Assignment :=
  let (value, value_len) := parse_value line len
  if value_len = SIZE_MAX || value_len > len then none
  else
    let line := line.drop value_len
    let len := len - value_len
    let value := value.getD []
    let (value, value_len) :=
      if value_len > 1 && value.headD NUL == '"' then (value.drop 1, value_len - 2)
      else (value, value_len)
    let (line, len) := ltrim line len
    if len ≠ 0 && (line.getD []).headD NUL != '#' then none
    else some ⟨name, name_len, append, value, value_len⟩

/-- The text matches `[A-Z_]+[0-9]*`. -/
def matches_name (s : Bytes) : Bool :=
  !(s.takeWhile is_name_char).isEmpty && (s.dropWhile is_name_char).all is_digit_char

/-- The longest prefix of a text of the form `[A-Z_]*[0-9]*`. -/
def longest_name (t : Bytes) : Bytes :=
  t.takeWhile is_name_char ++ (t.dropWhile is_name_char).takeWhile is_digit_char

/-- The operator as written: `+=` for append, `=` for assign. -/
def op_text (append : Bool) : Bytes := if append then "+=".toList else "=".toList

/-- The text is empty, or whitespace only, or optional whitespace followed by
`#` and anything. -/
def is_trailer (s : Bytes) : Prop :=
  ∃ ws tail, (∀ c ∈ ws, isspace c = true) ∧ (s = ws ∨ s = ws ++ '#' :: tail)

/-- The rename-file grammar on a right-trimmed line: the longest name prefix,
at least one whitespace byte, and a name that ends the line. -/
def renfile_grammar (t : Bytes) : Option StringPair :=
  if (t.takeWhile is_name_char).isEmpty then none
  else if (t.drop (longest_name t).length).isEmpty then none
  else if (t.drop (longest_name t).length).head?.all (fun c => !isspace c) then none
  else if matches_name ((t.drop (longest_name t).length).dropWhile isspace) then
    some ⟨longest_name t, (t.drop (longest_name t).length).dropWhile isspace⟩
  else none

/-- Spec side of the debug trigger: `cfg` stands at offset `i` of the value as
a whole word, that is, the byte before it (if any) and the byte after it (if
any) are both outside `[A-Za-z0-9_]`. -/
def cfg_word_at (v : Bytes) (i : Nat) : Bool :=
  ((v.drop i).take 3 == "cfg".toList) &&
    (i == 0 || !is_word_char (v.getD (i - 1) NUL)) &&
    (i + 3 == v.length || !is_word_char (v.getD (i + 3) NUL))

/-- Spec side of the debug trigger: the value contains `cfg` as a whole word. -/
def contains_cfg_word (v : Bytes) : Bool := (List.range v.length).any (cfg_word_at v)

/-- The byte-wise order is decidable. -/
instance blt_decidable : (a b : Bytes) → Decidable (blt a b)
  | [], [] => isFalse (by simp [blt])
  | [], _ :: _ => isTrue (by simp [blt])
  | _ :: _, [] => isFalse (by simp [blt])
  | a :: as, b :: bs =>
    match blt_decidable as bs with
    | isTrue h =>
      if h1 : a.toNat < b.toNat then isTrue (by simp [blt, h1])
      else if h2 : a = b then isTrue (by simp [blt, h2, h])
      else isFalse (by simp [blt, h1, h2])
    | isFalse h =>
      if h1 : a.toNat < b.toNat then isTrue (by simp [blt, h1])
      else isFalse (by simp [blt, h1, h])

/-- Outcome of one pass through the body of the `while` loop of
`binary_search`: the loop returns, goes on with new `left`, `right`, `len`, or
reads outside the array. -/
inductive BSStep where
  | done (found : Bool) (index : Nat)
  | next (left right len : Nat)
  | oob
deriving DecidableEq, Repr

/-- One evaluation of the loop condition and body of `binary_search` from
`left`, `right`, `len`. The read of `base[mid]` is checked: outside the array
it gives `oob`. -/
def binary_search_iter {κ α : Type} (compar : κ → α → Int) (key : κ) (base : List α)
    (left right len : Nat) : BSStep :=
  if left < right then
    let mid := left + len / 2
    match base[mid]? with
    | none => BSStep.oob
    | some x =>
      let cmp := compar key x
      if cmp > 0 then BSStep.next (mid + 1) right (right - (mid + 1))
      else if cmp < 0 then BSStep.next left mid (mid - left)
      else BSStep.done true mid
  else BSStep.done false left

/-- The loop of `binary_search` run for at most `fuel` iterations: `none` when
the fuel runs out or a read leaves the array. -/
def binary_search_fuel {κ α : Type} (compar : κ → α → Int) (key : κ) (base : List α) :
    Nat → Nat → Nat → Nat → Option (Bool × Nat)
  | 0, _, _, _ => none
  | fuel + 1, left, right, len =>
    match binary_search_iter compar key base left right len with
    | BSStep.done found index => some (found, index)
    | BSStep.next l r n => binary_search_fuel compar key base fuel l r n
    | BSStep.oob => none

/-- The pointer `entry->d_name + len - 5` that `main` passes to `strcmp`, as
the bytes from it to the end of the entry. -/
def suffix_ptr (entry : Dirent) : Bytes :=
  (entry.pre ++ entry.d_name).drop (entry.pre.length + strlen entry.d_name - 5)

/-- Every byte of the text is a BARE value byte. -/
def value_clean (v : Bytes) : Prop := ∀ c ∈ v, is_value_char c = true

instance (v : Bytes) : Decidable (value_clean v) := by
  unfold value_clean; infer_instance

/-- Every entry of the store has a name `[A-Z_]+[0-9]*` and a value of BARE
bytes. -/
def store_clean (st : Globals) : Prop :=
  ∀ e ∈ st.names.infos, matches_name e.name = true ∧ value_clean e.value

/-- A cascade whose default file sets `FOO` twice and where nothing else
mentions `FOO`: no drop-in directory, an empty user file. -/
def twice_env : Env :=
  { example_env with
    fopen := fun p =>
      if p = "/usr/share/tlp/defaults.conf".toList then
        some ["FOO=1\n".toList, "FOO=2\n".toList, "BAR=x\n".toList]
      else if p = "/etc/tlp.conf".toList then some []
      else none
    opendir := fun _ => none }

/-! ## Theorems -/

theorem toNat_ne_zero {c : Char} (h : c ≠ NUL) : c.toNat ≠ 0 := by
  intro h0
  apply h
  rw [← Char.ofNat_toNat c, h0]; rfl

theorem toNat_ne {c d : Char} (h : c ≠ d) : c.toNat ≠ d.toNat := by
  intro h0
  apply h
  rw [← Char.ofNat_toNat c, h0, Char.ofNat_toNat]

theorem NUL_toNat : NUL.toNat = 0 := by decide

theorem nulFree_nil : NulFree [] := by intro c hc; cases hc

theorem nulFree_cons {c : Char} {s : Bytes} : NulFree (c :: s) ↔ c ≠ NUL ∧ NulFree s := by
  simp [NulFree]

theorem nulFree_append {s t : Bytes} : NulFree (s ++ t) ↔ NulFree s ∧ NulFree t := by
  simp only [NulFree, List.mem_append]
  constructor
  · intro h; exact ⟨fun c hc => h c (Or.inl hc), fun c hc => h c (Or.inr hc)⟩
  · rintro ⟨h1, h2⟩ c (hc | hc)
    · exact h1 c hc
    · exact h2 c hc

theorem cstr_nil : cstr [] = [] := rfl

theorem cstr_cons_ne {c : Char} (s : Bytes) (h : c ≠ NUL) : cstr (c :: s) = c :: cstr s := by
  have hb : (c != NUL) = true := by simp [h]
  simp [cstr, List.takeWhile, hb]

theorem cstr_cons_NUL (s : Bytes) : cstr (NUL :: s) = [] := by
  simp [cstr, List.takeWhile]

theorem cstr_of_nulFree {s : Bytes} (h : NulFree s) : cstr s = s := by
  induction s with
  | nil => rfl
  | cons c s ih =>
    rw [nulFree_cons] at h
    rw [cstr_cons_ne s h.1, ih h.2]

theorem nulFree_cstr (s : Bytes) : NulFree (cstr s) := by
  induction s with
  | nil => exact nulFree_nil
  | cons c s ih =>
    by_cases h : c = NUL
    · subst h; rw [cstr_cons_NUL]; exact nulFree_nil
    · rw [cstr_cons_ne s h, nulFree_cons]; exact ⟨h, ih⟩

theorem strlen_of_nulFree {s : Bytes} (h : NulFree s) : strlen s = s.length := by
  unfold strlen; rw [cstr_of_nulFree h]

theorem take_strlen (s : Bytes) : s.take (strlen s) = cstr s := by
  induction s with
  | nil => rfl
  | cons c s ih =>
    by_cases h : c = NUL
    · subst h; simp [strlen, cstr_cons_NUL]
    · simp only [strlen] at ih ⊢
      rw [cstr_cons_ne s h]; simp [ih]

theorem strlen_le (s : Bytes) : strlen s ≤ s.length := by
  have := congrArg List.length (take_strlen s)
  simp only [List.length_take] at this
  unfold strlen at *
  omega

theorem nulFree_take {s : Bytes} (h : NulFree s) (n : Nat) : NulFree (s.take n) :=
  fun c hc => h c (List.mem_of_mem_take hc)

theorem strncmp_zero (a b : Bytes) : strncmp a b 0 = 0 := by
  unfold strncmp; rfl

theorem strncmp_succ (a b : Bytes) (n : Nat) :
    strncmp a b (n + 1) =
      if a.headD NUL ≠ b.headD NUL then ((a.headD NUL).toNat : Int) - ((b.headD NUL).toNat : Int)
      else if a.headD NUL = NUL then 0 else strncmp a.tail b.tail n := by
  rw [strncmp]

theorem strncmp_cstr_right (a b : Bytes) (n : Nat) : strncmp a (cstr b) n = strncmp a b n := by
  induction n generalizing a b with
  | zero => simp [strncmp_zero]
  | succ n ih =>
    cases b with
    | nil => rfl
    | cons y bs =>
      by_cases hy : y = NUL
      · subst hy
        rw [cstr_cons_NUL, strncmp_succ, strncmp_succ]
        simp only [List.headD_nil, List.headD_cons]
        generalize a.headD NUL = c1
        by_cases h1 : c1 = NUL
        · simp [h1]
        · simp [h1]
      · rw [cstr_cons_ne bs hy, strncmp_succ, strncmp_succ]
        simp only [List.headD_cons, List.tail_cons, ih]

theorem strncmp_take_left (a b : Bytes) (n : Nat) : strncmp (a.take n) b n = strncmp a b n := by
  induction n generalizing a b with
  | zero => simp [strncmp_zero]
  | succ n ih =>
    cases a with
    | nil => rfl
    | cons x as =>
      rw [strncmp_succ, strncmp_succ]
      simp only [List.take_succ_cons, List.headD_cons, List.tail_cons, ih]

theorem blt_irrefl (a : Bytes) : ¬ blt a a := by
  induction a with
  | nil => simp [blt]
  | cons x as ih => simp [blt, ih]

theorem blt_asymm {a b : Bytes} : blt a b → ¬ blt b a := by
  induction a generalizing b with
  | nil => cases b <;> simp [blt]
  | cons x as ih =>
    cases b with
    | nil => simp [blt]
    | cons y bs =>
      simp only [blt]
      rintro (h | ⟨h1, h2⟩) (h' | ⟨h1', h2'⟩)
      · omega
      · subst h1'; omega
      · subst h1; omega
      · exact ih h2 h2'

theorem blt_trans {a b c : Bytes} : blt a b → blt b c → blt a c := by
  induction a generalizing b c with
  | nil =>
    cases b with
    | nil => simp [blt]
    | cons y bs => cases c <;> simp [blt]
  | cons x as ih =>
    cases b with
    | nil => simp [blt]
    | cons y bs =>
      cases c with
      | nil => simp [blt]
      | cons z cs =>
        simp only [blt]
        rintro (h | ⟨h1, h2⟩) (h' | ⟨h1', h2'⟩)
        · left; omega
        · subst h1'; left; exact h
        · subst h1; left; exact h'
        · subst h1; subst h1'; right; exact ⟨rfl, ih h2 h2'⟩

theorem string_slice_cmp_nil (b : Bytes) (hb : NulFree b) :
    string_slice_cmp ⟨0, []⟩ b = if b = [] then 0 else -1 := by
  simp only [string_slice_cmp, strncmp_zero, strlen_of_nulFree hb]
  cases b <;> simp

theorem string_slice_cmp_cons (x : Char) (as bs : Bytes) (n : Nat) (hx : x ≠ NUL) :
    string_slice_cmp ⟨n + 1, x :: as⟩ (x :: bs) = string_slice_cmp ⟨n, as⟩ bs := by
  simp only [string_slice_cmp, strncmp_succ, List.headD_cons, List.tail_cons, strlen,
    cstr_cons_ne bs hx, List.length_cons]
  simp [hx]

/-- On NUL-free strings `string_slice_cmp` decides the byte-wise order. -/
theorem string_slice_cmp_sign (a b : Bytes) (ha : NulFree a) (hb : NulFree b) :
    (blt a b ∧ string_slice_cmp ⟨a.length, a⟩ b < 0) ∨
    (a = b ∧ string_slice_cmp ⟨a.length, a⟩ b = 0) ∨
    (blt b a ∧ string_slice_cmp ⟨a.length, a⟩ b > 0) := by
  induction a generalizing b with
  | nil =>
    simp only [List.length_nil]
    rw [string_slice_cmp_nil b hb]
    cases b with
    | nil => simp
    | cons y bs => simp [blt]
  | cons x as ih =>
    rw [nulFree_cons] at ha
    cases b with
    | nil =>
      right; right
      refine ⟨by simp [blt], ?_⟩
      have := toNat_ne_zero ha.1
      simp only [string_slice_cmp, List.length_cons, strncmp_succ, List.headD_cons,
        List.headD_nil, NUL_toNat]
      simp [ha.1]
      omega
    | cons y bs =>
      rw [nulFree_cons] at hb
      by_cases hxy : x = y
      · subst hxy
        simp only [List.length_cons]
        rw [string_slice_cmp_cons x as bs as.length ha.1]
        rcases ih bs ha.2 hb.2 with h | h | h
        · left; exact ⟨by simp [blt, h.1], h.2⟩
        · right; left; exact ⟨by rw [h.1], h.2⟩
        · right; right; exact ⟨by simp [blt, h.1], h.2⟩
      · have hne := toNat_ne hxy
        have hval : string_slice_cmp ⟨(x :: as).length, x :: as⟩ (y :: bs)
            = (x.toNat : Int) - (y.toNat : Int) := by
          simp only [string_slice_cmp, List.length_cons, strncmp_succ, List.headD_cons]
          have : (x.toNat : Int) - (y.toNat : Int) ≠ 0 := by omega
          simp [hxy, this]
        rw [hval]
        rcases Nat.lt_or_gt_of_ne hne with h | h
        · left; exact ⟨by simp [blt, h], by omega⟩
        · right; right; exact ⟨by simp [blt, h], by omega⟩

theorem string_slice_cmp_lt_iff {a b : Bytes} (ha : NulFree a) (hb : NulFree b) :
    string_slice_cmp ⟨a.length, a⟩ b < 0 ↔ blt a b := by
  rcases string_slice_cmp_sign a b ha hb with h | h | h
  · simp [h.1, h.2]
  · have := blt_irrefl b; rw [h.1] at *; simp [h.2, this]
  · have := blt_asymm h.1; simp [this]; omega

theorem string_slice_cmp_gt_iff {a b : Bytes} (ha : NulFree a) (hb : NulFree b) :
    string_slice_cmp ⟨a.length, a⟩ b > 0 ↔ blt b a := by
  rcases string_slice_cmp_sign a b ha hb with h | h | h
  · have := blt_asymm h.1; simp [this]; omega
  · have := blt_irrefl b; rw [h.1] at *; simp [h.2, this]
  · simp [h.1, h.2]

theorem string_slice_cmp_eq_iff {a b : Bytes} (ha : NulFree a) (hb : NulFree b) :
    string_slice_cmp ⟨a.length, a⟩ b = 0 ↔ a = b := by
  rcases string_slice_cmp_sign a b ha hb with h | h | h
  · constructor
    · intro h0; omega
    · intro e; rw [e] at h; exact absurd h.1 (blt_irrefl b)
  · exact ⟨fun _ => h.1, fun _ => h.2⟩
  · constructor
    · intro h0; omega
    · intro e; rw [e] at h; exact absurd h.1 (blt_irrefl b)

/-- The comparison reads the first `len` bytes of the key and the C string in `str`. -/
theorem string_slice_cmp_take (key str : Bytes) (len : Nat) :
    string_slice_cmp ⟨len, key⟩ str = string_slice_cmp ⟨len, key.take len⟩ (cstr str) := by
  have h := cstr_of_nulFree (nulFree_cstr str)
  simp only [string_slice_cmp, strncmp_take_left, strncmp_cstr_right, strlen, h]

theorem binary_search_loop_spec {κ α : Type} (compar : κ → α → Int) (key : κ) (base : List α)
    (hmono : SignMono compar key base) :
    ∀ (fuel len left right : Nat) (hl : len = right - left) (hf : right - left ≤ fuel)
      (hr : right ≤ base.length), left ≤ right →
      (∀ i (hi : i < base.length), i < left → compar key base[i] > 0) →
      (∀ i (hi : i < base.length), right ≤ i → compar key base[i] < 0) →
      ((binary_search_loop compar key base fuel len left right hl hf hr).1 = true →
        ∃ h : (binary_search_loop compar key base fuel len left right hl hf hr).2 < base.length,
          compar key base[(binary_search_loop compar key base fuel len left right hl hf hr).2] = 0) ∧
      ((binary_search_loop compar key base fuel len left right hl hf hr).1 = false →
        (binary_search_loop compar key base fuel len left right hl hf hr).2 ≤ base.length ∧
        (∀ i (hi : i < base.length),
          i < (binary_search_loop compar key base fuel len left right hl hf hr).2 →
            compar key base[i] > 0) ∧
        (∀ i (hi : i < base.length),
          (binary_search_loop compar key base fuel len left right hl hf hr).2 ≤ i →
            compar key base[i] < 0)) := by
  intro fuel
  induction fuel with
  | zero =>
    intro len left right hl hf hr hlr hlo hhi
    simp only [binary_search_loop]
    refine ⟨by simp, fun _ => ⟨by omega, hlo, fun i hi h => hhi i hi (by omega)⟩⟩
  | succ fuel ih =>
    intro len left right hl hf hr hlr hlo hhi
    rw [binary_search_loop]
    by_cases hlt : left < right
    · simp only [hlt, dite_true]
      have hmid : left + len / 2 < base.length := by omega
      by_cases hgt : compar key base[left + len / 2] > 0
      · simp only [hgt, if_true]
        apply ih
        · omega
        · intro i hi hi'
          by_cases him : i = left + len / 2
          · subst him; exact hgt
          · exact (hmono i (left + len / 2) hi hmid (by omega)).1 hgt
        · exact hhi
      · simp only [hgt, if_false]
        by_cases hlt' : compar key base[left + len / 2] < 0
        · simp only [hlt', if_true]
          apply ih
          · omega
          · exact hlo
          · intro i hi hi'
            by_cases him : i = left + len / 2
            · subst him; exact hlt'
            · exact (hmono (left + len / 2) i hmid hi (by omega)).2 hlt'
        · simp only [hlt', if_false]
          refine ⟨fun _ => ⟨hmid, by omega⟩, by simp⟩
    · simp only [hlt, dite_false]
      refine ⟨by simp, fun _ => ⟨by omega, hlo, fun i hi h => hhi i hi (by omega)⟩⟩

theorem binary_search_found {κ α : Type} (compar : κ → α → Int) (key : κ) (base : List α)
    (hmono : SignMono compar key base) (h : (binary_search compar key base).1 = true) :
    ∃ hi : (binary_search compar key base).2 < base.length,
      compar key base[(binary_search compar key base).2] = 0 := by
  unfold binary_search at *
  exact (binary_search_loop_spec compar key base hmono _ _ _ _ _ _ _ (by omega)
    (fun i _ h => by omega) (fun i hi h => by omega)).1 h

theorem binary_search_not_found {κ α : Type} (compar : κ → α → Int) (key : κ) (base : List α)
    (hmono : SignMono compar key base) (h : (binary_search compar key base).1 = false) :
    (binary_search compar key base).2 ≤ base.length ∧
    (∀ i (hi : i < base.length), i < (binary_search compar key base).2 →
      compar key base[i] > 0) ∧
    (∀ i (hi : i < base.length), (binary_search compar key base).2 ≤ i →
      compar key base[i] < 0) := by
  unfold binary_search at *
  exact (binary_search_loop_spec compar key base hmono _ _ _ _ _ _ _ (by omega)
    (fun i _ h => by omega) (fun i hi h => by omega)).2 h

theorem bsearch_loop_some {κ α : Type} (compar : κ → α → Int) (key : κ) (base : List α) :
    ∀ (fuel l u : Nat) (hf : u - l ≤ fuel) (hu : u ≤ base.length) (p : α),
      bsearch_loop compar key base fuel l u hf hu = some p → p ∈ base ∧ compar key p = 0 := by
  intro fuel
  induction fuel with
  | zero => intro l u hf hu p h; simp [bsearch_loop] at h
  | succ fuel ih =>
    intro l u hf hu p h
    rw [bsearch_loop] at h
    by_cases hlt : l < u
    · simp only [hlt, dite_true] at h
      by_cases h1 : compar key base[(l + u) / 2] < 0
      · simp only [h1, if_true] at h
        exact ih _ _ _ _ _ h
      · simp only [h1, if_false] at h
        by_cases h2 : compar key base[(l + u) / 2] > 0
        · simp only [h2, if_true] at h
          exact ih _ _ _ _ _ h
        · simp only [h2, if_false, Option.some.injEq] at h
          subst h
          exact ⟨List.getElem_mem _, by omega⟩
    · simp [hlt] at h

theorem bsearch_loop_none {κ α : Type} (compar : κ → α → Int) (key : κ) (base : List α)
    (hmono : SignMono compar key base) :
    ∀ (fuel l u : Nat) (hf : u - l ≤ fuel) (hu : u ≤ base.length), l ≤ u →
      (∀ i (hi : i < base.length), i < l → compar key base[i] > 0) →
      (∀ i (hi : i < base.length), u ≤ i → compar key base[i] < 0) →
      bsearch_loop compar key base fuel l u hf hu = none →
      ∀ i (hi : i < base.length), compar key base[i] ≠ 0 := by
  intro fuel
  induction fuel with
  | zero =>
    intro l u hf hu hlu hlo hhi _ i hi
    by_cases h : i < l
    · have := hlo i hi h; omega
    · have := hhi i hi (by omega); omega
  | succ fuel ih =>
    intro l u hf hu hlu hlo hhi h
    rw [bsearch_loop] at h
    by_cases hlt : l < u
    · simp only [hlt, dite_true] at h
      have hidx : (l + u) / 2 < base.length := by omega
      by_cases h1 : compar key base[(l + u) / 2] < 0
      · simp only [h1, if_true] at h
        refine ih _ _ _ _ (by omega) hlo ?_ h
        intro i hi hi'
        by_cases him : i = (l + u) / 2
        · subst him; exact h1
        · exact (hmono ((l + u) / 2) i hidx hi (by omega)).2 h1
      · simp only [h1, if_false] at h
        by_cases h2 : compar key base[(l + u) / 2] > 0
        · simp only [h2, if_true] at h
          refine ih _ _ _ _ (by omega) ?_ hhi h
          intro i hi hi'
          by_cases him : i = (l + u) / 2
          · subst him; exact h2
          · exact (hmono i ((l + u) / 2) hi hidx (by omega)).1 h2
        · simp [h2] at h
    · intro i hi
      by_cases h' : i < l
      · have := hlo i hi h'; omega
      · have := hhi i hi (by omega); omega

theorem bsearch_some {κ α : Type} {compar : κ → α → Int} {key : κ} {base : List α} {p : α}
    (h : bsearch compar key base = some p) : p ∈ base ∧ compar key p = 0 :=
  bsearch_loop_some compar key base _ _ _ _ _ p h

theorem bsearch_none {κ α : Type} {compar : κ → α → Int} {key : κ} {base : List α}
    (hmono : SignMono compar key base) (h : bsearch compar key base = none) :
    ∀ p ∈ base, compar key p ≠ 0 := by
  intro p hp
  obtain ⟨i, hi, rfl⟩ := List.getElem_of_mem hp
  exact bsearch_loop_none compar key base hmono _ _ _ _ _ (by omega)
    (fun i _ h => by omega) (fun i hi h => by omega) h i hi

theorem store_unfold (notrace : Bool) (st : Globals) (key : Bytes) (key_len : Nat)
    (value : Bytes) (value_len : Nat) (source : Bytes) (line : Nat) (append is_def : Bool) :
    (store_name_value_source notrace st key key_len value value_len source line append
      is_def).names =
    (let r := string_size_vec_insert st.names.names key key_len
     if r.1 then
       match r.2.2[r.2.1]? with
       | none => st.names
       | some key_pair =>
         match st.names.infos[key_pair.second]? with
         | none => st.names
         | some data =>
           ⟨r.2.2, st.names.infos.set key_pair.second
             (updated_entry data value value_len source line append)⟩
     else
       match r.2.2[r.2.1]? with
       | none => st.names
       | some key_pair =>
         ⟨r.2.2.set r.2.1 ⟨key_pair.first, st.names.infos.length⟩,
           st.names.infos ++ [⟨key_pair.first, str_materialize value value_len,
             location_of source line,
             if is_def then some (xstrdup (str_materialize value value_len)) else none⟩]⟩) := by
  have hn : (debug_block st key key_len value value_len).names = st.names := by
    unfold debug_block; split <;> rfl
  unfold store_name_value_source
  generalize debug_block st key key_len value value_len = st1 at hn ⊢
  simp only []
  rw [hn]
  rcases string_size_vec_insert st.names.names key key_len with ⟨found, index, vec⟩
  cases found
  · simp only [Bool.false_eq_true, if_false]
    cases hv : vec[index]? with
    | none => simp [hn]
    | some kp =>
      simp only [printf_debug]
      split <;> rfl
  · simp only [if_true]
    cases hv : vec[index]? with
    | none => simp [hn]
    | some kp =>
      simp only []
      cases hd : st.names.infos[kp.second]? with
      | none => simp [hn]
      | some data =>
        simp only [printf_debug, updated_entry]
        split <;> rfl

theorem updated_entry_name (data : VarEntry) (value : Bytes) (value_len : Nat) (source : Bytes)
    (line : Nat) (append : Bool) :
    (updated_entry data value value_len source line append).name = data.name := by
  unfold updated_entry; split <;> rfl

theorem updated_entry_defv (data : VarEntry) (value : Bytes) (value_len : Nat) (source : Bytes)
    (line : Nat) (append : Bool) :
    (updated_entry data value value_len source line append).defv = data.defv := by
  unfold updated_entry; split <;> rfl

theorem registry_cmp_eq (key : Bytes) (len : Nat) (p : StringSizePair) (hp : NulFree p.first)
    (hlen : len ≤ key.length) :
    string_size_pair_slice_search_cmp ⟨len, key⟩ p =
      string_slice_cmp ⟨(key.take len).length, key.take len⟩ p.first := by
  unfold string_size_pair_slice_search_cmp
  rw [string_slice_cmp_take, cstr_of_nulFree hp, List.length_take, Nat.min_eq_left hlen]

theorem registry_signMono {n : Names} (hwf : n.WF) (key : Bytes) (len : Nat)
    (hlen : len ≤ key.length) (hk : NulFree (key.take len)) :
    SignMono string_size_pair_slice_search_cmp ⟨len, key⟩ n.names := by
  intro i j hi hj hij
  have hs := (List.pairwise_iff_getElem.mp hwf.sorted) i j hi hj hij
  have hpi := hwf.nulFree _ (List.getElem_mem hi)
  have hpj := hwf.nulFree _ (List.getElem_mem hj)
  rw [registry_cmp_eq key len _ hpi hlen, registry_cmp_eq key len _ hpj hlen]
  constructor
  · intro h
    rw [gt_iff_lt, ← gt_iff_lt, string_slice_cmp_gt_iff hk hpj] at h
    rw [gt_iff_lt, ← gt_iff_lt, string_slice_cmp_gt_iff hk hpi]
    exact blt_trans hs h
  · intro h
    rw [string_slice_cmp_lt_iff hk hpi] at h
    rw [string_slice_cmp_lt_iff hk hpj]
    exact blt_trans h hs

theorem registry_first_inj {n : Names} (hwf : n.WF) {p q : StringSizePair}
    (hp : p ∈ n.names) (hq : q ∈ n.names) (h : p.first = q.first) : p = q := by
  obtain ⟨i, hi, rfl⟩ := List.getElem_of_mem hp
  obtain ⟨j, hj, rfl⟩ := List.getElem_of_mem hq
  have hs := List.pairwise_iff_getElem.mp hwf.sorted
  rcases Nat.lt_trichotomy i j with hij | hij | hij
  · have := hs i j hi hj hij
    rw [h] at this
    exact absurd this (blt_irrefl _)
  · subst hij; rfl
  · have := hs j i hj hi hij
    rw [h] at this
    exact absurd this (blt_irrefl _)

theorem insert_found {n : Names} (hwf : n.WF) (key : Bytes) (len : Nat)
    (hlen : len ≤ key.length) (hk : NulFree (key.take len)) (p : StringSizePair)
    (hp : p ∈ n.names) (hpk : p.first = key.take len) :
    ∃ index, string_size_vec_insert n.names key len = (true, index, n.names) ∧
      n.names[index]? = some p := by
  have hmono := registry_signMono hwf key len hlen hk
  unfold string_size_vec_insert
  simp only []
  cases hb : (binary_search string_size_pair_slice_search_cmp ⟨len, key⟩ n.names).1 with
  | false =>
    exfalso
    obtain ⟨_, hlo, hhi⟩ := binary_search_not_found _ _ _ hmono hb
    obtain ⟨i, hi, rfl⟩ := List.getElem_of_mem hp
    have h0 : string_size_pair_slice_search_cmp ⟨len, key⟩ n.names[i] = 0 := by
      rw [registry_cmp_eq key len _ (hwf.nulFree _ hp) hlen]
      exact (string_slice_cmp_eq_iff hk (hwf.nulFree _ hp)).mpr hpk.symm
    by_cases h : i < (binary_search string_size_pair_slice_search_cmp ⟨len, key⟩ n.names).2
    · have := hlo i hi h; omega
    · have := hhi i hi (by omega); omega
  | true =>
    obtain ⟨hidx, h0⟩ := binary_search_found _ _ _ hmono hb
    refine ⟨(binary_search string_size_pair_slice_search_cmp ⟨len, key⟩ n.names).2, ?_, ?_⟩
    · rcases hbs : binary_search string_size_pair_slice_search_cmp ⟨len, key⟩ n.names with ⟨f, ix⟩
      rw [hbs] at hb
      simp only at hb
      subst hb
      simp
    · rw [List.getElem?_eq_getElem hidx]
      congr 1
      have hq := List.getElem_mem hidx
      apply registry_first_inj hwf hq hp
      rw [registry_cmp_eq key len _ (hwf.nulFree _ hq) hlen] at h0
      rw [hpk]
      exact ((string_slice_cmp_eq_iff hk (hwf.nulFree _ hq)).mp h0).symm

theorem insert_not_found {n : Names} (hwf : n.WF) (key : Bytes) (len : Nat)
    (hlen : len ≤ key.length) (hk : NulFree (key.take len))
    (hnone : ∀ p ∈ n.names, p.first ≠ key.take len) :
    ∃ index, string_size_vec_insert n.names key len =
        (false, index, n.names.take index ++ ⟨key.take len, 0⟩ :: n.names.drop index) ∧
      index ≤ n.names.length ∧
      (∀ p ∈ n.names.take index, blt p.first (key.take len)) ∧
      (∀ p ∈ n.names.drop index, blt (key.take len) p.first) := by
  have hmono := registry_signMono hwf key len hlen hk
  unfold string_size_vec_insert
  simp only []
  cases hb : (binary_search string_size_pair_slice_search_cmp ⟨len, key⟩ n.names).1 with
  | true =>
    exfalso
    obtain ⟨hidx, h0⟩ := binary_search_found _ _ _ hmono hb
    have hq := List.getElem_mem hidx
    rw [registry_cmp_eq key len _ (hwf.nulFree _ hq) hlen] at h0
    exact hnone _ hq ((string_slice_cmp_eq_iff hk (hwf.nulFree _ hq)).mp h0).symm
  | false =>
    obtain ⟨hle, hlo, hhi⟩ := binary_search_not_found _ _ _ hmono hb
    refine ⟨(binary_search string_size_pair_slice_search_cmp ⟨len, key⟩ n.names).2, ?_, hle, ?_, ?_⟩
    · rcases hbs : binary_search string_size_pair_slice_search_cmp ⟨len, key⟩ n.names with ⟨f, ix⟩
      rw [hbs] at hb
      simp only at hb
      subst hb
      simp [str_materialize]
    · intro p hp
      obtain ⟨i, hi, rfl⟩ := List.getElem_of_mem hp
      rw [List.getElem_take]
      have hi' : i < n.names.length := by
        rw [List.length_take] at hi; omega
      have hq := List.getElem_mem hi'
      have := hlo i hi' (by rw [List.length_take] at hi; omega)
      rw [registry_cmp_eq key len _ (hwf.nulFree _ hq) hlen, gt_iff_lt, ← gt_iff_lt,
        string_slice_cmp_gt_iff hk (hwf.nulFree _ hq)] at this
      exact this
    · intro p hp
      obtain ⟨i, hi, rfl⟩ := List.getElem_of_mem hp
      rw [List.getElem_drop]
      have hi' : (binary_search string_size_pair_slice_search_cmp ⟨len, key⟩ n.names).2 + i
          < n.names.length := by
        rw [List.length_drop] at hi; omega
      have hq := List.getElem_mem hi'
      have := hhi _ hi' (by omega)
      rw [registry_cmp_eq key len _ (hwf.nulFree _ hq) hlen,
        string_slice_cmp_lt_iff hk (hwf.nulFree _ hq)] at this
      exact this

theorem set_take_cons_drop {α : Type} (l : List α) (idx : Nat) (a b : α) (h : idx ≤ l.length) :
    (l.take idx ++ a :: l.drop idx).set idx b = l.take idx ++ b :: l.drop idx := by
  rw [List.set_append]
  simp [List.length_take, Nat.min_eq_left h]

theorem getElem?_take_cons_drop {α : Type} (l : List α) (idx : Nat) (a : α) (h : idx ≤ l.length) :
    (l.take idx ++ a :: l.drop idx)[idx]? = some a := by
  rw [List.getElem?_append]
  simp [List.length_take, Nat.min_eq_left h]

/-- Storing under a name that has an entry rewrites that entry in place and
leaves the registry alone. -/
theorem store_existing {st : Globals} (hwf : st.names.WF) (notrace : Bool) (key : Bytes)
    (key_len : Nat) (value : Bytes) (value_len : Nat) (source : Bytes) (line : Nat)
    (append is_def : Bool) (hlen : key_len ≤ key.length) (hk : NulFree (key.take key_len))
    (i : Nat) (e : VarEntry) (hi : st.names.infos[i]? = some e)
    (he : e.name = key.take key_len) :
    (store_name_value_source notrace st key key_len value value_len source line append
      is_def).names =
      ⟨st.names.names,
        st.names.infos.set i (updated_entry e value value_len source line append)⟩ := by
  rw [store_unfold]
  obtain ⟨index, hins, hget⟩ := insert_found hwf key key_len hlen hk ⟨e.name, i⟩
    (hwf.registered i e hi) he
  simp only [hins, if_true, hget, hi]

/-- Storing under a name that has no entry appends one entry and registers it
at its sorted position. -/
theorem store_new {st : Globals} (hwf : st.names.WF) (notrace : Bool) (key : Bytes)
    (key_len : Nat) (value : Bytes) (value_len : Nat) (source : Bytes) (line : Nat)
    (append is_def : Bool) (hlen : key_len ≤ key.length) (hk : NulFree (key.take key_len))
    (hnew : ∀ e ∈ st.names.infos, e.name ≠ key.take key_len) :
    ∃ index, index ≤ st.names.names.length ∧
      (∀ p ∈ st.names.names.take index, blt p.first (key.take key_len)) ∧
      (∀ p ∈ st.names.names.drop index, blt (key.take key_len) p.first) ∧
      (store_name_value_source notrace st key key_len value value_len source line append
        is_def).names =
        ⟨st.names.names.take index ++
            ⟨key.take key_len, st.names.infos.length⟩ :: st.names.names.drop index,
          st.names.infos ++ [new_entry key key_len value value_len source line is_def]⟩ := by
  have hnone : ∀ p ∈ st.names.names, p.first ≠ key.take key_len := by
    intro p hp hpk
    obtain ⟨e, he, hen⟩ := hwf.points p hp
    exact hnew e (List.getElem?_mem he) (hen.trans hpk)
  obtain ⟨index, hins, hle, hlo, hhi⟩ := insert_not_found hwf key key_len hlen hk hnone
  refine ⟨index, hle, hlo, hhi, ?_⟩
  rw [store_unfold]
  simp only [hins, Bool.false_eq_true, if_false, getElem?_take_cons_drop _ _ _ hle,
    set_take_cons_drop _ _ _ _ hle, new_entry, str_materialize]

theorem store_wf {st : Globals} (hwf : st.names.WF) (notrace : Bool) (key : Bytes)
    (key_len : Nat) (value : Bytes) (value_len : Nat) (source : Bytes) (line : Nat)
    (append is_def : Bool) (hlen : key_len ≤ key.length) (hk : NulFree (key.take key_len)) :
    (store_name_value_source notrace st key key_len value value_len source line append
      is_def).names.WF := by
  by_cases hex : ∃ e ∈ st.names.infos, e.name = key.take key_len
  · obtain ⟨e, hmem, he⟩ := hex
    obtain ⟨i, hi⟩ := List.mem_iff_getElem?.mp hmem
    rw [store_existing hwf notrace key key_len value value_len source line append is_def
      hlen hk i e hi he]
    have hilt : i < st.names.infos.length := by
      rcases List.getElem?_eq_some.mp hi with ⟨h, _⟩; exact h
    refine ⟨hwf.sorted, hwf.nulFree, ?_, ?_⟩
    · intro p hp
      obtain ⟨e0, he0, hn0⟩ := hwf.points p hp
      simp only [List.getElem?_set]
      by_cases hpi : i = p.second
      · subst hpi
        rw [hi] at he0
        cases he0
        simp [hilt, updated_entry_name, hn0]
      · simp [hpi, he0, hn0]
    · intro j e' hj
      simp only [List.getElem?_set] at hj
      by_cases hij : i = j
      · subst hij
        simp [hilt] at hj
        subst hj
        rw [updated_entry_name]
        exact hwf.registered i e hi
      · simp [hij] at hj
        exact hwf.registered j e' hj
  · have hnew : ∀ e ∈ st.names.infos, e.name ≠ key.take key_len :=
      fun e he hn => hex ⟨e, he, hn⟩
    obtain ⟨index, hle, hlo, hhi, heq⟩ := store_new hwf notrace key key_len value value_len
      source line append is_def hlen hk hnew
    rw [heq]
    have hsplit : st.names.names = st.names.names.take index ++ st.names.names.drop index :=
      (List.take_append_drop index st.names.names).symm
    have hsorted := hwf.sorted
    rw [hsplit, List.pairwise_append] at hsorted
    refine ⟨?_, ?_, ?_, ?_⟩
    · simp only []
      rw [List.pairwise_append, List.pairwise_cons]
      refine ⟨hsorted.1, ⟨fun q hq => hhi q hq, hsorted.2.1⟩, ?_⟩
      intro a ha b hb
      rcases List.mem_cons.mp hb with hb | hb
      · subst hb; exact hlo a ha
      · exact hsorted.2.2 a ha b hb
    · intro p hp
      simp only [List.mem_append, List.mem_cons] at hp
      rcases hp with hp | hp | hp
      · exact hwf.nulFree p (List.mem_of_mem_take hp)
      · subst hp; exact hk
      · exact hwf.nulFree p (List.mem_of_mem_drop hp)
    · intro p hp
      simp only [List.mem_append, List.mem_cons] at hp
      have hold : ∀ q ∈ st.names.names, ∃ e,
          (st.names.infos ++ [new_entry key key_len value value_len source line is_def])[q.second]?
            = some e ∧ e.name = q.first := by
        intro q hq
        obtain ⟨e0, he0, hn0⟩ := hwf.points q hq
        have hlt : q.second < st.names.infos.length := by
          rcases List.getElem?_eq_some.mp he0 with ⟨h, _⟩; exact h
        exact ⟨e0, by rw [List.getElem?_append]; simp [hlt, he0], hn0⟩
      rcases hp with hp | hp | hp
      · exact hold p (List.mem_of_mem_take hp)
      · subst hp
        refine ⟨new_entry key key_len value value_len source line is_def, ?_, rfl⟩
        rw [List.getElem?_append]; simp
      · exact hold p (List.mem_of_mem_drop hp)
    · intro j e' hj
      simp only [List.mem_append, List.mem_cons]
      rw [List.getElem?_append] at hj
      by_cases hjl : j < st.names.infos.length
      · simp only [hjl, if_true] at hj
        have := hwf.registered j e' hj
        rw [hsplit] at this
        rcases List.mem_append.mp this with h | h
        · exact Or.inl h
        · exact Or.inr (Or.inr h)
      · simp only [hjl, if_false] at hj
        have hj0 : j - st.names.infos.length = 0 := by
          by_contra hne
          have : (1 : Nat) ≤ j - st.names.infos.length := by omega
          rw [List.getElem?_eq_none (by simpa using this)] at hj
          cases hj
        rw [hj0] at hj
        simp at hj
        subst hj
        right; left
        have : j = st.names.infos.length := by omega
        simp [new_entry, str_materialize, this]

theorem wf_init : Globals.init.names.WF := by
  refine ⟨List.Pairwise.nil, ?_, ?_, ?_⟩
  · intro p hp; cases hp
  · intro p hp; cases hp
  · intro i e h; simp [Globals.init] at h

/-- In a well-formed store an entry name occurs once. -/
theorem wf_name_inj {n : Names} (hwf : n.WF) {i j : Nat} {e e' : VarEntry}
    (hi : n.infos[i]? = some e) (hj : n.infos[j]? = some e') (h : e.name = e'.name) : i = j := by
  have h1 := hwf.registered i e hi
  have h2 := hwf.registered j e' hj
  have := registry_first_inj hwf h1 h2 h
  simpa using congrArg StringSizePair.second this

theorem since_last_assign_cons (op : Apply) (rest : List Apply) :
    since_last_assign (op :: rest) =
      if rest.any (fun o => !o.append) then since_last_assign rest else op :: rest := rfl

theorem join_spaces_cons (v : Bytes) (rest : List Bytes) :
    join_spaces (v :: rest) = if rest.isEmpty then v else v ++ ' ' :: join_spaces rest := rfl

theorem first_applied_cons (k : Bytes) (rest : List Bytes) :
    first_applied (k :: rest) = k :: (first_applied rest).filter (fun k' => k' ≠ k) := rfl

theorem ops_on_snoc (name : Bytes) (ops : List Apply) (op : Apply) :
    ops_on name (ops ++ [op]) =
      if op.key = name then ops_on name ops ++ [op] else ops_on name ops := by
  unfold ops_on
  rw [List.filter_append]
  by_cases h : op.key = name
  · simp [h]
  · simp [h]

theorem ops_on_eq_nil_iff (name : Bytes) (ops : List Apply) :
    ops_on name ops = [] ↔ name ∉ ops.map (fun op => op.key) := by
  unfold ops_on
  simp only [List.filter_eq_nil_iff, List.mem_map, not_exists, not_and, decide_eq_true_eq]

theorem since_last_assign_snoc_assign (l : List Apply) (op : Apply) (h : op.append = false) :
    since_last_assign (l ++ [op]) = [op] := by
  induction l with
  | nil => simp [since_last_assign]
  | cons x rest ih =>
    rw [List.cons_append, since_last_assign_cons]
    have : (rest ++ [op]).any (fun o => !o.append) = true := by simp [h]
    rw [if_pos this, ih]

theorem since_last_assign_snoc_append (l : List Apply) (op : Apply) (h : op.append = true) :
    since_last_assign (l ++ [op]) = since_last_assign l ++ [op] := by
  induction l with
  | nil => simp [since_last_assign]
  | cons x rest ih =>
    rw [List.cons_append, since_last_assign_cons, since_last_assign_cons]
    have : (rest ++ [op]).any (fun o => !o.append) = rest.any (fun o => !o.append) := by
      simp [h]
    rw [this]
    by_cases hr : rest.any (fun o => !o.append) = true
    · rw [if_pos hr, if_pos hr, ih]
    · rw [if_neg hr, if_neg hr]; rfl

theorem since_last_assign_eq_nil {l : List Apply} (h : since_last_assign l = []) : l = [] := by
  induction l with
  | nil => rfl
  | cons x rest ih =>
    simp only [since_last_assign] at h
    by_cases hr : rest.any (fun o => !o.append) = true
    · rw [if_pos hr] at h
      have := ih h
      subst this
      simp at hr
    · rw [if_neg hr] at h; cases h

theorem join_spaces_snoc (l : List Bytes) (v : Bytes) :
    join_spaces (l ++ [v]) = if l = [] then v else join_spaces l ++ ' ' :: v := by
  induction l with
  | nil => simp [join_spaces]
  | cons x rest ih =>
    rw [List.cons_append, join_spaces_cons, join_spaces_cons]
    have : (rest ++ [v]).isEmpty = false := by cases rest <;> rfl
    rw [this, ih]
    cases rest with
    | nil => simp
    | cons y r => simp

theorem expected_value_snoc_other (name : Bytes) (ops : List Apply) (op : Apply)
    (h : op.key ≠ name) : expected_value name (ops ++ [op]) = expected_value name ops := by
  unfold expected_value; rw [ops_on_snoc, if_neg h]

theorem expected_value_snoc_assign (ops : List Apply) (op : Apply) (h : op.append = false) :
    expected_value op.key (ops ++ [op]) = op.value := by
  unfold expected_value
  rw [ops_on_snoc, if_pos rfl, since_last_assign_snoc_assign _ _ h]
  simp [join_spaces]

theorem expected_value_snoc_first (ops : List Apply) (op : Apply)
    (h : op.key ∉ ops.map (fun op => op.key)) :
    expected_value op.key (ops ++ [op]) = op.value := by
  unfold expected_value
  rw [ops_on_snoc, if_pos rfl, (ops_on_eq_nil_iff _ _).mpr h]
  simp [since_last_assign, join_spaces]

theorem expected_value_snoc_append (ops : List Apply) (op : Apply) (h : op.append = true)
    (hmem : op.key ∈ ops.map (fun op => op.key)) :
    expected_value op.key (ops ++ [op]) = expected_value op.key ops ++ ' ' :: op.value := by
  unfold expected_value
  have hne : ops_on op.key ops ≠ [] := fun h0 => (ops_on_eq_nil_iff _ _).mp h0 hmem
  rw [ops_on_snoc, if_pos rfl, since_last_assign_snoc_append _ _ h, List.map_append,
    List.map_singleton, join_spaces_snoc]
  have : List.map (fun op => op.value) (since_last_assign (ops_on op.key ops)) ≠ [] := by
    intro h0
    exact hne (since_last_assign_eq_nil (List.map_eq_nil_iff.mp h0))
  rw [if_neg this]

theorem mem_first_applied (k : Bytes) (l : List Bytes) : k ∈ first_applied l ↔ k ∈ l := by
  induction l with
  | nil => simp [first_applied]
  | cons x rest ih =>
    simp only [first_applied, List.mem_cons, List.mem_filter, ih, decide_eq_true_eq]
    by_cases h : k = x <;> simp [h]

theorem first_applied_snoc (l : List Bytes) (k : Bytes) :
    first_applied (l ++ [k]) = if k ∈ l then first_applied l else first_applied l ++ [k] := by
  induction l with
  | nil => simp [first_applied]
  | cons x rest ih =>
    rw [List.cons_append, first_applied_cons, first_applied_cons, ih]
    simp only [List.mem_cons]
    by_cases hx : k = x
    · subst hx
      by_cases hr : k ∈ rest
      · simp [hr]
      · simp [hr, List.filter_append]
    · by_cases hr : k ∈ rest
      · simp [hr, hx]
      · simp [hr, hx, List.filter_append]

theorem first_applied_nodup (l : List Bytes) : (first_applied l).Nodup := by
  induction l with
  | nil => simp [first_applied]
  | cons x rest ih =>
    simp only [first_applied, List.nodup_cons, List.mem_filter, decide_eq_true_eq]
    exact ⟨fun h => h.2 rfl, ih.filter _⟩

theorem nulFree_join_spaces (l : List Bytes) (h : ∀ v ∈ l, NulFree v) :
    NulFree (join_spaces l) := by
  induction l with
  | nil => exact nulFree_nil
  | cons v rest ih =>
    simp only [join_spaces]
    split
    · exact h v (List.mem_cons_self _ _)
    · have h1 := h v (List.mem_cons_self _ _)
      have h2 := ih (fun w hw => h w (List.mem_cons_of_mem _ hw))
      have : v ++ ' ' :: join_spaces rest = v ++ ([' '] ++ join_spaces rest) := rfl
      rw [this, nulFree_append, nulFree_append]
      refine ⟨h1, ?_, h2⟩
      intro c hc
      simp only [List.mem_singleton] at hc
      subst hc; decide

theorem since_last_assign_subset (l : List Apply) : ∀ op ∈ since_last_assign l, op ∈ l := by
  induction l with
  | nil => intro op h; simp [since_last_assign] at h
  | cons x rest ih =>
    intro op h
    simp only [since_last_assign] at h
    split at h
    · exact List.mem_cons_of_mem _ (ih op h)
    · exact h

theorem nulFree_expected_value (name : Bytes) (ops : List Apply)
    (h : ∀ op ∈ ops, NulFree op.value) : NulFree (expected_value name ops) := by
  unfold expected_value
  apply nulFree_join_spaces
  intro v hv
  obtain ⟨op, hop, rfl⟩ := List.mem_map.mp hv
  have := since_last_assign_subset _ op hop
  exact h op (List.mem_of_mem_filter this)

theorem apply_all_snoc (notrace : Bool) (ops : List Apply) (op : Apply) (st : Globals) :
    apply_all notrace (ops ++ [op]) st = Apply.run notrace (apply_all notrace ops st) op := by
  simp [apply_all, List.foldl_append]

theorem map_set_same {α β : Type} (f : α → β) (l : List α) (i : Nat) (e x : α)
    (hi : l[i]? = some e) (hx : f x = f e) : (l.set i x).map f = l.map f := by
  apply List.ext_getElem?
  intro j
  simp only [List.getElem?_map, List.getElem?_set]
  by_cases hij : i = j
  · subst hij
    have hlt : i < l.length := (List.getElem?_eq_some.mp hi).1
    simp [hlt, hi, hx]
  · simp [hij]

theorem updated_entry_value_of_nulFree (e : VarEntry) (value : Bytes) (source : Bytes)
    (line : Nat) (append : Bool) (he : NulFree e.value) :
    (updated_entry e value value.length source line append).value =
      if append then e.value ++ ' ' :: value else value := by
  unfold updated_entry
  by_cases h : append = true
  · simp only [h, if_true, take_strlen, cstr_of_nulFree he, List.take_length]
  · simp only [h, if_false, str_materialize, List.take_length]
    simp

/-- The store after a sequence of calls from the initial state: it is well
formed, holds the names in the order of first application, and each entry
holds the value the specification gives. -/
theorem apply_all_char (notrace : Bool) (ops : List Apply)
    (hops : ∀ op ∈ ops, NulFree op.key ∧ NulFree op.value) :
    (apply_all notrace ops Globals.init).names.WF ∧
    (apply_all notrace ops Globals.init).names.infos.map (fun e => e.name) =
      first_applied (ops.map (fun op => op.key)) ∧
    ∀ e ∈ (apply_all notrace ops Globals.init).names.infos,
      e.value = expected_value e.name ops := by
  induction ops using List.reverseRecOn with
  | nil =>
    refine ⟨wf_init, rfl, ?_⟩
    intro e he
    simp [apply_all, Globals.init] at he
  | append_singleton ops op ih =>
    have hops' : ∀ o ∈ ops, NulFree o.key ∧ NulFree o.value :=
      fun o ho => hops o (List.mem_append_left _ ho)
    obtain ⟨hwf, hnames, hvals⟩ := ih hops'
    have hop := hops op (List.mem_append_right _ (List.mem_singleton_self op))
    have htake : op.key.take op.key.length = op.key := List.take_length _
    have hk : NulFree (op.key.take op.key.length) := by rw [htake]; exact hop.1
    rw [apply_all_snoc]
    generalize hst : apply_all notrace ops Globals.init = st at hwf hnames hvals ⊢
    have hvalsNF : ∀ o ∈ ops, NulFree o.value := fun o ho => (hops' o ho).2
    refine ⟨store_wf hwf notrace _ _ _ _ _ _ _ _ (Nat.le_refl _) hk, ?_⟩
    unfold Apply.run
    rw [List.map_append, List.map_singleton, first_applied_snoc]
    by_cases hmem : op.key ∈ ops.map (fun op => op.key)
    · rw [if_pos hmem]
      have hin : op.key ∈ st.names.infos.map (fun e => e.name) := by
        rw [hnames]; exact (mem_first_applied _ _).mpr hmem
      obtain ⟨e, he, hen⟩ := List.mem_map.mp hin
      obtain ⟨i, hi⟩ := List.mem_iff_getElem?.mp he
      have hen' : e.name = op.key.take op.key.length := by rw [htake]; exact hen
      rw [store_existing hwf notrace op.key op.key.length op.value op.value.length op.source
        op.line op.append op.is_def (Nat.le_refl _) hk i e hi hen']
      refine ⟨?_, ?_⟩
      · simp only []
        rw [map_set_same (fun e => e.name) _ i e _ hi (updated_entry_name _ _ _ _ _ _)]
        exact hnames
      · intro e' he'
        obtain ⟨j, hj⟩ := List.mem_iff_getElem?.mp he'
        simp only [List.getElem?_set] at hj
        have hilt : i < st.names.infos.length := (List.getElem?_eq_some.mp hi).1
        by_cases hij : i = j
        · subst hij
          simp only [if_true, hilt, Option.some.injEq] at hj
          subst hj
          have heNF : NulFree e.value := by
            rw [hvals e he]; exact nulFree_expected_value _ _ hvalsNF
          rw [updated_entry_value_of_nulFree _ _ _ _ _ heNF, updated_entry_name, hen]
          by_cases happ : op.append = true
          · rw [if_pos happ, expected_value_snoc_append _ _ happ hmem, ← hen, ← hvals e he]
          · rw [if_neg happ, expected_value_snoc_assign _ _ (by simpa using happ)]
        · simp only [hij, if_false] at hj
          have hne : op.key ≠ e'.name := by
            intro h
            exact hij (wf_name_inj hwf hi hj (hen.trans h))
          rw [expected_value_snoc_other _ _ _ hne]
          exact hvals e' (List.getElem?_mem hj)
    · rw [if_neg hmem]
      have hnew : ∀ e ∈ st.names.infos, e.name ≠ op.key.take op.key.length := by
        intro e he hn
        apply hmem
        rw [← mem_first_applied, ← hnames, ← htake, ← hn]
        exact List.mem_map_of_mem _ he
      obtain ⟨index, _, _, _, heq⟩ := store_new hwf notrace op.key op.key.length op.value
        op.value.length op.source op.line op.append op.is_def (Nat.le_refl _) hk hnew
      rw [heq]
      refine ⟨?_, ?_⟩
      · simp only [List.map_append, List.map_singleton, hnames, new_entry, str_materialize, htake]
      · intro e' he'
        simp only [List.mem_append, List.mem_singleton] at he'
        rcases he' with he' | he'
        · have hne : op.key ≠ e'.name := by
            intro h; exact hnew e' he' (by rw [htake]; exact h.symm)
          rw [expected_value_snoc_other _ _ _ hne]
          exact hvals e' he'
        · subst he'
          simp only [new_entry, str_materialize, htake, List.take_length]
          exact (expected_value_snoc_first _ _ hmem).symm

theorem filter_name_unique (l : List VarEntry) (k : Bytes)
    (hnd : (l.map (fun e => e.name)).Nodup) (hmem : k ∈ l.map (fun e => e.name)) :
    ∃ e ∈ l, e.name = k ∧ l.filter (fun e => e.name = k) = [e] := by
  induction l with
  | nil => simp at hmem
  | cons x rest ih =>
    simp only [List.map_cons, List.nodup_cons, List.mem_map, not_exists, not_and] at hnd
    by_cases hx : x.name = k
    · refine ⟨x, List.mem_cons_self _ _, hx, ?_⟩
      have : rest.filter (fun e => e.name = k) = [] := by
        rw [List.filter_eq_nil_iff]
        intro e he
        simp only [decide_eq_true_eq]
        intro hek
        exact hnd.1 e he (hek.trans hx.symm)
      simp [List.filter_cons, hx, this]
    · have hmem' : k ∈ rest.map (fun e => e.name) := by
        simp only [List.map_cons, List.mem_cons] at hmem
        rcases hmem with h | h
        · exact absurd h.symm hx
        · exact h
      obtain ⟨e, he, hek, hf⟩ := ih hnd.2 hmem'
      exact ⟨e, List.mem_cons_of_mem _ he, hek, by simp [List.filter_cons, hx, hf]⟩

/-- C1: after any sequence of calls of `store_name_value_source` on the empty
store, with NUL-free names and values, the store holds exactly one entry for
each name of the sequence, and its value is the values of the calls on that
name, from the last non-append call onward (from the first call if all are
appends), joined with single spaces. -/
theorem store_final_value (notrace : Bool) (ops : List Apply)
    (hops : ∀ op ∈ ops, NulFree op.key ∧ NulFree op.value) (name : Bytes)
    (hname : name ∈ ops.map (fun op => op.key)) :
    ((apply_all notrace ops Globals.init).names.infos.filter
      (fun e => e.name = name)).map (fun e => e.value) = [expected_value name ops] := by
  obtain ⟨_, hnames, hvals⟩ := apply_all_char notrace ops hops
  have hnd : ((apply_all notrace ops Globals.init).names.infos.map (fun e => e.name)).Nodup := by
    rw [hnames]; exact first_applied_nodup _
  have hmem : name ∈ (apply_all notrace ops Globals.init).names.infos.map (fun e => e.name) := by
    rw [hnames]; exact (mem_first_applied _ _).mpr hname
  obtain ⟨e, he, hek, hf⟩ := filter_name_unique _ name hnd hmem
  rw [hf, List.map_singleton, hvals e he, hek]

theorem store_final_value_witness :
    (∀ op ∈ [(⟨"FOO".toList, "a".toList, "d".toList, 1, false, true⟩ : Apply),
              ⟨"BAR".toList, "x".toList, "d".toList, 2, true, true⟩,
              ⟨"FOO".toList, "b".toList, "u".toList, 1, true, false⟩,
              ⟨"FOO".toList, "c".toList, "u".toList, 2, false, false⟩,
              ⟨"FOO".toList, "d".toList, "u".toList, 3, true, false⟩],
        NulFree op.key ∧ NulFree op.value) ∧
    ((apply_all false
        [(⟨"FOO".toList, "a".toList, "d".toList, 1, false, true⟩ : Apply),
          ⟨"BAR".toList, "x".toList, "d".toList, 2, true, true⟩,
          ⟨"FOO".toList, "b".toList, "u".toList, 1, true, false⟩,
          ⟨"FOO".toList, "c".toList, "u".toList, 2, false, false⟩,
          ⟨"FOO".toList, "d".toList, "u".toList, 3, true, false⟩]
        Globals.init).names.infos.filter
      (fun e => e.name = "FOO".toList)).map (fun e => e.value) = ["c d".toList] :=
  ⟨by decide, store_final_value false _ (by decide) "FOO".toList (by decide)⟩

/-- C2: in a well-formed store that holds an entry for the name, with C strings
`V` as value and `P` as provenance, a call with `append = true` leaves that
entry (same position, name and snapshot) with value `V ++ " " ++ W` and
provenance `P ++ " & " ++ S ++ " L" ++ line` (`%04zu`); and the two lines
`FOO="a"`, `FOO+="b"` resolve `FOO` to `a b`. -/
theorem store_append_existing (st : Globals) (hwf : st.names.WF) (notrace : Bool)
    (key : Bytes) (key_len : Nat) (value : Bytes) (value_len : Nat) (source : Bytes)
    (line : Nat) (is_def : Bool) (hlen : key_len ≤ key.length)
    (hk : NulFree (key.take key_len)) (i : Nat) (e : VarEntry)
    (hi : st.names.infos[i]? = some e) (he : e.name = key.take key_len) :
    (store_name_value_source notrace st key key_len value value_len source line true
        is_def).names.infos[i]? =
      some { e with
        value := cstr e.value ++ " ".toList ++ value.take value_len
        source := cstr e.source ++ " & ".toList ++ cstr source ++ " L".toList ++
          fmt_04zu line } ∧
    (parse_configfile_loop [] notrace "tlp.conf".toList false false Globals.init 0
        ["FOO=\"a\"\n".toList, "FOO+=\"b\"\n".toList]).names.infos.map
      (fun e => (e.name, e.value)) = [("FOO".toList, "a b".toList)] := by
  constructor
  · rw [store_existing hwf notrace key key_len value value_len source line true is_def hlen hk
      i e hi he]
    have hilt : i < st.names.infos.length := (List.getElem?_eq_some.mp hi).1
    simp only [List.getElem?_set, if_true, hilt, updated_entry, take_strlen, location_of,
      List.append_assoc, List.singleton_append, String.toList]
  · cases notrace <;> decide

theorem store_append_existing_witness :
    store_with_foo.names.WF ∧ 3 ≤ "FOO+=b".toList.length ∧
    NulFree ("FOO+=b".toList.take 3) ∧
    store_with_foo.names.infos[0]? =
      some ⟨"FOO".toList, "a".toList, "defaults.conf L0001".toList, some "a".toList⟩ ∧
    (store_name_value_source false store_with_foo "FOO+=b".toList 3 "b # x".toList 1
        "tlp.conf".toList 12 true false).names.infos[0]? =
      some ⟨"FOO".toList, "a b".toList, "defaults.conf L0001 & tlp.conf L0012".toList,
        some "a".toList⟩ :=
  ⟨store_wf wf_init _ _ _ _ _ _ _ _ _ (by decide) (by decide), by decide, by decide, by decide,
    (store_append_existing store_with_foo
      (store_wf wf_init _ _ _ _ _ _ _ _ _ (by decide) (by decide)) false "FOO+=b".toList 3
      "b # x".toList 1 "tlp.conf".toList 12 false (by decide) (by decide) 0
      ⟨"FOO".toList, "a".toList, "defaults.conf L0001".toList, some "a".toList⟩
      (by decide) (by decide)).1⟩

/-- C3: in a well-formed store that holds an entry for the name, a call with
`append = false` replaces that entry's value by the new value and its
provenance by `source ++ " L" ++ line`; the entry keeps its name, snapshot and
position, every other entry is unchanged, and so is the registry. -/
theorem store_assign_existing (st : Globals) (hwf : st.names.WF) (notrace : Bool)
    (key : Bytes) (key_len : Nat) (value : Bytes) (value_len : Nat) (source : Bytes)
    (line : Nat) (is_def : Bool) (hlen : key_len ≤ key.length)
    (hk : NulFree (key.take key_len)) (i : Nat) (e : VarEntry)
    (hi : st.names.infos[i]? = some e) (he : e.name = key.take key_len) :
    (store_name_value_source notrace st key key_len value value_len source line false
        is_def).names =
      ⟨st.names.names,
        st.names.infos.set i { e with
          value := value.take value_len
          source := cstr source ++ " L".toList ++ fmt_04zu line }⟩ := by
  rw [store_existing hwf notrace key key_len value value_len source line false is_def hlen hk
    i e hi he]
  rfl

theorem store_assign_existing_witness :
    store_with_foo.names.WF ∧ 3 ≤ "FOO=b".toList.length ∧
    NulFree ("FOO=b".toList.take 3) ∧
    store_with_foo.names.infos[0]? =
      some ⟨"FOO".toList, "a".toList, "defaults.conf L0001".toList, some "a".toList⟩ ∧
    (store_name_value_source false store_with_foo "FOO=b".toList 3 "b".toList 1
        "tlp.conf".toList 12 false false).names =
      ⟨[⟨"FOO".toList, 0⟩],
        [⟨"FOO".toList, "b".toList, "tlp.conf L0012".toList, some "a".toList⟩]⟩ :=
  ⟨store_wf wf_init _ _ _ _ _ _ _ _ _ (by decide) (by decide), by decide, by decide, by decide,
    store_assign_existing store_with_foo
      (store_wf wf_init _ _ _ _ _ _ _ _ _ (by decide) (by decide)) false "FOO=b".toList 3
      "b".toList 1 "tlp.conf".toList 12 false (by decide) (by decide) 0
      ⟨"FOO".toList, "a".toList, "defaults.conf L0001".toList, some "a".toList⟩
      (by decide) (by decide)⟩

/-- C4: in a well-formed store that holds no entry for the name, a call (with
either `append` flag) adds exactly one entry, at the end: its name is the
name, its value the given value with nothing in front, its provenance
`source ++ " L" ++ line` (`%04zu`), its snapshot the value when `is_def` and
absent otherwise. -/
theorem store_new_entry (st : Globals) (hwf : st.names.WF) (notrace : Bool)
    (key : Bytes) (key_len : Nat) (value : Bytes) (value_len : Nat) (source : Bytes)
    (line : Nat) (append is_def : Bool) (hlen : key_len ≤ key.length)
    (hk : NulFree (key.take key_len)) (hv : NulFree (value.take value_len))
    (hnew : ∀ e ∈ st.names.infos, e.name ≠ key.take key_len) :
    (store_name_value_source notrace st key key_len value value_len source line append
        is_def).names.infos =
      st.names.infos ++
        [⟨key.take key_len, value.take value_len,
          cstr source ++ " L".toList ++ fmt_04zu line,
          if is_def then some (value.take value_len) else none⟩] := by
  obtain ⟨index, _, _, _, heq⟩ := store_new hwf notrace key key_len value value_len source line
    append is_def hlen hk hnew
  rw [heq]
  simp only [new_entry, str_materialize, xstrdup, cstr_of_nulFree hv, location_of]

theorem store_new_entry_witness :
    store_with_foo.names.WF ∧ 3 ≤ "BAR+=b c".toList.length ∧
    NulFree ("BAR+=b c".toList.take 3) ∧ NulFree ("b c".toList.take 3) ∧
    (∀ e ∈ store_with_foo.names.infos, e.name ≠ "BAR+=b c".toList.take 3) ∧
    (store_name_value_source false store_with_foo "BAR+=b c".toList 3 "b c".toList 3
        "defaults.conf".toList 7 true true).names.infos =
      [⟨"FOO".toList, "a".toList, "defaults.conf L0001".toList, some "a".toList⟩,
        ⟨"BAR".toList, "b c".toList, "defaults.conf L0007".toList, some "b c".toList⟩] :=
  ⟨store_wf wf_init _ _ _ _ _ _ _ _ _ (by decide) (by decide), by decide, by decide, by decide,
    by decide,
    store_new_entry store_with_foo
      (store_wf wf_init _ _ _ _ _ _ _ _ _ (by decide) (by decide)) false "BAR+=b c".toList 3
      "b c".toList 3 "defaults.conf".toList 7 true true (by decide) (by decide) (by decide)
      (by decide)⟩

theorem strncmp_cstr_left (a b : Bytes) (n : Nat) : strncmp (cstr a) b n = strncmp a b n := by
  induction n generalizing a b with
  | zero => simp [strncmp_zero]
  | succ n ih =>
    cases a with
    | nil => rfl
    | cons x as =>
      by_cases hx : x = NUL
      · subst hx
        rw [cstr_cons_NUL, strncmp_succ, strncmp_succ]
        simp only [List.headD_nil, List.headD_cons]
        generalize b.headD NUL = c2
        by_cases h1 : NUL = c2
        · simp [h1]
        · simp [h1]
      · rw [cstr_cons_ne as hx, strncmp_succ, strncmp_succ]
        simp only [List.headD_cons, List.tail_cons, ih]

/-- On NUL-free strings, `strncmp` with a bound beyond the first string decides
the byte-wise order. -/
theorem strncmp_sign (x y : Bytes) (n : Nat) (hx : NulFree x) (hy : NulFree y)
    (hn : x.length < n) :
    (blt x y ∧ strncmp x y n < 0) ∨ (x = y ∧ strncmp x y n = 0) ∨
      (blt y x ∧ strncmp x y n > 0) := by
  induction x generalizing y n with
  | nil =>
    obtain ⟨m, rfl⟩ : ∃ m, n = m + 1 := ⟨n - 1, by simp at hn; omega⟩
    rw [strncmp_succ]
    cases y with
    | nil => right; left; simp
    | cons b ys =>
      rw [nulFree_cons] at hy
      left
      have hb := toNat_ne_zero hy.1
      have hne : NUL ≠ b := fun h => hy.1 h.symm
      simp only [List.headD_nil, List.headD_cons, ne_eq, hne, not_false_eq_true, if_true,
        NUL_toNat]
      exact ⟨by simp [blt], by omega⟩
  | cons a xs ih =>
    obtain ⟨m, rfl⟩ : ∃ m, n = m + 1 := ⟨n - 1, by simp at hn; omega⟩
    rw [nulFree_cons] at hx
    rw [strncmp_succ]
    cases y with
    | nil =>
      right; right
      have ha := toNat_ne_zero hx.1
      simp only [List.headD_nil, List.headD_cons, ne_eq, hx.1, not_false_eq_true, if_true,
        NUL_toNat]
      exact ⟨by simp [blt], by omega⟩
    | cons b ys =>
      rw [nulFree_cons] at hy
      simp only [List.headD_cons, List.tail_cons]
      by_cases hab : a = b
      · subst hab
        simp only [ne_eq, not_true_eq_false, if_false, hx.1]
        rcases ih ys m hx.2 hy.2 (by simp at hn; omega) with h | h | h
        · left; exact ⟨by simp [blt, h.1], h.2⟩
        · right; left; exact ⟨by rw [h.1], h.2⟩
        · right; right; exact ⟨by simp [blt, h.1], h.2⟩
      · have hne := toNat_ne hab
        simp only [ne_eq, hab, not_false_eq_true, if_true]
        rcases Nat.lt_or_gt_of_ne hne with h | h
        · left; exact ⟨by simp [blt, h], by omega⟩
        · right; right; exact ⟨by simp [blt, h], by omega⟩

/-- `strcmp` decides the byte-wise order of the two C strings. -/
theorem strcmp_sign (a b : Bytes) :
    (blt (cstr a) (cstr b) ∧ strcmp a b < 0) ∨ (cstr a = cstr b ∧ strcmp a b = 0) ∨
      (blt (cstr b) (cstr a) ∧ strcmp a b > 0) := by
  unfold strcmp
  rw [← strncmp_cstr_left, ← strncmp_cstr_right]
  apply strncmp_sign _ _ _ (nulFree_cstr a) (nulFree_cstr b)
  unfold strlen
  omega

theorem strcmp_eq_zero_iff (a b : Bytes) : strcmp a b = 0 ↔ cstr a = cstr b := by
  rcases strcmp_sign a b with h | h | h
  · constructor
    · intro h0; omega
    · intro e; rw [e] at h; exact absurd h.1 (blt_irrefl _)
  · exact ⟨fun _ => h.1, fun _ => h.2⟩
  · constructor
    · intro h0; omega
    · intro e; rw [e] at h; exact absurd h.1 (blt_irrefl _)

theorem fwrite_entry_verbose_ne_nil (deprecated : List StringPair) (e : VarEntry) :
    fwrite_entry false deprecated true e ≠ [] := by
  unfold fwrite_entry
  simp

theorem fwrite_entry_verbose (cdiff : Bool) (deprecated : List StringPair) (e : VarEntry) :
    fwrite_entry cdiff deprecated true e =
      if cdiff_omitted cdiff e then [] else fwrite_entry false deprecated true e := by
  unfold fwrite_entry cdiff_omitted
  cases cdiff
  · simp
  · cases hd : e.defv with
    | none => simp
    | some d =>
      by_cases h : strcmp e.value d = 0
      · have h' := (strcmp_eq_zero_iff _ _).mp h
        simp [h, h']
      · have h' : ¬ cstr e.value = cstr d := fun h0 => h ((strcmp_eq_zero_iff _ _).mpr h0)
        simp [h, h']

/-- C9: in verbose output `fwrite_runconf` writes nothing for an entry exactly
when diff mode is on, the entry has a snapshot, and its value equals the
snapshot byte for byte; every other entry (in particular every entry without
a snapshot, and every entry when diff mode is off) gets its non-empty
line, so the output is the lines of the entries that are not omitted. -/
theorem cdiff_omits_iff (cdiff : Bool) (deprecated : List StringPair) (names : Names) :
    (∀ e : VarEntry, fwrite_entry cdiff deprecated true e = [] ↔
      (cdiff = true ∧ ∃ d, e.defv = some d ∧ cstr e.value = cstr d)) ∧
    (∀ e : VarEntry, fwrite_entry cdiff deprecated true e ≠ [] →
      fwrite_entry cdiff deprecated true e = fwrite_entry false deprecated true e) ∧
    fwrite_runconf cdiff deprecated names true =
      ((names.infos.filter (fun e => !cdiff_omitted cdiff e)).map
        (fwrite_entry false deprecated true)).flatten := by
  refine ⟨?_, ?_, ?_⟩
  · intro e
    rw [fwrite_entry_verbose]
    by_cases h : cdiff_omitted cdiff e = true
    · simp only [h, if_true, true_iff]
      unfold cdiff_omitted at h
      simp only [Bool.and_eq_true, beq_iff_eq] at h
      obtain ⟨⟨h1, h2⟩, h3⟩ := h
      obtain ⟨d, hd⟩ := Option.isSome_iff_exists.mp h2
      exact ⟨h1, d, hd, by rw [h3, hd]; rfl⟩
    · simp only [h, if_false, Bool.false_eq_true]
      constructor
      · intro h0; exact absurd h0 (fwrite_entry_verbose_ne_nil _ _)
      · rintro ⟨h1, d, hd, h3⟩
        exfalso
        apply h
        unfold cdiff_omitted
        simp [h1, hd, h3]
  · intro e he
    rw [fwrite_entry_verbose] at he ⊢
    by_cases h : cdiff_omitted cdiff e = true
    · simp [h] at he
    · simp [h]
  · unfold fwrite_runconf
    induction names.infos with
    | nil => rfl
    | cons e rest ih =>
      rw [List.map_cons, List.flatten_cons, ih, fwrite_entry_verbose, List.filter_cons]
      by_cases h : cdiff_omitted cdiff e = true
      · simp [h]
      · simp [h]

/-- C10: after any sequence of calls (NUL-free names and values) the compact
output is one line `NAME="value"` per distinct name, in the order in which the
names were first applied, each with the value of C1; no name has two lines. -/
theorem compact_output_order (notrace cdiff : Bool) (deprecated : List StringPair)
    (ops : List Apply) (hops : ∀ op ∈ ops, NulFree op.key ∧ NulFree op.value) :
    fwrite_runconf cdiff deprecated (apply_all notrace ops Globals.init).names false =
      ((first_applied (ops.map (fun op => op.key))).map
        (fun k => k ++ "=\"".toList ++ expected_value k ops ++ "\"\n".toList)).flatten ∧
    (first_applied (ops.map (fun op => op.key))).Nodup := by
  refine ⟨?_, first_applied_nodup _⟩
  obtain ⟨hwf, hnames, hvals⟩ := apply_all_char notrace ops hops
  unfold fwrite_runconf
  rw [← hnames, List.map_map]
  congr 1
  apply List.map_congr_left
  intro e he
  have hname : NulFree e.name := by
    obtain ⟨i, hi⟩ := List.mem_iff_getElem?.mp he
    exact hwf.nulFree _ (hwf.registered i e hi)
  have hval : NulFree (expected_value e.name ops) :=
    nulFree_expected_value _ _ (fun o ho => (hops o ho).2)
  simp only [fwrite_entry, Bool.false_eq_true, if_false, Function.comp, cstr_of_nulFree hname,
    hvals e he, cstr_of_nulFree hval]

theorem compact_output_order_witness :
    (∀ op ∈ [(⟨"FOO".toList, "a".toList, "d".toList, 1, false, true⟩ : Apply),
              ⟨"BAR".toList, "x".toList, "d".toList, 2, false, true⟩,
              ⟨"FOO".toList, "b".toList, "u".toList, 1, true, false⟩,
              ⟨"ABC".toList, "".toList, "u".toList, 2, false, false⟩,
              ⟨"BAR".toList, "y".toList, "u".toList, 3, false, false⟩],
        NulFree op.key ∧ NulFree op.value) ∧
    fwrite_runconf true [] (apply_all false
        [(⟨"FOO".toList, "a".toList, "d".toList, 1, false, true⟩ : Apply),
          ⟨"BAR".toList, "x".toList, "d".toList, 2, false, true⟩,
          ⟨"FOO".toList, "b".toList, "u".toList, 1, true, false⟩,
          ⟨"ABC".toList, "".toList, "u".toList, 2, false, false⟩,
          ⟨"BAR".toList, "y".toList, "u".toList, 3, false, false⟩]
        Globals.init).names false =
      "FOO=\"a b\"\nBAR=\"y\"\nABC=\"\"\n".toList :=
  ⟨by decide, (compact_output_order false true [] _ (by decide)).1⟩

theorem scan_while_le (pred : Char → Bool) (s : Bytes) (n : Nat) :
    scan_while pred s n ≤ n ∧ scan_while pred s n ≤ s.length := by
  induction s generalizing n with
  | nil => simp [scan_while]
  | cons c p ih =>
    cases n with
    | zero => simp [scan_while]
    | succ n =>
      simp only [scan_while]
      split
      · have := ih n; simp only [List.length_cons]; omega
      · simp

theorem scan_while_all (pred : Char → Bool) (s : Bytes) (n : Nat) :
    ∀ c ∈ s.take (scan_while pred s n), pred c = true := by
  induction s generalizing n with
  | nil => simp [scan_while]
  | cons c p ih =>
    cases n with
    | zero => simp [scan_while]
    | succ n =>
      simp only [scan_while]
      split
      · rename_i h
        intro x hx
        rw [List.take_succ_cons, List.mem_cons] at hx
        rcases hx with hx | hx
        · rw [hx]; exact h
        · exact ih n x hx
      · simp

theorem is_name_char_ne_NUL {c : Char} (h : is_name_char c = true) : c ≠ NUL := by
  intro h0; subst h0; revert h; decide

theorem is_digit_char_ne_NUL {c : Char} (h : is_digit_char c = true) : c ≠ NUL := by
  intro h0; subst h0; revert h; decide

theorem is_value_char_ne_NUL {c : Char} (h : is_value_char c = true) : c ≠ NUL := by
  intro h0; subst h0; revert h; decide

/-- A name `parse_name` accepts lies inside the buffer and holds no NUL. -/
theorem parse_name_ok {str : Option Bytes} {len : Nat} {name : Bytes} {name_len : Nat}
    (h : parse_name str len = (some name, name_len)) :
    str = some name ∧ 0 < name_len ∧ name_len ≤ len ∧ name_len ≤ name.length ∧
      NulFree (name.take name_len) := by
  unfold parse_name at h
  cases str with
  | none => simp at h
  | some s =>
    simp only [] at h
    by_cases h0 : scan_while is_name_char s len = 0
    · simp [h0] at h
    · simp only [h0, if_false, Prod.mk.injEq, Option.some.injEq] at h
      obtain ⟨rfl, rfl⟩ := h
      have h1 := scan_while_le is_name_char s len
      have h2 := scan_while_le is_digit_char (s.drop (scan_while is_name_char s len))
        (len - scan_while is_name_char s len)
      rw [List.length_drop] at h2
      refine ⟨rfl, by omega, by omega, by omega, ?_⟩
      rw [List.take_add, nulFree_append]
      refine ⟨fun c hc => is_name_char_ne_NUL (scan_while_all _ _ _ c hc),
        fun c hc => is_digit_char_ne_NUL (scan_while_all _ _ _ c hc)⟩

theorem rtrim_some {str : Bytes} {len : Nat} {s : Bytes} {l : Nat}
    (h : rtrim str len = (some s, l)) : s = str ∧ l ≤ len := by
  induction len with
  | zero => simp [rtrim] at h
  | succ n ih =>
    simp only [rtrim] at h
    split at h
    · simp only [Prod.mk.injEq, Option.some.injEq] at h
      exact ⟨h.1.symm, by omega⟩
    · have := ih h; exact ⟨this.1, by omega⟩

/-- The name of an accepted configuration line lies inside the line and holds
no NUL. -/
theorem config_line_name_ok {line_buf : Bytes} {read : Nat} {a : Assignment}
    (h : config_line line_buf read = some a) :
    0 < a.name_len ∧ a.name_len ≤ a.name.length ∧ NulFree (a.name.take a.name_len) := by
  unfold config_line at h
  rcases hr : rtrim line_buf read with ⟨line, len⟩
  rcases hp : parse_name line len with ⟨name, name_len⟩
  rw [hr] at h
  simp only [] at h
  rw [hp] at h
  simp only [] at h
  cases line with
  | none => simp at h
  | some line =>
    cases name with
    | none => simp at h
    | some name =>
      obtain ⟨_, hpos, _, hlen, hnf⟩ := parse_name_ok hp
      simp only [] at h
      split at h
      · cases h
      · split at h
        · cases h
        · split at h
          · cases h
          · split at h
            · cases h
            · simp only [Option.some.injEq] at h
              subst h
              exact ⟨hpos, hlen, hnf⟩

theorem key_rename_ok (renames : List StringPair) (key : Bytes) (len : Nat)
    (hlen : len ≤ key.length) (hk : NulFree (key.take len)) :
    (key_rename renames key len).2 ≤ (key_rename renames key len).1.length ∧
      NulFree ((key_rename renames key len).1.take (key_rename renames key len).2) := by
  unfold key_rename
  split
  · exact ⟨hlen, hk⟩
  · split
    · simp only []
      rw [take_strlen]
      exact ⟨strlen_le _, nulFree_cstr _⟩
    · exact ⟨hlen, hk⟩

theorem resolved_key_ok (renames : List StringPair) (do_ren : Bool) {line_buf : Bytes}
    {read : Nat} {a : Assignment} (h : config_line line_buf read = some a) :
    (resolved_key renames do_ren a).2 ≤ (resolved_key renames do_ren a).1.length ∧
      NulFree (stored_name renames do_ren a) := by
  obtain ⟨_, hlen, hnf⟩ := config_line_name_ok h
  unfold stored_name resolved_key
  cases do_ren
  · exact ⟨hlen, hnf⟩
  · exact key_rename_ok renames _ _ hlen hnf

theorem loop_nil (renames : List StringPair) (notrace : Bool) (source : Bytes)
    (is_def do_ren : Bool) (st : Globals) (ln : Nat) :
    parse_configfile_loop renames notrace source is_def do_ren st ln [] = st := rfl

theorem loop_cons_none (renames : List StringPair) (notrace : Bool) (source : Bytes)
    (is_def do_ren : Bool) (st : Globals) (ln : Nat) (line_buf : Bytes) (rest : List Bytes)
    (h : config_line line_buf line_buf.length = none) :
    parse_configfile_loop renames notrace source is_def do_ren st ln (line_buf :: rest) =
      parse_configfile_loop renames notrace source is_def do_ren st (ln + 1) rest := by
  rw [parse_configfile_loop]; simp only [h]

theorem loop_cons_some (renames : List StringPair) (notrace : Bool) (source : Bytes)
    (is_def do_ren : Bool) (st : Globals) (ln : Nat) (line_buf : Bytes) (rest : List Bytes)
    (a : Assignment) (h : config_line line_buf line_buf.length = some a) :
    parse_configfile_loop renames notrace source is_def do_ren st ln (line_buf :: rest) =
      parse_configfile_loop renames notrace source is_def do_ren
        (store_name_value_source notrace st (resolved_key renames do_ren a).1
          (resolved_key renames do_ren a).2 a.value a.value_len source (ln + 1) a.append is_def)
        (ln + 1) rest := by
  rw [parse_configfile_loop]; simp only [h, resolved_key]

theorem loop_append (renames : List StringPair) (notrace : Bool) (source : Bytes)
    (is_def do_ren : Bool) (st : Globals) (ln : Nat) (l1 l2 : List Bytes) :
    parse_configfile_loop renames notrace source is_def do_ren st ln (l1 ++ l2) =
      parse_configfile_loop renames notrace source is_def do_ren
        (parse_configfile_loop renames notrace source is_def do_ren st ln l1)
        (ln + l1.length) l2 := by
  induction l1 generalizing st ln with
  | nil => simp [loop_nil]
  | cons x rest ih =>
    rw [List.cons_append]
    have hl : ln + (x :: rest).length = ln + 1 + rest.length := by simp; omega
    cases h : config_line x x.length with
    | none => rw [loop_cons_none _ _ _ _ _ _ _ _ _ h, loop_cons_none _ _ _ _ _ _ _ _ _ h, ih, hl]
    | some a =>
      rw [loop_cons_some _ _ _ _ _ _ _ _ _ a h, loop_cons_some _ _ _ _ _ _ _ _ _ a h, ih, hl]

theorem loop_wf (renames : List StringPair) (notrace : Bool) (source : Bytes)
    (is_def do_ren : Bool) (st : Globals) (ln : Nat) (lines : List Bytes)
    (hwf : st.names.WF) :
    (parse_configfile_loop renames notrace source is_def do_ren st ln lines).names.WF := by
  induction lines generalizing st ln with
  | nil => exact hwf
  | cons x rest ih =>
    cases h : config_line x x.length with
    | none => rw [loop_cons_none _ _ _ _ _ _ _ _ _ h]; exact ih _ _ hwf
    | some a =>
      rw [loop_cons_some _ _ _ _ _ _ _ _ _ a h]
      obtain ⟨hlen, hnf⟩ := resolved_key_ok renames do_ren h
      exact ih _ _ (store_wf hwf _ _ _ _ _ _ _ _ _ hlen hnf)

theorem filter_set_other {α : Type} (p : α → Bool) (l : List α) (i : Nat) (e x : α)
    (hi : l[i]? = some e) (he : p e = false) (hx : p x = false) :
    (l.set i x).filter p = l.filter p := by
  have hlt : i < l.length := (List.getElem?_eq_some.mp hi).1
  have hget : l[i] = e := (List.getElem?_eq_some.mp hi).2
  rw [List.set_eq_take_append_cons_drop, if_pos hlt]
  conv_rhs => rw [← List.take_append_drop i l, List.drop_eq_getElem_cons hlt, hget]
  simp [List.filter_append, List.filter_cons, he, hx]

/-- A call for one name leaves the entries of every other name as they are. -/
theorem store_frame {st : Globals} (hwf : st.names.WF) (notrace : Bool) (key : Bytes)
    (key_len : Nat) (value : Bytes) (value_len : Nat) (source : Bytes) (line : Nat)
    (append is_def : Bool) (hlen : key_len ≤ key.length) (hk : NulFree (key.take key_len))
    (k : Bytes) (hne : key.take key_len ≠ k) :
    (store_name_value_source notrace st key key_len value value_len source line append
      is_def).names.infos.filter (fun e => e.name = k) =
    st.names.infos.filter (fun e => e.name = k) := by
  by_cases hex : ∃ e ∈ st.names.infos, e.name = key.take key_len
  · obtain ⟨e, hmem, he⟩ := hex
    obtain ⟨i, hi⟩ := List.mem_iff_getElem?.mp hmem
    rw [store_existing hwf notrace key key_len value value_len source line append is_def
      hlen hk i e hi he]
    apply filter_set_other _ _ _ e _ hi
    · simp only [decide_eq_false_iff_not]; rw [he]; exact hne
    · simp only [decide_eq_false_iff_not, updated_entry_name]; rw [he]; exact hne
  · have hnew : ∀ e ∈ st.names.infos, e.name ≠ key.take key_len :=
      fun e he hn => hex ⟨e, he, hn⟩
    obtain ⟨index, _, _, _, heq⟩ := store_new hwf notrace key key_len value value_len
      source line append is_def hlen hk hnew
    rw [heq]
    simp [List.filter_append, List.filter_cons, new_entry, str_materialize, hne]

/-- After a call with `append = false` the entry of the name holds the new
value and provenance. -/
theorem store_assign_has_entry {st : Globals} (hwf : st.names.WF) (notrace : Bool)
    (key : Bytes) (key_len : Nat) (value : Bytes) (value_len : Nat) (source : Bytes)
    (line : Nat) (is_def : Bool) (hlen : key_len ≤ key.length)
    (hk : NulFree (key.take key_len)) :
    has_entry (store_name_value_source notrace st key key_len value value_len source line
      false is_def) (key.take key_len) (value.take value_len) (location_of source line) := by
  unfold has_entry
  by_cases hex : ∃ e ∈ st.names.infos, e.name = key.take key_len
  · obtain ⟨e, hmem, he⟩ := hex
    obtain ⟨i, hi⟩ := List.mem_iff_getElem?.mp hmem
    have hilt : i < st.names.infos.length := (List.getElem?_eq_some.mp hi).1
    rw [store_existing hwf notrace key key_len value value_len source line false is_def
      hlen hk i e hi he]
    refine ⟨updated_entry e value value_len source line false, ?_, ?_, rfl, rfl⟩
    · apply List.mem_iff_getElem?.mpr
      exact ⟨i, by simp [List.getElem?_set, hilt]⟩
    · rw [updated_entry_name, he]
  · have hnew : ∀ e ∈ st.names.infos, e.name ≠ key.take key_len :=
      fun e he hn => hex ⟨e, he, hn⟩
    obtain ⟨index, _, _, _, heq⟩ := store_new hwf notrace key key_len value value_len
      source line false is_def hlen hk hnew
    rw [heq]
    exact ⟨new_entry key key_len value value_len source line is_def, by simp, rfl, rfl, rfl⟩

theorem has_entry_of_filter_eq {st st' : Globals} {k v s : Bytes}
    (h : st'.names.infos.filter (fun e => e.name = k) =
      st.names.infos.filter (fun e => e.name = k))
    (he : has_entry st k v s) : has_entry st' k v s := by
  obtain ⟨e, hmem, hn, hv, hs⟩ := he
  have : e ∈ st.names.infos.filter (fun e => e.name = k) := by
    rw [List.mem_filter]; exact ⟨hmem, by simpa using hn⟩
  rw [← h, List.mem_filter] at this
  exact ⟨e, this.1, hn, hv, hs⟩

/-- Lines that are not stored under `k` leave the entries named `k` as they are. -/
theorem loop_frame (renames : List StringPair) (notrace : Bool) (source : Bytes)
    (is_def do_ren : Bool) (k : Bytes) (st : Globals) (ln : Nat) (lines : List Bytes)
    (hwf : st.names.WF) (hno : ∀ L ∈ lines, line_name renames do_ren L ≠ some k) :
    (parse_configfile_loop renames notrace source is_def do_ren st ln lines).names.infos.filter
      (fun e => e.name = k) = st.names.infos.filter (fun e => e.name = k) := by
  induction lines generalizing st ln with
  | nil => rfl
  | cons x rest ih =>
    have hrest : ∀ L ∈ rest, line_name renames do_ren L ≠ some k :=
      fun L hL => hno L (List.mem_cons_of_mem _ hL)
    cases h : config_line x x.length with
    | none => rw [loop_cons_none _ _ _ _ _ _ _ _ _ h]; exact ih _ _ hwf hrest
    | some a =>
      rw [loop_cons_some _ _ _ _ _ _ _ _ _ a h]
      obtain ⟨hlen, hnf⟩ := resolved_key_ok renames do_ren h
      have hx : stored_name renames do_ren a ≠ k := by
        intro hk
        apply hno x (List.mem_cons_self _ _)
        simp [line_name, h, hk]
      rw [ih _ _ (store_wf hwf _ _ _ _ _ _ _ _ _ hlen hnf) hrest]
      exact store_frame hwf _ _ _ _ _ _ _ _ _ hlen hnf k hx

/-- The last `=` line for a name decides its value and provenance. -/
theorem loop_last_assign (renames : List StringPair) (notrace : Bool) (source : Bytes)
    (is_def do_ren : Bool) (st : Globals) (ln : Nat) (l1 l2 : List Bytes) (L : Bytes)
    (a : Assignment) (hwf : st.names.WF) (hL : config_line L L.length = some a)
    (hassign : a.append = false)
    (hno : ∀ L' ∈ l2, line_name renames do_ren L' ≠ some (stored_name renames do_ren a)) :
    has_entry
      (parse_configfile_loop renames notrace source is_def do_ren st ln (l1 ++ L :: l2))
      (stored_name renames do_ren a) (a.value.take a.value_len)
      (location_of source (ln + l1.length + 1)) := by
  rw [loop_append, loop_cons_some _ _ _ _ _ _ _ _ _ a hL]
  have hwf1 := loop_wf renames notrace source is_def do_ren st ln l1 hwf
  obtain ⟨hlen, hnf⟩ := resolved_key_ok renames do_ren hL
  have hwf2 := store_wf hwf1 notrace (resolved_key renames do_ren a).1
    (resolved_key renames do_ren a).2 a.value a.value_len source (ln + l1.length + 1)
    a.append is_def hlen hnf
  refine has_entry_of_filter_eq (loop_frame _ _ _ _ _ _ _ _ _ hwf2 hno) ?_
  rw [hassign]
  exact store_assign_has_entry hwf1 _ _ _ _ _ _ _ _ hlen hnf

theorem main_globals (env : Env) (opts : Opts) (deflines : List Bytes)
    (hdef : env.fopen env.CONF_DEF = some deflines) :
    (main env opts).globals = stage_user env opts := by
  unfold main stage_user stage_dropins stage_default main_do_rename main_renames
  simp only [hdef, parse_configfile]
  cases hdir : env.opendir env.CONF_DIR <;> cases husr : env.fopen env.CONF_USR <;>
    cases hold : env.fopen env.CONF_OLD <;> simp

theorem parse_configfile_snd (CONF_DEF : Bytes) (renames : List StringPair) (notrace : Bool)
    (st : Globals) (file : Bytes) (content : Option (List Bytes)) (do_ren : Bool) :
    (parse_configfile CONF_DEF renames notrace st file content do_ren).2 =
      match content with
      | none => st
      | some lines =>
        parse_configfile_loop renames notrace (source_of CONF_DEF file)
          (decide (strcmp file CONF_DEF = 0)) do_ren st 0 lines := by
  unfold parse_configfile source_of
  cases content <;> simp

theorem parse_configfile_wf (CONF_DEF : Bytes) (renames : List StringPair) (notrace : Bool)
    (st : Globals) (file : Bytes) (content : Option (List Bytes)) (do_ren : Bool)
    (hwf : st.names.WF) :
    (parse_configfile CONF_DEF renames notrace st file content do_ren).2.names.WF := by
  rw [parse_configfile_snd]
  cases content with
  | none => exact hwf
  | some lines => exact loop_wf _ _ _ _ _ _ _ _ hwf

theorem parse_configfile_frame (CONF_DEF : Bytes) (renames : List StringPair) (notrace : Bool)
    (st : Globals) (file : Bytes) (content : Option (List Bytes)) (do_ren : Bool)
    (hwf : st.names.WF) (k : Bytes)
    (hno : ∀ ls, content = some ls → ∀ L ∈ ls, line_name renames do_ren L ≠ some k) :
    (parse_configfile CONF_DEF renames notrace st file content do_ren).2.names.infos.filter
      (fun e => e.name = k) = st.names.infos.filter (fun e => e.name = k) := by
  rw [parse_configfile_snd]
  cases content with
  | none => rfl
  | some lines => exact loop_frame _ _ _ _ _ _ _ _ _ hwf (hno lines rfl)

theorem parse_dropins_append (CONF_DEF : Bytes) (renames : List StringPair)
    (notrace do_rename : Bool) (st : Globals) (l1 l2 : List Dirent) :
    parse_dropins CONF_DEF renames notrace do_rename st (l1 ++ l2) =
      parse_dropins CONF_DEF renames notrace do_rename
        (parse_dropins CONF_DEF renames notrace do_rename st l1) l2 := by
  induction l1 generalizing st with
  | nil => rfl
  | cons d rest ih =>
    rw [List.cons_append, parse_dropins, parse_dropins]
    split
    · exact ih _
    · exact ih _

theorem parse_dropins_wf (CONF_DEF : Bytes) (renames : List StringPair)
    (notrace do_rename : Bool) (st : Globals) (dir : List Dirent) (hwf : st.names.WF) :
    (parse_dropins CONF_DEF renames notrace do_rename st dir).names.WF := by
  induction dir generalizing st with
  | nil => exact hwf
  | cons d rest ih =>
    rw [parse_dropins]
    split
    · exact ih _ (parse_configfile_wf _ _ _ _ _ _ _ hwf)
    · exact ih _ hwf

theorem parse_dropins_frame (CONF_DEF : Bytes) (renames : List StringPair)
    (notrace do_rename : Bool) (st : Globals) (dir : List Dirent) (hwf : st.names.WF)
    (k : Bytes)
    (hno : ∀ d ∈ dir, has_conf_suffix d = true → ∀ ls, d.content = some ls →
      ∀ L ∈ ls, line_name renames do_rename L ≠ some k) :
    (parse_dropins CONF_DEF renames notrace do_rename st dir).names.infos.filter
      (fun e => e.name = k) = st.names.infos.filter (fun e => e.name = k) := by
  induction dir generalizing st with
  | nil => rfl
  | cons d rest ih =>
    have hrest : ∀ d' ∈ rest, has_conf_suffix d' = true → ∀ ls, d'.content = some ls →
        ∀ L ∈ ls, line_name renames do_rename L ≠ some k :=
      fun d' hd' => hno d' (List.mem_cons_of_mem _ hd')
    rw [parse_dropins]
    split
    · rename_i hs
      rw [ih _ (parse_configfile_wf _ _ _ _ _ _ _ hwf) hrest]
      exact parse_configfile_frame _ _ _ _ _ _ _ hwf k (hno d (List.mem_cons_self _ _) hs)
    · exact ih _ hwf hrest

theorem stage_default_wf (env : Env) (opts : Opts) : (stage_default env opts).names.WF :=
  parse_configfile_wf _ _ _ _ _ _ _ wf_init

theorem stage_dropins_wf (env : Env) (opts : Opts) : (stage_dropins env opts).names.WF := by
  unfold stage_dropins
  split
  · exact parse_dropins_wf _ _ _ _ _ _ (stage_default_wf env opts)
  · exact stage_default_wf env opts

theorem stage_user_wf (env : Env) (opts : Opts) : (stage_user env opts).names.WF := by
  unfold stage_user
  split <;> exact parse_configfile_wf _ _ _ _ _ _ _ (stage_dropins_wf env opts)

theorem stage_user_frame (env : Env) (opts : Opts) (k : Bytes)
    (husr : ∀ ls, env.fopen env.CONF_USR = some ls →
      ∀ L ∈ ls, line_name (main_renames env) (main_do_rename env) L ≠ some k)
    (hold : env.fopen env.CONF_USR = none → ∀ ls, env.fopen env.CONF_OLD = some ls →
      ∀ L ∈ ls, line_name (main_renames env) (main_do_rename env) L ≠ some k) :
    (stage_user env opts).names.infos.filter (fun e => e.name = k) =
      (stage_dropins env opts).names.infos.filter (fun e => e.name = k) := by
  unfold stage_user
  cases h : env.fopen env.CONF_USR with
  | some lines =>
    exact parse_configfile_frame _ _ _ _ _ _ _ (stage_dropins_wf env opts) k
      (fun ls hls => by cases hls; exact husr lines h)
  | none =>
    exact parse_configfile_frame _ _ _ _ _ _ _ (stage_dropins_wf env opts) k (hold h)

/-- C5: when the default file opens, (1) a drop-in file (other than the
default file) has an accepted `=` line for a name, and no later line of that
file, no later drop-in file and no line of the user file read (the legacy one
when the primary cannot be opened) is stored under that name, then after the
cascade the entry of the name holds the drop-in's value with provenance
`<drop-in filename> L<line>`, whatever the default file assigned; (2) likewise
the last `=` line of the user file decides, with the user file as provenance. -/
theorem cascade_override (env : Env) (opts : Opts) (deflines : List Bytes)
    (hdef : env.fopen env.CONF_DEF = some deflines) :
    (∀ (dir before after : List Dirent) (d : Dirent) (dlines l1 l2 : List Bytes) (L : Bytes)
        (a : Assignment),
      env.opendir env.CONF_DIR = some dir → dir = before ++ d :: after →
      has_conf_suffix d = true → strcmp d.d_name env.CONF_DEF ≠ 0 →
      d.content = some dlines → dlines = l1 ++ L :: l2 →
      config_line L L.length = some a → a.append = false →
      (∀ L' ∈ l2, line_name (main_renames env) (main_do_rename env) L' ≠
        some (stored_name (main_renames env) (main_do_rename env) a)) →
      (∀ d' ∈ after, has_conf_suffix d' = true → ∀ ls, d'.content = some ls →
        ∀ L' ∈ ls, line_name (main_renames env) (main_do_rename env) L' ≠
          some (stored_name (main_renames env) (main_do_rename env) a)) →
      (∀ ls, env.fopen env.CONF_USR = some ls →
        ∀ L' ∈ ls, line_name (main_renames env) (main_do_rename env) L' ≠
          some (stored_name (main_renames env) (main_do_rename env) a)) →
      (env.fopen env.CONF_USR = none → ∀ ls, env.fopen env.CONF_OLD = some ls →
        ∀ L' ∈ ls, line_name (main_renames env) (main_do_rename env) L' ≠
          some (stored_name (main_renames env) (main_do_rename env) a)) →
      has_entry (main env opts).globals
        (stored_name (main_renames env) (main_do_rename env) a) (a.value.take a.value_len)
        (cstr d.d_name ++ " L".toList ++ fmt_04zu (l1.length + 1))) ∧
    (∀ (ulines l1 l2 : List Bytes) (L : Bytes) (a : Assignment),
      env.fopen env.CONF_USR = some ulines → strcmp env.CONF_USR env.CONF_DEF ≠ 0 →
      ulines = l1 ++ L :: l2 → config_line L L.length = some a → a.append = false →
      (∀ L' ∈ l2, line_name (main_renames env) (main_do_rename env) L' ≠
        some (stored_name (main_renames env) (main_do_rename env) a)) →
      has_entry (main env opts).globals
        (stored_name (main_renames env) (main_do_rename env) a) (a.value.take a.value_len)
        (cstr env.CONF_USR ++ " L".toList ++ fmt_04zu (l1.length + 1))) := by
  rw [main_globals env opts deflines hdef]
  constructor
  · intro dir before after d dlines l1 l2 L a hdir hsplit hconf hnotdef hcontent hlines hL
      hassign hl2 hafter husr hold
    refine has_entry_of_filter_eq (stage_user_frame env opts _ husr hold) ?_
    unfold stage_dropins
    rw [hdir]
    simp only []
    rw [hsplit, parse_dropins_append, parse_dropins, if_pos hconf]
    have hwf0 := parse_dropins_wf env.CONF_DEF (main_renames env) opts.notrace
      (main_do_rename env) (stage_default env opts) before (stage_default_wf env opts)
    refine has_entry_of_filter_eq
      (parse_dropins_frame _ _ _ _ _ _ (parse_configfile_wf _ _ _ _ _ _ _ hwf0) _ hafter) ?_
    rw [parse_configfile_snd, hcontent]
    simp only []
    rw [hlines]
    have hsrc : source_of env.CONF_DEF d.d_name = d.d_name := by
      unfold source_of; rw [if_neg hnotdef]
    have := loop_last_assign (main_renames env) opts.notrace (source_of env.CONF_DEF d.d_name)
      (decide (strcmp d.d_name env.CONF_DEF = 0)) (main_do_rename env) _ 0 l1 l2 L a hwf0 hL
      hassign hl2
    rw [hsrc] at this ⊢
    simpa [location_of] using this
  · intro ulines l1 l2 L a husr hnotdef hlines hL hassign hl2
    unfold stage_user
    rw [husr]
    simp only []
    rw [parse_configfile_snd]
    simp only []
    rw [hlines]
    have hsrc : source_of env.CONF_DEF env.CONF_USR = env.CONF_USR := by
      unfold source_of; rw [if_neg hnotdef]
    have := loop_last_assign (main_renames env) opts.notrace
      (source_of env.CONF_DEF env.CONF_USR)
      (decide (strcmp env.CONF_USR env.CONF_DEF = 0)) (main_do_rename env) _ 0 l1 l2 L a
      (stage_dropins_wf env opts) hL hassign hl2
    rw [hsrc] at this ⊢
    simpa [location_of] using this

theorem cascade_override_witness :
    has_entry (main example_env ⟨false, false, none⟩).globals "FOO".toList "2".toList
      "a.conf L0002".toList ∧
    has_entry (main example_env ⟨false, false, none⟩).globals "NEW".toList "3".toList
      "/etc/tlp.conf L0003".toList :=
  ⟨(cascade_override example_env ⟨false, false, none⟩
      ["FOO=\"1\"\n".toList, "BAR=x\n".toList, "OLD=0\n".toList] (by decide)).1
      [⟨"0000000000000000000".toList, "..".toList, some []⟩,
        ⟨"0000000000000000000".toList, "a.conf".toList,
          some ["# drop-in\n".toList, "FOO=\"2\"\n".toList]⟩]
      [⟨"0000000000000000000".toList, "..".toList, some []⟩] []
      ⟨"0000000000000000000".toList, "a.conf".toList,
        some ["# drop-in\n".toList, "FOO=\"2\"\n".toList]⟩
      ["# drop-in\n".toList, "FOO=\"2\"\n".toList] ["# drop-in\n".toList] []
      "FOO=\"2\"\n".toList ⟨"FOO=\"2\"\n".toList, 3, false, "2\"\n".toList, 1⟩
      rfl rfl (by decide) (by decide) rfl rfl (by decide) rfl (by decide) (by decide)
      (fun ls h => by
        have h' : ["# user settings\n".toList, "BAR+=y\n".toList, "OLD=\"3\"\n".toList] = ls :=
          Option.some.inj h
        subst h'; decide)
      (fun h => absurd h (by decide)),
   (cascade_override example_env ⟨false, false, none⟩
      ["FOO=\"1\"\n".toList, "BAR=x\n".toList, "OLD=0\n".toList] (by decide)).2
      ["# user settings\n".toList, "BAR+=y\n".toList, "OLD=\"3\"\n".toList]
      ["# user settings\n".toList, "BAR+=y\n".toList] [] "OLD=\"3\"\n".toList
      ⟨"OLD=\"3\"\n".toList, 3, false, "3\"\n".toList, 1⟩
      rfl (by decide) rfl (by decide) rfl (by decide)⟩

/-- A zero result of `string_slice_cmp` means the C string equals the slice. -/
theorem string_slice_cmp_eq_zero (key str : Bytes) (len : Nat)
    (h : string_slice_cmp ⟨len, key⟩ str = 0) : cstr str = key.take len := by
  induction len generalizing key str with
  | zero =>
    simp only [string_slice_cmp, strncmp_zero, ne_eq, not_true_eq_false, if_false] at h
    split at h
    · rename_i h0
      simp only [strlen, List.length_eq_zero] at h0
      simp [h0]
    · cases h
  | succ n ih =>
    have hstr : strlen str = n + 1 := by
      simp only [string_slice_cmp] at h
      split at h
      · rename_i h1; exact absurd h h1
      · split at h
        · assumption
        · cases h
    have hs : strncmp key str (n + 1) = 0 := by
      simp only [string_slice_cmp] at h
      split at h
      · rename_i h1; exact absurd h h1
      · rename_i h1; simpa using h1
    cases str with
    | nil => simp [strlen, cstr] at hstr
    | cons y ys =>
      have hy : y ≠ NUL := by
        intro h0; subst h0; simp [strlen, cstr_cons_NUL] at hstr
      cases key with
      | nil =>
        rw [strncmp_succ] at hs
        simp only [List.headD_nil, List.headD_cons] at hs
        have hne : NUL ≠ y := fun h0 => hy h0.symm
        rw [if_pos hne] at hs
        have := toNat_ne hne
        omega
      | cons x ks =>
        rw [strncmp_succ] at hs
        simp only [List.headD_cons, List.tail_cons] at hs
        by_cases hxy : x = y
        · subst hxy
          have hrec : string_slice_cmp ⟨n, ks⟩ ys = 0 := by
            rw [← string_slice_cmp_cons x ks ys n hy]; exact h
          rw [cstr_cons_ne ys hy, List.take_succ_cons, ih ks ys hrec]
        · rw [if_pos hxy] at hs
          have := toNat_ne hxy
          omega

theorem table_cmp_eq (key : Bytes) (len : Nat) (p : StringPair) (hlen : len ≤ key.length) :
    string_pair_slice_search_cmp ⟨len, key⟩ p =
      string_slice_cmp ⟨(key.take len).length, key.take len⟩ (cstr p.first) := by
  unfold string_pair_slice_search_cmp
  rw [string_slice_cmp_take, List.length_take, Nat.min_eq_left hlen]

/-- A table sorted by `string_pair_compare` gives the comparator of
`string_pair_slice_search` monotone signs. -/
theorem table_signMono (T : List StringPair)
    (hsorted : T.Pairwise (fun p q => string_pair_compare p q ≤ 0)) (key : Bytes) (len : Nat)
    (hlen : len ≤ key.length) (hk : NulFree (key.take len)) :
    SignMono string_pair_slice_search_cmp ⟨len, key⟩ T := by
  intro i j hi hj hij
  have hs := (List.pairwise_iff_getElem.mp hsorted) i j hi hj hij
  unfold string_pair_compare at hs
  have hle : blt (cstr T[i].first) (cstr T[j].first) ∨ cstr T[i].first = cstr T[j].first := by
    rcases strcmp_sign T[i].first T[j].first with h | h | h
    · exact Or.inl h.1
    · exact Or.inr h.1
    · omega
  rw [table_cmp_eq key len _ hlen, table_cmp_eq key len _ hlen]
  constructor
  · intro h
    rw [gt_iff_lt, ← gt_iff_lt, string_slice_cmp_gt_iff hk (nulFree_cstr _)] at h
    rw [gt_iff_lt, ← gt_iff_lt, string_slice_cmp_gt_iff hk (nulFree_cstr _)]
    rcases hle with hle | hle
    · exact blt_trans hle h
    · rw [hle]; exact h
  · intro h
    rw [string_slice_cmp_lt_iff hk (nulFree_cstr _)] at h
    rw [string_slice_cmp_lt_iff hk (nulFree_cstr _)]
    rcases hle with hle | hle
    · exact blt_trans h hle
    · rw [← hle]; exact h

/-- A key that is an old name of exactly one pair is renamed to that pair's
new name. -/
theorem key_rename_found (T : List StringPair)
    (hsorted : T.Pairwise (fun p q => string_pair_compare p q ≤ 0)) (key : Bytes) (len : Nat)
    (hpos : 0 < len) (hlen : len ≤ key.length) (hk : NulFree (key.take len))
    (p : StringPair) (hp : p ∈ T) (hpk : cstr p.first = key.take len)
    (huniq : ∀ q ∈ T, cstr q.first = key.take len → q.second = p.second) :
    key_rename T key len = (p.second, strlen p.second) := by
  have hmono := table_signMono T hsorted key len hlen hk
  have hne : T ≠ [] := List.ne_nil_of_mem hp
  unfold key_rename string_pair_slice_search
  have h0 : ¬ len = 0 := by omega
  have h1 : T.isEmpty = false := by cases T <;> simp_all
  simp only [h0, if_false, h1, decide_False, Bool.or_self, Bool.false_eq_true]
  cases hb : bsearch string_pair_slice_search_cmp ⟨len, key⟩ T with
  | none =>
    exfalso
    apply bsearch_none hmono hb p hp
    rw [table_cmp_eq key len _ hlen]
    exact (string_slice_cmp_eq_iff hk (nulFree_cstr _)).mpr hpk.symm
  | some q =>
    obtain ⟨hq, hq0⟩ := bsearch_some hb
    have := string_slice_cmp_eq_zero key q.first len hq0
    simp only [huniq q hq this]

/-- A key that is no old name of the table is left as it is. -/
theorem key_rename_absent (T : List StringPair) (key : Bytes) (len : Nat)
    (habs : ∀ q ∈ T, cstr q.first ≠ key.take len) : key_rename T key len = (key, len) := by
  unfold key_rename string_pair_slice_search
  split
  · rfl
  · split
    · rename_i renamed hsome
      split at hsome
      · cases hsome
      · obtain ⟨hq, hq0⟩ := bsearch_some hsome
        exact absurd (string_slice_cmp_eq_zero key renamed.first len hq0) (habs renamed hq)
    · rfl

/-- One accepted `=` line whose name is an old name of exactly one pair of a
sorted table: it is stored under the pair's new name, and the entries named by
any other name are left as they are. -/
theorem loop_single_renamed (T : List StringPair)
    (hsorted : T.Pairwise (fun p q => string_pair_compare p q ≤ 0))
    (OLD NEW : Bytes) (hNEW : NulFree NEW) (hmem : (⟨OLD, NEW⟩ : StringPair) ∈ T)
    (hOLD : NulFree OLD) (huniq : ∀ q ∈ T, cstr q.first = OLD → q.second = NEW)
    (st : Globals) (hwf : st.names.WF) (notrace : Bool) (source : Bytes) (is_def : Bool)
    (ln : Nat) (line : Bytes) (a : Assignment)
    (hline : config_line line line.length = some a) (hname : a.name.take a.name_len = OLD)
    (hassign : a.append = false) :
    has_entry (parse_configfile_loop T notrace source is_def (decide (T.length ≠ 0)) st ln [line])
      NEW (a.value.take a.value_len) (cstr source ++ " L".toList ++ fmt_04zu (ln + 1)) ∧
    ∀ k, k ≠ NEW →
      (parse_configfile_loop T notrace source is_def (decide (T.length ≠ 0)) st ln
        [line]).names.infos.filter (fun e => e.name = k) =
      st.names.infos.filter (fun e => e.name = k) := by
  obtain ⟨hpos, hlen, hnf⟩ := config_line_name_ok hline
  have hT : decide (T.length ≠ 0) = true := by
    cases T with
    | nil => cases hmem
    | cons _ _ => simp
  have hkr : key_rename T a.name a.name_len = (NEW, strlen NEW) := by
    have := key_rename_found T hsorted a.name a.name_len hpos hlen hnf ⟨OLD, NEW⟩ hmem
      (by simp only []; rw [cstr_of_nulFree hOLD, hname])
      (fun q hq hqk => huniq q hq (by rw [hqk, hname]))
    simpa using this
  have hres : resolved_key T (decide (T.length ≠ 0)) a = (NEW, NEW.length) := by
    unfold resolved_key
    rw [hT, if_pos rfl, hkr, strlen_of_nulFree hNEW]
  have htake : NEW.take NEW.length = NEW := List.take_length _
  have hk : NulFree (NEW.take NEW.length) := by rw [htake]; exact hNEW
  rw [loop_cons_some _ _ _ _ _ _ _ _ _ a hline, loop_nil, hres, hassign]
  constructor
  · have := store_assign_has_entry hwf notrace NEW NEW.length a.value a.value_len source
      (ln + 1) is_def (Nat.le_refl _) hk
    rw [htake] at this
    simpa [location_of] using this
  · intro k hne
    exact store_frame hwf notrace NEW NEW.length a.value a.value_len source (ln + 1) false
      is_def (Nat.le_refl _) hk k (by rw [htake]; exact fun h => hne h.symm)

theorem persists_refl (st : Globals) : Persists st st :=
  fun e he => ⟨e, he, rfl, rfl⟩

theorem persists_trans {s1 s2 s3 : Globals} (h12 : Persists s1 s2) (h23 : Persists s2 s3) :
    Persists s1 s3 := by
  intro e he
  obtain ⟨e2, he2, hn2, hd2⟩ := h12 e he
  obtain ⟨e3, he3, hn3, hd3⟩ := h23 e2 he2
  exact ⟨e3, he3, hn3.trans hn2, hd3.trans hd2⟩

theorem store_persists {st : Globals} (hwf : st.names.WF) (notrace : Bool) (key : Bytes)
    (key_len : Nat) (value : Bytes) (value_len : Nat) (source : Bytes) (line : Nat)
    (append is_def : Bool) (hlen : key_len ≤ key.length) (hk : NulFree (key.take key_len)) :
    Persists st (store_name_value_source notrace st key key_len value value_len source line
      append is_def) := by
  intro e0 he0
  by_cases hex : ∃ e ∈ st.names.infos, e.name = key.take key_len
  · obtain ⟨e, hmem, he⟩ := hex
    obtain ⟨i, hi⟩ := List.mem_iff_getElem?.mp hmem
    have hilt : i < st.names.infos.length := (List.getElem?_eq_some.mp hi).1
    rw [store_existing hwf notrace key key_len value value_len source line append is_def
      hlen hk i e hi he]
    obtain ⟨j, hj⟩ := List.mem_iff_getElem?.mp he0
    by_cases hij : i = j
    · subst hij
      have hee : e0 = e := by rw [hi] at hj; exact (Option.some.inj hj).symm
      rw [hee]
      refine ⟨updated_entry e value value_len source line append, ?_,
        updated_entry_name _ _ _ _ _ _, updated_entry_defv _ _ _ _ _ _⟩
      exact List.mem_iff_getElem?.mpr ⟨i, by simp [List.getElem?_set, hilt]⟩
    · refine ⟨e0, ?_, rfl, rfl⟩
      exact List.mem_iff_getElem?.mpr ⟨j, by simp [List.getElem?_set, hij, hj]⟩
  · have hnew : ∀ e ∈ st.names.infos, e.name ≠ key.take key_len :=
      fun e he hn => hex ⟨e, he, hn⟩
    obtain ⟨index, _, _, _, heq⟩ := store_new hwf notrace key key_len value value_len
      source line append is_def hlen hk hnew
    rw [heq]
    exact ⟨e0, List.mem_append_left _ he0, rfl, rfl⟩

/-- After a call the store holds an entry of the name; with `is_def` set and
a store whose entries all have a snapshot, so has every entry afterwards. -/
theorem store_creates {st : Globals} (hwf : st.names.WF) (notrace : Bool) (key : Bytes)
    (key_len : Nat) (value : Bytes) (value_len : Nat) (source : Bytes) (line : Nat)
    (append : Bool) (hlen : key_len ≤ key.length) (hk : NulFree (key.take key_len))
    (hall : ∀ e ∈ st.names.infos, e.defv.isSome = true) :
    (∃ e ∈ (store_name_value_source notrace st key key_len value value_len source line
        append true).names.infos, e.name = key.take key_len) ∧
    ∀ e ∈ (store_name_value_source notrace st key key_len value value_len source line
        append true).names.infos, e.defv.isSome = true := by
  by_cases hex : ∃ e ∈ st.names.infos, e.name = key.take key_len
  · obtain ⟨e, hmem, he⟩ := hex
    obtain ⟨i, hi⟩ := List.mem_iff_getElem?.mp hmem
    have hilt : i < st.names.infos.length := (List.getElem?_eq_some.mp hi).1
    rw [store_existing hwf notrace key key_len value value_len source line append true
      hlen hk i e hi he]
    constructor
    · refine ⟨updated_entry e value value_len source line append, ?_, ?_⟩
      · exact List.mem_iff_getElem?.mpr ⟨i, by simp [List.getElem?_set, hilt]⟩
      · rw [updated_entry_name, he]
    · intro e' he'
      rcases List.mem_or_eq_of_mem_set he' with h | h
      · exact hall e' h
      · rw [h, updated_entry_defv]; exact hall e hmem
  · have hnew : ∀ e ∈ st.names.infos, e.name ≠ key.take key_len :=
      fun e he hn => hex ⟨e, he, hn⟩
    obtain ⟨index, _, _, _, heq⟩ := store_new hwf notrace key key_len value value_len
      source line append true hlen hk hnew
    rw [heq]
    constructor
    · exact ⟨new_entry key key_len value value_len source line true, by simp, rfl⟩
    · intro e' he'
      simp only [List.mem_append, List.mem_singleton] at he'
      rcases he' with h | h
      · exact hall e' h
      · rw [h]; simp [new_entry]

theorem loop_persists (renames : List StringPair) (notrace : Bool) (source : Bytes)
    (is_def do_ren : Bool) (st : Globals) (ln : Nat) (lines : List Bytes)
    (hwf : st.names.WF) :
    Persists st (parse_configfile_loop renames notrace source is_def do_ren st ln lines) := by
  induction lines generalizing st ln with
  | nil => exact persists_refl st
  | cons x rest ih =>
    cases h : config_line x x.length with
    | none => rw [loop_cons_none _ _ _ _ _ _ _ _ _ h]; exact ih _ _ hwf
    | some a =>
      rw [loop_cons_some _ _ _ _ _ _ _ _ _ a h]
      obtain ⟨hlen, hnf⟩ := resolved_key_ok renames do_ren h
      exact persists_trans (store_persists hwf _ _ _ _ _ _ _ _ _ hlen hnf)
        (ih _ _ (store_wf hwf _ _ _ _ _ _ _ _ _ hlen hnf))

/-- A file read with `is_def` set, from a store whose entries all have a
snapshot: every accepted line has an entry under its stored name, and every
entry has a snapshot. -/
theorem loop_default (renames : List StringPair) (notrace : Bool) (source : Bytes)
    (do_ren : Bool) (st : Globals) (ln : Nat) (lines : List Bytes) (hwf : st.names.WF)
    (hall : ∀ e ∈ st.names.infos, e.defv.isSome = true) :
    (∀ L ∈ lines, ∀ a, config_line L L.length = some a →
      ∃ e ∈ (parse_configfile_loop renames notrace source true do_ren st ln lines).names.infos,
        e.name = stored_name renames do_ren a) ∧
    ∀ e ∈ (parse_configfile_loop renames notrace source true do_ren st ln lines).names.infos,
      e.defv.isSome = true := by
  induction lines generalizing st ln with
  | nil => exact ⟨fun L hL => (by cases hL), hall⟩
  | cons x rest ih =>
    cases h : config_line x x.length with
    | none =>
      rw [loop_cons_none _ _ _ _ _ _ _ _ _ h]
      obtain ⟨h1, h2⟩ := ih st (ln + 1) hwf hall
      refine ⟨?_, h2⟩
      intro L hL a ha
      rcases List.mem_cons.mp hL with hL | hL
      · subst hL; rw [h] at ha; cases ha
      · exact h1 L hL a ha
    | some a0 =>
      rw [loop_cons_some _ _ _ _ _ _ _ _ _ a0 h]
      obtain ⟨hlen, hnf⟩ := resolved_key_ok renames do_ren h
      have hwf' := store_wf hwf notrace (resolved_key renames do_ren a0).1
        (resolved_key renames do_ren a0).2 a0.value a0.value_len source (ln + 1) a0.append
        true hlen hnf
      obtain ⟨hc1, hc2⟩ := store_creates hwf notrace (resolved_key renames do_ren a0).1
        (resolved_key renames do_ren a0).2 a0.value a0.value_len source (ln + 1) a0.append
        hlen hnf hall
      obtain ⟨h1, h2⟩ := ih _ (ln + 1) hwf' hc2
      refine ⟨?_, h2⟩
      intro L hL a ha
      rcases List.mem_cons.mp hL with hL | hL
      · subst hL
        rw [h] at ha
        cases ha
        obtain ⟨e, he, hen⟩ := hc1
        obtain ⟨e', he', hn', _⟩ := loop_persists renames notrace source true do_ren _
          (ln + 1) rest hwf' e he
        exact ⟨e', he', hn'.trans hen⟩
      · exact h1 L hL a ha

theorem parse_configfile_persists (CONF_DEF : Bytes) (renames : List StringPair)
    (notrace : Bool) (st : Globals) (file : Bytes) (content : Option (List Bytes))
    (do_ren : Bool) (hwf : st.names.WF) :
    Persists st (parse_configfile CONF_DEF renames notrace st file content do_ren).2 := by
  rw [parse_configfile_snd]
  cases content with
  | none => exact persists_refl st
  | some lines => exact loop_persists _ _ _ _ _ _ _ _ hwf

theorem parse_dropins_persists (CONF_DEF : Bytes) (renames : List StringPair)
    (notrace do_rename : Bool) (st : Globals) (dir : List Dirent) (hwf : st.names.WF) :
    Persists st (parse_dropins CONF_DEF renames notrace do_rename st dir) := by
  induction dir generalizing st with
  | nil => exact persists_refl st
  | cons d rest ih =>
    rw [parse_dropins]
    split
    · exact persists_trans (parse_configfile_persists _ _ _ _ _ _ _ hwf)
        (ih _ (parse_configfile_wf _ _ _ _ _ _ _ hwf))
    · exact ih _ hwf

theorem stage_user_persists (env : Env) (opts : Opts) :
    Persists (stage_default env opts) (stage_user env opts) := by
  have h1 : Persists (stage_default env opts) (stage_dropins env opts) := by
    unfold stage_dropins
    split
    · exact parse_dropins_persists _ _ _ _ _ _ (stage_default_wf env opts)
    · exact persists_refl _
  have h2 : Persists (stage_dropins env opts) (stage_user env opts) := by
    unfold stage_user
    split <;> exact parse_configfile_persists _ _ _ _ _ _ _ (stage_dropins_wf env opts)
  exact persists_trans h1 h2

theorem strcmp_self (a : Bytes) : strcmp a a = 0 := (strcmp_eq_zero_iff a a).mpr rfl

theorem loop_no_rename (renames renames' : List StringPair) (notrace : Bool) (source : Bytes)
    (is_def : Bool) (st : Globals) (ln : Nat) (lines : List Bytes) :
    parse_configfile_loop renames notrace source is_def false st ln lines =
      parse_configfile_loop renames' notrace source is_def false st ln lines := by
  induction lines generalizing st ln with
  | nil => rfl
  | cons x rest ih =>
    cases h : config_line x x.length with
    | none => rw [loop_cons_none _ _ _ _ _ _ _ _ _ h, loop_cons_none _ _ _ _ _ _ _ _ _ h, ih]
    | some a =>
      rw [loop_cons_some _ _ _ _ _ _ _ _ _ a h, loop_cons_some _ _ _ _ _ _ _ _ _ a h, ih]
      rfl

/-- C6: for every rename table sorted by `string_pair_compare` that holds the
pair `(OLD, NEW)` and no pair renaming `OLD` to anything else (`OLD ≠ NEW`,
both C strings), an accepted line `OLD=...` read with renaming on (the flag
`renames.len != 0` that `main` passes in the drop-in and user stages) is
stored under `NEW` with its value, and the entries named `OLD` are exactly
those from before: none is created or modified. -/
theorem rename_applied (T : List StringPair)
    (hsorted : T.Pairwise (fun p q => string_pair_compare p q ≤ 0))
    (OLD NEW : Bytes) (hOLD : NulFree OLD) (hNEW : NulFree NEW)
    (hmem : (⟨OLD, NEW⟩ : StringPair) ∈ T)
    (huniq : ∀ q ∈ T, cstr q.first = OLD → q.second = NEW) (hne : OLD ≠ NEW)
    (st : Globals) (hwf : st.names.WF) (notrace : Bool) (source : Bytes) (is_def : Bool)
    (ln : Nat) (line : Bytes) (a : Assignment)
    (hline : config_line line line.length = some a) (hname : a.name.take a.name_len = OLD)
    (hassign : a.append = false) :
    has_entry (parse_configfile_loop T notrace source is_def (decide (T.length ≠ 0)) st ln [line])
      NEW (a.value.take a.value_len) (cstr source ++ " L".toList ++ fmt_04zu (ln + 1)) ∧
    (parse_configfile_loop T notrace source is_def (decide (T.length ≠ 0)) st ln
        [line]).names.infos.filter (fun e => e.name = OLD) =
      st.names.infos.filter (fun e => e.name = OLD) := by
  obtain ⟨h1, h2⟩ := loop_single_renamed T hsorted OLD NEW hNEW hmem hOLD huniq st hwf notrace
    source is_def ln line a hline hname hassign
  exact ⟨h1, h2 OLD hne⟩

theorem rename_applied_witness :
    has_entry
      (parse_configfile_loop [⟨"OLD".toList, "NEW".toList⟩] false "a.conf".toList false
        (decide ([(⟨"OLD".toList, "NEW".toList⟩ : StringPair)].length ≠ 0)) store_with_foo 0
        ["OLD=\"x\"\n".toList])
      "NEW".toList "x".toList "a.conf L0001".toList ∧
    (parse_configfile_loop [⟨"OLD".toList, "NEW".toList⟩] false "a.conf".toList false
        (decide ([(⟨"OLD".toList, "NEW".toList⟩ : StringPair)].length ≠ 0)) store_with_foo 0
        ["OLD=\"x\"\n".toList]).names.infos.filter (fun e => e.name = "OLD".toList) =
      store_with_foo.names.infos.filter (fun e => e.name = "OLD".toList) :=
  rename_applied [⟨"OLD".toList, "NEW".toList⟩] (List.pairwise_singleton _ _)
    "OLD".toList "NEW".toList (by decide) (by decide) (by decide) (by decide) (by decide)
    store_with_foo (store_wf wf_init _ _ _ _ _ _ _ _ _ (by decide) (by decide)) false
    "a.conf".toList false 0 "OLD=\"x\"\n".toList
    ⟨"OLD=\"x\"\n".toList, 3, false, "x\"\n".toList, 1⟩ (by decide) (by decide) rfl

/-- C7, as the code has it. (1) For every sorted rename table that holds
`(A, B)` and `(B, C)` and no pair renaming `A` to anything else, an accepted
line `A=...` read with renaming on is stored under `B`, and when `C ≠ B` the
entries named `C` are left as they are: the lookup is not chained. (2) For
every table and every name that is the old name of no pair, `key_rename`
leaves the name and its length unchanged. -/
theorem rename_not_chained (T : List StringPair)
    (hsorted : T.Pairwise (fun p q => string_pair_compare p q ≤ 0))
    (A B C : Bytes) (hA : NulFree A) (hB : NulFree B)
    (hAB : (⟨A, B⟩ : StringPair) ∈ T) (_hBC : (⟨B, C⟩ : StringPair) ∈ T)
    (huniq : ∀ q ∈ T, cstr q.first = A → q.second = B)
    (st : Globals) (hwf : st.names.WF) (notrace : Bool) (source : Bytes) (is_def : Bool)
    (ln : Nat) (line : Bytes) (a : Assignment)
    (hline : config_line line line.length = some a) (hname : a.name.take a.name_len = A)
    (hassign : a.append = false) :
    (has_entry
        (parse_configfile_loop T notrace source is_def (decide (T.length ≠ 0)) st ln [line])
        B (a.value.take a.value_len) (cstr source ++ " L".toList ++ fmt_04zu (ln + 1)) ∧
      (C ≠ B →
        (parse_configfile_loop T notrace source is_def (decide (T.length ≠ 0)) st ln
          [line]).names.infos.filter (fun e => e.name = C) =
        st.names.infos.filter (fun e => e.name = C))) ∧
    ∀ (T' : List StringPair) (key : Bytes) (len : Nat),
      (∀ q ∈ T', cstr q.first ≠ key.take len) → key_rename T' key len = (key, len) := by
  obtain ⟨h1, h2⟩ := loop_single_renamed T hsorted A B hB hAB hA huniq st hwf notrace
    source is_def ln line a hline hname hassign
  exact ⟨⟨h1, fun hne => h2 C hne⟩, fun T' key len habs => key_rename_absent T' key len habs⟩

theorem rename_not_chained_witness :
    (has_entry
        (parse_configfile_loop chain_table false "a.conf".toList false
          (decide (chain_table.length ≠ 0)) Globals.init 0 ["A=\"x\"\n".toList])
        "B".toList "x".toList "a.conf L0001".toList ∧
      ("C".toList ≠ "B".toList →
        (parse_configfile_loop chain_table false "a.conf".toList false
          (decide (chain_table.length ≠ 0)) Globals.init 0
          ["A=\"x\"\n".toList]).names.infos.filter (fun e => e.name = "C".toList) =
        Globals.init.names.infos.filter (fun e => e.name = "C".toList))) ∧
    ∀ (T' : List StringPair) (key : Bytes) (len : Nat),
      (∀ q ∈ T', cstr q.first ≠ key.take len) → key_rename T' key len = (key, len) :=
  rename_not_chained chain_table (by decide) "A".toList "B".toList "C".toList (by decide)
    (by decide) (by decide) (by decide) (by decide) Globals.init wf_init false
    "a.conf".toList false 0 "A=\"x\"\n".toList
    ⟨"A=\"x\"\n".toList, 1, false, "x\"\n".toList, 1⟩ (by decide) (by decide) rfl

/-- C7 as stated fails: `dup_table` is the sorted table `parse_renfile` builds
from the lines `A B`, `A C`, `B C`; it holds `(A, B)` and `(B, C)`, yet the
drop-in line `A="x"` is stored under `C`, because the lookup returns the
second of the two pairs whose old name is `A`. -/
theorem rename_duplicate_counterexample :
    (parse_renfile (some ["A B\n".toList, "A C\n".toList, "B C\n".toList])).2 = dup_table ∧
    dup_table.Pairwise (fun p q => string_pair_compare p q ≤ 0) ∧
    (⟨"A".toList, "B".toList⟩ : StringPair) ∈ dup_table ∧
    (⟨"B".toList, "C".toList⟩ : StringPair) ∈ dup_table ∧
    (parse_configfile_loop dup_table false "a.conf".toList false
        (decide (dup_table.length ≠ 0)) Globals.init 0 ["A=\"x\"\n".toList]).names.infos =
      [⟨"C".toList, "x".toList, "a.conf L0001".toList, none⟩] := by
  decide

/-- C8: names in the default file are never renamed. Whatever the rename file
holds, when the default file opens every accepted line of it has, after the
whole cascade, an entry under exactly the name written on the line, carrying a
default snapshot; and a file read with `do_ren = false`, as `main` reads the
default file, is stored the same way under any two rename tables. -/
theorem default_file_not_renamed (env : Env) (opts : Opts) (deflines : List Bytes)
    (hdef : env.fopen env.CONF_DEF = some deflines) :
    (∀ L ∈ deflines, ∀ a, config_line L L.length = some a →
      ∃ e ∈ (main env opts).globals.names.infos,
        e.name = a.name.take a.name_len ∧ e.defv.isSome = true) ∧
    ∀ (renames renames' : List StringPair) (st : Globals) (file : Bytes)
      (content : Option (List Bytes)),
      parse_configfile env.CONF_DEF renames opts.notrace st file content false =
        parse_configfile env.CONF_DEF renames' opts.notrace st file content false := by
  constructor
  · intro L hL a ha
    rw [main_globals env opts deflines hdef]
    have hst : stage_default env opts =
        parse_configfile_loop (main_renames env) opts.notrace
          (source_of env.CONF_DEF env.CONF_DEF) true false Globals.init 0 deflines := by
      unfold stage_default
      rw [parse_configfile_snd, hdef]
      simp [strcmp_self]
    obtain ⟨h1, h2⟩ := loop_default (main_renames env) opts.notrace
      (source_of env.CONF_DEF env.CONF_DEF) false Globals.init 0 deflines wf_init
      (fun e he => by simp [Globals.init] at he)
    obtain ⟨e, he, hen⟩ := h1 L hL a ha
    rw [← hst] at he h2
    obtain ⟨e', he', hn', hd'⟩ := stage_user_persists env opts e he
    refine ⟨e', he', ?_, ?_⟩
    · rw [hn', hen]; rfl
    · rw [hd']; exact h2 e he
  · intro renames renames' st file content
    unfold parse_configfile
    cases content with
    | none => rfl
    | some lines => simp only []; rw [loop_no_rename renames renames']

theorem default_file_not_renamed_witness :
    (main_renames example_env = [⟨"OLD".toList, "NEW".toList⟩] ∧
      (main example_env ⟨false, false, none⟩).globals.names.infos.map (fun e => e.name) =
        ["FOO".toList, "BAR".toList, "OLD".toList, "NEW".toList]) ∧
    (∀ L ∈ ["FOO=\"1\"\n".toList, "BAR=x\n".toList, "OLD=0\n".toList],
      ∀ a, config_line L L.length = some a →
      ∃ e ∈ (main example_env ⟨false, false, none⟩).globals.names.infos,
        e.name = a.name.take a.name_len ∧ e.defv.isSome = true) ∧
    ∀ (renames renames' : List StringPair) (st : Globals) (file : Bytes)
      (content : Option (List Bytes)),
      parse_configfile example_env.CONF_DEF renames false st file content false =
        parse_configfile example_env.CONF_DEF renames' false st file content false :=
  ⟨by decide, default_file_not_renamed example_env ⟨false, false, none⟩
    ["FOO=\"1\"\n".toList, "BAR=x\n".toList, "OLD=0\n".toList] (by decide)⟩

theorem scan_while_append (pred : Char → Bool) (s tail : Bytes) :
    scan_while pred (s ++ tail) s.length = (s.takeWhile pred).length := by
  induction s with
  | nil => cases tail <;> simp [scan_while]
  | cons c s ih =>
    simp only [List.cons_append, List.length_cons, scan_while, List.takeWhile_cons]
    split
    · simp [ih]
    · simp

theorem rstrip_nil : rstrip [] = [] := rfl

theorem rstrip_snoc (s : Bytes) (c : Char) :
    rstrip (s ++ [c]) = if isspace c then rstrip s else s ++ [c] := by
  unfold rstrip
  rw [List.reverse_append, List.reverse_singleton, List.singleton_append, List.dropWhile_cons]
  split
  · rfl
  · simp

/-- A text is its right-trimmed part followed by whitespace. -/
theorem rstrip_append_spaces (s : Bytes) :
    ∃ ws, s = rstrip s ++ ws ∧ ∀ c ∈ ws, isspace c = true := by
  refine ⟨(s.reverse.takeWhile isspace).reverse, ?_, ?_⟩
  · unfold rstrip
    rw [← List.reverse_append, List.takeWhile_append_dropWhile, List.reverse_reverse]
  · intro c hc
    rw [List.mem_reverse] at hc
    exact List.mem_takeWhile_imp hc

theorem rstrip_length_le (s : Bytes) : (rstrip s).length ≤ s.length := by
  obtain ⟨ws, h, _⟩ := rstrip_append_spaces s
  have := congrArg List.length h
  rw [List.length_append] at this
  omega

/-- The last byte of a right-trimmed text is not whitespace. -/
theorem rstrip_getLast (s : Bytes) (c : Char) (h : (rstrip s).getLast? = some c) :
    isspace c = false := by
  unfold rstrip at h
  rw [List.getLast?_reverse] at h
  cases hd : s.reverse.dropWhile isspace with
  | nil => rw [hd] at h; cases h
  | cons x xs =>
    rw [hd] at h
    simp only [List.head?_cons, Option.some.injEq] at h
    subst h
    have := List.head_dropWhile_not isspace s.reverse (by rw [hd]; simp)
    simpa [hd] using this

theorem rstrip_of_getLast (s : Bytes) (c : Char) (h : s.getLast? = some c)
    (hc : isspace c = false) : rstrip s = s := by
  induction s using List.reverseRecOn with
  | nil => rfl
  | append_singleton s x _ =>
    have hx : x = c := by simpa using h
    subst hx
    rw [rstrip_snoc]; simp [hc]

theorem rstrip_rstrip (s : Bytes) : rstrip (rstrip s) = rstrip s := by
  cases h : (rstrip s).getLast? with
  | none =>
    rw [List.getLast?_eq_none_iff] at h
    rw [h]; rfl
  | some c => exact rstrip_of_getLast _ c h (rstrip_getLast s c h)

theorem rstrip_append_of_spaces (s ws : Bytes) (h : ∀ c ∈ ws, isspace c = true) :
    rstrip (s ++ ws) = rstrip s := by
  induction ws using List.reverseRecOn with
  | nil => simp
  | append_singleton ws c ih =>
    rw [← List.append_assoc, rstrip_snoc, if_pos (h c (by simp))]
    exact ih (fun x hx => h x (by simp [hx]))

theorem rtrim_append (s tail : Bytes) :
    rtrim (s ++ tail) s.length =
      (if (rstrip s).isEmpty then none else some (s ++ tail), (rstrip s).length) := by
  induction s using List.reverseRecOn generalizing tail with
  | nil => simp [rtrim, rstrip_nil]
  | append_singleton s c ih =>
    rw [List.length_append, List.length_singleton, rtrim]
    have hget : (s ++ [c] ++ tail).getD s.length NUL = c := by
      rw [List.getD_eq_getElem?_getD, List.append_assoc, List.getElem?_append_right (Nat.le_refl _)]
      simp
    rw [hget, rstrip_snoc]
    by_cases hc : isspace c = true
    · simp only [hc, Bool.not_true, Bool.false_eq_true, if_false, if_true]
      rw [List.append_assoc, ih]
    · simp [hc]

theorem ltrim_append (s tail : Bytes) :
    ltrim (s ++ tail) s.length =
      (if (s.dropWhile isspace).isEmpty then none else some (s.dropWhile isspace ++ tail),
        (s.dropWhile isspace).length) := by
  induction s with
  | nil => simp [ltrim]
  | cons c s ih =>
    rw [List.length_cons, ltrim]
    simp only [List.cons_append, List.headD_cons, List.tail_cons, List.dropWhile_cons]
    by_cases hc : isspace c = true
    · simp only [hc, Bool.not_true, Bool.false_eq_true, if_false, if_true]
      exact ih
    · simp [hc]

theorem parse_name_append (s tail : Bytes) :
    parse_name (some (s ++ tail)) s.length =
      if (s.takeWhile is_name_char).isEmpty then (none, 0)
      else (some (s ++ tail),
        (s.takeWhile is_name_char).length +
          ((s.dropWhile is_name_char).takeWhile is_digit_char).length) := by
  unfold parse_name
  simp only [scan_while_append]
  by_cases h : (s.takeWhile is_name_char).length = 0
  · have h' : s.takeWhile is_name_char = [] := List.length_eq_zero.mp h
    simp [h']
  · have h' : ¬ s.takeWhile is_name_char = [] := fun h0 => h (by rw [h0]; rfl)
    have hsplit : (s ++ tail).drop (s.takeWhile is_name_char).length =
        s.dropWhile is_name_char ++ tail := by
      have h1 : s ++ tail = s.takeWhile is_name_char ++ (s.dropWhile is_name_char ++ tail) := by
        rw [← List.append_assoc, List.takeWhile_append_dropWhile]
      rw [h1, List.drop_left]
    have hlen : s.length - (s.takeWhile is_name_char).length =
        (s.dropWhile is_name_char).length := by
      have := congrArg List.length (List.takeWhile_append_dropWhile is_name_char s)
      rw [List.length_append] at this
      omega
    simp only [h, if_false, hsplit, hlen, scan_while_append]
    simp [h']

theorem parse_value_eq (str : Bytes) (len : Nat) :
    parse_value str len =
      if (decide (len > 1) && str.headD NUL == '"') = true then
        (if (decide (1 + scan_while is_value_char (str.drop 1) (len - 1) ≥ len) ||
              str.getD (1 + scan_while is_value_char (str.drop 1) (len - 1)) NUL != '"') = true
          then (some str, SIZE_MAX)
          else (some str, 1 + scan_while is_value_char (str.drop 1) (len - 1) + 1))
      else
        (if (rtrim str (scan_while is_value_char str len)).2 ≠ 0
          then (rtrim str (scan_while is_value_char str len)).1 else none,
          (rtrim str (scan_while is_value_char str len)).2) := by
  unfold parse_value
  by_cases h : (decide (len > 1) && str.headD NUL == '"') = true
  · simp only [h, if_true]
  · simp only [h, Bool.false_eq_true, if_false, List.drop_zero, Nat.sub_zero, Nat.zero_add]

theorem parse_value_quoted (s1 tail : Bytes) (h1 : s1 ≠ []) :
    parse_value ('"' :: (s1 ++ tail)) (s1.length + 1) =
      (some ('"' :: (s1 ++ tail)),
        if (s1.dropWhile is_value_char).head? = some '"' then
          (s1.takeWhile is_value_char).length + 2
        else SIZE_MAX) := by
  have hlen : s1.length ≥ 1 := by
    cases s1 with
    | nil => exact absurd rfl h1
    | cons _ _ => simp
  have hesc : (decide (s1.length + 1 > 1) && ('"' :: (s1 ++ tail)).headD NUL == '"') = true := by
    simp; omega
  rw [parse_value_eq, if_pos hesc]
  simp only [List.drop_succ_cons, List.drop_zero, Nat.add_sub_cancel, scan_while_append]
  have hsplit := List.takeWhile_append_dropWhile is_value_char s1
  generalize hk : s1.takeWhile is_value_char = k at *
  cases hd : s1.dropWhile is_value_char with
  | nil =>
    rw [hd, List.append_nil] at hsplit
    subst hsplit
    have : (decide (1 + k.length ≥ k.length + 1) ||
        ('"' :: (k ++ tail)).getD (1 + k.length) NUL != '"') = true := by
      simp; left; omega
    rw [if_pos this]
    simp
  | cons c rest =>
    rw [hd] at hsplit
    subst hsplit
    have hget : ('"' :: (k ++ c :: rest ++ tail)).getD (1 + k.length) NUL = c := by
      rw [Nat.add_comm, List.getD_cons_succ, List.getD_eq_getElem?_getD, List.append_assoc,
        List.getElem?_append_right (Nat.le_refl _)]
      simp
    have hlt : decide (1 + k.length ≥ (k ++ c :: rest).length + 1) = false := by
      simp; omega
    rw [hget, hlt, Bool.false_or]
    by_cases hc : c = '"'
    · subst hc; simp; omega
    · have : (c != '"') = true := by simp [hc]
      rw [if_pos this]
      simp [hc]

theorem parse_value_unquoted (s tail : Bytes)
    (h : (decide (s.length > 1) && s.head? == some '"') = false) :
    parse_value (s ++ tail) s.length =
      (if (rstrip (s.takeWhile is_value_char)).isEmpty then none else some (s ++ tail),
        (rstrip (s.takeWhile is_value_char)).length) := by
  have hesc : ¬ (decide (s.length > 1) && (s ++ tail).headD NUL == '"') = true := by
    cases s with
    | nil => simp
    | cons c s' => simpa using h
  rw [parse_value_eq, if_neg hesc, scan_while_append]
  have h1 : s ++ tail = s.takeWhile is_value_char ++ (s.dropWhile is_value_char ++ tail) := by
    rw [← List.append_assoc, List.takeWhile_append_dropWhile]
  have h2 := rtrim_append (s.takeWhile is_value_char) (s.dropWhile is_value_char ++ tail)
  rw [← h1] at h2
  rw [h2]
  by_cases he : (rstrip (s.takeWhile is_value_char)).isEmpty = true
  · have : rstrip (s.takeWhile is_value_char) = [] := List.isEmpty_iff.mp he
    simp [this]
  · have hne : (rstrip (s.takeWhile is_value_char)).length ≠ 0 := by
      intro h0; exact he (List.isEmpty_iff.mpr (List.length_eq_zero.mp h0))
    simp [he, hne]

theorem config_line_eq (line_buf : Bytes) (read : Nat) :
    config_line line_buf read =
      match rtrim line_buf read with
      | (some line, len) =>
        match parse_name (some line) len with
        | (some name, name_len) =>
          if name_len ≥ len then none
          else
            match config_op (line.drop name_len) (len - name_len) with
            | none => none
            | some (append, len1, line1) => config_value name name_len append line1 len1
        | (none, _) => none
      | (none, _) => none := by
  unfold config_line
  rcases hr : rtrim line_buf read with ⟨line, len⟩
  cases line with
  | none =>
    simp only [parse_name]
  | some line =>
    simp only []
    rcases hp : parse_name (some line) len with ⟨name, name_len⟩
    cases name with
    | none => simp only []
    | some name =>
      simp only []
      by_cases hge : name_len ≥ len
      · simp only [hge, if_true]
      · simp only [hge, if_false]
        unfold config_op
        by_cases h1 : (decide (len - name_len > 0) && (line.drop name_len).headD NUL == '=') = true
        · simp only [h1, if_true]; rfl
        · simp only [h1, if_false]
          by_cases h2 : (decide (len - name_len > 1) && (line.drop name_len).headD NUL == '+' &&
              (line.drop name_len).getD 1 NUL == '=') = true
          · simp only [h2, if_true]; rfl
          · simp only [h2, if_false]; rfl

theorem config_op_append (r0 ws : Bytes) :
    config_op (r0 ++ ws) r0.length =
      (op_split r0).map (fun p => (p.1, p.2.length, p.2 ++ ws)) := by
  unfold config_op
  cases r0 with
  | nil => simp [op_split]
  | cons c r =>
    by_cases hc : c = '='
    · subst hc; simp [op_split]
    · by_cases hp : c = '+'
      · subst hp
        cases r with
        | nil => simp [op_split]
        | cons c2 r2 =>
          by_cases hc2 : c2 = '='
          · subst hc2; simp [op_split]
          · have : op_split ('+' :: c2 :: r2) = none := by
              unfold op_split
              split
              · rename_i h; simp at h
              · rename_i h; simp at h; exact absurd h.1 hc2
              · rfl
            simp [this, hc2]
      · have : op_split (c :: r) = none := by
          unfold op_split
          split
          · rename_i h; simp at h; exact absurd h.1 hc
          · rename_i h; simp at h; exact absurd h.1 hp
          · rfl
        simp [this, hc, hp]

theorem trailer_check (remaining ws : Bytes) :
    (decide ((ltrim (remaining ++ ws) remaining.length).2 ≠ 0) &&
      ((ltrim (remaining ++ ws) remaining.length).1.getD []).headD NUL != '#') =
    !trailer_ok remaining := by
  rw [ltrim_append]
  unfold trailer_ok
  cases h : remaining.dropWhile isspace with
  | nil => simp
  | cons c r => simp [bne]

theorem is_value_char_ne_quote {c : Char} (h : is_value_char c = true) : c ≠ '"' := by
  intro h0; subst h0; revert h; decide

theorem rstrip_eq_take (s : Bytes) : rstrip s = s.take (rstrip s).length := by
  obtain ⟨ws, h, _⟩ := rstrip_append_spaces s
  generalize rstrip s = t at h
  subst h
  rw [List.take_left]

theorem config_value_eq (name : Bytes) (name_len : Nat) (append : Bool) (line : Bytes)
    (len : Nat) :
    config_value name name_len append line len =
      if (decide ((parse_value line len).2 = SIZE_MAX) ||
          decide ((parse_value line len).2 > len)) = true then none
      else if (decide ((ltrim (line.drop (parse_value line len).2)
              (len - (parse_value line len).2)).2 ≠ 0) &&
            ((ltrim (line.drop (parse_value line len).2)
              (len - (parse_value line len).2)).1.getD []).headD NUL != '#') = true then none
      else if (decide ((parse_value line len).2 > 1) &&
            ((parse_value line len).1.getD []).headD NUL == '"') = true then
        some ⟨name, name_len, append, ((parse_value line len).1.getD []).drop 1,
          (parse_value line len).2 - 2⟩
      else
        some ⟨name, name_len, append, (parse_value line len).1.getD [],
          (parse_value line len).2⟩ := by
  unfold config_value
  simp only []
  split
  · rfl
  · split
    · rfl
    · split <;> rfl

theorem config_value_reject (name : Bytes) (name_len : Nat) (append : Bool) (line : Bytes)
    (len : Nat) (p : Option Bytes) (hp : parse_value line len = (p, SIZE_MAX)) :
    config_value name name_len append line len = none := by
  rw [config_value_eq, hp]
  simp

theorem config_value_of (name : Bytes) (name_len : Nat) (append : Bool) (line : Bytes)
    (len : Nat) (p : Option Bytes) (m : Nat) (hp : parse_value line len = (p, m))
    (h1 : m ≠ SIZE_MAX) (h2 : m ≤ len) (remaining ws : Bytes)
    (hdrop : line.drop m = remaining ++ ws) (hlen : len - m = remaining.length) :
    config_value name name_len append line len =
      if trailer_ok remaining = true then
        (if (decide (m > 1) && (p.getD []).headD NUL == '"') = true then
          some ⟨name, name_len, append, (p.getD []).drop 1, m - 2⟩
        else some ⟨name, name_len, append, p.getD [], m⟩)
      else none := by
  rw [config_value_eq, hp]
  simp only []
  have h2' : ¬ m > len := by omega
  rw [hdrop, hlen, trailer_check]
  simp only [h1, h2', decide_False, Bool.or_self, Bool.false_eq_true, if_false]
  by_cases ht : trailer_ok remaining = true
  · simp only [ht, Bool.not_true, Bool.false_eq_true, if_false, if_true]
  · simp only [ht, Bool.not_false, if_true, if_false, Bool.false_eq_true]

theorem config_value_append (name : Bytes) (name_len : Nat) (append : Bool) (rest ws : Bytes)
    (hsz : rest.length < SIZE_MAX) :
    (config_value name name_len append (rest ++ ws) rest.length).map Assignment.parts =
      match value_grammar rest with
      | none => none
      | some (v, remaining) =>
        if trailer_ok remaining then some (name.take name_len, append, v) else none := by
  by_cases hq : (decide (rest.length > 1) && rest.head? == some '"') = true
  · -- quoted
    obtain ⟨s1, hs1, hrest⟩ : ∃ s1, s1 ≠ [] ∧ rest = '"' :: s1 := by
      cases rest with
      | nil => simp at hq
      | cons c s1 =>
        simp only [List.length_cons, List.head?_cons, Bool.and_eq_true, decide_eq_true_eq,
          beq_iff_eq, Option.some.injEq] at hq
        refine ⟨s1, ?_, by rw [hq.2]⟩
        intro h0; rw [h0] at hq; simp at hq
    subst hrest
    have hpv := parse_value_quoted s1 ws hs1
    have hvg : value_grammar ('"' :: s1) =
        if (s1.dropWhile is_value_char).head? = some '"' then
          some (s1.takeWhile is_value_char, (s1.dropWhile is_value_char).drop 1)
        else none := by
      unfold value_grammar
      rw [if_pos hq]
      simp only [List.drop_succ_cons, List.drop_zero]
    rw [hvg]
    simp only [List.cons_append, List.length_cons] at hsz ⊢
    have hsplit := List.takeWhile_append_dropWhile is_value_char s1
    generalize hk : s1.takeWhile is_value_char = k at *
    by_cases hh : (s1.dropWhile is_value_char).head? = some '"'
    · obtain ⟨remaining, hd⟩ : ∃ remaining, s1.dropWhile is_value_char = '"' :: remaining := by
        cases hd : s1.dropWhile is_value_char with
        | nil => rw [hd] at hh; cases hh
        | cons c r =>
          rw [hd] at hh
          simp only [List.head?_cons, Option.some.injEq] at hh
          exact ⟨r, by rw [hh]⟩
      rw [if_pos hh] at hpv ⊢
      rw [hd] at hsplit ⊢
      subst hsplit
      simp only [List.length_append, List.length_cons] at hsz
      have hdrop : ('"' :: (k ++ '"' :: remaining ++ ws)).drop (k.length + 2) = remaining ++ ws := by
        rw [show k.length + 2 = (k.length + 1) + 1 from rfl, List.drop_succ_cons,
          List.append_assoc, List.drop_append_eq_append_drop]
        simp
      rw [config_value_of name name_len append _ _ _ _ hpv (by omega)
        (by simp only [List.length_append, List.length_cons]; omega) remaining ws hdrop
        (by simp only [List.length_append, List.length_cons]; omega)]
      by_cases ht : trailer_ok remaining = true
      · have hgt : k.length + 2 > 1 := by omega
        simp [ht, hgt, Assignment.parts]
      · simp [ht]
    · rw [if_neg hh] at hpv ⊢
      rw [config_value_reject name name_len append _ _ _ hpv]
      rfl
  · -- unquoted
    have hq' : (decide (rest.length > 1) && rest.head? == some '"') = false := by
      simpa using hq
    have hvg : value_grammar rest = some (rstrip (rest.takeWhile is_value_char),
        rest.drop (rstrip (rest.takeWhile is_value_char)).length) := by
      unfold value_grammar
      rw [if_neg hq]
    have hpv := parse_value_unquoted rest ws hq'
    rw [hvg]
    simp only []
    generalize hv : rstrip (rest.takeWhile is_value_char) = v at hpv ⊢
    have hvpre : v = rest.take v.length := by
      obtain ⟨ws', hb, _⟩ := rstrip_append_spaces (rest.takeWhile is_value_char)
      rw [hv] at hb
      have hr : rest = v ++ (ws' ++ rest.dropWhile is_value_char) := by
        rw [← List.append_assoc, ← hb, List.takeWhile_append_dropWhile]
      conv_rhs => rw [hr]
      rw [List.take_left]
    have hvle : v.length ≤ rest.length := by
      have := congrArg List.length hvpre
      rw [List.length_take] at this
      omega
    have hdrop : (rest ++ ws).drop v.length = rest.drop v.length ++ ws :=
      List.drop_append_of_le_length hvle
    have hlen : rest.length - v.length = (rest.drop v.length).length := by
      rw [List.length_drop]
    rw [config_value_of name name_len append _ _ _ _ hpv (by omega) hvle _ ws hdrop hlen]
    by_cases ht : trailer_ok (rest.drop v.length) = true
    · simp only [ht, if_true]
      have hnoquote : ¬ ((decide (v.length > 1) &&
          ((if v.isEmpty then none else some (rest ++ ws)).getD []).headD NUL == '"') = true) := by
        intro hh
        simp only [Bool.and_eq_true, decide_eq_true_eq, beq_iff_eq] at hh
        have hne : v ≠ [] := by intro h0; rw [h0] at hh; simp at hh
        have hemp : v.isEmpty = false := by
          cases v with
          | nil => exact absurd rfl hne
          | cons _ _ => rfl
        rw [hemp] at hh
        simp only [Bool.false_eq_true, if_false, Option.getD_some] at hh
        cases hr : rest with
        | nil => rw [hr] at hvpre; simp at hvpre; exact hne hvpre
        | cons c r =>
          rw [hr] at hh
          simp only [List.cons_append, List.headD_cons] at hh
          have hcv : is_value_char c = true := by
            have hb : rest.takeWhile is_value_char ≠ [] := by
              intro h0; rw [h0] at hv; exact hne (by rw [← hv]; rfl)
            rw [hr, List.takeWhile_cons] at hb
            by_contra hcn
            simp [hcn] at hb
          exact is_value_char_ne_quote hcv hh.2
      rw [if_neg hnoquote]
      simp only [Option.map_some', Assignment.parts, Option.some.injEq, Prod.mk.injEq, true_and]
      by_cases hemp : v.isEmpty = true
      · have : v = [] := List.isEmpty_iff.mp hemp
        simp [this]
      · simp only [hemp, Bool.false_eq_true, if_false, Option.getD_some]
        rw [List.take_append_of_le_length hvle]
        exact hvpre.symm
    · simp [ht]

theorem op_split_length {r0 : Bytes} {append : Bool} {rest : Bytes}
    (h : op_split r0 = some (append, rest)) :
    r0 = (if append then "+=".toList else "=".toList) ++ rest := by
  unfold op_split at h
  split at h
  · simp only [Option.some.injEq, Prod.mk.injEq] at h
    obtain ⟨h1, h2⟩ := h; subst h1; subst h2; rfl
  · simp only [Option.some.injEq, Prod.mk.injEq] at h
    obtain ⟨h1, h2⟩ := h; subst h1; subst h2; rfl
  · cases h

/-- The longest `[A-Z_]+[0-9]*` prefix of a text, split off. -/
theorem name_prefix_split (t : Bytes) :
    t = (t.takeWhile is_name_char ++ (t.dropWhile is_name_char).takeWhile is_digit_char) ++
      t.drop (t.takeWhile is_name_char ++
        (t.dropWhile is_name_char).takeWhile is_digit_char).length := by
  have h1 := List.takeWhile_append_dropWhile is_name_char t
  have h2 := List.takeWhile_append_dropWhile is_digit_char (t.dropWhile is_name_char)
  have h3 : t = (t.takeWhile is_name_char ++
      (t.dropWhile is_name_char).takeWhile is_digit_char) ++
      (t.dropWhile is_name_char).dropWhile is_digit_char := by
    rw [List.append_assoc, h2, h1]
  have h4 : t.drop (t.takeWhile is_name_char ++
      (t.dropWhile is_name_char).takeWhile is_digit_char).length =
      (t.dropWhile is_name_char).dropWhile is_digit_char := by
    have := List.drop_left (t.takeWhile is_name_char ++
      (t.dropWhile is_name_char).takeWhile is_digit_char)
      ((t.dropWhile is_name_char).dropWhile is_digit_char)
    rw [← h3] at this
    exact this
  rw [h4]
  exact h3

/-- The loop body of `parse_configfile` accepts exactly the lines of the line
grammar (on the right-trimmed line), with the same name, flag and value. -/
theorem config_line_grammar (line : Bytes) (hsz : line.length < SIZE_MAX) :
    (config_line line line.length).map Assignment.parts = line_grammar (rstrip line) := by
  obtain ⟨ws, hline, hws⟩ := rstrip_append_spaces line
  have hrt : rstrip (rstrip line) = rstrip line := rstrip_rstrip line
  generalize rstrip line = t at hline hrt ⊢
  subst hline
  have hrt2 : rstrip (t ++ ws) = t := by
    rw [rstrip_append_of_spaces t ws hws, hrt]
  have hrtrim : rtrim (t ++ ws) (t ++ ws).length =
      (if t.isEmpty then none else some (t ++ ws), t.length) := by
    have := rtrim_append (t ++ ws) []
    rw [List.append_nil, hrt2] at this
    exact this
  rw [config_line_eq, hrtrim]
  unfold line_grammar
  by_cases hte : t.isEmpty = true
  · have : t = [] := List.isEmpty_iff.mp hte
    subst this
    simp
  · simp only [hte, Bool.false_eq_true, if_false]
    rw [parse_name_append]
    by_cases hu : (t.takeWhile is_name_char).isEmpty = true
    · simp only [hu, if_true]; rfl
    · simp only [hu, Bool.false_eq_true, if_false]
      have hsplit := name_prefix_split t
      generalize hn : t.takeWhile is_name_char ++
        (t.dropWhile is_name_char).takeWhile is_digit_char = n at hsplit ⊢
      have hnl : (t.takeWhile is_name_char).length +
          ((t.dropWhile is_name_char).takeWhile is_digit_char).length = n.length := by
        rw [← hn, List.length_append]
      rw [hnl]
      by_cases hge : n.length ≥ t.length
      · simp only [hge, if_true]; rfl
      · simp only [hge, if_false]
        generalize hr0 : t.drop n.length = r0 at hsplit ⊢
        have hdrop : (t ++ ws).drop n.length = r0 ++ ws := by
          rw [List.drop_append_of_le_length (by omega), hr0]
        have hlen : t.length - n.length = r0.length := by
          rw [← hr0, List.length_drop]
        rw [hdrop, hlen, config_op_append]
        cases hop : op_split r0 with
        | none => rfl
        | some p =>
          obtain ⟨append, rest⟩ := p
          simp only [Option.map_some']
          have hr0' := op_split_length hop
          have hrest : rest.length < SIZE_MAX := by
            have h1 := congrArg List.length hr0'
            rw [List.length_append] at h1
            simp only [List.length_append] at hsz
            omega
          rw [config_value_append _ _ _ _ _ hrest]
          have htake : (t ++ ws).take n.length = n := by
            rw [List.take_append_of_le_length (by omega)]
            have := List.take_left n r0
            rw [← hsplit] at this
            exact this
          rw [htake]

theorem char_le_iff (a b : Char) : a ≤ b ↔ a.toNat ≤ b.toNat := by
  rw [Char.le_def]
  exact Iff.rfl

theorem is_name_char_iff (c : Char) :
    is_name_char c = true ↔ (65 ≤ c.toNat ∧ c.toNat ≤ 90) ∨ c.toNat = 95 := by
  unfold is_name_char
  simp only [Bool.or_eq_true, Bool.and_eq_true, decide_eq_true_eq, beq_iff_eq, char_le_iff]
  have e1 : 'A'.toNat = 65 := by decide
  have e2 : 'Z'.toNat = 90 := by decide
  rw [e1, e2]
  constructor
  · rintro (h | h)
    · exact Or.inl h
    · subst h; right; decide
  · rintro (h | h)
    · exact Or.inl h
    · right
      rw [← Char.ofNat_toNat c, h]

theorem is_digit_char_iff (c : Char) :
    is_digit_char c = true ↔ 48 ≤ c.toNat ∧ c.toNat ≤ 57 := by
  unfold is_digit_char
  simp only [Bool.and_eq_true, decide_eq_true_eq, char_le_iff]
  have e1 : '0'.toNat = 48 := by decide
  have e2 : '9'.toNat = 57 := by decide
  rw [e1, e2]

theorem isspace_iff (c : Char) :
    isspace c = true ↔ c.toNat = 32 ∨ (9 ≤ c.toNat ∧ c.toNat ≤ 13) := by
  unfold isspace
  simp

theorem name_not_digit {c : Char} (h : is_name_char c = true) : is_digit_char c = false := by
  rw [is_name_char_iff] at h
  cases hd : is_digit_char c with
  | false => rfl
  | true => rw [is_digit_char_iff] at hd; omega

theorem digit_not_name {c : Char} (h : is_digit_char c = true) : is_name_char c = false := by
  cases hn : is_name_char c with
  | false => rfl
  | true => rw [name_not_digit hn] at h; cases h

theorem name_not_space {c : Char} (h : is_name_char c = true) : isspace c = false := by
  rw [is_name_char_iff] at h
  cases hd : isspace c with
  | false => rfl
  | true => rw [isspace_iff] at hd; omega

theorem space_not_name {c : Char} (h : isspace c = true) : is_name_char c = false := by
  cases hn : is_name_char c with
  | false => rfl
  | true => rw [name_not_space hn] at h; cases h

theorem space_not_digit {c : Char} (h : isspace c = true) : is_digit_char c = false := by
  rw [isspace_iff] at h
  cases hd : is_digit_char c with
  | false => rfl
  | true => rw [is_digit_char_iff] at hd; omega

theorem takeWhile_append_stop {p : Char → Bool} (u x : Bytes) (hu : ∀ a ∈ u, p a = true)
    (hx : ∀ c, x.head? = some c → p c = false) :
    (u ++ x).takeWhile p = u ∧ (u ++ x).dropWhile p = x := by
  induction u with
  | nil =>
    cases x with
    | nil => simp
    | cons c r =>
      have := hx c rfl
      simp [List.takeWhile_cons, List.dropWhile_cons, this]
  | cons a u ih =>
    have ha := hu a (List.mem_cons_self _ _)
    have := ih (fun b hb => hu b (List.mem_cons_of_mem _ hb))
    simp [List.takeWhile_cons, List.dropWhile_cons, ha, this.1, this.2]

theorem head_dropWhile_false (p : Char → Bool) (s : Bytes) :
    ∀ c, (s.dropWhile p).head? = some c → p c = false := by
  intro c hc
  induction s with
  | nil => simp at hc
  | cons a s ih =>
    rw [List.dropWhile_cons] at hc
    by_cases ha : p a = true
    · rw [if_pos ha] at hc; exact ih hc
    · rw [if_neg ha] at hc
      simp only [List.head?_cons, Option.some.injEq] at hc
      subst hc
      simpa using ha

theorem head_append (d r : Bytes) (c : Char) (h : (d ++ r).head? = some c) :
    d.head? = some c ∨ (d = [] ∧ r.head? = some c) := by
  cases d with
  | nil => right; exact ⟨rfl, by simpa using h⟩
  | cons a d => left; simpa using h

/-- A name followed by a byte that is neither a name byte nor a digit is the
longest name prefix of the text. -/
theorem longest_name_append (n r : Bytes) (hn : matches_name n = true)
    (hr : ∀ c, r.head? = some c → is_name_char c = false ∧ is_digit_char c = false) :
    ((n ++ r).takeWhile is_name_char).isEmpty = false ∧ longest_name (n ++ r) = n := by
  unfold matches_name at hn
  simp only [Bool.and_eq_true, Bool.not_eq_true', List.all_eq_true] at hn
  obtain ⟨hu, hd⟩ := hn
  have hsplit := List.takeWhile_append_dropWhile is_name_char n
  have h1 := takeWhile_append_stop (p := is_name_char) (n.takeWhile is_name_char)
    (n.dropWhile is_name_char ++ r) (fun a ha => List.mem_takeWhile_imp ha)
    (by
      intro c hc
      rcases head_append _ _ _ hc with h | ⟨_, h⟩
      · exact head_dropWhile_false _ _ c h
      · exact (hr c h).1)
  rw [← List.append_assoc, hsplit] at h1
  have h2 := takeWhile_append_stop (p := is_digit_char) (n.dropWhile is_name_char) r hd
    (fun c hc => (hr c hc).2)
  unfold longest_name
  rw [h1.1, h1.2, h2.1, hsplit]
  exact ⟨hu, rfl⟩

theorem matches_name_longest (t : Bytes) (h : (t.takeWhile is_name_char).isEmpty = false) :
    matches_name (longest_name t) = true := by
  have h1 := takeWhile_append_stop (p := is_name_char) (t.takeWhile is_name_char)
    ((t.dropWhile is_name_char).takeWhile is_digit_char)
    (fun a ha => List.mem_takeWhile_imp ha)
    (by
      intro c hc
      have : c ∈ (t.dropWhile is_name_char).takeWhile is_digit_char := List.mem_of_mem_head? hc
      exact digit_not_name (List.mem_takeWhile_imp this))
  unfold matches_name longest_name
  rw [h1.1, h1.2, h]
  simp only [Bool.not_false, Bool.true_and, List.all_eq_true]
  exact fun a ha => List.mem_takeWhile_imp ha

theorem op_split_op_text (append : Bool) (rest : Bytes) :
    op_split (op_text append ++ rest) = some (append, rest) := by
  cases append <;> rfl

theorem op_text_head (append : Bool) (rest : Bytes) :
    ∀ c, (op_text append ++ rest).head? = some c →
      is_name_char c = false ∧ is_digit_char c = false := by
  intro c hc
  cases append
  · have : c = '=' := by simpa [op_text] using hc.symm
    subst this; decide
  · have : c = '+' := by simpa [op_text] using hc.symm
    subst this; decide

/-- What the line grammar accepts: the name is the longest name prefix, the
operator follows it, then the value and a trailer. -/
theorem line_grammar_some {t n : Bytes} {append : Bool} {v : Bytes}
    (h : line_grammar t = some (n, append, v)) :
    (t.takeWhile is_name_char).isEmpty = false ∧ n = longest_name t ∧
    ∃ rest remaining, t = n ++ op_text append ++ rest ∧
      value_grammar rest = some (v, remaining) ∧ trailer_ok remaining = true := by
  unfold line_grammar at h
  by_cases hu : (t.takeWhile is_name_char).isEmpty = true
  · simp [hu] at h
  · simp only [hu, Bool.false_eq_true, if_false] at h
    have hsplit := name_prefix_split t
    change t = longest_name t ++ t.drop (longest_name t).length at hsplit
    change (if (longest_name t).length ≥ t.length then none else
      match op_split (t.drop (longest_name t).length) with
      | none => none
      | some (append, rest) =>
        match value_grammar rest with
        | none => none
        | some (v, remaining) =>
          if trailer_ok remaining then some (longest_name t, append, v) else none) =
      some (n, append, v) at h
    by_cases hge : (longest_name t).length ≥ t.length
    · simp [hge] at h
    · simp only [hge, if_false] at h
      cases hop : op_split (t.drop (longest_name t).length) with
      | none => rw [hop] at h; cases h
      | some p =>
        obtain ⟨app, rest⟩ := p
        rw [hop] at h
        simp only [] at h
        cases hv : value_grammar rest with
        | none => rw [hv] at h; cases h
        | some q =>
          obtain ⟨v', remaining⟩ := q
          rw [hv] at h
          simp only [] at h
          by_cases ht : trailer_ok remaining = true
          · simp only [ht, if_true, Option.some.injEq, Prod.mk.injEq] at h
            obtain ⟨h1, h2, h3⟩ := h
            subst h2; subst h3
            refine ⟨by simpa using hu, h1.symm, rest, remaining, ?_, hv, ht⟩
            have := op_split_length hop
            rw [← h1]
            conv_lhs => rw [hsplit, this]
            rw [List.append_assoc]
            rfl
          · simp [ht] at h

/-- The line grammar on a text split as name, operator, rest. -/
theorem line_grammar_of_split (t n rest : Bytes) (append : Bool)
    (ht : t = n ++ op_text append ++ rest) (hn : matches_name n = true) :
    line_grammar t =
      (value_grammar rest).bind
        (fun p => if trailer_ok p.2 then some (n, append, p.1) else none) := by
  rw [List.append_assoc] at ht
  have hl := longest_name_append n (op_text append ++ rest) hn (op_text_head append rest)
  rw [← ht] at hl
  have hlt : ¬ (n.length ≥ t.length) := by
    have := congrArg List.length ht
    rw [List.length_append, List.length_append] at this
    have : (op_text append).length ≥ 1 := by cases append <;> decide
    omega
  have hdrop : t.drop n.length = op_text append ++ rest := by
    have := List.drop_left n (op_text append ++ rest)
    rw [← ht] at this
    exact this
  unfold line_grammar
  change (if (t.takeWhile is_name_char).isEmpty then none else
      if (longest_name t).length ≥ t.length then none else
      match op_split (t.drop (longest_name t).length) with
      | none => none
      | some (append, rest) =>
        match value_grammar rest with
        | none => none
        | some (v, remaining) =>
          if trailer_ok remaining then some (longest_name t, append, v) else none) = _
  rw [hl.1, hl.2]
  simp only [Bool.false_eq_true, if_false, hlt, hdrop, op_split_op_text]
  cases value_grammar rest with
  | none => rfl
  | some p => rfl

theorem trailer_ok_iff (s : Bytes) : trailer_ok s = true ↔ is_trailer s := by
  unfold trailer_ok is_trailer
  constructor
  · intro h
    have hsplit := List.takeWhile_append_dropWhile isspace s
    refine ⟨s.takeWhile isspace, (s.dropWhile isspace).drop 1,
      fun c hc => List.mem_takeWhile_imp hc, ?_⟩
    cases hd : s.dropWhile isspace with
    | nil => left; rw [hd, List.append_nil] at hsplit; exact hsplit.symm
    | cons c r =>
      rw [hd] at h hsplit
      simp only [beq_iff_eq] at h
      subst h
      right
      simpa using hsplit.symm
  · rintro ⟨ws, tail, hws, h | h⟩
    · subst h
      have : List.dropWhile isspace s = [] := List.dropWhile_eq_nil_iff.mpr hws
      rw [this]
    · subst h
      have := (takeWhile_append_stop (p := isspace) ws ('#' :: tail) hws
        (by intro c hc; simp at hc; subst hc; decide)).2
      rw [this]
      simp

theorem value_grammar_quoted (r : Bytes) (hr : r ≠ []) :
    value_grammar ('"' :: r) =
      if (r.dropWhile is_value_char).head? = some '"' then
        some (r.takeWhile is_value_char, (r.dropWhile is_value_char).drop 1)
      else none := by
  unfold value_grammar
  have : (decide (('"' :: r).length > 1) && ('"' :: r).head? == some '"') = true := by
    cases r with
    | nil => exact absurd rfl hr
    | cons _ _ => simp
  rw [if_pos this]
  simp only [List.drop_succ_cons, List.drop_zero]

theorem value_grammar_unquoted (rest : Bytes) (h : rest.head? ≠ some '"') :
    value_grammar rest =
      some (rstrip (rest.takeWhile is_value_char),
        rest.drop (rstrip (rest.takeWhile is_value_char)).length) := by
  unfold value_grammar
  have : ¬ (decide (rest.length > 1) && rest.head? == some '"') = true := by
    simp only [Bool.and_eq_true, decide_eq_true_eq, beq_iff_eq, not_and]
    exact fun _ => h
  rw [if_neg this]

/-- An accepted line, split: the stored name is the longest name prefix of the
right-trimmed line, the operator follows, and the rest holds the value and a
trailer. -/
theorem config_line_split (line : Bytes) (hsz : line.length < SIZE_MAX) (a : Assignment)
    (h : config_line line line.length = some a) :
    ((rstrip line).takeWhile is_name_char).isEmpty = false ∧
    a.name.take a.name_len = longest_name (rstrip line) ∧
    ∃ rest remaining, rstrip line = a.name.take a.name_len ++ op_text a.append ++ rest ∧
      value_grammar rest = some (a.value.take a.value_len, remaining) ∧
      trailer_ok remaining = true := by
  have hm := config_line_grammar line hsz
  rw [h] at hm
  simp only [Option.map_some', Assignment.parts] at hm
  exact line_grammar_some hm.symm

theorem split_cancel {n op rest rest' : Bytes} (h : n ++ op ++ rest = n ++ op ++ rest') :
    rest = rest' := List.append_cancel_left h

/-- C16: an accepted configuration line begins, in its right-trimmed text,
with a non-empty name `[A-Z_]+[0-9]*` (the longest such prefix, which is the
stored name), the name is not the whole line, and it is immediately followed
by `=` when `append = false` and by `+=` when `append = true`; every other
line is rejected. `123BAD=value`, `foo=1`, ` FOO=1`, `FOO1BAR=1` and
`# comment` are rejected. -/
theorem config_line_name_op (line : Bytes) (hsz : line.length < SIZE_MAX) (a : Assignment)
    (h : config_line line line.length = some a) :
    (((rstrip line).takeWhile is_name_char).isEmpty = false ∧
      a.name.take a.name_len = longest_name (rstrip line) ∧
      matches_name (a.name.take a.name_len) = true ∧
      (a.name.take a.name_len).length < (rstrip line).length ∧
      ∃ rest, rstrip line = a.name.take a.name_len ++ op_text a.append ++ rest) ∧
    (config_line "123BAD=value\n".toList 13 = none ∧ config_line "foo=1\n".toList 6 = none ∧
      config_line " FOO=1\n".toList 7 = none ∧ config_line "FOO1BAR=1\n".toList 10 = none ∧
      config_line "# comment\n".toList 10 = none ∧
      (config_line "FOO=1\n".toList 6).map (fun a => a.append) = some false ∧
      (config_line "FOO+=1\n".toList 7).map (fun a => a.append) = some true) := by
  refine ⟨?_, by decide⟩
  obtain ⟨h1, h2, rest, remaining, h3, _, _⟩ := config_line_split line hsz a h
  refine ⟨h1, h2, ?_, ?_, rest, h3⟩
  · rw [h2]; exact matches_name_longest _ h1
  · have := congrArg List.length h3
    rw [List.length_append, List.length_append] at this
    have : (op_text a.append).length ≥ 1 := by cases a.append <;> decide
    omega

theorem config_line_name_op_witness :
    ("FOO1+=a b # c\n".toList.length < SIZE_MAX ∧
      config_line "FOO1+=a b # c\n".toList 14 =
        some ⟨"FOO1+=a b # c\n".toList, 4, true, "a b # c\n".toList, 3⟩) ∧
    (((rstrip "FOO1+=a b # c\n".toList).takeWhile is_name_char).isEmpty = false ∧
      "FOO1".toList = longest_name (rstrip "FOO1+=a b # c\n".toList) ∧
      matches_name "FOO1".toList = true ∧
      "FOO1".toList.length < (rstrip "FOO1+=a b # c\n".toList).length ∧
      ∃ rest, rstrip "FOO1+=a b # c\n".toList = "FOO1".toList ++ op_text true ++ rest) :=
  ⟨⟨by decide, by decide⟩,
    (config_line_name_op "FOO1+=a b # c\n".toList (by decide)
      ⟨"FOO1+=a b # c\n".toList, 4, true, "a b # c\n".toList, 3⟩ (by decide)).1⟩

/-- C17: when the text after the operator starts with a double quote and has
more than one byte, an accepted line has, right after that quote, its stored
value, made of bytes of `[A-Za-z0-9._: -]` only, and then immediately a
closing double quote; the stored value is exactly the bytes between the two
quotes. An unterminated quote and a `#` inside the quotes reject the line. -/
theorem config_line_quoted_value (line : Bytes) (hsz : line.length < SIZE_MAX)
    (a : Assignment) (h : config_line line line.length = some a) (rest r : Bytes)
    (hsplit : rstrip line = a.name.take a.name_len ++ op_text a.append ++ rest)
    (hq : rest = '"' :: r) (hr : r ≠ []) :
    ((∃ tail, r = a.value.take a.value_len ++ '"' :: tail) ∧
      ∀ c ∈ a.value.take a.value_len, is_value_char c = true) ∧
    (config_line "FOO=\"abc\n".toList 9 = none ∧ config_line "FOO=\"a#b\"\n".toList 10 = none ∧
      (config_line "FOO=\" a  b \"\n".toList 13).map Assignment.parts =
        some ("FOO".toList, false, " a  b ".toList)) := by
  refine ⟨?_, by decide⟩
  obtain ⟨_, _, rest', remaining, h3, h4, _⟩ := config_line_split line hsz a h
  rw [hsplit] at h3
  have := split_cancel h3
  subst this
  subst hq
  rw [value_grammar_quoted r hr] at h4
  by_cases hh : (r.dropWhile is_value_char).head? = some '"'
  · rw [if_pos hh] at h4
    simp only [Option.some.injEq, Prod.mk.injEq] at h4
    obtain ⟨hv, _⟩ := h4
    rw [← hv]
    refine ⟨⟨(r.dropWhile is_value_char).drop 1, ?_⟩, fun c hc => List.mem_takeWhile_imp hc⟩
    have hsplit2 := List.takeWhile_append_dropWhile is_value_char r
    cases hd : r.dropWhile is_value_char with
    | nil => rw [hd] at hh; cases hh
    | cons c tl =>
      rw [hd] at hh hsplit2
      simp only [List.head?_cons, Option.some.injEq] at hh
      subst hh
      simpa using hsplit2.symm
  · rw [if_neg hh] at h4; cases h4

theorem config_line_quoted_value_witness :
    ("FOO=\"a b\" # c\n".toList.length < SIZE_MAX ∧
      config_line "FOO=\"a b\" # c\n".toList 14 =
        some ⟨"FOO=\"a b\" # c\n".toList, 3, false, "a b\" # c\n".toList, 3⟩ ∧
      rstrip "FOO=\"a b\" # c\n".toList =
        "FOO".toList ++ op_text false ++ "\"a b\" # c".toList) ∧
    ((∃ tail, "a b\" # c".toList = "a b".toList ++ '"' :: tail) ∧
      ∀ c ∈ "a b".toList, is_value_char c = true) :=
  ⟨⟨by decide, by decide, by decide⟩,
    (config_line_quoted_value "FOO=\"a b\" # c\n".toList (by decide)
      ⟨"FOO=\"a b\" # c\n".toList, 3, false, "a b\" # c\n".toList, 3⟩ (by decide)
      "\"a b\" # c".toList "a b\" # c".toList (by decide) rfl (by decide)).1⟩

/-- C18: when the text after the operator does not start with a double quote,
the stored value of an accepted line is the longest prefix of that text made
of bytes of `[A-Za-z0-9._: -]`, with its trailing whitespace removed; so it
never ends in whitespace, and leading spaces are kept. -/
theorem config_line_unquoted_value (line : Bytes) (hsz : line.length < SIZE_MAX)
    (a : Assignment) (h : config_line line line.length = some a) (rest : Bytes)
    (hsplit : rstrip line = a.name.take a.name_len ++ op_text a.append ++ rest)
    (hnq : rest.head? ≠ some '"') :
    (a.value.take a.value_len = rstrip (rest.takeWhile is_value_char) ∧
      ∀ c, (a.value.take a.value_len).getLast? = some c → isspace c = false) ∧
    (config_line "FOO=  a b  \n".toList 12).map Assignment.parts =
      some ("FOO".toList, false, "  a b".toList) := by
  refine ⟨?_, by decide⟩
  obtain ⟨_, _, rest', remaining, h3, h4, _⟩ := config_line_split line hsz a h
  rw [hsplit] at h3
  have := split_cancel h3
  subst this
  rw [value_grammar_unquoted rest hnq] at h4
  simp only [Option.some.injEq, Prod.mk.injEq] at h4
  obtain ⟨hv, _⟩ := h4
  rw [← hv]
  exact ⟨rfl, fun c hc => rstrip_getLast _ c hc⟩

theorem config_line_unquoted_value_witness :
    ("FOO=  a b  # c\n".toList.length < SIZE_MAX ∧
      config_line "FOO=  a b  # c\n".toList 15 =
        some ⟨"FOO=  a b  # c\n".toList, 3, false, "  a b  # c\n".toList, 5⟩ ∧
      rstrip "FOO=  a b  # c\n".toList =
        "FOO".toList ++ op_text false ++ "  a b  # c".toList ∧
      "  a b  # c".toList.head? ≠ some '"') ∧
    ("  a b".toList = rstrip ("  a b  # c".toList.takeWhile is_value_char) ∧
      ∀ c, "  a b".toList.getLast? = some c → isspace c = false) :=
  ⟨⟨by decide, by decide, by decide, by decide⟩,
    (config_line_unquoted_value "FOO=  a b  # c\n".toList (by decide)
      ⟨"FOO=  a b  # c\n".toList, 3, false, "  a b  # c\n".toList, 5⟩ (by decide)
      "  a b  # c".toList (by decide) (by decide)).1⟩

/-- C19: on a line whose right-trimmed text is a name, an operator and a rest,
(1) with a quoted value `"inner"` followed by `tail`, the line is accepted if
and only if `tail` is empty, whitespace only, or optional whitespace followed
by `#` and anything; (2) with an unquoted value `v` (the right-trimmed longest
BARE prefix of the rest), the line is accepted if and only if the text after
`v` is of that form. In both cases an accepted line stores exactly `inner`,
resp. `v`: no byte of the comment. `FOO="a"b` and `FOO=a,b` are rejected. -/
theorem config_line_trailer (line : Bytes) (hsz : line.length < SIZE_MAX) (n rest : Bytes)
    (append : Bool) (hsplit : rstrip line = n ++ op_text append ++ rest)
    (hn : matches_name n = true) :
    (∀ inner tail : Bytes, rest = '"' :: inner ++ '"' :: tail →
        (∀ c ∈ inner, is_value_char c = true) →
        ((∃ a, config_line line line.length = some a) ↔ is_trailer tail) ∧
        ∀ a, config_line line line.length = some a → a.parts = (n, append, inner)) ∧
    (rest.head? ≠ some '"' →
        ((∃ a, config_line line line.length = some a) ↔
          is_trailer (rest.drop (rstrip (rest.takeWhile is_value_char)).length)) ∧
        ∀ a, config_line line line.length = some a →
          a.parts = (n, append, rstrip (rest.takeWhile is_value_char))) ∧
    (config_line "FOO=\"a\"b\n".toList 9 = none ∧ config_line "FOO=a,b\n".toList 8 = none ∧
      (config_line "FOO=a  # b\n".toList 11).map Assignment.parts =
        some ("FOO".toList, false, "a".toList)) := by
  have hm := config_line_grammar line hsz
  rw [line_grammar_of_split _ n rest append hsplit hn] at hm
  have key : ∀ (v remaining : Bytes), value_grammar rest = some (v, remaining) →
      ((∃ a, config_line line line.length = some a) ↔ is_trailer remaining) ∧
      ∀ a, config_line line line.length = some a → a.parts = (n, append, v) := by
    intro v remaining hv
    rw [hv] at hm
    simp only [Option.some_bind] at hm
    rw [← trailer_ok_iff]
    constructor
    · constructor
      · rintro ⟨a, ha⟩
        rw [ha] at hm
        by_cases ht : trailer_ok remaining = true
        · exact ht
        · simp [ht] at hm
      · intro ht
        rw [if_pos ht] at hm
        cases hc : config_line line line.length with
        | none => rw [hc] at hm; cases hm
        | some a => exact ⟨a, rfl⟩
    · intro a ha
      rw [ha] at hm
      by_cases ht : trailer_ok remaining = true
      · rw [if_pos ht] at hm
        simpa using hm
      · simp [ht] at hm
  refine ⟨?_, ?_, by decide⟩
  · intro inner tail hrest hinner
    apply key
    have hne : inner ++ '"' :: tail ≠ [] := by simp
    have hstop := takeWhile_append_stop (p := is_value_char) inner ('"' :: tail) hinner
      (by intro c hc; simp at hc; subst hc; decide)
    rw [hrest, List.cons_append, value_grammar_quoted _ hne, hstop.1, hstop.2]
    simp
  · intro hnq
    apply key
    exact value_grammar_unquoted rest hnq

theorem config_line_trailer_witness :
    ("FOO=\"a\"  # b\n".toList.length < SIZE_MAX ∧
      rstrip "FOO=\"a\"  # b\n".toList = "FOO".toList ++ op_text false ++ "\"a\"  # b".toList ∧
      matches_name "FOO".toList = true) ∧
    (((∃ a, config_line "FOO=\"a\"  # b\n".toList "FOO=\"a\"  # b\n".toList.length = some a) ↔
        is_trailer "  # b".toList) ∧
      ∀ a, config_line "FOO=\"a\"  # b\n".toList "FOO=\"a\"  # b\n".toList.length = some a →
        a.parts = ("FOO".toList, false, "a".toList)) :=
  ⟨⟨by decide, by decide, by decide⟩,
    (config_line_trailer "FOO=\"a\"  # b\n".toList (by decide) "FOO".toList
      "\"a\"  # b".toList false (by decide) (by decide)).1 "a".toList "  # b".toList
      (by decide) (by decide)⟩

/-- C20: a rejected line is a no-op. Replacing a rejected line of a file by
any other rejected line, such as an empty line, leaves the result of the
`getline` loop unchanged (registry, store with values, provenance and
snapshots, debug flag and trace): the lines before and after it are applied
just the same, with the same line numbers. Blank, comment-only and malformed
lines are rejected. -/
theorem rejected_line_noop (renames : List StringPair) (notrace : Bool) (source : Bytes)
    (is_def do_ren : Bool) (st : Globals) (ln : Nat) (l1 l2 : List Bytes) (L L' : Bytes)
    (hL : config_line L L.length = none) (hL' : config_line L' L'.length = none) :
    (parse_configfile_loop renames notrace source is_def do_ren st ln (l1 ++ L :: l2) =
        parse_configfile_loop renames notrace source is_def do_ren st ln (l1 ++ L' :: l2) ∧
      ∀ (CONF_DEF file : Bytes),
        parse_configfile CONF_DEF renames notrace st file (some (l1 ++ L :: l2)) do_ren =
          parse_configfile CONF_DEF renames notrace st file (some (l1 ++ L' :: l2)) do_ren) ∧
    (config_line "\n".toList 1 = none ∧ config_line [] 0 = none ∧
      config_line "   \t\n".toList 5 = none ∧ config_line "# FOO=1\n".toList 8 = none ∧
      config_line "123BAD=value\n".toList 13 = none) := by
  refine ⟨?_, by decide⟩
  have hloop : ∀ (src : Bytes) (d : Bool),
      parse_configfile_loop renames notrace src d do_ren st ln (l1 ++ L :: l2) =
        parse_configfile_loop renames notrace src d do_ren st ln (l1 ++ L' :: l2) := by
    intro src d
    rw [loop_append, loop_append, loop_cons_none _ _ _ _ _ _ _ _ _ hL,
      loop_cons_none _ _ _ _ _ _ _ _ _ hL']
  refine ⟨hloop source is_def, ?_⟩
  intro CONF_DEF file
  unfold parse_configfile
  simp only []
  have h0 : ∀ (src : Bytes) (d : Bool),
      parse_configfile_loop renames notrace src d do_ren st 0 (l1 ++ L :: l2) =
        parse_configfile_loop renames notrace src d do_ren st 0 (l1 ++ L' :: l2) := by
    intro src d
    rw [loop_append, loop_append, loop_cons_none _ _ _ _ _ _ _ _ _ hL,
      loop_cons_none _ _ _ _ _ _ _ _ _ hL']
  rw [h0]

theorem rejected_line_noop_witness :
    (config_line "123BAD=value\n".toList "123BAD=value\n".toList.length = none ∧
      config_line "\n".toList "\n".toList.length = none) ∧
    parse_configfile_loop [] false "tlp.conf".toList false false Globals.init 0
        (["FOO=1\n".toList] ++ "123BAD=value\n".toList :: ["FOO+=2\n".toList]) =
      parse_configfile_loop [] false "tlp.conf".toList false false Globals.init 0
        (["FOO=1\n".toList] ++ "\n".toList :: ["FOO+=2\n".toList]) ∧
    (parse_configfile_loop [] false "tlp.conf".toList false false Globals.init 0
        (["FOO=1\n".toList] ++ "123BAD=value\n".toList :: ["FOO+=2\n".toList])).names.infos =
      [⟨"FOO".toList, "1 2".toList, "tlp.conf L0001 & tlp.conf L0003".toList, none⟩] :=
  ⟨⟨by decide, by decide⟩,
    (rejected_line_noop [] false "tlp.conf".toList false false Globals.init 0
      ["FOO=1\n".toList] ["FOO+=2\n".toList] "123BAD=value\n".toList "\n".toList
      (by decide) (by decide)).1.1, by decide⟩

/-- What `string_pair_slice_search` finds is a pair of the table whose key is
the searched name. -/
theorem slice_search_some {T : List StringPair} {key : Bytes} {len : Nat} {p : StringPair}
    (h : string_pair_slice_search T key len = some p) :
    p ∈ T ∧ cstr p.first = key.take len := by
  unfold string_pair_slice_search at h
  split at h
  · cases h
  · obtain ⟨hq, hq0⟩ := bsearch_some h
    exact ⟨hq, string_slice_cmp_eq_zero key p.first len hq0⟩

/-- On a sorted table a failed search means that no pair has the searched
name as its key. -/
theorem slice_search_none (T : List StringPair)
    (hsorted : T.Pairwise (fun p q => string_pair_compare p q ≤ 0)) (key : Bytes) (len : Nat)
    (hpos : 0 < len) (hlen : len ≤ key.length) (hk : NulFree (key.take len))
    (h : string_pair_slice_search T key len = none) :
    ∀ q ∈ T, cstr q.first ≠ key.take len := by
  intro q hq heq
  have hmono := table_signMono T hsorted key len hlen hk
  unfold string_pair_slice_search at h
  have h0 : ¬ len = 0 := by omega
  have h1 : T.isEmpty = false := by cases T <;> simp_all
  simp only [h0, h1, decide_False, Bool.or_self, Bool.false_eq_true, if_false] at h
  apply bsearch_none hmono h q hq
  rw [table_cmp_eq key len _ hlen]
  exact (string_slice_cmp_eq_iff hk (nulFree_cstr _)).mpr heq.symm

theorem fwrite_entry_emitted (cdiff : Bool) (T : List StringPair) (e : VarEntry)
    (hemit : cdiff_omitted cdiff e = false) :
    fwrite_entry cdiff T true e =
      cstr e.source ++ ": ".toList ++ cstr e.name ++ "=\"".toList ++ cstr e.value ++
        "\"".toList ++
        ((string_pair_slice_search T e.name (strlen e.name)).map
          (fun warning => " # ".toList ++ cstr warning.second)).getD [] ++
        "\n".toList := by
  rw [fwrite_entry_verbose, hemit]
  unfold fwrite_entry
  cases string_pair_slice_search T e.name (strlen e.name) <;> simp

/-- C11: for an entry that is written (not omitted by diff mode) and a
deprecation table sorted by `string_pair_compare`, the verbose line is
`<source>: NAME="value"` followed, when some pair of the table has the entry's
name as key, by ` # ` and the note of a pair with that key, and followed by
nothing when no pair has that key; then the newline. Names of entries are
never empty. -/
theorem verbose_deprecation_suffix (cdiff : Bool) (T : List StringPair)
    (hsorted : T.Pairwise (fun p q => string_pair_compare p q ≤ 0)) (e : VarEntry)
    (hname : cstr e.name ≠ []) (hemit : cdiff_omitted cdiff e = false) :
    ((∃ p ∈ T, cstr p.first = cstr e.name) →
      ∃ p ∈ T, cstr p.first = cstr e.name ∧
        fwrite_entry cdiff T true e =
          cstr e.source ++ ": ".toList ++ cstr e.name ++ "=\"".toList ++ cstr e.value ++
            "\"".toList ++ (" # ".toList ++ cstr p.second) ++ "\n".toList) ∧
    ((∀ p ∈ T, cstr p.first ≠ cstr e.name) →
      fwrite_entry cdiff T true e =
        cstr e.source ++ ": ".toList ++ cstr e.name ++ "=\"".toList ++ cstr e.value ++
          "\"".toList ++ "\n".toList) := by
  have hline := fwrite_entry_emitted cdiff T e hemit
  have hpos : 0 < strlen e.name := by
    unfold strlen
    exact List.length_pos.mpr hname
  constructor
  · rintro ⟨q, hq, hqk⟩
    cases hs : string_pair_slice_search T e.name (strlen e.name) with
    | none =>
      exfalso
      refine slice_search_none T hsorted e.name (strlen e.name) hpos (strlen_le _) ?_ hs q hq ?_
      · rw [take_strlen]; exact nulFree_cstr _
      · rw [take_strlen]; exact hqk
    | some p =>
      obtain ⟨hp, hpk⟩ := slice_search_some hs
      rw [take_strlen] at hpk
      refine ⟨p, hp, hpk, ?_⟩
      rw [hline, hs]
      rfl
  · intro hnone
    cases hs : string_pair_slice_search T e.name (strlen e.name) with
    | none =>
      rw [hline, hs]
      simp
    | some p =>
      obtain ⟨hp, hpk⟩ := slice_search_some hs
      rw [take_strlen] at hpk
      exact absurd hpk (hnone p hp)

theorem verbose_deprecation_suffix_witness :
    ([(⟨"BAR".toList, "use BAZ".toList⟩ : StringPair), ⟨"FOO".toList, "gone".toList⟩].Pairwise
        (fun p q => string_pair_compare p q ≤ 0) ∧
      cstr (⟨"FOO".toList, "1".toList, "tlp.conf L0003".toList, none⟩ : VarEntry).name ≠ [] ∧
      cdiff_omitted true ⟨"FOO".toList, "1".toList, "tlp.conf L0003".toList, none⟩ = false) ∧
    fwrite_entry true [⟨"BAR".toList, "use BAZ".toList⟩, ⟨"FOO".toList, "gone".toList⟩] true
        ⟨"FOO".toList, "1".toList, "tlp.conf L0003".toList, none⟩ =
      "tlp.conf L0003: FOO=\"1\" # gone\n".toList ∧
    fwrite_entry true [⟨"BAR".toList, "use BAZ".toList⟩, ⟨"FOO".toList, "gone".toList⟩] true
        ⟨"FOO1".toList, "1".toList, "tlp.conf L0003".toList, none⟩ =
      "tlp.conf L0003: FOO1=\"1\"\n".toList ∧
    (∀ p ∈ [(⟨"BAR".toList, "use BAZ".toList⟩ : StringPair), ⟨"FOO".toList, "gone".toList⟩],
      cstr p.first ≠
        cstr (⟨"FO".toList, "1".toList, "tlp.conf L0003".toList, none⟩ : VarEntry).name) ∧
    fwrite_entry true [⟨"BAR".toList, "use BAZ".toList⟩, ⟨"FOO".toList, "gone".toList⟩] true
        ⟨"FO".toList, "1".toList, "tlp.conf L0003".toList, none⟩ =
      cstr "tlp.conf L0003".toList ++ ": ".toList ++ cstr "FO".toList ++ "=\"".toList ++
        cstr "1".toList ++ "\"".toList ++ "\n".toList :=
  ⟨⟨by decide, by decide, by decide⟩, by decide, by decide, by decide,
    (verbose_deprecation_suffix true
      [⟨"BAR".toList, "use BAZ".toList⟩, ⟨"FOO".toList, "gone".toList⟩] (by decide)
      ⟨"FO".toList, "1".toList, "tlp.conf L0003".toList, none⟩ (by decide) (by decide)).2
      (by decide)⟩

/-- C12: for an entry that is written and whose name is a key of the sorted
deprecation table, every pair with that key having an empty note, the verbose
line is `<source>: NAME="value"`, the separator ` # ` and the newline: nothing
stands between the separator and the end of the line. -/
theorem verbose_empty_note (cdiff : Bool) (T : List StringPair)
    (hsorted : T.Pairwise (fun p q => string_pair_compare p q ≤ 0)) (e : VarEntry)
    (hname : cstr e.name ≠ []) (hemit : cdiff_omitted cdiff e = false)
    (hdep : ∃ p ∈ T, cstr p.first = cstr e.name)
    (hnote : ∀ p ∈ T, cstr p.first = cstr e.name → cstr p.second = []) :
    fwrite_entry cdiff T true e =
      cstr e.source ++ ": ".toList ++ cstr e.name ++ "=\"".toList ++ cstr e.value ++
        "\"".toList ++ " # ".toList ++ "\n".toList := by
  have hline := fwrite_entry_emitted cdiff T e hemit
  have hpos : 0 < strlen e.name := by
    unfold strlen
    exact List.length_pos.mpr hname
  obtain ⟨q, hq, hqk⟩ := hdep
  cases hs : string_pair_slice_search T e.name (strlen e.name) with
  | none =>
    exfalso
    refine slice_search_none T hsorted e.name (strlen e.name) hpos (strlen_le _) ?_ hs q hq ?_
    · rw [take_strlen]; exact nulFree_cstr _
    · rw [take_strlen]; exact hqk
  | some p =>
    obtain ⟨hp, hpk⟩ := slice_search_some hs
    rw [take_strlen] at hpk
    rw [hline, hs]
    simp only [Option.map_some', Option.getD_some, hnote p hp hpk, List.append_nil,
      List.append_assoc]

theorem verbose_empty_note_witness :
    ([(⟨"BAR".toList, "use BAZ".toList⟩ : StringPair), ⟨"FOO".toList, [NUL, 'x']⟩].Pairwise
        (fun p q => string_pair_compare p q ≤ 0) ∧
      cstr (⟨"FOO".toList, "1".toList, "tlp.conf L0003".toList, none⟩ : VarEntry).name ≠ [] ∧
      cdiff_omitted false ⟨"FOO".toList, "1".toList, "tlp.conf L0003".toList, none⟩ = false ∧
      (∃ p ∈ [(⟨"BAR".toList, "use BAZ".toList⟩ : StringPair), ⟨"FOO".toList, [NUL, 'x']⟩],
        cstr p.first =
          cstr (⟨"FOO".toList, "1".toList, "tlp.conf L0003".toList, none⟩ : VarEntry).name) ∧
      ∀ p ∈ [(⟨"BAR".toList, "use BAZ".toList⟩ : StringPair), ⟨"FOO".toList, [NUL, 'x']⟩],
        cstr p.first =
          cstr (⟨"FOO".toList, "1".toList, "tlp.conf L0003".toList, none⟩ : VarEntry).name →
        cstr p.second = []) ∧
    fwrite_entry false [⟨"BAR".toList, "use BAZ".toList⟩, ⟨"FOO".toList, [NUL, 'x']⟩] true
        ⟨"FOO".toList, "1".toList, "tlp.conf L0003".toList, none⟩ =
      "tlp.conf L0003: FOO=\"1\" # \n".toList ∧
    dprfile_line ("FOO # ".toList ++ [NUL, 'x', '\n']) 9 = some ⟨"FOO".toList, [NUL, 'x']⟩ :=
  ⟨⟨by decide, by decide, by decide, by decide, by decide⟩,
    verbose_empty_note false [⟨"BAR".toList, "use BAZ".toList⟩, ⟨"FOO".toList, [NUL, 'x']⟩]
      (by decide) ⟨"FOO".toList, "1".toList, "tlp.conf L0003".toList, none⟩ (by decide)
      (by decide) (by decide) (by decide), by decide⟩

/-- C13: `parse_dprfile` skips the line `FOO #`, with or without its newline
or blanks after the `#`: nothing is recorded for `FOO`, whereas `FOO # x` is
recorded. -/
theorem dprfile_bare_hash_skipped :
    dprfile_line "FOO #\n".toList 6 = none ∧ dprfile_line "FOO #".toList 5 = none ∧
    dprfile_line "FOO #  \n".toList 8 = none ∧
    (parse_dprfile (some ["FOO #\n".toList])).2 = [] ∧
    dprfile_line "FOO # x\n".toList 8 = some ⟨"FOO".toList, "x".toList⟩ := by
  decide

/-- C14: `parse_dprfile` skips the line `FOO #note`, where no whitespace
follows the `#`, and records `FOO # note` with the note `note`. -/
theorem dprfile_note_needs_space :
    dprfile_line "FOO #note\n".toList 10 = none ∧
    (parse_dprfile (some ["FOO #note\n".toList])).2 = [] ∧
    dprfile_line "FOO # note\n".toList 11 = some ⟨"FOO".toList, "note".toList⟩ ∧
    (parse_dprfile (some ["FOO # note\n".toList])).2 = [⟨"FOO".toList, "note".toList⟩] := by
  decide

theorem takeWhile_length_eq_iff (p : Char → Bool) (l : Bytes) :
    (l.takeWhile p).length = l.length ↔ l.all p = true := by
  induction l with
  | nil => simp
  | cons c l ih =>
    by_cases hc : p c = true
    · simp [List.takeWhile_cons, hc, ih]
    · simp [List.takeWhile_cons, hc]

theorem dropWhile_length_le (p : Char → Bool) (l : Bytes) :
    (l.dropWhile p).length ≤ l.length := by
  induction l with
  | nil => simp
  | cons c l ih =>
    by_cases hc : p c = true
    · simp only [List.dropWhile_cons, hc, if_true, List.length_cons]; omega
    · simp [List.dropWhile_cons, hc]

theorem dropWhile_length_eq_iff (p : Char → Bool) (r : Bytes) (hr : r ≠ []) :
    r.length = (r.dropWhile p).length ↔ r.head?.all (fun c => !p c) = true := by
  cases r with
  | nil => exact absurd rfl hr
  | cons c r =>
    by_cases hc : p c = true
    · have := dropWhile_length_le p r
      simp only [List.dropWhile_cons, hc, if_true, List.length_cons, List.head?_cons,
        Option.all_some, Bool.not_true, Bool.false_eq_true, iff_false]
      omega
    · simp [List.dropWhile_cons, hc]

theorem matches_name_iff_length (d : Bytes) :
    matches_name d = true ↔
      (d.takeWhile is_name_char).isEmpty = false ∧ (longest_name d).length = d.length := by
  have h1 := List.takeWhile_append_dropWhile is_name_char d
  have h2 : d.length = (d.takeWhile is_name_char).length + (d.dropWhile is_name_char).length := by
    rw [← List.length_append, h1]
  have h3 := takeWhile_length_eq_iff is_digit_char (d.dropWhile is_name_char)
  unfold matches_name longest_name
  rw [List.length_append, Bool.and_eq_true]
  constructor
  · rintro ⟨ha, hb⟩
    refine ⟨by simpa using ha, ?_⟩
    have := h3.mpr hb
    omega
  · rintro ⟨ha, hb⟩
    refine ⟨by simp [ha], h3.mp (by omega)⟩

theorem renfile_line_grammar (line : Bytes) :
    renfile_line line line.length = renfile_grammar (rstrip line) := by
  obtain ⟨ws0, hline, hws0⟩ := rstrip_append_spaces line
  generalize ht : rstrip line = t at hline
  have hr : rtrim line line.length = (if t.isEmpty then none else some line, t.length) := by
    have := rtrim_append line []
    simpa [ht] using this
  unfold renfile_line renfile_grammar
  simp only [hr]
  by_cases hte : t.isEmpty = true
  · have : t = [] := by simpa using hte
    subst this
    simp [parse_name]
  · simp only [hte, if_false, Bool.false_eq_true]
    have hpn : parse_name (some line) t.length =
        if (t.takeWhile is_name_char).isEmpty then (none, 0)
        else (some line, (longest_name t).length) := by
      have := parse_name_append t ws0
      rw [← hline] at this
      simpa [longest_name] using this
    simp only [hpn]
    by_cases hn : (t.takeWhile is_name_char).isEmpty = true
    · simp only [hn, if_true]
    · simp only [hn, if_false, Bool.false_eq_true]
      have hsplit : t = longest_name t ++ t.drop (longest_name t).length := name_prefix_split t
      generalize hn' : longest_name t = n at hsplit ⊢
      generalize hr' : t.drop n.length = r at hsplit ⊢
      have hlen : t.length - n.length = r.length := by
        rw [hsplit, List.length_append]; omega
      have hdrop : line.drop n.length = r ++ ws0 := by
        rw [hline, hsplit, List.append_assoc, List.drop_left]
      have htake : str_materialize line n.length = n := by
        unfold str_materialize
        rw [hline, hsplit, List.append_assoc, List.take_left]
      rw [hlen, hdrop, htake, ltrim_append]
      by_cases hre : r = []
      · subst hre
        have : n.length ≥ t.length := by rw [hsplit]; simp
        simp [this]
      · have hge : ¬ n.length ≥ t.length := by
          rw [hsplit, List.length_append]
          have := List.length_pos.mpr hre
          omega
        have hre' : r.isEmpty = false := by cases r <;> simp_all
        simp only [hge, if_false, hre', Bool.false_eq_true]
        generalize hd : r.dropWhile isspace = d
        by_cases hde : d = []
        · subst hde
          simp [matches_name]
        · have hde' : d.isEmpty = false := by cases d <;> simp_all
          simp only [hde', if_false, Bool.false_eq_true]
          have hiff := dropWhile_length_eq_iff isspace r hre
          rw [hd] at hiff
          by_cases hsp : r.length = d.length
          · simp only [hsp, if_true, hiff.mp hsp]
          · have hsp' : ¬ r.head?.all (fun c => !isspace c) = true := fun h => hsp (hiff.mpr h)
            simp only [hsp, if_false, hsp']
            rw [parse_name_append]
            have hm := matches_name_iff_length d
            by_cases hdn : (d.takeWhile is_name_char).isEmpty = true
            · have : ¬ matches_name d = true := by
                intro h; rw [hm.mp h |>.1] at hdn; cases hdn
              simp [hdn, this]
            · simp only [hdn, if_false, Bool.false_eq_true]
              by_cases hl : (longest_name d).length = d.length
              · have hmd : matches_name d = true := hm.mpr ⟨by simpa using hdn, hl⟩
                unfold longest_name at hl
                rw [List.length_append] at hl
                simp only [hl, ne_eq, not_true_eq_false, if_false, hmd, if_true]
                unfold str_materialize
                rw [List.take_left]
              · have hmd : ¬ matches_name d = true := fun h => hl (hm.mp h).2
                unfold longest_name at hl
                rw [List.length_append] at hl
                simp [hl, hmd]

theorem matches_name_head {new : Bytes} (h : matches_name new = true) :
    ∀ c, new.head? = some c → isspace c = false := by
  intro c hc
  cases new with
  | nil => cases hc
  | cons x xs =>
    simp only [List.head?_cons, Option.some.injEq] at hc
    subst hc
    by_cases hx : is_name_char x = true
    · exact name_not_space hx
    · simp [matches_name, List.takeWhile_cons, hx] at h

theorem renfile_grammar_iff (t old new : Bytes) :
    renfile_grammar t = some ⟨old, new⟩ ↔
      ∃ ws, ws ≠ [] ∧ (∀ c ∈ ws, isspace c = true) ∧ t = old ++ ws ++ new ∧
        matches_name old = true ∧ matches_name new = true := by
  constructor
  · intro h
    unfold renfile_grammar at h
    by_cases h1 : (t.takeWhile is_name_char).isEmpty = true
    · simp [h1] at h
    · simp only [h1, if_false, Bool.false_eq_true] at h
      have hsplit : t = longest_name t ++ t.drop (longest_name t).length := name_prefix_split t
      have hmn := matches_name_longest t (by simpa using h1)
      generalize hn' : longest_name t = n at hsplit h hmn
      generalize hr' : t.drop n.length = r at hsplit h
      by_cases h2 : r.isEmpty = true
      · simp [h2] at h
      · simp only [h2, if_false, Bool.false_eq_true] at h
        by_cases h3 : r.head?.all (fun c => !isspace c) = true
        · simp [h3] at h
        · simp only [h3, if_false, Bool.false_eq_true] at h
          by_cases h4 : matches_name (r.dropWhile isspace) = true
          · simp only [h4, if_true, Option.some.injEq, StringPair.mk.injEq] at h
            obtain ⟨ho, hnw⟩ := h
            subst ho
            refine ⟨r.takeWhile isspace, ?_, ?_, ?_, hmn, by rw [← hnw]; exact h4⟩
            · cases r with
              | nil => simp at h2
              | cons c r =>
                by_cases hc : isspace c = true
                · simp [List.takeWhile_cons, hc]
                · simp [hc] at h3
            · intro c hc
              exact (List.mem_takeWhile_imp hc)
            · rw [← hnw, List.append_assoc, List.takeWhile_append_dropWhile]
              exact hsplit
          · simp [h4] at h
  · rintro ⟨ws, hws, hsp, ht, ho, hnw⟩
    have hhead : ∀ c, (ws ++ new).head? = some c →
        is_name_char c = false ∧ is_digit_char c = false := by
      intro c hc
      cases ws with
      | nil => exact absurd rfl hws
      | cons w ws =>
        simp only [List.cons_append, List.head?_cons, Option.some.injEq] at hc
        subst hc
        have := hsp w (List.mem_cons_self _ _)
        exact ⟨space_not_name this, space_not_digit this⟩
    have hl := longest_name_append old (ws ++ new) ho hhead
    rw [← List.append_assoc, ← ht] at hl
    have hdrop : t.drop old.length = ws ++ new := by
      rw [ht, List.append_assoc, List.drop_left]
    have hstop := takeWhile_append_stop (p := isspace) ws new hsp (matches_name_head hnw)
    unfold renfile_grammar
    rw [hl.2, hdrop, hstop.2]
    have h2 : (ws ++ new).isEmpty = false := by cases ws <;> simp_all
    have h3 : (ws ++ new).head?.all (fun c => !isspace c) = false := by
      cases ws with
      | nil => exact absurd rfl hws
      | cons w ws => simp [hsp w (List.mem_cons_self _ _)]
    simp only [hl.1, h2, h3, hnw, if_true, if_false, Bool.false_eq_true]

/-- C15: `parse_renfile` records the pair `(OLD, NEW)` for a line exactly when
the right-trimmed line is `OLD`, one or more whitespace bytes, and `NEW`, with
`OLD` and `NEW` both of the form `[A-Z_]+[0-9]*` (so `NEW` ends the trimmed
line). The table is the sorted list of the pairs of the recorded lines, so a
line that records nothing can be removed from the file without changing the
result: the lines after it are processed all the same. -/
theorem renfile_line_iff (line old new : Bytes) :
    (renfile_line line line.length = some ⟨old, new⟩ ↔
      ∃ ws, ws ≠ [] ∧ (∀ c ∈ ws, isspace c = true) ∧ rstrip line = old ++ ws ++ new ∧
        matches_name old = true ∧ matches_name new = true) ∧
    (renfile_line line line.length = none →
      ∀ l1 l2 : List Bytes,
        parse_renfile (some (l1 ++ line :: l2)) = parse_renfile (some (l1 ++ l2))) ∧
    (∀ lines : List Bytes, parse_renfile (some lines) =
      (0, string_pair_sort (lines.filterMap (fun L => renfile_line L L.length)))) ∧
    (renfile_line "OLD_A1 \t NEW_B\n".toList 15 = some ⟨"OLD_A1".toList, "NEW_B".toList⟩ ∧
      renfile_line "OLD\n".toList 4 = none ∧ renfile_line "OLD NEW x\n".toList 10 = none ∧
      renfile_line "OLD new\n".toList 8 = none ∧ renfile_line " OLD NEW\n".toList 9 = none ∧
      renfile_line "OLD=NEW\n".toList 8 = none ∧ renfile_line "1OLD NEW\n".toList 9 = none) := by
  refine ⟨?_, ?_, fun _ => rfl, by decide⟩
  · rw [renfile_line_grammar]
    exact renfile_grammar_iff _ _ _
  · intro h l1 l2
    unfold parse_renfile
    simp only [List.filterMap_append, List.filterMap_cons, h]

theorem renfile_line_iff_witness :
    renfile_line "\n".toList "\n".toList.length = none ∧
    parse_renfile (some (["A B\n".toList] ++ "\n".toList :: ["C D\n".toList])) =
      parse_renfile (some (["A B\n".toList] ++ ["C D\n".toList])) ∧
    (parse_renfile (some (["C D\n".toList] ++ "junk\n".toList :: ["A B\n".toList]))).2 =
      [⟨"A".toList, "B".toList⟩, ⟨"C".toList, "D".toList⟩] :=
  ⟨by decide,
    (renfile_line_iff "\n".toList [] []).2.1 (by decide) ["A B\n".toList] ["C D\n".toList],
    by decide⟩

/-- After a call the entry of the name carries the location of the call as its
provenance, or as the last part of its provenance after ` & `. -/
theorem store_source {st : Globals} (hwf : st.names.WF) (notrace : Bool) (key : Bytes)
    (key_len : Nat) (value : Bytes) (value_len : Nat) (source : Bytes) (line : Nat)
    (append is_def : Bool) (hlen : key_len ≤ key.length) (hk : NulFree (key.take key_len)) :
    ∃ e ∈ (store_name_value_source notrace st key key_len value value_len source line append
        is_def).names.infos,
      e.name = key.take key_len ∧
      ((append = false ∨ ∀ e' ∈ st.names.infos, e'.name ≠ key.take key_len) →
        e.source = location_of source line) ∧
      (e.source = location_of source line ∨
        ∃ P, e.source = P ++ " & ".toList ++ location_of source line) := by
  by_cases hex : ∃ e' ∈ st.names.infos, e'.name = key.take key_len
  · obtain ⟨e', he', hname⟩ := hex
    obtain ⟨i, hi, hget⟩ := List.getElem_of_mem he'
    have hi' : st.names.infos[i]? = some e' := by
      rw [List.getElem?_eq_getElem hi, hget]
    rw [store_existing hwf notrace key key_len value value_len source line append is_def hlen hk
      i e' hi' hname]
    refine ⟨updated_entry e' value value_len source line append, ?_, ?_, ?_, ?_⟩
    · simp only
      exact List.mem_iff_getElem?.mpr ⟨i, by simp [List.getElem?_set, hi]⟩
    · rw [updated_entry_name, hname]
    · rintro (ha | hno)
      · subst ha; rfl
      · exact absurd hname (hno e' he')
    · cases append with
      | false => left; rfl
      | true => right; exact ⟨_, rfl⟩
  · have hnew : ∀ e' ∈ st.names.infos, e'.name ≠ key.take key_len := by
      intro e' he' hn
      exact hex ⟨e', he', hn⟩
    obtain ⟨index, -, -, -, heq⟩ := store_new hwf notrace key key_len value value_len source line
      append is_def hlen hk hnew
    rw [heq]
    refine ⟨new_entry key key_len value value_len source line is_def, by simp, rfl,
      fun _ => rfl, Or.inl rfl⟩

/-- C21: in any file, read in any state, an accepted line that follows `k`
physical lines (accepted, blank or rejected alike) is stored with line number
`k + 1`: the state after the line is the state before it with one call of
`store_name_value_source` at line `k + 1`, the entry of the name then carries
`<source> L<k+1>` (`%04zu`) as its provenance, alone or after ` & `, and the
remaining lines are read from count `k + 1`. The count does not depend on the
state or on the files read before: each file starts again at 1. -/
theorem provenance_line_number (CONF_DEF : Bytes) (renames : List StringPair) (notrace : Bool)
    (st : Globals) (file : Bytes) (do_ren : Bool) (l1 l2 : List Bytes) (L : Bytes)
    (a : Assignment) (hwf : st.names.WF) (hL : config_line L L.length = some a) :
    (parse_configfile CONF_DEF renames notrace st file (some (l1 ++ [L])) do_ren).2 =
      store_name_value_source notrace
        (parse_configfile CONF_DEF renames notrace st file (some l1) do_ren).2
        (resolved_key renames do_ren a).1 (resolved_key renames do_ren a).2 a.value a.value_len
        (source_of CONF_DEF file) (l1.length + 1) a.append (decide (strcmp file CONF_DEF = 0)) ∧
    (∃ e ∈ (parse_configfile CONF_DEF renames notrace st file (some (l1 ++ [L]))
        do_ren).2.names.infos,
      e.name = stored_name renames do_ren a ∧
      (a.append = false → e.source =
        cstr (source_of CONF_DEF file) ++ " L".toList ++ fmt_04zu (l1.length + 1)) ∧
      (e.source = cstr (source_of CONF_DEF file) ++ " L".toList ++ fmt_04zu (l1.length + 1) ∨
        ∃ P, e.source = P ++ " & ".toList ++
          (cstr (source_of CONF_DEF file) ++ " L".toList ++ fmt_04zu (l1.length + 1)))) ∧
    (parse_configfile CONF_DEF renames notrace st file (some (l1 ++ L :: l2)) do_ren).2 =
      parse_configfile_loop renames notrace (source_of CONF_DEF file)
        (decide (strcmp file CONF_DEF = 0)) do_ren
        (parse_configfile CONF_DEF renames notrace st file (some (l1 ++ [L])) do_ren).2
        (l1.length + 1) l2 := by
  have hstep : (parse_configfile CONF_DEF renames notrace st file (some (l1 ++ [L])) do_ren).2 =
      store_name_value_source notrace
        (parse_configfile CONF_DEF renames notrace st file (some l1) do_ren).2
        (resolved_key renames do_ren a).1 (resolved_key renames do_ren a).2 a.value a.value_len
        (source_of CONF_DEF file) (l1.length + 1) a.append
        (decide (strcmp file CONF_DEF = 0)) := by
    simp only [parse_configfile_snd]
    rw [loop_append, loop_cons_some _ _ _ _ _ _ _ _ _ a hL, loop_nil, Nat.zero_add]
  refine ⟨hstep, ?_, ?_⟩
  · rw [hstep]
    have hwf1 := parse_configfile_wf CONF_DEF renames notrace st file (some l1) do_ren hwf
    have hkey := resolved_key_ok renames do_ren hL
    obtain ⟨e, he, hn, hs1, hs2⟩ := store_source hwf1 notrace (resolved_key renames do_ren a).1
      (resolved_key renames do_ren a).2 a.value a.value_len (source_of CONF_DEF file)
      (l1.length + 1) a.append (decide (strcmp file CONF_DEF = 0)) hkey.1 hkey.2
    exact ⟨e, he, hn, fun ha => hs1 (Or.inl ha), hs2⟩
  · simp only [parse_configfile_snd]
    rw [loop_append, loop_append, loop_cons_some _ _ _ _ _ _ _ _ _ a hL,
      loop_cons_some _ _ _ _ _ _ _ _ _ a hL, loop_nil, Nat.zero_add]

theorem provenance_line_number_witness :
    (Globals.init.names.WF ∧
      config_line "FOO=b\n".toList "FOO=b\n".toList.length =
        some ⟨"FOO=b\n".toList, 3, false, "b\n".toList, 1⟩) ∧
    (∃ e ∈ (parse_configfile "/usr/share/tlp/defaults.conf".toList [] false Globals.init
        "/etc/tlp.conf".toList
        (some (["# comment\n".toList, "\n".toList, "bad line\n".toList] ++ ["FOO=b\n".toList]))
        false).2.names.infos,
      e.name = stored_name [] false ⟨"FOO=b\n".toList, 3, false, "b\n".toList, 1⟩ ∧
      (false = false → e.source =
        cstr (source_of "/usr/share/tlp/defaults.conf".toList "/etc/tlp.conf".toList) ++
          " L".toList ++ fmt_04zu (3 + 1)) ∧
      (e.source =
          cstr (source_of "/usr/share/tlp/defaults.conf".toList "/etc/tlp.conf".toList) ++
            " L".toList ++ fmt_04zu (3 + 1) ∨
        ∃ P, e.source = P ++ " & ".toList ++
          (cstr (source_of "/usr/share/tlp/defaults.conf".toList "/etc/tlp.conf".toList) ++
            " L".toList ++ fmt_04zu (3 + 1)))) ∧
    (main example_env ⟨false, false, none⟩).globals.names.infos.map (fun e => e.source) =
      ["a.conf L0002".toList, "defaults.conf L0002 & /etc/tlp.conf L0002".toList,
        "defaults.conf L0003".toList, "/etc/tlp.conf L0003".toList] :=
  ⟨⟨wf_init, by decide⟩,
    (provenance_line_number "/usr/share/tlp/defaults.conf".toList [] false Globals.init
      "/etc/tlp.conf".toList false
      ["# comment\n".toList, "\n".toList, "bad line\n".toList] [] "FOO=b\n".toList
      ⟨"FOO=b\n".toList, 3, false, "b\n".toList, 1⟩ wf_init (by decide)).2.1,
    by decide⟩

/-- C22: with tracing off, setting `TLP_DEBUG` to `cfgcfg` (or `xcfgcfg`)
turns tracing on although the value holds no `cfg` as a whole word: the scan
treats a `cfg` found right where the previous match ended as if it stood at
the start of the value. Values with a whole-word `cfg` turn tracing on and
`xcfg`, `cfgx`, `cfgcfgx` do not. -/
theorem debug_trigger_adjacent_cfg :
    ((store_name_value_source false Globals.init "TLP_DEBUG".toList 9 "cfgcfg".toList 6
        "tlp.conf".toList 1 false false).debug = true ∧
      contains_cfg_word "cfgcfg".toList = false) ∧
    ((store_name_value_source false Globals.init "TLP_DEBUG".toList 9 "xcfgcfg".toList 7
        "tlp.conf".toList 1 false false).debug = true ∧
      contains_cfg_word "xcfgcfg".toList = false) ∧
    (parse_configfile_loop [] false "tlp.conf".toList false false Globals.init 0
        ["TLP_DEBUG=cfgcfg\n".toList]).debug = true ∧
    (∀ v ∈ ["cfg".toList, "a cfg b".toList, "x-cfg:y".toList, "cfg cfgcfg".toList],
      (store_name_value_source false Globals.init "TLP_DEBUG".toList 9 v v.length
          "tlp.conf".toList 1 false false).debug = true ∧ contains_cfg_word v = true) ∧
    (∀ v ∈ ["xcfg".toList, "cfgx".toList, "cfgcfgx".toList, "cfg_cfg".toList, [], "cf".toList],
      (store_name_value_source false Globals.init "TLP_DEBUG".toList 9 v v.length
          "tlp.conf".toList 1 false false).debug = false ∧ contains_cfg_word v = false) := by
  decide

/-- C23: with tracing off, setting the variable `TLP` (or `T`, `TLP_`,
`TLP_DEBU`: any name that is a beginning of `TLP_DEBUG`) to `cfg` turns
tracing on; `strncmp` compares only the `key_len` bytes of the name.
`TLP_DEBUG1` and `FOO` leave tracing off. -/
theorem debug_trigger_prefix_name :
    (store_name_value_source false Globals.init "TLP".toList 3 "cfg".toList 3
        "tlp.conf".toList 1 false false).debug = true ∧
    "TLP".toList ≠ "TLP_DEBUG".toList ∧
    (parse_configfile_loop [] false "tlp.conf".toList false false Globals.init 0
        ["TLP=cfg\n".toList]).debug = true ∧
    (∀ k ∈ ["T".toList, "TL".toList, "TLP_".toList, "TLP_DEBU".toList],
      (store_name_value_source false Globals.init k k.length "cfg".toList 3
          "tlp.conf".toList 1 false false).debug = true) ∧
    (∀ k ∈ ["TLP_DEBUG1".toList, "TLP_DEBUG_".toList, "FOO".toList, "_".toList],
      (store_name_value_source false Globals.init k k.length "cfg".toList 3
          "tlp.conf".toList 1 false false).debug = false) := by
  decide

theorem parse_configfile_fst (CONF_DEF : Bytes) (renames : List StringPair) (notrace : Bool)
    (st : Globals) (file : Bytes) (content : Option (List Bytes)) (do_ren : Bool) :
    (parse_configfile CONF_DEF renames notrace st file content do_ren).1 =
      if content = none then -1 else 0 := by
  unfold parse_configfile
  cases content <;> simp

/-- The exit status of `main` in terms of which files open. -/
theorem main_status (env : Env) (opts : Opts) :
    (main env opts).status =
      if env.fopen env.CONF_DEF = none then EXIT_DEFCONF
      else if env.fopen env.CONF_USR = none ∧ env.fopen env.CONF_OLD = none then EXIT_TLPCONF
      else 0 := by
  unfold main
  simp only [parse_configfile]
  cases hdef : env.fopen env.CONF_DEF <;> cases husr : env.fopen env.CONF_USR <;>
    cases hold : env.fopen env.CONF_OLD <;> simp

/-- What `main` writes: nothing on a failure exit, else what `write_runconf`
writes for the final store. -/
theorem main_output (env : Env) (opts : Opts) :
    ((main env opts).stderr, (main env opts).outfile) =
      if (main env opts).status = 0 then
        write_runconf env opts.cdiff (parse_dprfile (env.fopen env.CONF_DPR)).2
          (main env opts).globals.names opts.outfile
      else ([], none) := by
  rw [main_status]
  unfold main
  simp only [parse_configfile]
  cases hdef : env.fopen env.CONF_DEF <;> cases husr : env.fopen env.CONF_USR <;>
    cases hold : env.fopen env.CONF_OLD <;> simp [EXIT_DEFCONF, EXIT_TLPCONF]

/-- C25: after a successful `parse_opts`, `main` ends with status 6
(`EXIT_DEFCONF`) exactly when the default file cannot be opened, with status 5
(`EXIT_TLPCONF`) exactly when the default file opens and neither the primary
nor the legacy user file opens, and with status 0 in every other case; 5 and 6
differ from each other, from 0 and from 1; with status 5 or 6 nothing is
written to `stderr` or to the output file. -/
theorem exit_codes (env : Env) (opts : Opts) :
    ((main env opts).status = 6 ↔ env.fopen env.CONF_DEF = none) ∧
    ((main env opts).status = 5 ↔
      (env.fopen env.CONF_DEF ≠ none ∧ env.fopen env.CONF_USR = none ∧
        env.fopen env.CONF_OLD = none)) ∧
    ((main env opts).status = 0 ↔
      (env.fopen env.CONF_DEF ≠ none ∧
        (env.fopen env.CONF_USR ≠ none ∨ env.fopen env.CONF_OLD ≠ none))) ∧
    (EXIT_DEFCONF = 6 ∧ EXIT_TLPCONF = 5 ∧ EXIT_DEFCONF ≠ EXIT_TLPCONF ∧
      EXIT_DEFCONF ≠ 0 ∧ EXIT_DEFCONF ≠ 1 ∧ EXIT_TLPCONF ≠ 0 ∧ EXIT_TLPCONF ≠ 1) ∧
    ((main env opts).status ≠ 0 →
      (main env opts).stderr = [] ∧ (main env opts).outfile = none) := by
  have hs := main_status env opts
  have ho := main_output env opts
  refine ⟨?_, ?_, ?_, by decide, ?_⟩
  · rw [hs]
    by_cases h1 : env.fopen env.CONF_DEF = none
    · simp [h1, EXIT_DEFCONF]
    · by_cases h2 : env.fopen env.CONF_USR = none ∧ env.fopen env.CONF_OLD = none
      · simp [h1, h2, EXIT_TLPCONF]
      · simp [h1, h2]
  · rw [hs]
    by_cases h1 : env.fopen env.CONF_DEF = none
    · simp [h1, EXIT_DEFCONF]
    · by_cases h2 : env.fopen env.CONF_USR = none ∧ env.fopen env.CONF_OLD = none
      · simp [h1, h2, EXIT_TLPCONF]
      · rw [if_neg h1, if_neg h2]
        constructor
        · intro h; cases h
        · intro h; exact absurd h.2 h2
  · rw [hs]
    by_cases h1 : env.fopen env.CONF_DEF = none
    · simp [h1, EXIT_DEFCONF]
    · by_cases h2 : env.fopen env.CONF_USR = none ∧ env.fopen env.CONF_OLD = none
      · simp [h1, h2, EXIT_TLPCONF]
      · rw [if_neg h1, if_neg h2]
        simp only [true_iff]
        refine ⟨h1, ?_⟩
        by_cases h3 : env.fopen env.CONF_USR = none
        · right; intro h4; exact h2 ⟨h3, h4⟩
        · left; exact h3
  · intro hne
    rw [if_neg hne] at ho
    exact ⟨congrArg Prod.fst ho, congrArg Prod.snd ho⟩

theorem exit_codes_witness :
    (main { example_env with fopen := fun _ => none } ⟨false, false, none⟩).status ≠ 0 ∧
    (main { example_env with fopen := fun _ => none } ⟨false, false, none⟩).status = 6 ∧
    (main { example_env with fopen := fun p =>
        if p = "/usr/share/tlp/defaults.conf".toList then some ["FOO=1\n".toList] else none }
      ⟨false, false, none⟩).status = 5 ∧
    (main example_env ⟨false, false, none⟩).status = 0 ∧
    (main { example_env with fopen := fun _ => none } ⟨false, false, none⟩).stderr = [] ∧
    (main { example_env with fopen := fun _ => none } ⟨false, false, none⟩).outfile = none :=
  ⟨by decide, by decide, by decide, by decide,
    (exit_codes { example_env with fopen := fun _ => none } ⟨false, false, none⟩).2.2.2.2
      (by decide)⟩

/-- C24: with a default file that opens. (1) When the primary user file opens,
the run is the same whatever the legacy file holds, and whether or not it can
be opened (the legacy path being distinct from the four paths read before
it): the legacy file is not read. (2) When the primary user file cannot be
opened and the legacy file opens, its lines are applied to the store left by
the drop-ins, with the same rename table and rename switch as for the primary
file, and the exit status is 0. -/
theorem legacy_user_fallback (env : Env) (opts : Opts) (deflines : List Bytes)
    (hdef : env.fopen env.CONF_DEF = some deflines) :
    (∀ ulines, env.fopen env.CONF_USR = some ulines →
      ((main env opts).globals =
          (parse_configfile env.CONF_DEF (main_renames env) opts.notrace
            (stage_dropins env opts) env.CONF_USR (some ulines) (main_do_rename env)).2 ∧
        (main env opts).status = 0) ∧
      ∀ legacy : Option (List Bytes),
        env.CONF_OLD ≠ env.CONF_REN → env.CONF_OLD ≠ env.CONF_DPR →
        env.CONF_OLD ≠ env.CONF_DEF → env.CONF_OLD ≠ env.CONF_USR →
        main { env with fopen := fun p => if p = env.CONF_OLD then legacy else env.fopen p }
          opts = main env opts) ∧
    (env.fopen env.CONF_USR = none → ∀ olines, env.fopen env.CONF_OLD = some olines →
      (main env opts).globals =
          (parse_configfile env.CONF_DEF (main_renames env) opts.notrace
            (stage_dropins env opts) env.CONF_OLD (some olines) (main_do_rename env)).2 ∧
        (main env opts).status = 0) := by
  have hg := main_globals env opts deflines hdef
  have hs := main_status env opts
  refine ⟨?_, ?_⟩
  · intro ulines husr
    refine ⟨⟨?_, ?_⟩, ?_⟩
    · rw [hg]; unfold stage_user; rw [husr]
    · rw [hs]; simp [hdef, husr]
    · intro legacy h1 h2 h3 h4
      unfold main
      simp only [Ne.symm h1, Ne.symm h2, Ne.symm h3, Ne.symm h4, if_false, hdef, husr,
        parse_configfile, write_runconf]
      simp
  · intro husr olines hold
    refine ⟨?_, ?_⟩
    · rw [hg]; unfold stage_user; rw [husr, hold]
    · rw [hs]; simp [hdef, hold]

theorem legacy_user_fallback_witness :
    example_env.fopen example_env.CONF_DEF =
      some ["FOO=\"1\"\n".toList, "BAR=x\n".toList, "OLD=0\n".toList] ∧
    example_env.fopen example_env.CONF_USR =
      some ["# user settings\n".toList, "BAR+=y\n".toList, "OLD=\"3\"\n".toList] ∧
    main { example_env with fopen := fun p =>
        if p = example_env.CONF_OLD then some ["FOO=legacy\n".toList]
        else example_env.fopen p } ⟨false, false, none⟩ =
      main example_env ⟨false, false, none⟩ ∧
    (main { example_env with fopen := fun p =>
        if p = "/etc/tlp.conf".toList then none
        else if p = "/etc/default/tlp".toList then some ["\n".toList, "FOO=legacy\n".toList]
        else example_env.fopen p } ⟨false, false, none⟩).globals.names.infos.map
        (fun e => (e.value, e.source)) =
      [("legacy".toList, "/etc/default/tlp L0002".toList),
        ("x".toList, "defaults.conf L0002".toList), ("0".toList, "defaults.conf L0003".toList)] :=
  ⟨by decide, by decide,
    ((legacy_user_fallback example_env ⟨false, false, none⟩
      ["FOO=\"1\"\n".toList, "BAR=x\n".toList, "OLD=0\n".toList] (by decide)).1
      ["# user settings\n".toList, "BAR+=y\n".toList, "OLD=\"3\"\n".toList] (by decide)).2
      (some ["FOO=legacy\n".toList]) (by decide) (by decide) (by decide) (by decide),
    by decide⟩

/-- C27: `write_runconf` with an output file writes the compact lines
`NAME="value"` of all entries, in store order, to that file and nothing to
`stderr` (nothing at all when the file cannot be opened for writing); without
an output file it writes the verbose output to `stderr`. The compact lines
depend neither on the diff flag nor on the deprecation table: an entry whose
value equals its default snapshot is written even in diff mode, while verbose
diff output omits it. -/
theorem compact_iff_outfile (env : Env) (cdiff : Bool) (deprecated : List StringPair)
    (names : Names) :
    (∀ file : Bytes, write_runconf env cdiff deprecated names (some file) =
      ([], if env.outfile_ok then
        some ((names.infos.map (fun e =>
          cstr e.name ++ "=\"".toList ++ cstr e.value ++ "\"\n".toList)).flatten)
        else none)) ∧
    write_runconf env cdiff deprecated names none =
      (fwrite_runconf cdiff deprecated names true, none) ∧
    (∀ (cdiff' : Bool) (deprecated' : List StringPair),
      fwrite_runconf cdiff deprecated names false =
        fwrite_runconf cdiff' deprecated' names false) ∧
    (∀ e : VarEntry, e.defv = some e.value →
      fwrite_entry true deprecated false e =
          cstr e.name ++ "=\"".toList ++ cstr e.value ++ "\"\n".toList ∧
        fwrite_entry true deprecated true e = []) ∧
    (fwrite_runconf true [⟨"FOO".toList, "gone".toList⟩]
        ⟨[⟨"FOO".toList, 0⟩], [⟨"FOO".toList, "1".toList, "defaults.conf L0001".toList,
          some "1".toList⟩]⟩ false = "FOO=\"1\"\n".toList ∧
      fwrite_runconf true [⟨"FOO".toList, "gone".toList⟩]
        ⟨[⟨"FOO".toList, 0⟩], [⟨"FOO".toList, "1".toList, "defaults.conf L0001".toList,
          some "1".toList⟩]⟩ true = [] ∧
      fwrite_runconf false [⟨"FOO".toList, "gone".toList⟩]
        ⟨[⟨"FOO".toList, 0⟩], [⟨"FOO".toList, "1".toList, "defaults.conf L0001".toList,
          some "1".toList⟩]⟩ true = "defaults.conf L0001: FOO=\"1\" # gone\n".toList) := by
  refine ⟨?_, rfl, ?_, ?_, by decide⟩
  · intro file
    unfold write_runconf fwrite_runconf fwrite_entry
    cases env.outfile_ok <;> simp
  · intro cdiff' deprecated'
    unfold fwrite_runconf fwrite_entry
    simp
  · intro e he
    refine ⟨by simp [fwrite_entry], ?_⟩
    rw [fwrite_entry_verbose]
    simp [cdiff_omitted, he]

theorem compact_iff_outfile_witness :
    (⟨"FOO".toList, "1".toList, "defaults.conf L0001".toList, some "1".toList⟩ : VarEntry).defv =
      some (⟨"FOO".toList, "1".toList, "defaults.conf L0001".toList,
        some "1".toList⟩ : VarEntry).value ∧
    fwrite_entry true [] false
        ⟨"FOO".toList, "1".toList, "defaults.conf L0001".toList, some "1".toList⟩ =
      cstr "FOO".toList ++ "=\"".toList ++ cstr "1".toList ++ "\"\n".toList ∧
    fwrite_entry true [] true
        ⟨"FOO".toList, "1".toList, "defaults.conf L0001".toList, some "1".toList⟩ = [] :=
  ⟨rfl, (compact_iff_outfile example_env true [] ⟨[], []⟩).2.2.2.1
    ⟨"FOO".toList, "1".toList, "defaults.conf L0001".toList, some "1".toList⟩ rfl⟩

/-- An array sorted strictly ascending under an order that the comparator
decides gives the comparator monotone signs. -/
theorem signMono_of_sorted {κ α β : Type} (lt : β → β → Prop)
    (htrans : ∀ x y z, lt x y → lt y z → lt x z) (compar : κ → α → Int) (key : κ) (kb : β)
    (proj : α → β) (base : List α)
    (hcons : ∀ a ∈ base, (compar key a > 0 ↔ lt (proj a) kb) ∧ (compar key a < 0 ↔ lt kb (proj a)))
    (hsorted : base.Pairwise (fun a b => lt (proj a) (proj b))) :
    SignMono compar key base := by
  intro i j hi hj hij
  have hs := (List.pairwise_iff_getElem.mp hsorted) i j hi hj hij
  have hci := hcons _ (List.getElem_mem hi)
  have hcj := hcons _ (List.getElem_mem hj)
  constructor
  · intro h
    exact hci.1.mpr (htrans _ _ _ hs (hcj.1.mp h))
  · intro h
    exact hcj.2.mpr (htrans _ _ _ (hci.2.mp h) hs)

/-- The comparator of the registry decides the byte-wise order between the
key text and a registered name. -/
theorem registry_cmp_consistent (key : Bytes) (len : Nat) (hlen : len ≤ key.length)
    (hk : NulFree (key.take len)) (p : StringSizePair) (hp : NulFree p.first) :
    (string_size_pair_slice_search_cmp ⟨len, key⟩ p > 0 ↔ blt p.first (key.take len)) ∧
    (string_size_pair_slice_search_cmp ⟨len, key⟩ p < 0 ↔ blt (key.take len) p.first) ∧
    (string_size_pair_slice_search_cmp ⟨len, key⟩ p = 0 ↔ p.first = key.take len) := by
  rw [registry_cmp_eq key len p hp hlen]
  refine ⟨string_slice_cmp_gt_iff hk hp, string_slice_cmp_lt_iff hk hp, ?_⟩
  rw [string_slice_cmp_eq_iff hk hp]
  exact eq_comm

/-- C29: for an array sorted strictly ascending under an order `lt` on the
elements' keys that the comparator decides (`compar key a > 0` exactly when
`a` is below the key, `< 0` exactly when it is above), `binary_search` returns
`true` exactly when some element compares equal, then with the index of an
element that compares equal; otherwise it returns `false` with an index
`i ≤ n` such that every element before `i` is below the key and every element
from `i` on is above it: the insertion point. -/
theorem binary_search_insertion_point {κ α β : Type} (lt : β → β → Prop)
    (htrans : ∀ x y z, lt x y → lt y z → lt x z) (compar : κ → α → Int) (key : κ) (kb : β)
    (proj : α → β) (base : List α)
    (hcons : ∀ a ∈ base, (compar key a > 0 ↔ lt (proj a) kb) ∧ (compar key a < 0 ↔ lt kb (proj a)))
    (hsorted : base.Pairwise (fun a b => lt (proj a) (proj b))) :
    ((binary_search compar key base).1 = true ↔ ∃ a ∈ base, compar key a = 0) ∧
    ((binary_search compar key base).1 = true →
      ∃ h : (binary_search compar key base).2 < base.length,
        compar key base[(binary_search compar key base).2] = 0) ∧
    ((binary_search compar key base).1 = false →
      (binary_search compar key base).2 ≤ base.length ∧
      (∀ i (hi : i < base.length), i < (binary_search compar key base).2 →
        compar key base[i] > 0 ∧ lt (proj base[i]) kb) ∧
      (∀ i (hi : i < base.length), (binary_search compar key base).2 ≤ i →
        compar key base[i] < 0 ∧ lt kb (proj base[i]))) := by
  have hmono := signMono_of_sorted lt htrans compar key kb proj base hcons hsorted
  have hnf : (binary_search compar key base).1 = false →
      (binary_search compar key base).2 ≤ base.length ∧
      (∀ i (hi : i < base.length), i < (binary_search compar key base).2 →
        compar key base[i] > 0 ∧ lt (proj base[i]) kb) ∧
      (∀ i (hi : i < base.length), (binary_search compar key base).2 ≤ i →
        compar key base[i] < 0 ∧ lt kb (proj base[i])) := by
    intro h
    obtain ⟨hle, hlo, hhi⟩ := binary_search_not_found compar key base hmono h
    refine ⟨hle, ?_, ?_⟩
    · intro i hi hlt
      have := hlo i hi hlt
      exact ⟨this, (hcons _ (List.getElem_mem hi)).1.mp this⟩
    · intro i hi hge
      have := hhi i hi hge
      exact ⟨this, (hcons _ (List.getElem_mem hi)).2.mp this⟩
  refine ⟨⟨?_, ?_⟩, binary_search_found compar key base hmono, hnf⟩
  · intro h
    obtain ⟨hi, h0⟩ := binary_search_found compar key base hmono h
    exact ⟨_, List.getElem_mem hi, h0⟩
  · rintro ⟨a, ha, h0⟩
    cases hb : (binary_search compar key base).1 with
    | true => rfl
    | false =>
      exfalso
      obtain ⟨-, hlo, hhi⟩ := hnf hb
      obtain ⟨i, hi, rfl⟩ := List.getElem_of_mem ha
      by_cases h : i < (binary_search compar key base).2
      · have := (hlo i hi h).1; omega
      · have := (hhi i hi (by omega)).1; omega

theorem binary_search_insertion_point_witness :
    (∀ x y z : Bytes, blt x y → blt y z → blt x z) ∧
    [(⟨"BAR".toList, 1⟩ : StringSizePair), ⟨"FOO".toList, 0⟩, ⟨"FOO1".toList, 2⟩].Pairwise
      (fun a b => blt a.first b.first) ∧
    (binary_search string_size_pair_slice_search_cmp ⟨3, "FOO=1".toList⟩
        [(⟨"BAR".toList, 1⟩ : StringSizePair), ⟨"FOO".toList, 0⟩, ⟨"FOO1".toList, 2⟩] =
        (true, 1)) ∧
    (binary_search string_size_pair_slice_search_cmp ⟨3, "CAT=1".toList⟩
        [(⟨"BAR".toList, 1⟩ : StringSizePair), ⟨"FOO".toList, 0⟩, ⟨"FOO1".toList, 2⟩] =
        (false, 1)) ∧
    ((binary_search string_size_pair_slice_search_cmp ⟨3, "CAT=1".toList⟩
        [(⟨"BAR".toList, 1⟩ : StringSizePair), ⟨"FOO".toList, 0⟩, ⟨"FOO1".toList, 2⟩]).1 = true ↔
      ∃ a ∈ [(⟨"BAR".toList, 1⟩ : StringSizePair), ⟨"FOO".toList, 0⟩, ⟨"FOO1".toList, 2⟩],
        string_size_pair_slice_search_cmp ⟨3, "CAT=1".toList⟩ a = 0) :=
  ⟨fun _ _ _ => blt_trans, by decide, by decide, by decide,
    (binary_search_insertion_point blt (fun _ _ _ => blt_trans)
      string_size_pair_slice_search_cmp ⟨3, "CAT=1".toList⟩ ("CAT=1".toList.take 3)
      (fun p => p.first) [⟨"BAR".toList, 1⟩, ⟨"FOO".toList, 0⟩, ⟨"FOO1".toList, 2⟩]
      (fun a ha =>
        have h := registry_cmp_consistent "CAT=1".toList 3 (by decide) (by decide) a
          ((by decide : ∀ p ∈ [(⟨"BAR".toList, 1⟩ : StringSizePair), ⟨"FOO".toList, 0⟩,
            ⟨"FOO1".toList, 2⟩], NulFree p.first) a ha)
        ⟨h.1, h.2.1⟩)
      (by decide)).1⟩

theorem sorted_vec_signMono (vec : List StringSizePair)
    (hsorted : vec.Pairwise (fun p q => blt p.first q.first))
    (hnf : ∀ p ∈ vec, NulFree p.first) (key : Bytes) (len : Nat) (hlen : len ≤ key.length)
    (hk : NulFree (key.take len)) :
    SignMono string_size_pair_slice_search_cmp ⟨len, key⟩ vec :=
  signMono_of_sorted blt (fun _ _ _ => blt_trans) string_size_pair_slice_search_cmp ⟨len, key⟩
    (key.take len) (fun p => p.first) vec
    (fun a ha =>
      have h := registry_cmp_consistent key len hlen hk a (hnf a ha)
      ⟨h.1, h.2.1⟩)
    hsorted

theorem vec_insert_eq (vec : List StringSizePair) (key : Bytes) (len : Nat) :
    string_size_vec_insert vec key len =
      if (binary_search string_size_pair_slice_search_cmp ⟨len, key⟩ vec).1 = true then
        (true, (binary_search string_size_pair_slice_search_cmp ⟨len, key⟩ vec).2, vec)
      else
        (false, (binary_search string_size_pair_slice_search_cmp ⟨len, key⟩ vec).2,
          vec.take (binary_search string_size_pair_slice_search_cmp ⟨len, key⟩ vec).2 ++
            ⟨key.take len, 0⟩ ::
              vec.drop (binary_search string_size_pair_slice_search_cmp ⟨len, key⟩ vec).2) := by
  unfold string_size_vec_insert
  simp only []
  generalize binary_search string_size_pair_slice_search_cmp ⟨len, key⟩ vec = r
  obtain ⟨f, ix⟩ := r
  cases f <;> simp [str_materialize]

/-- What `string_size_vec_insert` does on a strictly sorted registry of
NUL-free names, for a key of `len` non-NUL bytes. -/
theorem vec_insert_spec (vec : List StringSizePair)
    (hsorted : vec.Pairwise (fun p q => blt p.first q.first))
    (hnf : ∀ p ∈ vec, NulFree p.first) (key : Bytes) (len : Nat) (hlen : len ≤ key.length)
    (hk : NulFree (key.take len)) :
    ((string_size_vec_insert vec key len).1 = true →
      (string_size_vec_insert vec key len).2.2 = vec ∧
      ∃ p, vec[(string_size_vec_insert vec key len).2.1]? = some p ∧
        p.first = key.take len) ∧
    ((string_size_vec_insert vec key len).1 = false →
      (string_size_vec_insert vec key len).2.1 ≤ vec.length ∧
      (string_size_vec_insert vec key len).2.2 =
        vec.take (string_size_vec_insert vec key len).2.1 ++
          ⟨key.take len, 0⟩ :: vec.drop (string_size_vec_insert vec key len).2.1 ∧
      (∀ p ∈ vec.take (string_size_vec_insert vec key len).2.1, blt p.first (key.take len)) ∧
      (∀ p ∈ vec.drop (string_size_vec_insert vec key len).2.1, blt (key.take len) p.first) ∧
      ∀ p ∈ vec, p.first ≠ key.take len) := by
  have hmono := sorted_vec_signMono vec hsorted hnf key len hlen hk
  have hcons := fun p hp => registry_cmp_consistent key len hlen hk p (hnf p hp)
  rw [vec_insert_eq]
  cases hb : (binary_search string_size_pair_slice_search_cmp ⟨len, key⟩ vec).1 with
  | true =>
    simp only [if_true, true_implies, Bool.true_eq_false, false_implies, and_true]
    obtain ⟨hidx, h0⟩ := binary_search_found _ _ _ hmono hb
    refine ⟨trivial, _, List.getElem?_eq_getElem hidx, ?_⟩
    exact (hcons _ (List.getElem_mem hidx)).2.2.mp h0
  | false =>
    simp only [Bool.false_eq_true, if_false, false_implies, true_implies, true_and]
    obtain ⟨hle, hlo, hhi⟩ := binary_search_not_found _ _ _ hmono hb
    refine ⟨hle, ?_, ?_, ?_⟩
    · intro p hp
      obtain ⟨i, hi, rfl⟩ := List.getElem_of_mem hp
      rw [List.getElem_take]
      have hi' : i < vec.length := by
        rw [List.length_take] at hi; omega
      exact (hcons _ (List.getElem_mem hi')).1.mp
        (hlo i hi' (by rw [List.length_take] at hi; omega))
    · intro p hp
      obtain ⟨i, hi, rfl⟩ := List.getElem_of_mem hp
      rw [List.getElem_drop]
      have hi' : (binary_search string_size_pair_slice_search_cmp ⟨len, key⟩ vec).2 + i
          < vec.length := by
        rw [List.length_drop] at hi; omega
      exact (hcons _ (List.getElem_mem hi')).2.1.mp (hhi _ hi' (by omega))
    · intro p hp heq
      obtain ⟨i, hi, rfl⟩ := List.getElem_of_mem hp
      have h0 := (hcons _ (List.getElem_mem hi)).2.2.mpr heq
      by_cases h : i < (binary_search string_size_pair_slice_search_cmp ⟨len, key⟩ vec).2
      · have := hlo i hi h; omega
      · have := hhi i hi (by omega); omega

theorem getElem?_insert_before {α : Type} (l : List α) (idx : Nat) (a : α) (h : idx ≤ l.length)
    (i : Nat) (hi : i < idx) : (l.take idx ++ a :: l.drop idx)[i]? = l[i]? := by
  rw [List.getElem?_append_left (by rw [List.length_take]; omega), List.getElem?_take, if_pos hi]

theorem getElem?_insert_after {α : Type} (l : List α) (idx : Nat) (a : α) (h : idx ≤ l.length)
    (i : Nat) (hi : idx ≤ i) : (l.take idx ++ a :: l.drop idx)[i + 1]? = l[i]? := by
  have hl : (l.take idx).length = idx := by rw [List.length_take]; omega
  rw [List.getElem?_append_right (by omega), hl]
  have : i + 1 - idx = (i - idx) + 1 := by omega
  rw [this, List.getElem?_cons_succ, List.getElem?_drop]
  congr 1
  omega

/-- C28: on a registry that is strictly sorted by the byte-wise order of its
(NUL-free) names, `string_size_vec_insert` with a key of `len` non-NUL bytes
leaves a strictly sorted registry of NUL-free names, whether the key was found
(the registry is unchanged) or inserted. An insertion at `index` keeps the
pairs before `index` in place and moves every pair from `index` on up by one,
names and store indices unchanged; the new pair stands at `index` (its store
index is filled in by the caller). -/
theorem insert_keeps_sorted (vec : List StringSizePair)
    (hsorted : vec.Pairwise (fun p q => blt p.first q.first))
    (hnf : ∀ p ∈ vec, NulFree p.first) (key : Bytes) (len : Nat) (hlen : len ≤ key.length)
    (hk : NulFree (key.take len)) :
    (string_size_vec_insert vec key len).2.2.Pairwise (fun p q => blt p.first q.first) ∧
    (∀ p ∈ (string_size_vec_insert vec key len).2.2, NulFree p.first) ∧
    ((string_size_vec_insert vec key len).1 = true →
      (string_size_vec_insert vec key len).2.2 = vec) ∧
    ((string_size_vec_insert vec key len).1 = false →
      (string_size_vec_insert vec key len).2.1 ≤ vec.length ∧
      (string_size_vec_insert vec key len).2.2.length = vec.length + 1 ∧
      (∀ i, i < (string_size_vec_insert vec key len).2.1 →
        (string_size_vec_insert vec key len).2.2[i]? = vec[i]?) ∧
      (string_size_vec_insert vec key len).2.2[(string_size_vec_insert vec key len).2.1]? =
        some ⟨key.take len, 0⟩ ∧
      (∀ i, (string_size_vec_insert vec key len).2.1 ≤ i →
        (string_size_vec_insert vec key len).2.2[i + 1]? = vec[i]?)) := by
  obtain ⟨hfound, hnew⟩ := vec_insert_spec vec hsorted hnf key len hlen hk
  cases hb : (string_size_vec_insert vec key len).1 with
  | true =>
    obtain ⟨heq, -⟩ := hfound hb
    rw [heq]
    exact ⟨hsorted, hnf, fun _ => rfl, fun h => by cases h⟩
  | false =>
    obtain ⟨hle, heq, hlo, hhi, -⟩ := hnew hb
    generalize (string_size_vec_insert vec key len).2.1 = idx at hle heq hlo hhi ⊢
    rw [heq]
    have hsplit : (vec.take idx ++ vec.drop idx).Pairwise (fun p q => blt p.first q.first) := by
      rw [List.take_append_drop]; exact hsorted
    obtain ⟨htake, hdrop, hcross⟩ := List.pairwise_append.mp hsplit
    refine ⟨?_, ?_, (fun h => by cases h), fun _ => ⟨hle, ?_, ?_, ?_, ?_⟩⟩
    · rw [List.pairwise_append]
      refine ⟨htake, ?_, ?_⟩
      · rw [List.pairwise_cons]
        exact ⟨hhi, hdrop⟩
      · intro p hp q hq
        rcases List.mem_cons.mp hq with rfl | hq
        · exact hlo p hp
        · exact hcross p hp q hq
    · intro p hp
      rcases List.mem_append.mp hp with hp | hp
      · exact hnf p (List.mem_of_mem_take hp)
      · rcases List.mem_cons.mp hp with rfl | hp
        · exact hk
        · exact hnf p (List.mem_of_mem_drop hp)
    · simp only [List.length_append, List.length_take, List.length_cons, List.length_drop]
      omega
    · intro i hi
      exact getElem?_insert_before vec idx _ hle i hi
    · exact getElem?_take_cons_drop vec idx _ hle
    · intro i hi
      exact getElem?_insert_after vec idx _ hle i hi

theorem insert_keeps_sorted_witness :
    ([(⟨"BAR".toList, 1⟩ : StringSizePair), ⟨"FOO".toList, 0⟩].Pairwise
        (fun p q => blt p.first q.first) ∧
      (∀ p ∈ [(⟨"BAR".toList, 1⟩ : StringSizePair), ⟨"FOO".toList, 0⟩], NulFree p.first) ∧
      3 ≤ "CAT=1".toList.length ∧ NulFree ("CAT=1".toList.take 3)) ∧
    string_size_vec_insert [⟨"BAR".toList, 1⟩, ⟨"FOO".toList, 0⟩] "CAT=1".toList 3 =
      (false, 1, [⟨"BAR".toList, 1⟩, ⟨"CAT".toList, 0⟩, ⟨"FOO".toList, 0⟩]) ∧
    (string_size_vec_insert [⟨"BAR".toList, 1⟩, ⟨"FOO".toList, 0⟩] "CAT=1".toList 3).2.2.Pairwise
      (fun p q => blt p.first q.first) :=
  ⟨⟨by decide, by decide, by decide, by decide⟩, by decide,
    (insert_keeps_sorted [⟨"BAR".toList, 1⟩, ⟨"FOO".toList, 0⟩] (by decide) (by decide)
      "CAT=1".toList 3 (by decide) (by decide)).1⟩

/-- C30: on a strictly sorted registry of NUL-free names and for a key of
`len` non-NUL bytes, `string_size_vec_insert` returns `true` exactly when a
pair holds exactly the key text as its name; it then leaves the registry as it
is and returns the position of that pair. Otherwise it returns `false` and the
registry gains exactly one pair, which carries the key text as its name, at
the returned position. `FOO` and `FOO1`, `FOO` and `FOO_BAR` do not match each
other in either direction. -/
theorem resolve_exact_match (vec : List StringSizePair)
    (hsorted : vec.Pairwise (fun p q => blt p.first q.first))
    (hnf : ∀ p ∈ vec, NulFree p.first) (key : Bytes) (len : Nat) (hlen : len ≤ key.length)
    (hk : NulFree (key.take len)) :
    ((string_size_vec_insert vec key len).1 = true ↔ ∃ p ∈ vec, p.first = key.take len) ∧
    ((string_size_vec_insert vec key len).1 = true →
      (string_size_vec_insert vec key len).2.2 = vec ∧
      ∃ p ∈ vec, vec[(string_size_vec_insert vec key len).2.1]? = some p ∧
        p.first = key.take len) ∧
    ((string_size_vec_insert vec key len).1 = false →
      (string_size_vec_insert vec key len).2.1 ≤ vec.length ∧
      (string_size_vec_insert vec key len).2.2 =
        vec.take (string_size_vec_insert vec key len).2.1 ++
          ⟨key.take len, 0⟩ :: vec.drop (string_size_vec_insert vec key len).2.1 ∧
      (string_size_vec_insert vec key len).2.2.length = vec.length + 1 ∧
      (string_size_vec_insert vec key len).2.2[(string_size_vec_insert vec key len).2.1]? =
        some ⟨key.take len, 0⟩) ∧
    ((string_size_vec_insert [⟨"FOO".toList, 0⟩] "FOO1=x".toList 4).1 = false ∧
      (string_size_vec_insert [⟨"FOO1".toList, 0⟩] "FOO=x".toList 3).1 = false ∧
      (string_size_vec_insert [⟨"FOO".toList, 0⟩] "FOO_BAR=x".toList 7).1 = false ∧
      (string_size_vec_insert [⟨"FOO_BAR".toList, 0⟩] "FOO=x".toList 3).1 = false ∧
      string_size_vec_insert [⟨"FOO".toList, 1⟩, ⟨"FOO1".toList, 0⟩, ⟨"FOO_BAR".toList, 2⟩]
          "FOO1=x".toList 4 =
        (true, 1, [⟨"FOO".toList, 1⟩, ⟨"FOO1".toList, 0⟩, ⟨"FOO_BAR".toList, 2⟩])) := by
  obtain ⟨hfound, hnew⟩ := vec_insert_spec vec hsorted hnf key len hlen hk
  have hfound' : (string_size_vec_insert vec key len).1 = true →
      (string_size_vec_insert vec key len).2.2 = vec ∧
      ∃ p ∈ vec, vec[(string_size_vec_insert vec key len).2.1]? = some p ∧
        p.first = key.take len := by
    intro h
    obtain ⟨heq, p, hp, hpk⟩ := hfound h
    exact ⟨heq, p, List.getElem?_mem hp, hp, hpk⟩
  refine ⟨⟨?_, ?_⟩, hfound', ?_, by decide⟩
  · intro h
    obtain ⟨-, p, hp, -, hpk⟩ := hfound' h
    exact ⟨p, hp, hpk⟩
  · rintro ⟨p, hp, hpk⟩
    cases hb : (string_size_vec_insert vec key len).1 with
    | true => rfl
    | false => exact absurd hpk ((hnew hb).2.2.2.2 p hp)
  · intro h
    obtain ⟨hle, heq, -, -, -⟩ := hnew h
    refine ⟨hle, heq, ?_, ?_⟩
    · rw [heq]
      simp only [List.length_append, List.length_take, List.length_cons, List.length_drop]
      omega
    · generalize (string_size_vec_insert vec key len).2.1 = idx at hle heq ⊢
      rw [heq]
      exact getElem?_take_cons_drop vec idx _ hle

theorem resolve_exact_match_witness :
    ([(⟨"FOO".toList, 1⟩ : StringSizePair), ⟨"FOO1".toList, 0⟩].Pairwise
        (fun p q => blt p.first q.first) ∧
      (∀ p ∈ [(⟨"FOO".toList, 1⟩ : StringSizePair), ⟨"FOO1".toList, 0⟩], NulFree p.first) ∧
      7 ≤ "FOO_BAR=1".toList.length ∧ NulFree ("FOO_BAR=1".toList.take 7)) ∧
    ((string_size_vec_insert [⟨"FOO".toList, 1⟩, ⟨"FOO1".toList, 0⟩] "FOO_BAR=1".toList 7).1 =
        true ↔
      ∃ p ∈ [(⟨"FOO".toList, 1⟩ : StringSizePair), ⟨"FOO1".toList, 0⟩],
        p.first = "FOO_BAR=1".toList.take 7) ∧
    string_size_vec_insert [⟨"FOO".toList, 1⟩, ⟨"FOO1".toList, 0⟩] "FOO_BAR=1".toList 7 =
      (false, 2, [⟨"FOO".toList, 1⟩, ⟨"FOO1".toList, 0⟩, ⟨"FOO_BAR".toList, 0⟩]) :=
  ⟨⟨by decide, by decide, by decide, by decide⟩,
    (resolve_exact_match [⟨"FOO".toList, 1⟩, ⟨"FOO1".toList, 0⟩] (by decide) (by decide)
      "FOO_BAR=1".toList 7 (by decide) (by decide)).1,
    by decide⟩

/-- In a well-formed store the registry is, up to order, the list of the
pairs (name of entry `i`, `i`). -/
theorem wf_registry_perm {n : Names} (hwf : n.WF) :
    n.names.Perm (n.infos.enum.map (fun ie => (⟨ie.2.name, ie.1⟩ : StringSizePair))) := by
  have hd1 : n.names.Nodup := by
    refine hwf.sorted.imp ?_
    intro p q h heq
    rw [heq] at h
    exact blt_irrefl _ h
  have hd2 : (n.infos.enum.map (fun ie => (⟨ie.2.name, ie.1⟩ : StringSizePair))).Nodup := by
    apply List.Nodup.of_map (fun p : StringSizePair => p.second)
    rw [List.map_map]
    have : ((fun p : StringSizePair => p.second) ∘
        fun ie : Nat × VarEntry => (⟨ie.2.name, ie.1⟩ : StringSizePair)) = Prod.fst := rfl
    rw [this, List.enum_map_fst]
    exact List.nodup_range _
  rw [List.perm_ext_iff_of_nodup hd1 hd2]
  intro p
  rw [List.mem_map]
  constructor
  · intro hp
    obtain ⟨e, he, hname⟩ := hwf.points p hp
    refine ⟨(p.second, e), List.mk_mem_enum_iff_getElem?.mpr he, ?_⟩
    simp only [hname]
  · rintro ⟨⟨i, e⟩, hie, rfl⟩
    exact hwf.registered i e (List.mk_mem_enum_iff_getElem?.mp hie)

/-- C26: after any sequence of calls (NUL-free names and values) from the
empty state, the store holds exactly one entry for each distinct name applied
and none for any other name; the registry and the store have the same
length; the store indices of the registry are a permutation of the store's
positions `0 .. n-1`; every registry pair `(name, index)` points to the store
entry at `index`, whose name is `name`; and every store entry is registered
under its own position. -/
theorem store_registry_invariant (notrace : Bool) (ops : List Apply)
    (hops : ∀ op ∈ ops, NulFree op.key ∧ NulFree op.value) :
    ((apply_all notrace ops Globals.init).names.infos.map (fun e => e.name)).Nodup ∧
    (∀ k, k ∈ (apply_all notrace ops Globals.init).names.infos.map (fun e => e.name) ↔
      k ∈ ops.map (fun op => op.key)) ∧
    (apply_all notrace ops Globals.init).names.names.length =
      (apply_all notrace ops Globals.init).names.infos.length ∧
    ((apply_all notrace ops Globals.init).names.names.map (fun p => p.second)).Perm
      (List.range (apply_all notrace ops Globals.init).names.infos.length) ∧
    (∀ p ∈ (apply_all notrace ops Globals.init).names.names,
      ∃ e, (apply_all notrace ops Globals.init).names.infos[p.second]? = some e ∧
        e.name = p.first) ∧
    (∀ i e, (apply_all notrace ops Globals.init).names.infos[i]? = some e →
      (⟨e.name, i⟩ : StringSizePair) ∈ (apply_all notrace ops Globals.init).names.names) := by
  obtain ⟨hwf, hnames, -⟩ := apply_all_char notrace ops hops
  have hperm := wf_registry_perm hwf
  have hsec : ((apply_all notrace ops Globals.init).names.names.map (fun p => p.second)).Perm
      (List.range (apply_all notrace ops Globals.init).names.infos.length) := by
    have h := hperm.map (fun p : StringSizePair => p.second)
    rw [List.map_map] at h
    have hc : ((fun p : StringSizePair => p.second) ∘
        fun ie : Nat × VarEntry => (⟨ie.2.name, ie.1⟩ : StringSizePair)) = Prod.fst := rfl
    rw [hc, List.enum_map_fst] at h
    exact h
  refine ⟨?_, ?_, ?_, hsec, hwf.points, hwf.registered⟩
  · rw [hnames]; exact first_applied_nodup _
  · intro k
    rw [hnames]; exact mem_first_applied k _
  · have := hsec.length_eq
    simpa using this

theorem store_registry_invariant_witness :
    (∀ op ∈ [(⟨"FOO".toList, "a".toList, "d".toList, 1, false, true⟩ : Apply),
              ⟨"BAR".toList, "x".toList, "d".toList, 2, false, true⟩,
              ⟨"FOO".toList, "b".toList, "u".toList, 1, true, false⟩,
              ⟨"ABC".toList, "".toList, "u".toList, 2, false, false⟩],
        NulFree op.key ∧ NulFree op.value) ∧
    (apply_all false
        [(⟨"FOO".toList, "a".toList, "d".toList, 1, false, true⟩ : Apply),
          ⟨"BAR".toList, "x".toList, "d".toList, 2, false, true⟩,
          ⟨"FOO".toList, "b".toList, "u".toList, 1, true, false⟩,
          ⟨"ABC".toList, "".toList, "u".toList, 2, false, false⟩]
        Globals.init).names.names =
      [⟨"ABC".toList, 2⟩, ⟨"BAR".toList, 1⟩, ⟨"FOO".toList, 0⟩] ∧
    ((apply_all false
        [(⟨"FOO".toList, "a".toList, "d".toList, 1, false, true⟩ : Apply),
          ⟨"BAR".toList, "x".toList, "d".toList, 2, false, true⟩,
          ⟨"FOO".toList, "b".toList, "u".toList, 1, true, false⟩,
          ⟨"ABC".toList, "".toList, "u".toList, 2, false, false⟩]
        Globals.init).names.infos.map (fun e => e.name)).Nodup :=
  ⟨by decide, by decide,
    (store_registry_invariant false
      [⟨"FOO".toList, "a".toList, "d".toList, 1, false, true⟩,
        ⟨"BAR".toList, "x".toList, "d".toList, 2, false, true⟩,
        ⟨"FOO".toList, "b".toList, "u".toList, 1, true, false⟩,
        ⟨"ABC".toList, "".toList, "u".toList, 2, false, false⟩] (by decide)).1⟩

theorem bsearch_loop_congr {κ α : Type} (compar : κ → α → Int) (key key' : κ) (base : List α)
    (h : ∀ p, compar key p = compar key' p) :
    ∀ (fuel l u : Nat) (hf : u - l ≤ fuel) (hu : u ≤ base.length),
      bsearch_loop compar key base fuel l u hf hu = bsearch_loop compar key' base fuel l u hf hu := by
  intro fuel
  induction fuel with
  | zero => intro l u hf hu; rfl
  | succ fuel ih =>
    intro l u hf hu
    rw [bsearch_loop, bsearch_loop]
    by_cases hlt : l < u
    · simp only [hlt, dite_true, h, ih]
    · simp only [hlt, dite_false]

theorem slice_search_congr (T : List StringPair) (key key' : Bytes) (len : Nat)
    (h : key'.take len = key.take len) :
    string_pair_slice_search T key' len = string_pair_slice_search T key len := by
  unfold string_pair_slice_search bsearch
  split
  · rfl
  · apply bsearch_loop_congr
    intro p
    unfold string_pair_slice_search_cmp
    rw [string_slice_cmp_take key' p.first len, string_slice_cmp_take key p.first len, h]

/-- C31: for a table sorted by key under `strcmp` and a key given as a pointer
and a non-zero length inside its buffer, `string_pair_slice_search` returns a
pair exactly when the key of some pair equals the `len` bytes at the pointer,
and the returned pair is in the table and has that key. Bytes of the buffer
after the first `len` never change the result. A table key that extends the
looked-up text, or is a proper beginning of it, is not returned. -/
theorem slice_search_exact (T : List StringPair)
    (hsorted : T.Pairwise (fun p q => string_pair_compare p q ≤ 0)) (key : Bytes) (len : Nat)
    (hpos : 0 < len) (hlen : len ≤ key.length) :
    ((∃ p, string_pair_slice_search T key len = some p) ↔
      ∃ q ∈ T, cstr q.first = key.take len) ∧
    (∀ p, string_pair_slice_search T key len = some p →
      p ∈ T ∧ cstr p.first = key.take len) ∧
    (∀ key' : Bytes, key'.take len = key.take len →
      string_pair_slice_search T key' len = string_pair_slice_search T key len) ∧
    (string_pair_slice_search [⟨"FOO1".toList, "X".toList⟩] "FOO=1".toList 3 = none ∧
      string_pair_slice_search [⟨"FOO".toList, "X".toList⟩] "FOO1=1".toList 4 = none ∧
      string_pair_slice_search [⟨"BAR".toList, "Y".toList⟩, ⟨"FOO".toList, "X".toList⟩]
        "FOO1=1".toList 3 = some ⟨"FOO".toList, "X".toList⟩) := by
  refine ⟨⟨?_, ?_⟩, fun p hp => slice_search_some hp, fun key' h => slice_search_congr T key key' len h,
    by decide⟩
  · rintro ⟨p, hp⟩
    exact ⟨p, slice_search_some hp⟩
  · rintro ⟨q, hq, hqk⟩
    have hk : NulFree (key.take len) := by
      rw [← hqk]; exact nulFree_cstr _
    cases hs : string_pair_slice_search T key len with
    | some p => exact ⟨p, rfl⟩
    | none => exact absurd hqk (slice_search_none T hsorted key len hpos hlen hk hs q hq)

theorem slice_search_exact_witness :
    ([(⟨"BAR".toList, "Y".toList⟩ : StringPair), ⟨"FOO".toList, "X".toList⟩].Pairwise
        (fun p q => string_pair_compare p q ≤ 0) ∧ 0 < 3 ∧ 3 ≤ "FOO=1".toList.length) ∧
    ((∃ p, string_pair_slice_search [⟨"BAR".toList, "Y".toList⟩, ⟨"FOO".toList, "X".toList⟩]
        "FOO=1".toList 3 = some p) ↔
      ∃ q ∈ [(⟨"BAR".toList, "Y".toList⟩ : StringPair), ⟨"FOO".toList, "X".toList⟩],
        cstr q.first = "FOO=1".toList.take 3) ∧
    string_pair_slice_search [⟨"BAR".toList, "Y".toList⟩, ⟨"FOO".toList, "X".toList⟩]
      "FOO=1".toList 3 = some ⟨"FOO".toList, "X".toList⟩ :=
  ⟨⟨by decide, by decide, by decide⟩,
    (slice_search_exact [⟨"BAR".toList, "Y".toList⟩, ⟨"FOO".toList, "X".toList⟩] (by decide)
      "FOO=1".toList 3 (by decide) (by decide)).1,
    by decide⟩

/-- One pass through the loop body with the loop invariant `len = right - left`,
`right ≤ nmemb`, and the loop condition true. -/
theorem binary_search_iter_spec {κ α : Type} (compar : κ → α → Int) (key : κ) (base : List α)
    (left right len : Nat) (hl : len = right - left) (hr : right ≤ base.length)
    (hlt : left < right) :
    left ≤ left + len / 2 ∧ left + len / 2 < right ∧
    (∃ x, base[left + len / 2]? = some x) ∧
    binary_search_iter compar key base left right len ≠ BSStep.oob ∧
    (∀ l r n, binary_search_iter compar key base left right len = BSStep.next l r n →
      n = r - l ∧ l ≤ r ∧ r ≤ base.length ∧ r - l < right - left) ∧
    (∀ f i, binary_search_iter compar key base left right len = BSStep.done f i →
      f = true ∧ left ≤ i ∧ i < right) := by
  have hmid : left + len / 2 < right := by omega
  have hb : left + len / 2 < base.length := by omega
  have hget : base[left + len / 2]? = some base[left + len / 2] := List.getElem?_eq_getElem hb
  refine ⟨by omega, hmid, ⟨_, hget⟩, ?_, ?_, ?_⟩
  · unfold binary_search_iter
    simp only [hlt, if_true, hget]
    split
    · simp
    · split <;> simp
  · intro l r n h
    unfold binary_search_iter at h
    simp only [hlt, if_true, hget] at h
    split at h
    · simp only [BSStep.next.injEq] at h
      obtain ⟨rfl, rfl, rfl⟩ := h
      omega
    · split at h
      · simp only [BSStep.next.injEq] at h
        obtain ⟨rfl, rfl, rfl⟩ := h
        omega
      · cases h
  · intro f i h
    unfold binary_search_iter at h
    simp only [hlt, if_true, hget] at h
    split at h
    · cases h
    · split at h
      · cases h
      · simp only [BSStep.done.injEq] at h
        obtain ⟨rfl, rfl⟩ := h
        exact ⟨rfl, by omega, hmid⟩

/-- The checked loop, given one more iteration than the width of the interval,
returns what the total loop returns. -/
theorem binary_search_fuel_eq {κ α : Type} (compar : κ → α → Int) (key : κ) (base : List α) :
    ∀ (fuel len left right : Nat) (hl : len = right - left) (hf : right - left ≤ fuel)
      (hr : right ≤ base.length),
      binary_search_fuel compar key base (fuel + 1) left right len =
        some (binary_search_loop compar key base fuel len left right hl hf hr) := by
  intro fuel
  induction fuel with
  | zero =>
    intro len left right hl hf hr
    have hlt : ¬ left < right := by omega
    simp [binary_search_fuel, binary_search_iter, binary_search_loop, hlt]
  | succ fuel ih =>
    intro len left right hl hf hr
    rw [binary_search_fuel, binary_search_loop]
    by_cases hlt : left < right
    · have hb : left + len / 2 < base.length := by omega
      have hget : base[left + len / 2]? = some base[left + len / 2] :=
        List.getElem?_eq_getElem hb
      unfold binary_search_iter
      simp only [hlt, if_true, dite_true, hget]
      by_cases h1 : compar key base[left + len / 2] > 0
      · simp only [h1, if_true]
        exact ih _ _ _ rfl (by omega) hr
      · simp only [h1, if_false]
        by_cases h2 : compar key base[left + len / 2] < 0
        · simp only [h2, if_true]
          exact ih _ _ _ rfl (by omega) (by omega)
        · simp only [h2, if_false]
    · simp [binary_search_iter, hlt]

theorem binary_search_loop_le {κ α : Type} (compar : κ → α → Int) (key : κ) (base : List α) :
    ∀ (fuel len left right : Nat) (hl : len = right - left) (hf : right - left ≤ fuel)
      (hr : right ≤ base.length), left ≤ right →
      (binary_search_loop compar key base fuel len left right hl hf hr).2 ≤ base.length := by
  intro fuel
  induction fuel with
  | zero =>
    intro len left right hl hf hr hlr
    simp only [binary_search_loop]; omega
  | succ fuel ih =>
    intro len left right hl hf hr hlr
    rw [binary_search_loop]
    by_cases hlt : left < right
    · simp only [hlt, dite_true]
      split
      · exact ih _ _ _ _ _ _ (by omega)
      · split
        · exact ih _ _ _ _ _ _ (by omega)
        · simp only; omega
    · simp only [hlt, dite_false]; omega

/-- C39: for every array, key and comparator (no consistency is assumed):
(1) in every iteration reached with `len = right - left` and `right ≤ nmemb`,
the probed index `mid` satisfies `left ≤ mid < right`, so the read is inside
the array, and if the loop goes on, the new bounds satisfy the same relations
with a strictly smaller `right - left`; (2) the loop run with checked reads
and at most `nmemb + 1` evaluations of its condition returns, with the result
of `binary_search`; (3) the returned index is at most `nmemb`. -/
theorem binary_search_terminates {κ α : Type} (compar : κ → α → Int) (key : κ)
    (base : List α) :
    (∀ left right len, len = right - left → right ≤ base.length → left < right →
      left ≤ left + len / 2 ∧ left + len / 2 < right ∧
      (∃ x, base[left + len / 2]? = some x) ∧
      binary_search_iter compar key base left right len ≠ BSStep.oob ∧
      ∀ l r n, binary_search_iter compar key base left right len = BSStep.next l r n →
        n = r - l ∧ l ≤ r ∧ r ≤ base.length ∧ r - l < right - left) ∧
    binary_search_fuel compar key base (base.length + 1) 0 base.length base.length =
      some (binary_search compar key base) ∧
    (binary_search compar key base).2 ≤ base.length := by
  refine ⟨?_, ?_, ?_⟩
  · intro left right len hl hr hlt
    obtain ⟨h1, h2, h3, h4, h5, -⟩ :=
      binary_search_iter_spec compar key base left right len hl hr hlt
    exact ⟨h1, h2, h3, h4, h5⟩
  · unfold binary_search
    exact binary_search_fuel_eq compar key base _ _ _ _ _ _ _
  · unfold binary_search
    exact binary_search_loop_le compar key base _ _ _ _ _ _ _ (by omega)

theorem binary_search_terminates_witness :
    (3 = 3 - 0 ∧ 3 ≤ [10, 20, 30].length ∧ 0 < 3) ∧
    (0 ≤ 0 + 3 / 2 ∧ 0 + 3 / 2 < 3 ∧ (∃ x, [10, 20, 30][0 + 3 / 2]? = some x) ∧
      binary_search_iter (fun (_ : Nat) (_ : Nat) => (1 : Int)) 0 [10, 20, 30] 0 3 3 ≠
        BSStep.oob ∧
      ∀ l r n,
        binary_search_iter (fun (_ : Nat) (_ : Nat) => (1 : Int)) 0 [10, 20, 30] 0 3 3 =
          BSStep.next l r n →
        n = r - l ∧ l ≤ r ∧ r ≤ [10, 20, 30].length ∧ r - l < 3 - 0) ∧
    binary_search_fuel (fun (_ : Nat) (a : Nat) => if a % 20 = 0 then (1 : Int) else -1) 0
      [10, 20, 30] 4 0 3 3 = some (false, 2) :=
  ⟨⟨by decide, by decide, by decide⟩,
    (binary_search_terminates (fun (_ : Nat) (_ : Nat) => (1 : Int)) 0 [10, 20, 30]).1 0 3 3
      (by decide) (by decide) (by decide),
    by decide⟩

/-- One call keeps every entry at its position with its name and snapshot,
adds at most one entry, and leaves the entries of other names as they are. -/
theorem store_keeps {st : Globals} (hwf : st.names.WF) (notrace : Bool) (key : Bytes)
    (key_len : Nat) (value : Bytes) (value_len : Nat) (source : Bytes) (line : Nat)
    (append is_def : Bool) (hlen : key_len ≤ key.length) (hk : NulFree (key.take key_len)) :
    (st.names.infos.map (fun e => e.name)) <+:
      ((store_name_value_source notrace st key key_len value value_len source line append
        is_def).names.infos.map (fun e => e.name)) ∧
    st.names.infos.length ≤
      (store_name_value_source notrace st key key_len value value_len source line append
        is_def).names.infos.length ∧
    (store_name_value_source notrace st key key_len value value_len source line append
        is_def).names.infos.length ≤ st.names.infos.length + 1 ∧
    (∀ (i : Nat) (e : VarEntry), st.names.infos[i]? = some e → e.name ≠ key.take key_len →
      (store_name_value_source notrace st key key_len value value_len source line append
        is_def).names.infos[i]? = some e) ∧
    (∀ (i : Nat) (e : VarEntry), st.names.infos[i]? = some e →
      ∃ e', (store_name_value_source notrace st key key_len value value_len source line append
          is_def).names.infos[i]? = some e' ∧ e'.name = e.name ∧ e'.defv = e.defv) := by
  by_cases hex : ∃ e ∈ st.names.infos, e.name = key.take key_len
  · obtain ⟨e0, hmem, he0⟩ := hex
    obtain ⟨j, hj⟩ := List.mem_iff_getElem?.mp hmem
    have hjlt : j < st.names.infos.length := (List.getElem?_eq_some.mp hj).1
    rw [store_existing hwf notrace key key_len value value_len source line append is_def
      hlen hk j e0 hj he0]
    refine ⟨?_, ?_, ?_, ?_, ?_⟩
    · simp only
      rw [map_set_same (fun e => e.name) _ j e0 _ hj (updated_entry_name _ _ _ _ _ _)]
    · simp
    · simp
    · intro i e hi hne
      have hij : j ≠ i := by
        intro h; subst h
        rw [hj] at hi
        exact hne ((Option.some.inj hi) ▸ he0)
      simp only [List.getElem?_set_ne hij, hi]
    · intro i e hi
      by_cases hij : j = i
      · subst hij
        have hee : e = e0 := by rw [hj] at hi; exact (Option.some.inj hi).symm
        subst hee
        exact ⟨updated_entry e value value_len source line append,
          by simp [List.getElem?_set, hjlt], updated_entry_name _ _ _ _ _ _,
          updated_entry_defv _ _ _ _ _ _⟩
      · exact ⟨e, by simp only [List.getElem?_set_ne hij, hi], rfl, rfl⟩
  · have hnew : ∀ e ∈ st.names.infos, e.name ≠ key.take key_len :=
      fun e he hn => hex ⟨e, he, hn⟩
    obtain ⟨index, _, _, _, heq⟩ := store_new hwf notrace key key_len value value_len
      source line append is_def hlen hk hnew
    rw [heq]
    refine ⟨?_, ?_, ?_, ?_, ?_⟩
    · simp only [List.map_append]
      exact List.prefix_append _ _
    · simp
    · simp
    · intro i e hi _
      have hilt : i < st.names.infos.length := (List.getElem?_eq_some.mp hi).1
      simp only [List.getElem?_append_left hilt, hi]
    · intro i e hi
      have hilt : i < st.names.infos.length := (List.getElem?_eq_some.mp hi).1
      exact ⟨e, by simp only [List.getElem?_append_left hilt, hi], rfl, rfl⟩

/-- C34: one call of `store_name_value_source` on a well-formed store, for a
name of `key_len` non-NUL bytes: every entry keeps its position, its name and
its snapshot, so the list of entry names before the call is a prefix of the
list after it; the store grows by at most one entry; and every entry whose
name is not the applied name is left exactly as it was. -/
theorem store_never_deletes {st : Globals} (hwf : st.names.WF) (notrace : Bool) (key : Bytes)
    (key_len : Nat) (value : Bytes) (value_len : Nat) (source : Bytes) (line : Nat)
    (append is_def : Bool) (hlen : key_len ≤ key.length) (hk : NulFree (key.take key_len)) :
    (st.names.infos.map (fun e => e.name)) <+:
      ((store_name_value_source notrace st key key_len value value_len source line append
        is_def).names.infos.map (fun e => e.name)) ∧
    st.names.infos.length ≤
      (store_name_value_source notrace st key key_len value value_len source line append
        is_def).names.infos.length ∧
    (store_name_value_source notrace st key key_len value value_len source line append
        is_def).names.infos.length ≤ st.names.infos.length + 1 ∧
    (∀ (i : Nat) (e : VarEntry), st.names.infos[i]? = some e → e.name ≠ key.take key_len →
      (store_name_value_source notrace st key key_len value value_len source line append
        is_def).names.infos[i]? = some e) ∧
    (∀ (i : Nat) (e : VarEntry), st.names.infos[i]? = some e →
      ∃ e', (store_name_value_source notrace st key key_len value value_len source line append
          is_def).names.infos[i]? = some e' ∧ e'.name = e.name ∧ e'.defv = e.defv) :=
  store_keeps hwf notrace key key_len value value_len source line append is_def hlen hk

theorem store_with_foo_wf : store_with_foo.names.WF :=
  store_wf wf_init _ _ _ _ _ _ _ _ _ (by decide) (by decide)

theorem store_never_deletes_witness :
    (store_with_foo.names.WF ∧ 3 ≤ "BAR=b".toList.length ∧ NulFree ("BAR=b".toList.take 3)) ∧
    (store_with_foo.names.infos.map (fun e => e.name)) <+:
      ((store_name_value_source false store_with_foo "BAR=b".toList 3 "b".toList 1
        "tlp.conf".toList 2 false false).names.infos.map (fun e => e.name)) ∧
    (store_name_value_source false store_with_foo "BAR=b".toList 3 "b".toList 1
        "tlp.conf".toList 2 false false).names.infos.map (fun e => e.name) =
      ["FOO".toList, "BAR".toList] ∧
    (store_name_value_source false store_with_foo "FOO=b".toList 3 "b".toList 1
        "tlp.conf".toList 2 false false).names.infos.map (fun e => e.name) = ["FOO".toList] :=
  ⟨⟨store_with_foo_wf, by decide, by decide⟩,
    (store_never_deletes store_with_foo_wf false "BAR=b".toList 3 "b".toList 1
      "tlp.conf".toList 2 false false (by decide) (by decide)).1,
    by decide, by decide⟩

theorem store_names_congr (st st' : Globals) (notrace notrace' : Bool) (key : Bytes)
    (key_len : Nat) (value : Bytes) (value_len : Nat) (source : Bytes) (line : Nat)
    (append is_def : Bool) (h : st.names = st'.names) :
    (store_name_value_source notrace st key key_len value value_len source line append
      is_def).names =
    (store_name_value_source notrace' st' key key_len value value_len source line append
      is_def).names := by
  rw [store_unfold, store_unfold, h]

theorem store_trace_notrace (st : Globals) (key : Bytes) (key_len : Nat) (value : Bytes)
    (value_len : Nat) (source : Bytes) (line : Nat) (append is_def : Bool) :
    (store_name_value_source true st key key_len value value_len source line append
      is_def).trace = st.trace := by
  have hn : (debug_block st key key_len value value_len).trace = st.trace := by
    unfold debug_block; split <;> rfl
  unfold store_name_value_source
  generalize debug_block st key key_len value value_len = st1 at hn ⊢
  simp only []
  rcases string_size_vec_insert st1.names.names key key_len with ⟨found, index, vec⟩
  cases found
  · simp only [Bool.false_eq_true, if_false]
    cases hv : vec[index]? with
    | none => simp [hn]
    | some kp => simp [printf_debug, hn]
  · simp only [if_true]
    cases hv : vec[index]? with
    | none => simp [hn]
    | some kp =>
      simp only []
      cases hd : st1.names.infos[kp.second]? with
      | none => simp [hn]
      | some data => simp [printf_debug, hn]

theorem loop_names_congr (renames : List StringPair) (notrace notrace' : Bool) (source : Bytes)
    (is_def do_ren : Bool) (st st' : Globals) (ln : Nat) (lines : List Bytes)
    (h : st.names = st'.names) :
    (parse_configfile_loop renames notrace source is_def do_ren st ln lines).names =
      (parse_configfile_loop renames notrace' source is_def do_ren st' ln lines).names := by
  induction lines generalizing st st' ln with
  | nil => exact h
  | cons x rest ih =>
    cases hx : config_line x x.length with
    | none =>
      rw [loop_cons_none _ _ _ _ _ _ _ _ _ hx, loop_cons_none _ _ _ _ _ _ _ _ _ hx]
      exact ih _ _ _ h
    | some a =>
      rw [loop_cons_some _ _ _ _ _ _ _ _ _ a hx, loop_cons_some _ _ _ _ _ _ _ _ _ a hx]
      exact ih _ _ _ (store_names_congr _ _ _ _ _ _ _ _ _ _ _ _ h)

theorem loop_trace_notrace (renames : List StringPair) (source : Bytes)
    (is_def do_ren : Bool) (st : Globals) (ln : Nat) (lines : List Bytes) :
    (parse_configfile_loop renames true source is_def do_ren st ln lines).trace = st.trace := by
  induction lines generalizing st ln with
  | nil => rfl
  | cons x rest ih =>
    cases hx : config_line x x.length with
    | none => rw [loop_cons_none _ _ _ _ _ _ _ _ _ hx]; exact ih _ _
    | some a =>
      rw [loop_cons_some _ _ _ _ _ _ _ _ _ a hx, ih]
      exact store_trace_notrace _ _ _ _ _ _ _ _ _

theorem parse_configfile_names_congr (CONF_DEF : Bytes) (renames : List StringPair)
    (notrace notrace' : Bool) (st st' : Globals) (file : Bytes)
    (content : Option (List Bytes)) (do_ren : Bool) (h : st.names = st'.names) :
    (parse_configfile CONF_DEF renames notrace st file content do_ren).1 =
        (parse_configfile CONF_DEF renames notrace' st' file content do_ren).1 ∧
      (parse_configfile CONF_DEF renames notrace st file content do_ren).2.names =
        (parse_configfile CONF_DEF renames notrace' st' file content do_ren).2.names := by
  rw [parse_configfile_fst, parse_configfile_fst, parse_configfile_snd, parse_configfile_snd]
  refine ⟨rfl, ?_⟩
  cases content with
  | none => exact h
  | some lines => exact loop_names_congr _ _ _ _ _ _ _ _ _ _ h

theorem parse_configfile_trace_notrace (CONF_DEF : Bytes) (renames : List StringPair)
    (st : Globals) (file : Bytes) (content : Option (List Bytes)) (do_ren : Bool) :
    (parse_configfile CONF_DEF renames true st file content do_ren).2.trace = st.trace := by
  rw [parse_configfile_snd]
  cases content with
  | none => rfl
  | some lines => exact loop_trace_notrace _ _ _ _ _ _ _

theorem parse_dropins_names_congr (CONF_DEF : Bytes) (renames : List StringPair)
    (notrace notrace' do_rename : Bool) (st st' : Globals) (dir : List Dirent)
    (h : st.names = st'.names) :
    (parse_dropins CONF_DEF renames notrace do_rename st dir).names =
      (parse_dropins CONF_DEF renames notrace' do_rename st' dir).names := by
  induction dir generalizing st st' with
  | nil => exact h
  | cons d rest ih =>
    rw [parse_dropins, parse_dropins]
    split
    · exact ih _ _ (parse_configfile_names_congr _ _ _ _ _ _ _ _ _ h).2
    · exact ih _ _ h

theorem parse_dropins_trace_notrace (CONF_DEF : Bytes) (renames : List StringPair)
    (do_rename : Bool) (st : Globals) (dir : List Dirent) :
    (parse_dropins CONF_DEF renames true do_rename st dir).trace = st.trace := by
  induction dir generalizing st with
  | nil => rfl
  | cons d rest ih =>
    rw [parse_dropins]
    split
    · rw [ih]; exact parse_configfile_trace_notrace _ _ _ _ _ _
    · exact ih _

theorem stage_user_names_congr (env : Env) (opts opts' : Opts) :
    (stage_user env opts).names = (stage_user env opts').names := by
  have h1 : (stage_default env opts).names = (stage_default env opts').names := by
    unfold stage_default
    exact (parse_configfile_names_congr _ _ _ _ _ _ _ _ _ rfl).2
  have h2 : (stage_dropins env opts).names = (stage_dropins env opts').names := by
    unfold stage_dropins
    split
    · exact parse_dropins_names_congr _ _ _ _ _ _ _ _ h1
    · exact h1
  unfold stage_user
  split <;> exact (parse_configfile_names_congr _ _ _ _ _ _ _ _ _ h2).2

theorem stage_user_trace_notrace (env : Env) (opts : Opts) (h : opts.notrace = true) :
    (stage_user env opts).trace = [] := by
  have h1 : (stage_default env opts).trace = [] := by
    unfold stage_default
    rw [h, parse_configfile_trace_notrace]; rfl
  have h2 : (stage_dropins env opts).trace = [] := by
    unfold stage_dropins
    split
    · rw [h, parse_dropins_trace_notrace]; exact h1
    · exact h1
  unfold stage_user
  split <;> (rw [h, parse_configfile_trace_notrace]; exact h2)

theorem main_globals_none (env : Env) (opts : Opts) (hdef : env.fopen env.CONF_DEF = none) :
    (main env opts).globals = Globals.init := by
  unfold main
  simp [hdef, parse_configfile]

/-- C35: tracing never changes the result. (1) One call of
`store_name_value_source` on two states with the same registry and store gives
the same registry and store, whatever the two `notrace` flags, `debug` flags
and traces are; (2) so does `parse_configfile`, with the same return value;
(3) two runs of `main` that differ only in `notrace` end with the same exit
status, the same registry and store, and the same bytes on `stderr` and in the
output file, in diff mode or not, with or without an output file; (4) with
`notrace` set, no record is traced in the whole run, and a single call adds no
record. With `notrace` unset, a default file that sets `TLP_DEBUG=cfg` does
trace. -/
theorem tracing_no_influence :
    (∀ (st st' : Globals) (notrace notrace' : Bool) (key : Bytes) (key_len : Nat)
        (value : Bytes) (value_len : Nat) (source : Bytes) (line : Nat) (append is_def : Bool),
      st.names = st'.names →
      (store_name_value_source notrace st key key_len value value_len source line append
        is_def).names =
      (store_name_value_source notrace' st' key key_len value value_len source line append
        is_def).names) ∧
    (∀ (CONF_DEF : Bytes) (renames : List StringPair) (notrace notrace' : Bool)
        (st st' : Globals) (file : Bytes) (content : Option (List Bytes)) (do_ren : Bool),
      st.names = st'.names →
      (parse_configfile CONF_DEF renames notrace st file content do_ren).1 =
          (parse_configfile CONF_DEF renames notrace' st' file content do_ren).1 ∧
        (parse_configfile CONF_DEF renames notrace st file content do_ren).2.names =
          (parse_configfile CONF_DEF renames notrace' st' file content do_ren).2.names) ∧
    (∀ (env : Env) (cdiff : Bool) (outfile : Option Bytes),
      (main env ⟨cdiff, true, outfile⟩).status = (main env ⟨cdiff, false, outfile⟩).status ∧
      (main env ⟨cdiff, true, outfile⟩).globals.names =
        (main env ⟨cdiff, false, outfile⟩).globals.names ∧
      (main env ⟨cdiff, true, outfile⟩).stderr = (main env ⟨cdiff, false, outfile⟩).stderr ∧
      (main env ⟨cdiff, true, outfile⟩).outfile = (main env ⟨cdiff, false, outfile⟩).outfile) ∧
    (∀ (env : Env) (cdiff : Bool) (outfile : Option Bytes),
      (main env ⟨cdiff, true, outfile⟩).globals.trace = []) ∧
    (∀ (st : Globals) (key : Bytes) (key_len : Nat) (value : Bytes) (value_len : Nat)
        (source : Bytes) (line : Nat) (append is_def : Bool),
      (store_name_value_source true st key key_len value value_len source line append
        is_def).trace = st.trace) ∧
    ((main { example_env with
        fopen := fun p =>
          if p = "/usr/share/tlp/defaults.conf".toList then
            some ["TLP_DEBUG=cfg\n".toList, "FOO=1\n".toList]
          else if p = "/etc/tlp.conf".toList then some ["FOO=2\n".toList] else none }
        ⟨false, false, none⟩).globals.trace =
      ["tlp-readconfs.insert  [0]: TLP_DEBUG=\"cfg\" defaults.conf L0001\n".toList,
        "tlp-readconfs.insert  [1]: FOO=\"1\" defaults.conf L0002\n".toList,
        "tlp-readconfs.replace [1]: FOO=\"2\" a.conf L0002\n".toList,
        "tlp-readconfs.replace [1]: FOO=\"2\" /etc/tlp.conf L0001\n".toList]) := by
  have hnames : ∀ (env : Env) (opts opts' : Opts),
      (main env opts).globals.names = (main env opts').globals.names := by
    intro env opts opts'
    cases hdef : env.fopen env.CONF_DEF with
    | none => rw [main_globals_none env opts hdef, main_globals_none env opts' hdef]
    | some deflines =>
      rw [main_globals env opts deflines hdef, main_globals env opts' deflines hdef]
      exact stage_user_names_congr env opts opts'
  refine ⟨fun st st' nt nt' key kl v vl src ln ap d h =>
      store_names_congr st st' nt nt' key kl v vl src ln ap d h,
    fun CD rn nt nt' st st' file content dr h =>
      parse_configfile_names_congr CD rn nt nt' st st' file content dr h,
    ?_, ?_, fun st key kl v vl src ln ap d => store_trace_notrace st key kl v vl src ln ap d,
    by decide⟩
  · intro env cdiff outfile
    have hs : (main env ⟨cdiff, true, outfile⟩).status =
        (main env ⟨cdiff, false, outfile⟩).status := by
      rw [main_status, main_status]
    have hn := hnames env ⟨cdiff, true, outfile⟩ ⟨cdiff, false, outfile⟩
    have ho1 := main_output env ⟨cdiff, true, outfile⟩
    have ho2 := main_output env ⟨cdiff, false, outfile⟩
    rw [hs, hn] at ho1
    have ho : ((main env ⟨cdiff, true, outfile⟩).stderr,
        (main env ⟨cdiff, true, outfile⟩).outfile) =
        ((main env ⟨cdiff, false, outfile⟩).stderr,
          (main env ⟨cdiff, false, outfile⟩).outfile) := ho1.trans ho2.symm
    exact ⟨hs, hn, congrArg Prod.fst ho, congrArg Prod.snd ho⟩
  · intro env cdiff outfile
    cases hdef : env.fopen env.CONF_DEF with
    | none => rw [main_globals_none env _ hdef]; rfl
    | some deflines =>
      rw [main_globals env _ deflines hdef]
      exact stage_user_trace_notrace env _ rfl

theorem tracing_no_influence_witness :
    Globals.init.names = (⟨⟨[], []⟩, true, ["x".toList]⟩ : Globals).names ∧
    (store_name_value_source false Globals.init "TLP_DEBUG".toList 9 "cfg".toList 3
        "tlp.conf".toList 1 false false).names =
      (store_name_value_source true ⟨⟨[], []⟩, true, ["x".toList]⟩ "TLP_DEBUG".toList 9
        "cfg".toList 3 "tlp.conf".toList 1 false false).names :=
  ⟨rfl, tracing_no_influence.1 Globals.init ⟨⟨[], []⟩, true, ["x".toList]⟩ false true
    "TLP_DEBUG".toList 9 "cfg".toList 3 "tlp.conf".toList 1 false false rfl⟩

theorem takeWhile_drop {α : Type} (p : α → Bool) (s : List α) (n : Nat)
    (h : n ≤ (s.takeWhile p).length) : (s.drop n).takeWhile p = (s.takeWhile p).drop n := by
  induction s generalizing n with
  | nil => simp
  | cons c t ih =>
    cases n with
    | zero => simp
    | succ k =>
      by_cases hc : p c = true
      · simp only [List.takeWhile_cons, hc, if_true, List.length_cons] at h
        simp only [List.drop_succ_cons, List.takeWhile_cons, hc, if_true]
        exact ih k (by omega)
      · simp [List.takeWhile_cons, hc] at h

theorem cstr_drop (s : Bytes) (n : Nat) (h : n ≤ strlen s) : cstr (s.drop n) = (cstr s).drop n :=
  takeWhile_drop _ s n h

theorem has_conf_suffix_eq (entry : Dirent) :
    has_conf_suffix entry = decide (strcmp (suffix_ptr entry) ".conf".toList = 0) := rfl

/-- For a name of at least five bytes the suffix test looks at the name only
and holds exactly when the name ends in `.conf`. -/
theorem has_conf_suffix_long (e : Dirent) (h : 5 ≤ strlen e.d_name) :
    has_conf_suffix e = true ↔ ∃ s, cstr e.d_name = s ++ ".conf".toList := by
  have hptr : suffix_ptr e = e.d_name.drop (strlen e.d_name - 5) := by
    unfold suffix_ptr
    have : e.pre.length + strlen e.d_name - 5 = e.pre.length + (strlen e.d_name - 5) := by omega
    rw [this, ← List.drop_drop, List.drop_left]
  rw [has_conf_suffix_eq, decide_eq_true_eq, strcmp_eq_zero_iff, hptr,
    cstr_drop _ _ (Nat.sub_le _ _)]
  have hc : cstr ".conf".toList = ".conf".toList := by decide
  rw [hc]
  unfold strlen at *
  constructor
  · intro hd
    refine ⟨(cstr e.d_name).take ((cstr e.d_name).length - 5), ?_⟩
    rw [← hd, List.take_append_drop]
  · rintro ⟨s, hs⟩
    rw [hs, List.length_append]
    have : s.length + ".conf".toList.length - 5 = s.length := by
      simp
    rw [this, List.drop_left]

/-- C36: (1) for an entry whose name has at least five bytes the test holds
exactly when the name ends in `.conf`, whatever precedes the name. (2) For a
shorter name the pointer handed to `strcmp` lies before the name: for `..` it
starts three bytes before it, in the fields `d_reclen` and `d_type` of the
entry, and the outcome depends on those bytes: an entry named `nf` is parsed
when the three bytes before its name are `.co`, and not parsed otherwise.
(3) An entry that passes the test is read with its `d_name` as file name and,
unless it names the default file, as provenance source. (4) A directory that
cannot be opened gives the same run as an empty one. -/
theorem dropin_suffix_test :
    (∀ e : Dirent, 5 ≤ strlen e.d_name →
      (has_conf_suffix e = true ↔ ∃ s, cstr e.d_name = s ++ ".conf".toList)) ∧
    (suffix_ptr ⟨[NUL, NUL, NUL, NUL, NUL, NUL, NUL, '\x01', NUL, NUL, NUL, NUL, NUL, NUL, NUL,
          '\x02', '\x18', NUL, '\x04'], "..".toList, none⟩ =
        ['\x18', NUL, '\x04', '.', '.'] ∧
      has_conf_suffix ⟨"0000000000000000.co".toList, "nf".toList, some []⟩ = true ∧
      has_conf_suffix ⟨"0000000000000000000".toList, "nf".toList, some []⟩ = false ∧
      (parse_dropins "/usr/share/tlp/defaults.conf".toList [] false false Globals.init
          [⟨"0000000000000000.co".toList, "nf".toList, some ["FOO=1\n".toList]⟩]).names.infos =
        [⟨"FOO".toList, "1".toList, "nf L0001".toList, none⟩]) ∧
    (∀ (CONF_DEF : Bytes) (renames : List StringPair) (notrace do_rename : Bool) (st : Globals)
        (d : Dirent) (rest : List Dirent),
      (has_conf_suffix d = true →
        parse_dropins CONF_DEF renames notrace do_rename st (d :: rest) =
          parse_dropins CONF_DEF renames notrace do_rename
            (parse_configfile CONF_DEF renames notrace st d.d_name d.content do_rename).2
            rest) ∧
      (has_conf_suffix d = false →
        parse_dropins CONF_DEF renames notrace do_rename st (d :: rest) =
          parse_dropins CONF_DEF renames notrace do_rename st rest) ∧
      (strcmp d.d_name CONF_DEF ≠ 0 → source_of CONF_DEF d.d_name = d.d_name)) ∧
    (∀ (env : Env) (opts : Opts), env.opendir env.CONF_DIR = none →
      main env opts = main { env with opendir := fun _ => some [] } opts) := by
  refine ⟨has_conf_suffix_long, by decide, ?_, ?_⟩
  · intro CONF_DEF renames notrace do_rename st d rest
    refine ⟨?_, ?_, ?_⟩
    · intro h; rw [parse_dropins, if_pos h]
    · intro h; rw [parse_dropins, if_neg (by simp [h])]
    · intro h; unfold source_of; rw [if_neg h]
  · intro env opts h
    unfold main
    simp only [h, parse_dropins, write_runconf]

theorem takeWhile_trailer_space (ws x : Bytes) (hws : ∀ c ∈ ws, isspace c = true)
    (hx : x = [] ∨ ∃ tail, x = '#' :: tail) :
    ∀ c ∈ (ws ++ x).takeWhile is_value_char, isspace c = true := by
  induction ws with
  | nil =>
    rcases hx with rfl | ⟨tail, rfl⟩
    · simp
    · intro c hc
      have : is_value_char '#' = false := by decide
      simp [List.takeWhile_cons, this] at hc
  | cons w ws ih =>
    intro c hc
    rw [List.cons_append, List.takeWhile_cons] at hc
    split at hc
    · rcases List.mem_cons.mp hc with rfl | hc
      · exact hws _ (List.mem_cons_self _ _)
      · exact ih (fun c hc => hws c (List.mem_cons_of_mem _ hc)) c hc
    · cases hc

/-- The text after the operator is only a trailer: the value is empty. -/
theorem value_grammar_trailer (rest : Bytes) (h : is_trailer rest) :
    value_grammar rest = some ([], rest) := by
  obtain ⟨ws, tail, hws, hrest⟩ := h
  have hx : ∃ x, rest = ws ++ x ∧ (x = [] ∨ ∃ tail, x = '#' :: tail) := by
    rcases hrest with h | h
    · exact ⟨[], by simp [h], Or.inl rfl⟩
    · exact ⟨'#' :: tail, h, Or.inr ⟨tail, rfl⟩⟩
  obtain ⟨x, hrx, hx⟩ := hx
  have hsp := takeWhile_trailer_space ws x hws hx
  rw [← hrx] at hsp
  have hnq : rest.head? ≠ some '"' := by
    rw [hrx]
    intro hq
    cases ws with
    | nil =>
      rcases hx with rfl | ⟨t, rfl⟩
      · simp at hq
      · simp at hq
    | cons w ws =>
      simp only [List.cons_append, List.head?_cons, Option.some.injEq] at hq
      have := hws w (List.mem_cons_self _ _)
      rw [hq] at this
      exact absurd this (by decide)
  have hempty : rstrip (rest.takeWhile is_value_char) = [] := by
    have := rstrip_append_of_spaces [] (rest.takeWhile is_value_char) hsp
    rw [List.nil_append] at this
    rw [this, rstrip_nil]
  rw [value_grammar_unquoted rest hnq, hempty]
  rfl

theorem value_grammar_empty_quotes (tail : Bytes) :
    value_grammar ('"' :: '"' :: tail) = some ([], tail) := by
  rw [value_grammar_quoted _ (by simp)]
  have : is_value_char '"' = false := by decide
  simp [List.dropWhile_cons, List.takeWhile_cons, this]

/-- C38: a line whose right-trimmed text is a name, `=` or `+=`, and then
nothing, or whitespace and a `#` comment, or `""` followed by such a trailer,
is accepted with the empty value. A call with an empty value and `append` set,
on a well-formed store that holds an entry of the name with C string `V` as
value, leaves the value `V` followed by one space. `FOO=`, `FOO= # c`,
`FOO=""` are accepted; after `FOO=a`, the line `FOO+=` gives `a` and a space. -/
theorem empty_value_accepted (line : Bytes) (hsz : line.length < SIZE_MAX) (n rest : Bytes)
    (append : Bool) (hsplit : rstrip line = n ++ op_text append ++ rest)
    (hn : matches_name n = true)
    (hrest : is_trailer rest ∨ ∃ tail, rest = '"' :: '"' :: tail ∧ is_trailer tail) :
    (∃ a, config_line line line.length = some a ∧ a.parts = (n, append, [])) ∧
    (∀ (st : Globals) (notrace : Bool) (key : Bytes) (key_len : Nat) (value : Bytes)
        (value_len : Nat) (source : Bytes) (ln : Nat) (is_def : Bool) (i : Nat) (e : VarEntry),
      st.names.WF → key_len ≤ key.length → NulFree (key.take key_len) →
      st.names.infos[i]? = some e → e.name = key.take key_len → value.take value_len = [] →
      ∃ e', (store_name_value_source notrace st key key_len value value_len source ln true
          is_def).names.infos[i]? = some e' ∧ e'.name = e.name ∧
        e'.value = cstr e.value ++ [' ']) ∧
    ((∀ L ∈ ["FOO=\n".toList, "FOO=".toList, "FOO=   \n".toList, "FOO= # c\n".toList,
          "FOO=#c\n".toList, "FOO=\"\"\n".toList, "FOO=\"\"  # c\n".toList],
        (config_line L L.length).map Assignment.parts = some ("FOO".toList, false, [])) ∧
      (config_line "FOO+=\n".toList 6).map Assignment.parts = some ("FOO".toList, true, []) ∧
      (parse_configfile_loop [] false "tlp.conf".toList false false Globals.init 0
          ["FOO=a\n".toList, "FOO+=\n".toList]).names.infos =
        [⟨"FOO".toList, "a ".toList, "tlp.conf L0001 & tlp.conf L0002".toList, none⟩] ∧
      (parse_configfile_loop [] false "tlp.conf".toList false false Globals.init 0
          ["FOO=\n".toList]).names.infos =
        [⟨"FOO".toList, [], "tlp.conf L0001".toList, none⟩]) := by
  refine ⟨?_, ?_, by decide⟩
  · have hm := config_line_grammar line hsz
    rw [line_grammar_of_split _ n rest append hsplit hn] at hm
    have hv : ∃ remaining, value_grammar rest = some ([], remaining) ∧
        trailer_ok remaining = true := by
      rcases hrest with h | ⟨tail, rfl, h⟩
      · exact ⟨rest, value_grammar_trailer rest h, (trailer_ok_iff rest).mpr h⟩
      · exact ⟨tail, value_grammar_empty_quotes tail, (trailer_ok_iff tail).mpr h⟩
    obtain ⟨remaining, hv1, hv2⟩ := hv
    rw [hv1] at hm
    simp only [Option.some_bind, hv2, if_true] at hm
    cases hc : config_line line line.length with
    | none => rw [hc] at hm; cases hm
    | some a =>
      rw [hc] at hm
      exact ⟨a, rfl, by simpa using hm⟩
  · intro st notrace key key_len value value_len source ln is_def i e hwf hlen hk hi he hv
    rw [store_existing hwf notrace key key_len value value_len source ln true is_def hlen hk
      i e hi he]
    have hilt : i < st.names.infos.length := (List.getElem?_eq_some.mp hi).1
    refine ⟨updated_entry e value value_len source ln true, by simp [List.getElem?_set, hilt],
      updated_entry_name _ _ _ _ _ _, ?_⟩
    simp only [updated_entry, if_true, hv, take_strlen]

theorem empty_value_accepted_witness :
    ("FOO+=  # none\n".toList.length < SIZE_MAX ∧
      rstrip "FOO+=  # none\n".toList = "FOO".toList ++ op_text true ++ "  # none".toList ∧
      matches_name "FOO".toList = true ∧ is_trailer "  # none".toList) ∧
    ∃ a, config_line "FOO+=  # none\n".toList "FOO+=  # none\n".toList.length = some a ∧
      a.parts = ("FOO".toList, true, []) :=
  ⟨⟨by decide, by decide, by decide, (trailer_ok_iff _).mp (by decide)⟩,
    (empty_value_accepted "FOO+=  # none\n".toList (by decide) "FOO".toList "  # none".toList true
      (by decide) (by decide) (Or.inl ((trailer_ok_iff _).mp (by decide)))).1⟩

theorem rtrim_cases (str : Bytes) (n : Nat) :
    rtrim str n = (none, 0) ∨ ∃ l, rtrim str n = (some str, l) ∧ 0 < l ∧ l ≤ n := by
  induction n with
  | zero => left; rfl
  | succ n ih =>
    rw [rtrim]
    split
    · right; exact ⟨n + 1, rfl, by omega, by omega⟩
    · rcases ih with h | ⟨l, h, h1, h2⟩
      · left; exact h
      · right; exact ⟨l, h, h1, by omega⟩

theorem mem_take_of_le {α : Type} {l : List α} {m n : Nat} (h : m ≤ n) {x : α}
    (hx : x ∈ l.take m) : x ∈ l.take n := by
  have : l.take m = (l.take n).take m := by
    rw [List.take_take, Nat.min_eq_left h]
  rw [this] at hx
  exact List.mem_of_mem_take hx

/-- The value that `parse_configfile` derives from the result of `parse_value`
holds BARE bytes only. -/
theorem parse_value_clean (str : Bytes) (len : Nat)
    (h : (parse_value str len).2 ≠ SIZE_MAX) :
    (if (decide ((parse_value str len).2 > 1) &&
          ((parse_value str len).1.getD []).headD NUL == '"') = true then
        value_clean ((((parse_value str len).1.getD []).drop 1).take
          ((parse_value str len).2 - 2))
      else value_clean (((parse_value str len).1.getD []).take (parse_value str len).2)) := by
  rw [parse_value_eq] at h ⊢
  by_cases hesc : (decide (len > 1) && str.headD NUL == '"') = true
  · rw [if_pos hesc] at h ⊢
    by_cases herr : (decide (1 + scan_while is_value_char (str.drop 1) (len - 1) ≥ len) ||
        str.getD (1 + scan_while is_value_char (str.drop 1) (len - 1)) NUL != '"') = true
    · rw [if_pos herr] at h
      exact absurd rfl h
    · rw [if_neg herr]
      have hq : str.headD NUL == '"' := by
        simp only [Bool.and_eq_true] at hesc
        exact hesc.2
      have hc : (decide (1 + scan_while is_value_char (str.drop 1) (len - 1) + 1 > 1) &&
          str.headD NUL == '"') = true := by
        simp only [hq, Bool.and_true, decide_eq_true_eq]
        omega
      simp only [Option.getD_some]
      rw [if_pos hc]
      have : 1 + scan_while is_value_char (str.drop 1) (len - 1) + 1 - 2 =
          scan_while is_value_char (str.drop 1) (len - 1) := by omega
      rw [this]
      exact scan_while_all _ _ _
  · rw [if_neg hesc]
    have hall := scan_while_all is_value_char str len
    rcases rtrim_cases str (scan_while is_value_char str len) with hr | ⟨l, hr, hl0, hl⟩
    · rw [hr]
      simp [value_clean]
    · rw [hr]
      have hl0' : l ≠ 0 := by omega
      simp only [hl0', ne_eq, not_false_eq_true, if_true, Option.getD_some]
      have hclean : value_clean (str.take l) := fun c hc => hall c (mem_take_of_le hl hc)
      have hnq : ¬ (decide (l > 1) && str.headD NUL == '"') = true := by
        intro hq
        simp only [Bool.and_eq_true, decide_eq_true_eq, beq_iff_eq] at hq
        cases str with
        | nil => simp [NUL] at hq
        | cons c s =>
          simp only [List.headD_cons] at hq
          have hc := hclean c (by
            cases l with
            | zero => omega
            | succ l => simp)
          rw [hq.2] at hc
          exact absurd hc (by decide)
      rw [if_neg hnq]
      exact hclean

theorem config_value_clean {name : Bytes} {name_len : Nat} {append : Bool} {line : Bytes}
    {len : Nat} {a : Assignment} (h : config_value name name_len append line len = some a) :
    a.name = name ∧ a.name_len = name_len ∧ value_clean (a.value.take a.value_len) := by
  rw [config_value_eq] at h
  by_cases h1 : (decide ((parse_value line len).2 = SIZE_MAX) ||
      decide ((parse_value line len).2 > len)) = true
  · rw [if_pos h1] at h; cases h
  · rw [if_neg h1] at h
    have hne : (parse_value line len).2 ≠ SIZE_MAX := by
      intro he
      apply h1
      simp [he]
    have hc := parse_value_clean line len hne
    split at h
    · cases h
    · split at h
      · rename_i hq
        rw [if_pos hq] at hc
        cases h
        exact ⟨rfl, rfl, hc⟩
      · rename_i hq
        rw [if_neg hq] at hc
        cases h
        exact ⟨rfl, rfl, hc⟩

theorem take_add_eq {α : Type} (s : List α) (l d : Nat) :
    s.take (l + d) = s.take l ++ (s.drop l).take d := by
  rw [List.take_add]

theorem matches_name_append (u v : Bytes) (hu : ∀ c ∈ u, is_name_char c = true)
    (hne : u ≠ []) (hv : ∀ c ∈ v, is_digit_char c = true) : matches_name (u ++ v) = true := by
  have hstop := takeWhile_append_stop (p := is_name_char) u v hu (by
    intro c hc
    cases v with
    | nil => cases hc
    | cons x xs =>
      simp only [List.head?_cons, Option.some.injEq] at hc
      subst hc
      exact digit_not_name (hv _ (List.mem_cons_self _ _)))
  unfold matches_name
  rw [hstop.1, hstop.2]
  have h1 : u.isEmpty = false := by cases u <;> simp_all
  simp only [h1, Bool.not_false, Bool.true_and, List.all_eq_true]
  exact hv

/-- A name that `parse_name` accepts has the form `[A-Z_]+[0-9]*`. -/
theorem parse_name_matches {s : Bytes} {len : Nat} {name : Bytes} {name_len : Nat}
    (h : parse_name (some s) len = (some name, name_len)) :
    matches_name (name.take name_len) = true := by
  unfold parse_name at h
  simp only [] at h
  split at h
  · cases h
  · rename_i hl
    simp only [Prod.mk.injEq, Option.some.injEq] at h
    obtain ⟨rfl, rfl⟩ := h
    rw [take_add_eq]
    apply matches_name_append
    · exact scan_while_all _ _ _
    · intro he
      have := congrArg List.length he
      have hle := (scan_while_le is_name_char s len).2
      simp only [List.length_take, List.length_nil] at this
      omega
    · exact scan_while_all _ _ _

/-- An accepted configuration line has a name `[A-Z_]+[0-9]*` and a value of
BARE bytes. -/
theorem config_line_clean {line_buf : Bytes} {read : Nat} {a : Assignment}
    (h : config_line line_buf read = some a) :
    matches_name (a.name.take a.name_len) = true ∧ value_clean (a.value.take a.value_len) := by
  rw [config_line_eq] at h
  split at h
  · split at h
    · rename_i hpn
      split at h
      · cases h
      · split at h
        · cases h
        · obtain ⟨h1, h2, h3⟩ := config_value_clean h
          rw [h1, h2]
          exact ⟨parse_name_matches hpn, h3⟩
    · cases h
  · cases h

theorem loop_induct (renames : List StringPair) (notrace : Bool) (source : Bytes)
    (is_def do_ren : Bool) (P : Globals → Prop) (lines : List Bytes)
    (hstep : ∀ (st : Globals) (ln : Nat) (L : Bytes) (a : Assignment), L ∈ lines →
      st.names.WF → P st → config_line L L.length = some a →
      P (store_name_value_source notrace st (resolved_key renames do_ren a).1
        (resolved_key renames do_ren a).2 a.value a.value_len source ln a.append is_def))
    (st : Globals) (ln : Nat) (hwf : st.names.WF) (hP : P st) :
    P (parse_configfile_loop renames notrace source is_def do_ren st ln lines) := by
  induction lines generalizing st ln with
  | nil => exact hP
  | cons x rest ih =>
    have hstep' : ∀ (st : Globals) (ln : Nat) (L : Bytes) (a : Assignment), L ∈ rest →
        st.names.WF → P st → config_line L L.length = some a →
        P (store_name_value_source notrace st (resolved_key renames do_ren a).1
          (resolved_key renames do_ren a).2 a.value a.value_len source ln a.append is_def) :=
      fun st ln L a hL => hstep st ln L a (List.mem_cons_of_mem _ hL)
    cases h : config_line x x.length with
    | none =>
      rw [loop_cons_none _ _ _ _ _ _ _ _ _ h]
      exact ih hstep' _ _ hwf hP
    | some a =>
      rw [loop_cons_some _ _ _ _ _ _ _ _ _ a h]
      obtain ⟨hlen, hnf⟩ := resolved_key_ok renames do_ren h
      exact ih hstep' _ _ (store_wf hwf _ _ _ _ _ _ _ _ _ hlen hnf)
        (hstep st (ln + 1) x a (List.mem_cons_self _ _) hwf hP h)

theorem parse_configfile_induct (CONF_DEF : Bytes) (renames : List StringPair) (notrace : Bool)
    (file : Bytes) (content : Option (List Bytes)) (do_ren : Bool) (P : Globals → Prop)
    (hstep : ∀ lines, content = some lines →
      ∀ (st : Globals) (ln : Nat) (L : Bytes) (a : Assignment), L ∈ lines →
      st.names.WF → P st → config_line L L.length = some a →
      P (store_name_value_source notrace st (resolved_key renames do_ren a).1
        (resolved_key renames do_ren a).2 a.value a.value_len (source_of CONF_DEF file) ln
        a.append (decide (strcmp file CONF_DEF = 0))))
    (st : Globals) (hwf : st.names.WF) (hP : P st) :
    P (parse_configfile CONF_DEF renames notrace st file content do_ren).2 := by
  rw [parse_configfile_snd]
  cases content with
  | none => exact hP
  | some lines => exact loop_induct _ _ _ _ _ P lines (hstep lines rfl) st 0 hwf hP

theorem parse_dropins_induct (CONF_DEF : Bytes) (renames : List StringPair)
    (notrace do_rename : Bool) (P : Globals → Prop) (dir : List Dirent)
    (hstep : ∀ d ∈ dir, has_conf_suffix d = true → ∀ lines, d.content = some lines →
      ∀ (st : Globals) (ln : Nat) (L : Bytes) (a : Assignment), L ∈ lines →
      st.names.WF → P st → config_line L L.length = some a →
      P (store_name_value_source notrace st (resolved_key renames do_rename a).1
        (resolved_key renames do_rename a).2 a.value a.value_len (source_of CONF_DEF d.d_name)
        ln a.append (decide (strcmp d.d_name CONF_DEF = 0))))
    (st : Globals) (hwf : st.names.WF) (hP : P st) :
    P (parse_dropins CONF_DEF renames notrace do_rename st dir) := by
  induction dir generalizing st with
  | nil => exact hP
  | cons d rest ih =>
    have hstep' : ∀ d' ∈ rest, has_conf_suffix d' = true → ∀ lines, d'.content = some lines →
        ∀ (st : Globals) (ln : Nat) (L : Bytes) (a : Assignment), L ∈ lines →
        st.names.WF → P st → config_line L L.length = some a →
        P (store_name_value_source notrace st (resolved_key renames do_rename a).1
          (resolved_key renames do_rename a).2 a.value a.value_len
          (source_of CONF_DEF d'.d_name) ln a.append (decide (strcmp d'.d_name CONF_DEF = 0))) :=
      fun d' hd' => hstep d' (List.mem_cons_of_mem _ hd')
    rw [parse_dropins]
    split
    · rename_i hs
      exact ih hstep' _ (parse_configfile_wf _ _ _ _ _ _ _ hwf)
        (parse_configfile_induct _ _ _ _ _ _ P (hstep d (List.mem_cons_self _ _) hs) st hwf hP)
    · exact ih hstep' _ hwf hP

theorem mem_string_pair_insert {a p : StringPair} {l : List StringPair}
    (h : p ∈ string_pair_insert a l) : p = a ∨ p ∈ l := by
  induction l with
  | nil => simp [string_pair_insert] at h; exact Or.inl h
  | cons b l ih =>
    rw [string_pair_insert] at h
    split at h
    · exact List.mem_cons.mp h
    · rcases List.mem_cons.mp h with h | h
      · exact Or.inr (h ▸ List.mem_cons_self _ _)
      · rcases ih h with h | h
        · exact Or.inl h
        · exact Or.inr (List.mem_cons_of_mem _ h)

theorem mem_string_pair_sort {p : StringPair} {l : List StringPair}
    (h : p ∈ string_pair_sort l) : p ∈ l := by
  induction l with
  | nil => exact h
  | cons a l ih =>
    rw [string_pair_sort, List.foldr_cons] at h
    rcases mem_string_pair_insert h with h | h
    · exact h ▸ List.mem_cons_self _ _
    · exact List.mem_cons_of_mem _ (ih h)

/-- Both names of every pair that `parse_renfile` records have the form
`[A-Z_]+[0-9]*`. -/
theorem parse_renfile_names (file : Option (List Bytes)) :
    ∀ p ∈ (parse_renfile file).2, matches_name p.first = true ∧ matches_name p.second = true := by
  intro p hp
  cases file with
  | none => cases hp
  | some lines =>
    have hm := mem_string_pair_sort hp
    obtain ⟨L, -, hL⟩ := List.mem_filterMap.mp hm
    rw [renfile_line_grammar] at hL
    obtain ⟨ws, -, -, -, h1, h2⟩ := (renfile_grammar_iff _ p.first p.second).mp hL
    exact ⟨h1, h2⟩

theorem matches_name_chars {s : Bytes} (h : matches_name s = true) :
    ∀ c ∈ s, is_name_char c = true ∨ is_digit_char c = true := by
  intro c hc
  unfold matches_name at h
  simp only [Bool.and_eq_true, List.all_eq_true] at h
  rw [← List.takeWhile_append_dropWhile is_name_char s] at hc
  rcases List.mem_append.mp hc with hc | hc
  · exact Or.inl (List.mem_takeWhile_imp hc)
  · exact Or.inr (h.2 c hc)

theorem matches_name_nulFree {s : Bytes} (h : matches_name s = true) : NulFree s := by
  intro c hc
  rcases matches_name_chars h c hc with h1 | h1
  · exact is_name_char_ne_NUL h1
  · exact is_digit_char_ne_NUL h1

/-- The name an accepted line is stored under has the form `[A-Z_]+[0-9]*`
when the new names of the rename table have it. -/
theorem stored_name_matches (renames : List StringPair) (do_ren : Bool)
    (hren : ∀ p ∈ renames, matches_name p.second = true) {line_buf : Bytes} {read : Nat}
    {a : Assignment} (h : config_line line_buf read = some a) :
    matches_name (stored_name renames do_ren a) = true := by
  have hc := (config_line_clean h).1
  unfold stored_name resolved_key
  cases do_ren with
  | false => exact hc
  | true =>
    simp only [if_true]
    unfold key_rename
    split
    · exact hc
    · split
      · rename_i renamed hs
        obtain ⟨hmem, -⟩ := slice_search_some hs
        have hm := hren renamed hmem
        simp only
        rw [take_strlen, cstr_of_nulFree (matches_name_nulFree hm)]
        exact hm
      · exact hc

theorem store_clean_step {st : Globals} (hwf : st.names.WF) (notrace : Bool) (key : Bytes)
    (key_len : Nat) (value : Bytes) (value_len : Nat) (source : Bytes) (line : Nat)
    (append is_def : Bool) (hlen : key_len ≤ key.length) (hk : NulFree (key.take key_len))
    (hname : matches_name (key.take key_len) = true)
    (hvalue : value_clean (value.take value_len)) (hst : store_clean st) :
    store_clean (store_name_value_source notrace st key key_len value value_len source line
      append is_def) := by
  by_cases hex : ∃ e ∈ st.names.infos, e.name = key.take key_len
  · obtain ⟨e0, hmem, he0⟩ := hex
    obtain ⟨j, hj⟩ := List.mem_iff_getElem?.mp hmem
    intro e he
    rw [store_existing hwf notrace key key_len value value_len source line append is_def
      hlen hk j e0 hj he0] at he
    rcases List.mem_or_eq_of_mem_set he with he | rfl
    · exact hst e he
    · obtain ⟨h1, h2⟩ := hst e0 hmem
      refine ⟨by rw [updated_entry_name]; exact h1, ?_⟩
      unfold updated_entry
      cases append with
      | true =>
        simp only [if_true]
        intro c hc
        rcases List.mem_append.mp hc with hc | hc
        · exact h2 c (List.mem_of_mem_take hc)
        · rcases List.mem_cons.mp hc with rfl | hc
          · decide
          · exact hvalue c hc
      | false => exact hvalue
  · have hnew : ∀ e ∈ st.names.infos, e.name ≠ key.take key_len :=
      fun e he hn => hex ⟨e, he, hn⟩
    obtain ⟨index, _, _, _, heq⟩ := store_new hwf notrace key key_len value value_len
      source line append is_def hlen hk hnew
    intro e he
    rw [heq] at he
    rcases List.mem_append.mp he with he | he
    · exact hst e he
    · rw [List.mem_singleton] at he
      subst he
      exact ⟨hname, hvalue⟩

theorem store_clean_line (renames : List StringPair) (do_ren : Bool)
    (hren : ∀ p ∈ renames, matches_name p.second = true) (notrace : Bool) (source : Bytes)
    (is_def : Bool) (st : Globals) (ln : Nat) (L : Bytes) (a : Assignment)
    (hwf : st.names.WF) (hst : store_clean st) (hL : config_line L L.length = some a) :
    store_clean (store_name_value_source notrace st (resolved_key renames do_ren a).1
      (resolved_key renames do_ren a).2 a.value a.value_len source ln a.append is_def) := by
  obtain ⟨hlen, hnf⟩ := resolved_key_ok renames do_ren hL
  exact store_clean_step hwf _ _ _ _ _ _ _ _ _ hlen hnf
    (stored_name_matches renames do_ren hren hL) (config_line_clean hL).2 hst

/-- The store of `main` holds clean names and values at the end of the run. -/
theorem stage_user_clean (env : Env) (opts : Opts) : store_clean (stage_user env opts) := by
  have hren : ∀ p ∈ main_renames env, matches_name p.second = true :=
    fun p hp => (parse_renfile_names _ p hp).2
  have h1 : store_clean (stage_default env opts) := by
    unfold stage_default
    apply parse_configfile_induct _ _ _ _ _ _ store_clean _ _ wf_init
    · intro e he; cases he
    · intro lines _ st ln L a _ hwf hst hL
      exact store_clean_line _ _ hren _ _ _ st ln L a hwf hst hL
  have h2 : store_clean (stage_dropins env opts) := by
    unfold stage_dropins
    split
    · apply parse_dropins_induct _ _ _ _ store_clean _ _ _ (stage_default_wf env opts) h1
      intro d _ _ lines _ st ln L a _ hwf hst hL
      exact store_clean_line _ _ hren _ _ _ st ln L a hwf hst hL
    · exact h1
  unfold stage_user
  split
  · apply parse_configfile_induct _ _ _ _ _ _ store_clean _ _ (stage_dropins_wf env opts) h2
    intro lines _ st ln L a _ hwf hst hL
    exact store_clean_line _ _ hren _ _ _ st ln L a hwf hst hL
  · apply parse_configfile_induct _ _ _ _ _ _ store_clean _ _ (stage_dropins_wf env opts) h2
    intro lines _ st ln L a _ hwf hst hL
    exact store_clean_line _ _ hren _ _ _ st ln L a hwf hst hL

theorem main_clean (env : Env) (opts : Opts) : store_clean (main env opts).globals := by
  cases hdef : env.fopen env.CONF_DEF with
  | none =>
    rw [main_globals_none env opts hdef]
    intro e he; cases he
  | some deflines =>
    rw [main_globals env opts deflines hdef]
    exact stage_user_clean env opts

theorem value_clean_nulFree {v : Bytes} (h : value_clean v) : NulFree v :=
  fun c hc => is_value_char_ne_NUL (h c hc)

theorem matches_name_no_quote {s : Bytes} (h : matches_name s = true) : '"' ∉ s := by
  intro hc
  rcases matches_name_chars h _ hc with h1 | h1
  · exact absurd h1 (by decide)
  · exact absurd h1 (by decide)

/-- C37: at the end of every run of `main` (the rename table being the one
`parse_renfile` built), every entry of the store has a name of the form
`[A-Z_]+[0-9]*` and a value made of bytes from `[A-Za-z0-9._: -]` only; so the
value holds no double quote, newline or `#`, the compact line of the entry is
the name, `="`, the value, `"` and a newline, and it holds exactly two double
quotes. -/
theorem stored_text_clean (env : Env) (opts : Opts) (deprecated : List StringPair)
    (e : VarEntry) (he : e ∈ (main env opts).globals.names.infos) :
    matches_name e.name = true ∧ (∀ c ∈ e.value, is_value_char c = true) ∧
    '"' ∉ e.value ∧ '\n' ∉ e.value ∧ '#' ∉ e.value ∧
    fwrite_entry opts.cdiff deprecated false e =
      e.name ++ "=\"".toList ++ e.value ++ "\"\n".toList ∧
    (fwrite_entry opts.cdiff deprecated false e).count '"' = 2 := by
  obtain ⟨hn, hv⟩ := main_clean env opts e he
  have hq : '"' ∉ e.value := fun hc => absurd (hv _ hc) (by decide)
  have hline : fwrite_entry opts.cdiff deprecated false e =
      e.name ++ "=\"".toList ++ e.value ++ "\"\n".toList := by
    unfold fwrite_entry
    simp only [Bool.false_eq_true, if_false]
    rw [cstr_of_nulFree (matches_name_nulFree hn), cstr_of_nulFree (value_clean_nulFree hv)]
  refine ⟨hn, hv, hq, fun hc => absurd (hv _ hc) (by decide),
    fun hc => absurd (hv _ hc) (by decide), hline, ?_⟩
  rw [hline, List.count_append, List.count_append, List.count_append,
    List.count_eq_zero.mpr (matches_name_no_quote hn), List.count_eq_zero.mpr hq]
  decide

theorem stored_text_clean_witness :
    (⟨"FOO".toList, "2".toList, "a.conf L0002".toList, some "1".toList⟩ : VarEntry) ∈
      (main example_env ⟨false, false, none⟩).globals.names.infos ∧
    (fwrite_entry false [] false
      ⟨"FOO".toList, "2".toList, "a.conf L0002".toList, some "1".toList⟩).count '"' = 2 ∧
    (main { example_env with
        fopen := fun p =>
          if p = "/usr/share/tlp/rename.conf".toList then some ["OLD NEW9\n".toList]
          else if p = "/usr/share/tlp/defaults.conf".toList then some ["FOO=a b\n".toList]
          else if p = "/etc/tlp.conf".toList then
            some ["OLD=\"x: y\" # \"quoted\" comment\n".toList, "FOO+=\"-c.d_\"\n".toList]
          else none }
      ⟨false, false, none⟩).globals.names.infos.map (fun e => (e.name, e.value)) =
      [("FOO".toList, "2 -c.d_".toList), ("NEW9".toList, "x: y".toList)] :=
  ⟨by decide,
    (stored_text_clean example_env ⟨false, false, none⟩ []
      ⟨"FOO".toList, "2".toList, "a.conf L0002".toList, some "1".toList⟩ (by decide)).2.2.2.2.2.2,
    by decide⟩

/-- Where the entries after a call come from: an entry that was there before,
with the same name and snapshot, or the new entry of the applied name, whose
snapshot is the value when `is_def` is set and absent otherwise. -/
theorem store_entries_origin {st : Globals} (hwf : st.names.WF) (notrace : Bool) (key : Bytes)
    (key_len : Nat) (value : Bytes) (value_len : Nat) (source : Bytes) (line : Nat)
    (append is_def : Bool) (hlen : key_len ≤ key.length) (hk : NulFree (key.take key_len)) :
    ∀ e' ∈ (store_name_value_source notrace st key key_len value value_len source line append
        is_def).names.infos,
      (∃ e ∈ st.names.infos, e'.name = e.name ∧ e'.defv = e.defv) ∨
      ((∀ e ∈ st.names.infos, e.name ≠ key.take key_len) ∧ e'.name = key.take key_len ∧
        e'.defv = if is_def then some (xstrdup (str_materialize value value_len)) else none) := by
  by_cases hex : ∃ e ∈ st.names.infos, e.name = key.take key_len
  · obtain ⟨e0, hmem, he0⟩ := hex
    obtain ⟨j, hj⟩ := List.mem_iff_getElem?.mp hmem
    intro e he
    rw [store_existing hwf notrace key key_len value value_len source line append is_def
      hlen hk j e0 hj he0] at he
    left
    rcases List.mem_or_eq_of_mem_set he with he | rfl
    · exact ⟨e, he, rfl, rfl⟩
    · exact ⟨e0, hmem, updated_entry_name _ _ _ _ _ _, updated_entry_defv _ _ _ _ _ _⟩
  · have hnew : ∀ e ∈ st.names.infos, e.name ≠ key.take key_len :=
      fun e he hn => hex ⟨e, he, hn⟩
    obtain ⟨index, _, _, _, heq⟩ := store_new hwf notrace key key_len value value_len
      source line append is_def hlen hk hnew
    intro e he
    rw [heq] at he
    rcases List.mem_append.mp he with he | he
    · exact Or.inl ⟨e, he, rfl, rfl⟩
    · rw [List.mem_singleton] at he
      subst he
      exact Or.inr ⟨hnew, rfl, rfl⟩

theorem stage_default_eq (env : Env) (opts : Opts) (deflines : List Bytes)
    (hdef : env.fopen env.CONF_DEF = some deflines) :
    stage_default env opts =
      parse_configfile_loop (main_renames env) opts.notrace
        (source_of env.CONF_DEF env.CONF_DEF) true false Globals.init 0 deflines := by
  unfold stage_default
  rw [parse_configfile_snd, hdef]
  simp only [strcmp_self, decide_True]

/-- The first line of a file that is stored under a name the store does not
hold yet: after it the store has one more entry, the new entry of that line. -/
theorem loop_first_line (renames : List StringPair) (notrace : Bool) (source : Bytes)
    (is_def do_ren : Bool) (st : Globals) (ln : Nat) (l1 : List Bytes) (L : Bytes)
    (a : Assignment) (hwf : st.names.WF) (hL : config_line L L.length = some a)
    (hst : ∀ e ∈ st.names.infos, e.name ≠ stored_name renames do_ren a)
    (hno : ∀ L' ∈ l1, line_name renames do_ren L' ≠ some (stored_name renames do_ren a)) :
    (parse_configfile_loop renames notrace source is_def do_ren st ln (l1 ++ [L])).names.infos =
      (parse_configfile_loop renames notrace source is_def do_ren st ln l1).names.infos ++
        [new_entry (resolved_key renames do_ren a).1 (resolved_key renames do_ren a).2 a.value
          a.value_len source (ln + l1.length + 1) is_def] ∧
    ∀ e ∈ (parse_configfile_loop renames notrace source is_def do_ren st ln l1).names.infos,
      e.name ≠ stored_name renames do_ren a := by
  have hfr := loop_frame renames notrace source is_def do_ren (stored_name renames do_ren a)
    st ln l1 hwf hno
  have hst' : st.names.infos.filter (fun e => e.name = stored_name renames do_ren a) = [] := by
    rw [List.filter_eq_nil_iff]
    intro e he
    simpa using hst e he
  rw [hst', List.filter_eq_nil_iff] at hfr
  have hnone : ∀ e ∈ (parse_configfile_loop renames notrace source is_def do_ren st ln
      l1).names.infos, e.name ≠ stored_name renames do_ren a := by
    intro e he
    simpa using hfr e he
  refine ⟨?_, hnone⟩
  rw [loop_append, loop_cons_some _ _ _ _ _ _ _ _ _ a hL, loop_nil]
  obtain ⟨hlen, hnf⟩ := resolved_key_ok renames do_ren hL
  obtain ⟨index, _, _, _, heq⟩ := store_new
    (loop_wf renames notrace source is_def do_ren st ln l1 hwf) notrace
    (resolved_key renames do_ren a).1 (resolved_key renames do_ren a).2 a.value a.value_len
    source (ln + l1.length + 1) a.append is_def hlen hnf hnone
  rw [heq]

theorem new_entry_clean (key : Bytes) (key_len : Nat) (value : Bytes) (value_len : Nat)
    (source : Bytes) (line : Nat) (hv : value_clean (value.take value_len)) :
    new_entry key key_len value value_len source line true =
      ⟨key.take key_len, value.take value_len, location_of source line,
        some (value.take value_len)⟩ := by
  unfold new_entry xstrdup str_materialize
  rw [cstr_of_nulFree (value_clean_nulFree hv)]
  rfl

theorem stage_user_entries_origin (env : Env) (opts : Opts)
    (hdir : ∀ d ∈ (env.opendir env.CONF_DIR).getD [], has_conf_suffix d = true →
      strcmp d.d_name env.CONF_DEF ≠ 0)
    (husr : strcmp env.CONF_USR env.CONF_DEF ≠ 0) (hold : strcmp env.CONF_OLD env.CONF_DEF ≠ 0) :
    ∀ e ∈ (stage_user env opts).names.infos, e.defv.isSome = true →
      ∃ e0 ∈ (stage_default env opts).names.infos, e.name = e0.name ∧ e.defv = e0.defv := by
  let P : Globals → Prop := fun st => ∀ e ∈ st.names.infos, e.defv.isSome = true →
    ∃ e0 ∈ (stage_default env opts).names.infos, e.name = e0.name ∧ e.defv = e0.defv
  have hstep : ∀ (file : Bytes), strcmp file env.CONF_DEF ≠ 0 →
      ∀ (st : Globals) (ln : Nat) (L : Bytes) (a : Assignment),
      st.names.WF → P st → config_line L L.length = some a →
      P (store_name_value_source opts.notrace st
        (resolved_key (main_renames env) (main_do_rename env) a).1
        (resolved_key (main_renames env) (main_do_rename env) a).2 a.value a.value_len
        (source_of env.CONF_DEF file) ln a.append (decide (strcmp file env.CONF_DEF = 0))) := by
    intro file hfile st ln L a hwf hP hL e he hsome
    obtain ⟨hlen, hnf⟩ := resolved_key_ok (main_renames env) (main_do_rename env) hL
    rcases store_entries_origin hwf _ _ _ _ _ _ _ _ _ hlen hnf e he with
      ⟨e1, he1, hn, hd⟩ | ⟨-, -, hd⟩
    · obtain ⟨e0, he0, hn0, hd0⟩ := hP e1 he1 (by rw [← hd]; exact hsome)
      exact ⟨e0, he0, hn.trans hn0, hd.trans hd0⟩
    · simp only [hfile, decide_False, Bool.false_eq_true, if_false] at hd
      rw [hd] at hsome
      cases hsome
  have h1 : P (stage_default env opts) := fun e he _ => ⟨e, he, rfl, rfl⟩
  have h2 : P (stage_dropins env opts) := by
    unfold stage_dropins
    cases hd : env.opendir env.CONF_DIR with
    | none => exact h1
    | some dir =>
      simp only
      apply parse_dropins_induct _ _ _ _ P _ _ _ (stage_default_wf env opts) h1
      intro d hdm hs lines _ st ln L a _ hwf hst hL
      exact hstep d.d_name (hdir d (by rw [hd]; exact hdm) hs) st ln L a hwf hst hL
  unfold stage_user
  split
  · apply parse_configfile_induct _ _ _ _ _ _ P _ _ (stage_dropins_wf env opts) h2
    intro lines _ st ln L a _ hwf hst hL
    exact hstep _ husr st ln L a hwf hst hL
  · apply parse_configfile_induct _ _ _ _ _ _ P _ _ (stage_dropins_wf env opts) h2
    intro lines _ st ln L a _ hwf hst hL
    exact hstep _ hold st ln L a hwf hst hL

/-- Every entry left by the default file is named by one of its lines. -/
theorem stage_default_names (env : Env) (opts : Opts) (deflines : List Bytes)
    (hdef : env.fopen env.CONF_DEF = some deflines) :
    ∀ e ∈ (stage_default env opts).names.infos,
      ∃ L ∈ deflines, line_name (main_renames env) false L = some e.name := by
  rw [stage_default_eq env opts deflines hdef]
  apply loop_induct _ _ _ _ _
    (fun st => ∀ e ∈ st.names.infos,
      ∃ L ∈ deflines, line_name (main_renames env) false L = some e.name) deflines _ _ _ wf_init
  · intro e he; cases he
  · intro st ln L a hmem hwf hP hL e he
    obtain ⟨hlen, hnf⟩ := resolved_key_ok (main_renames env) false hL
    rcases store_entries_origin hwf _ _ _ _ _ _ _ _ _ hlen hnf e he with
      ⟨e1, he1, hn, -⟩ | ⟨-, hn, -⟩
    · obtain ⟨L1, hL1, hln⟩ := hP e1 he1
      exact ⟨L1, hL1, by rw [hn]; exact hln⟩
    · refine ⟨L, hmem, ?_⟩
      simp only [line_name, hL, Option.map_some', hn]
      rfl

theorem wf_mem_name_inj {n : Names} (hwf : n.WF) {e e' : VarEntry} (he : e ∈ n.infos)
    (he' : e' ∈ n.infos) (h : e.name = e'.name) : e = e' := by
  obtain ⟨i, hi⟩ := List.mem_iff_getElem?.mp he
  obtain ⟨j, hj⟩ := List.mem_iff_getElem?.mp he'
  have hij := wf_name_inj hwf hi hj h
  subst hij
  rw [hi] at hj
  exact Option.some.inj hj

theorem resolved_key_false (renames : List StringPair) (a : Assignment) :
    resolved_key renames false a = (a.name, a.name_len) := by
  unfold resolved_key
  simp

theorem stored_name_false (renames : List StringPair) (a : Assignment) :
    stored_name renames false a = a.name.take a.name_len := by
  unfold stored_name
  rw [resolved_key_false]

/-- The entry that the first default-file line of a name creates, as it stands
right after that line. -/
theorem default_first_entry (env : Env) (opts : Opts) (l1 : List Bytes) (L : Bytes)
    (a : Assignment) (hL : config_line L L.length = some a)
    (hno : ∀ L' ∈ l1, line_name (main_renames env) false L' ≠ some (a.name.take a.name_len)) :
    (parse_configfile_loop (main_renames env) opts.notrace (source_of env.CONF_DEF env.CONF_DEF)
        true false Globals.init 0 (l1 ++ [L])).names.infos =
      (parse_configfile_loop (main_renames env) opts.notrace
        (source_of env.CONF_DEF env.CONF_DEF) true false Globals.init 0 l1).names.infos ++
        [⟨a.name.take a.name_len, a.value.take a.value_len,
          location_of (source_of env.CONF_DEF env.CONF_DEF) (l1.length + 1),
          some (a.value.take a.value_len)⟩] ∧
    ∀ e ∈ (parse_configfile_loop (main_renames env) opts.notrace
        (source_of env.CONF_DEF env.CONF_DEF) true false Globals.init 0 l1).names.infos,
      e.name ≠ a.name.take a.name_len := by
  have h := loop_first_line (main_renames env) opts.notrace (source_of env.CONF_DEF env.CONF_DEF)
    true false Globals.init 0 l1 L a wf_init hL (by intro e he; cases he)
    (by rw [stored_name_false]; exact hno)
  rw [stored_name_false, resolved_key_false, Nat.zero_add,
    new_entry_clean _ _ _ _ _ _ (config_line_clean hL).2] at h
  exact h

/-- C32: with a default file that opens, and no drop-in file or user file
bearing the name of the default file: (1) at the end of the run an entry has a
snapshot exactly when some accepted line of the default file is stored under
its name; (2) the snapshot is the value of the first such line; (3) an entry
whose name no default-file line has carries no snapshot; (4) a call of
`store_name_value_source` (assign or append, with any `is_def`) on a
well-formed store leaves the snapshot of every entry as it was. -/
theorem default_snapshot (env : Env) (opts : Opts) (deflines : List Bytes)
    (hdef : env.fopen env.CONF_DEF = some deflines)
    (hdir : ∀ d ∈ (env.opendir env.CONF_DIR).getD [], has_conf_suffix d = true →
      strcmp d.d_name env.CONF_DEF ≠ 0)
    (husr : strcmp env.CONF_USR env.CONF_DEF ≠ 0) (hold : strcmp env.CONF_OLD env.CONF_DEF ≠ 0) :
    (∀ e ∈ (main env opts).globals.names.infos,
      (e.defv.isSome = true ↔
        ∃ L ∈ deflines, line_name (main_renames env) false L = some e.name)) ∧
    (∀ (l1 l2 : List Bytes) (L : Bytes) (a : Assignment), deflines = l1 ++ L :: l2 →
      config_line L L.length = some a →
      (∀ L' ∈ l1, line_name (main_renames env) false L' ≠ some (a.name.take a.name_len)) →
      ∃ e ∈ (main env opts).globals.names.infos,
        e.name = a.name.take a.name_len ∧ e.defv = some (a.value.take a.value_len)) ∧
    (∀ e ∈ (main env opts).globals.names.infos,
      (∀ L ∈ deflines, line_name (main_renames env) false L ≠ some e.name) → e.defv = none) ∧
    (∀ (st : Globals) (notrace : Bool) (key : Bytes) (key_len : Nat) (value : Bytes)
        (value_len : Nat) (source : Bytes) (line : Nat) (append is_def : Bool),
      st.names.WF → key_len ≤ key.length → NulFree (key.take key_len) →
      ∀ (i : Nat) (e : VarEntry), st.names.infos[i]? = some e →
        ∃ e', (store_name_value_source notrace st key key_len value value_len source line
            append is_def).names.infos[i]? = some e' ∧ e'.name = e.name ∧
          e'.defv = e.defv) := by
  have hg := main_globals env opts deflines hdef
  have hwf := stage_user_wf env opts
  have hfwd : ∀ e ∈ (stage_user env opts).names.infos, e.defv.isSome = true →
      ∃ L ∈ deflines, line_name (main_renames env) false L = some e.name := by
    intro e he hsome
    obtain ⟨e0, he0, hn, -⟩ := stage_user_entries_origin env opts hdir husr hold e he hsome
    obtain ⟨L, hL, hln⟩ := stage_default_names env opts deflines hdef e0 he0
    exact ⟨L, hL, by rw [hn]; exact hln⟩
  rw [hg]
  refine ⟨?_, ?_, ?_, ?_⟩
  · intro e he
    refine ⟨hfwd e he, ?_⟩
    rintro ⟨L, hL, hln⟩
    cases hc : config_line L L.length with
    | none => simp [line_name, hc] at hln
    | some a =>
      simp only [line_name, hc, Option.map_some', Option.some.injEq] at hln
      have hld := loop_default (main_renames env) opts.notrace
        (source_of env.CONF_DEF env.CONF_DEF) false Globals.init 0 deflines wf_init
        (by intro e he; cases he)
      rw [← stage_default_eq env opts deflines hdef] at hld
      obtain ⟨e0, he0, hn0⟩ := hld.1 L hL a hc
      obtain ⟨e1, he1, hn1, hd1⟩ := stage_user_persists env opts e0 he0
      have : e = e1 := wf_mem_name_inj hwf he he1 (by rw [hn1, hn0, hln])
      rw [this, hd1]
      exact hld.2 e0 he0
  · intro l1 l2 L a hsplit hL hno
    obtain ⟨h1, -⟩ := default_first_entry env opts l1 L a hL hno
    have hmem : (⟨a.name.take a.name_len, a.value.take a.value_len,
        location_of (source_of env.CONF_DEF env.CONF_DEF) (l1.length + 1),
        some (a.value.take a.value_len)⟩ : VarEntry) ∈
        (parse_configfile_loop (main_renames env) opts.notrace
          (source_of env.CONF_DEF env.CONF_DEF) true false Globals.init 0
          (l1 ++ [L])).names.infos := by
      rw [h1]; simp
    have hsd : stage_default env opts =
        parse_configfile_loop (main_renames env) opts.notrace
          (source_of env.CONF_DEF env.CONF_DEF) true false
          (parse_configfile_loop (main_renames env) opts.notrace
            (source_of env.CONF_DEF env.CONF_DEF) true false Globals.init 0 (l1 ++ [L]))
          (0 + (l1 ++ [L]).length) l2 := by
      rw [stage_default_eq env opts deflines hdef, hsplit, ← loop_append]
      simp
    obtain ⟨e0, he0, hn0, hd0⟩ := loop_persists (main_renames env) opts.notrace
      (source_of env.CONF_DEF env.CONF_DEF) true false _ (0 + (l1 ++ [L]).length) l2
      (loop_wf _ _ _ _ _ _ _ _ wf_init) _ hmem
    rw [← hsd] at he0
    obtain ⟨e1, he1, hn1, hd1⟩ := stage_user_persists env opts e0 he0
    exact ⟨e1, he1, hn1.trans hn0, hd1.trans hd0⟩
  · intro e he hno
    cases hd : e.defv with
    | none => rfl
    | some v =>
      obtain ⟨L, hL, hln⟩ := hfwd e he (by rw [hd]; rfl)
      exact absurd hln (hno L hL)
  · intro st notrace key key_len value value_len source line append is_def hwf' hlen hk i e hi
    exact (store_keeps hwf' notrace key key_len value value_len source line append is_def
      hlen hk).2.2.2.2 i e hi

theorem default_snapshot_witness :
    (example_env.fopen example_env.CONF_DEF =
        some ["FOO=\"1\"\n".toList, "BAR=x\n".toList, "OLD=0\n".toList] ∧
      (∀ d ∈ (example_env.opendir example_env.CONF_DIR).getD [], has_conf_suffix d = true →
        strcmp d.d_name example_env.CONF_DEF ≠ 0) ∧
      strcmp example_env.CONF_USR example_env.CONF_DEF ≠ 0 ∧
      strcmp example_env.CONF_OLD example_env.CONF_DEF ≠ 0) ∧
    (∀ e ∈ (main example_env ⟨false, false, none⟩).globals.names.infos,
      (e.defv.isSome = true ↔
        ∃ L ∈ ["FOO=\"1\"\n".toList, "BAR=x\n".toList, "OLD=0\n".toList],
          line_name (main_renames example_env) false L = some e.name)) ∧
    (main example_env ⟨false, false, none⟩).globals.names.infos.map
        (fun e => (e.name, e.value, e.defv)) =
      [("FOO".toList, "2".toList, some "1".toList),
        ("BAR".toList, "x y".toList, some "x".toList),
        ("OLD".toList, "0".toList, some "0".toList), ("NEW".toList, "3".toList, none)] :=
  ⟨⟨by decide, by decide, by decide, by decide⟩,
    (default_snapshot example_env ⟨false, false, none⟩
      ["FOO=\"1\"\n".toList, "BAR=x\n".toList, "OLD=0\n".toList] (by decide) (by decide)
      (by decide) (by decide)).1,
    by decide⟩

theorem flatten_map_filter {α β : Type} (f : α → List β) (p : α → Bool) (l : List α)
    (h : ∀ x ∈ l, p x = false → f x = []) :
    (l.map f).flatten = ((l.filter p).map f).flatten := by
  induction l with
  | nil => rfl
  | cons x l ih =>
    have ih' := ih (fun y hy => h y (List.mem_cons_of_mem _ hy))
    by_cases hp : p x = true
    · simp only [List.map_cons, List.flatten_cons, List.filter_cons, hp, if_true, ih']
    · have hp' : p x = false := by simpa using hp
      simp only [List.map_cons, List.flatten_cons, List.filter_cons, hp', Bool.false_eq_true,
        if_false, h x (List.mem_cons_self _ _) hp', List.nil_append, ih']

theorem stage_dropins_frame (env : Env) (opts : Opts) (k : Bytes)
    (hdir : ∀ d ∈ (env.opendir env.CONF_DIR).getD [], has_conf_suffix d = true →
      ∀ L' ∈ d.content.getD [],
        line_name (main_renames env) (main_do_rename env) L' ≠ some k) :
    (stage_dropins env opts).names.infos.filter (fun e => e.name = k) =
      (stage_default env opts).names.infos.filter (fun e => e.name = k) := by
  unfold stage_dropins
  cases hd : env.opendir env.CONF_DIR with
  | none => rfl
  | some dir =>
    simp only
    apply parse_dropins_frame _ _ _ _ _ _ (stage_default_wf env opts)
    intro d hdm hs ls hls L' hL'
    exact hdir d (by rw [hd]; exact hdm) hs L' (by rw [hls]; exact hL')

/-- The entries named `k` at the end of a run in which exactly one line of the
default file, and no other line, is stored under `k`. -/
theorem single_default_entry (env : Env) (opts : Opts) (deflines : List Bytes)
    (hdef : env.fopen env.CONF_DEF = some deflines) (l1 l2 : List Bytes) (L : Bytes)
    (a : Assignment) (hsplit : deflines = l1 ++ L :: l2)
    (hL : config_line L L.length = some a)
    (hno1 : ∀ L' ∈ l1, line_name (main_renames env) false L' ≠ some (a.name.take a.name_len))
    (hno2 : ∀ L' ∈ l2, line_name (main_renames env) false L' ≠ some (a.name.take a.name_len))
    (hdir : ∀ d ∈ (env.opendir env.CONF_DIR).getD [], has_conf_suffix d = true →
      ∀ L' ∈ d.content.getD [],
        line_name (main_renames env) (main_do_rename env) L' ≠ some (a.name.take a.name_len))
    (husr : ∀ L' ∈ (env.fopen env.CONF_USR).getD [],
      line_name (main_renames env) (main_do_rename env) L' ≠ some (a.name.take a.name_len))
    (hold : env.fopen env.CONF_USR = none → ∀ L' ∈ (env.fopen env.CONF_OLD).getD [],
      line_name (main_renames env) (main_do_rename env) L' ≠ some (a.name.take a.name_len)) :
    (main env opts).globals.names.infos.filter (fun e => e.name = a.name.take a.name_len) =
      [⟨a.name.take a.name_len, a.value.take a.value_len,
        location_of (source_of env.CONF_DEF env.CONF_DEF) (l1.length + 1),
        some (a.value.take a.value_len)⟩] := by
  rw [main_globals env opts deflines hdef,
    stage_user_frame env opts _
      (fun ls hls L' hL' => husr L' (by rw [hls]; exact hL'))
      (fun hnone ls hls L' hL' => hold hnone L' (by rw [hls]; exact hL')),
    stage_dropins_frame env opts _ hdir]
  obtain ⟨h1, h2⟩ := default_first_entry env opts l1 L a hL hno1
  have hsd : stage_default env opts =
      parse_configfile_loop (main_renames env) opts.notrace
        (source_of env.CONF_DEF env.CONF_DEF) true false
        (parse_configfile_loop (main_renames env) opts.notrace
          (source_of env.CONF_DEF env.CONF_DEF) true false Globals.init 0 (l1 ++ [L]))
        (0 + (l1 ++ [L]).length) l2 := by
    rw [stage_default_eq env opts deflines hdef, hsplit, ← loop_append]
    simp
  rw [hsd, loop_frame _ _ _ _ _ _ _ _ _ (loop_wf _ _ _ _ _ _ _ _ wf_init) hno2, h1,
    List.filter_append]
  have hnil : (parse_configfile_loop (main_renames env) opts.notrace
      (source_of env.CONF_DEF env.CONF_DEF) true false Globals.init 0 l1).names.infos.filter
      (fun e => e.name = a.name.take a.name_len) = [] := by
    rw [List.filter_eq_nil_iff]
    intro e he
    simpa using h2 e he
  rw [hnil]
  simp

/-- C33 (amended): with a default file that opens, for a name under which
exactly one accepted line of the default file is stored and no line of a
drop-in file or of the user file read: the store ends with one entry of that
name, whose value and snapshot are both the value of that line; diff mode
writes nothing for it, so the verbose diff-mode output is the output of the
entries of the other names, and so is what `main` writes to `stderr`. -/
theorem diff_omits_single_default (env : Env) (opts : Opts) (deflines : List Bytes)
    (hdef : env.fopen env.CONF_DEF = some deflines) (l1 l2 : List Bytes) (L : Bytes)
    (a : Assignment) (hsplit : deflines = l1 ++ L :: l2)
    (hL : config_line L L.length = some a)
    (hno1 : ∀ L' ∈ l1, line_name (main_renames env) false L' ≠ some (a.name.take a.name_len))
    (hno2 : ∀ L' ∈ l2, line_name (main_renames env) false L' ≠ some (a.name.take a.name_len))
    (hdir : ∀ d ∈ (env.opendir env.CONF_DIR).getD [], has_conf_suffix d = true →
      ∀ L' ∈ d.content.getD [],
        line_name (main_renames env) (main_do_rename env) L' ≠ some (a.name.take a.name_len))
    (husr : ∀ L' ∈ (env.fopen env.CONF_USR).getD [],
      line_name (main_renames env) (main_do_rename env) L' ≠ some (a.name.take a.name_len))
    (hold : env.fopen env.CONF_USR = none → ∀ L' ∈ (env.fopen env.CONF_OLD).getD [],
      line_name (main_renames env) (main_do_rename env) L' ≠ some (a.name.take a.name_len))
    (deprecated : List StringPair) :
    (∀ e ∈ (main env opts).globals.names.infos, e.name = a.name.take a.name_len →
      e.value = a.value.take a.value_len ∧ e.defv = some (a.value.take a.value_len) ∧
      fwrite_entry true deprecated true e = []) ∧
    fwrite_runconf true deprecated (main env opts).globals.names true =
      (((main env opts).globals.names.infos.filter
        (fun e => e.name ≠ a.name.take a.name_len)).map
          (fwrite_entry true deprecated true)).flatten ∧
    (opts.cdiff = true → opts.outfile = none →
      (main env opts).stderr =
        if (main env opts).status = 0 then
          (((main env opts).globals.names.infos.filter
            (fun e => e.name ≠ a.name.take a.name_len)).map
              (fwrite_entry true (parse_dprfile (env.fopen env.CONF_DPR)).2 true)).flatten
        else []) := by
  have hfilter := single_default_entry env opts deflines hdef l1 l2 L a hsplit hL hno1 hno2
    hdir husr hold
  have hent : ∀ (dep : List StringPair), ∀ e ∈ (main env opts).globals.names.infos,
      e.name = a.name.take a.name_len →
      e.value = a.value.take a.value_len ∧ e.defv = some (a.value.take a.value_len) ∧
      fwrite_entry true dep true e = [] := by
    intro dep e he hn
    have hmem : e ∈ (main env opts).globals.names.infos.filter
        (fun e => e.name = a.name.take a.name_len) := by
      rw [List.mem_filter]; exact ⟨he, by simpa using hn⟩
    rw [hfilter, List.mem_singleton] at hmem
    subst hmem
    refine ⟨rfl, rfl, ?_⟩
    rw [fwrite_entry_verbose]
    simp [cdiff_omitted]
  have hout : ∀ (dep : List StringPair),
      fwrite_runconf true dep (main env opts).globals.names true =
        (((main env opts).globals.names.infos.filter
          (fun e => e.name ≠ a.name.take a.name_len)).map
            (fwrite_entry true dep true)).flatten := by
    intro dep
    unfold fwrite_runconf
    apply flatten_map_filter
    intro e he hp
    exact (hent dep e he (by simpa using hp)).2.2
  refine ⟨hent deprecated, hout deprecated, ?_⟩
  intro hc ho
  have hmo := main_output env opts
  rw [hc, ho] at hmo
  by_cases hs : (main env opts).status = 0
  · rw [if_pos hs] at hmo ⊢
    have := congrArg Prod.fst hmo
    simp only [write_runconf] at this
    rw [this, hout]
  · rw [if_neg hs] at hmo ⊢
    exact congrArg Prod.fst hmo

theorem diff_omits_single_default_witness :
    (twice_env.fopen twice_env.CONF_DEF =
        some ["FOO=1\n".toList, "FOO=2\n".toList, "BAR=x\n".toList] ∧
      config_line "BAR=x\n".toList "BAR=x\n".toList.length =
        some ⟨"BAR=x\n".toList, 3, false, "x\n".toList, 1⟩) ∧
    fwrite_runconf true [] (main twice_env ⟨true, false, none⟩).globals.names true =
      (((main twice_env ⟨true, false, none⟩).globals.names.infos.filter
        (fun e => e.name ≠ "BAR=x\n".toList.take 3)).map (fwrite_entry true [] true)).flatten ∧
    (main twice_env ⟨true, false, none⟩).globals.names.infos.map (fun e => e.name) =
      ["FOO".toList, "BAR".toList] :=
  ⟨⟨by decide, by decide⟩,
    (diff_omits_single_default twice_env ⟨true, false, none⟩
      ["FOO=1\n".toList, "FOO=2\n".toList, "BAR=x\n".toList] (by decide)
      ["FOO=1\n".toList, "FOO=2\n".toList] [] "BAR=x\n".toList
      ⟨"BAR=x\n".toList, 3, false, "x\n".toList, 1⟩ rfl (by decide) (by decide) (by decide)
      (by decide) (by decide) (by decide) []).2.1,
    by decide⟩

/-- C33, as stated, fails: in the cascade `twice_env` only the default file
mentions `FOO` (lines `FOO=1` and `FOO=2`; no drop-in directory, an empty user
file), and the verbose diff-mode output is the line of `FOO`: the snapshot is
the value of the first line, `1`, and the value is `2`. -/
theorem diff_shows_default_only_counterexample :
    twice_env.fopen twice_env.CONF_DEF =
      some ["FOO=1\n".toList, "FOO=2\n".toList, "BAR=x\n".toList] ∧
    (twice_env.opendir twice_env.CONF_DIR).isNone = true ∧
    twice_env.fopen twice_env.CONF_USR = some [] ∧
    (main twice_env ⟨true, false, none⟩).status = 0 ∧
    (main twice_env ⟨true, false, none⟩).stderr = "defaults.conf L0002: FOO=\"2\"\n".toList ∧
    (main twice_env ⟨true, false, none⟩).globals.names.infos =
      [⟨"FOO".toList, "2".toList, "defaults.conf L0002".toList, some "1".toList⟩,
        ⟨"BAR".toList, "x".toList, "defaults.conf L0003".toList, some "x".toList⟩] := by
  decide

end TLP
